import Mathlib

/-!
# NaturalMouseMotion: Flow, FlowUtils, MovementFactory and Move

A shallow embedding of `Flow.h`, `FlowUtils.h`, `MotionNature.h`, `MovementFactory.h`,
`Move.h` and of the parts of `DefaultProvider.h` and of the test doubles that the statements
use.

Conventions of the embedding:

* `double` is the field `ℚ`: every operation is exact, except where a definition names the
  rounding of a result to a double (the parameter `fl` of `DefaultSpeedManager.call`, whose
  conversions to integers depend on it); the statements that need the size of the rounding
  ask for `IsRounding fl`. Everywhere else the statements are those of exact arithmetic:
  where a rounded sum of doubles passes an integer, a pixel position of a run of the code
  can differ by one from the position of the embedding.
* `std::vector<double>` is `List ℚ`.
* `static_cast<int>` / `(int)` of a double discards the fractional part (`truncate`). A
  quotient of doubles by zero is a NaN or an infinity, and the code goes on with it; where it
  reaches a conversion to `int` (the fade of the step loop of `Move`, the step length of
  `stretchFlow`) the embedding gives the conversion the value it has on the x86-64 targets of
  the code, the smallest `int` (`INT_INDEFINITE`).
* `int` values live in `ℤ` and `size_t` values in `ℕ`: lengths and indices are taken to fit
  their machine types, and memory is unbounded. What is kept of the machine arithmetic is
  the wrap-around of a negative value converted to `size_t` (`toSizeT`): it decides the
  operands of the unsigned `%` in `stretchFlow`, puts a negative `int` index beyond every
  vector (`elementAt`, `belowSize`) and makes a negative `int` size one that the vector
  constructor refuses (`allocate`); and the narrowing to `int` of the `size_t` product in
  `getOvershootAmount` (`narrowToInt`).
* A call either returns a value or ends in a `Fault`: an exception thrown by the code
  (`runtimeError`), a size refused by the vector constructor (`lengthError`), a vector
  subscript outside the vector (`outOfBounds`), a division by zero whose quotient the
  embedding does not follow further or a division of integers by zero (`divisionByZero`), a
  call through a null `Flow` pointer (`nullPointer`) or the conversion of a negative double to
  `size_t` (`conversion`).
* The policy objects of a nature (random source, noise, deviation, speed and overshoot
  providers, system calls, observer) act on one world value that every call receives and
  returns; `std::hypot`, whose values are not rational, is a parameter `hypot` of the
  functions that call it, and the statements that need its size ask for `IsHypot hypot`.
* The outer loop of `Move` is allowed a number of passes (`fuel`); the result of `Move`
  says whether the loop returned within them.
-/

namespace NaturalMouseMotion

/-- Ways in which a call ends without returning a value. -/
inductive Fault
  | runtimeError
  | lengthError
  | outOfBounds
  | divisionByZero
  | nullPointer
  | conversion
  deriving DecidableEq, Repr

/-- The container type `std::vector<double>`. -/
abbrev FlowCharacteristicsContainer := List ℚ

/-- Conversion of a double to `int`: truncation toward zero. -/
def truncate (x : ℚ) : ℤ := if 0 ≤ x then ⌊x⌋ else ⌈x⌉

/-- Conversion of an integer value to `size_t` (64 bits, unsigned): a negative value wraps
around. -/
def toSizeT (z : ℤ) : ℤ := if 0 ≤ z then z else z + 2 ^ 64

/-- Conversion of a `size_t` value to `int` (32 bits, signed): the value modulo `2^32`, taken
between `-2^31` and `2^31 - 1`. -/
def narrowToInt (z : ℤ) : ℤ := (z + 2 ^ 31) % 2 ^ 32 - 2 ^ 31

/-- The value of `(int)x` for a double `x` that is a NaN or an infinity: the conversion
instruction of the x86-64 targets returns the smallest `int`, its "integer indefinite"
value. -/
def INT_INDEFINITE : ℤ := -(2 ^ 31)

/-- Division of doubles; a zero divisor has no exact quotient. -/
def fdiv (a b : ℚ) : Except Fault ℚ :=
  if b = 0 then .error Fault.divisionByZero else .ok (a / b)

/-- Element `v[i]` when the `int` index `i`, converted to `size_t`, lies inside the vector:
a negative `i` converts to an index beyond every vector. -/
def elementAt (v : FlowCharacteristicsContainer) (i : ℤ) : Option ℚ :=
  if 0 ≤ i then v[i.toNat]? else none

/-- Comparison `i < v.size()` of an `int` with a `size_t`: the `int` is converted to `size_t`,
so a negative `i` is never smaller. -/
def belowSize (i : ℤ) (size : ℕ) : Prop := 0 ≤ i ∧ i < (size : ℤ)

instance (i : ℤ) (size : ℕ) : Decidable (belowSize i size) := by
  unfold belowSize; infer_instance

/-- Read of `v[i]`. -/
def subscript (v : FlowCharacteristicsContainer) (i : ℤ) : Except Fault ℚ :=
  match elementAt v i with
  | some x => .ok x
  | none => .error Fault.outOfBounds

/-- The update `v[i] += x`. -/
def addAt (v : FlowCharacteristicsContainer) (i : ℤ) (x : ℚ) :
    Except Fault FlowCharacteristicsContainer :=
  match elementAt v i with
  | some y => .ok (v.set i.toNat (y + x))
  | none => .error Fault.outOfBounds

/-- The update `v[i] = x`. -/
def assignAt (v : FlowCharacteristicsContainer) (i : ℤ) (x : ℚ) :
    Except Fault FlowCharacteristicsContainer :=
  match elementAt v i with
  | some _ => .ok (v.set i.toNat x)
  | none => .error Fault.outOfBounds

/-- Construction `std::vector<double>(n)` from an `int` converted to `size_t`: `n` zeros;
a negative `n` converts to a size beyond what a vector can hold and is refused. -/
def allocate (n : ℤ) : Except Fault FlowCharacteristicsContainer :=
  if 0 ≤ n then .ok (List.replicate n.toNat 0) else .error Fault.lengthError

/-! ## Flow.h -/

/-- The constant `Flow::AVERAGE_BUCKET_VALUE`. -/
def AVERAGE_BUCKET_VALUE : ℤ := 100

/-- First loop of `Flow::normalizeBuckets`: rejects a negative value, accumulates `sum`. -/
def normalizeBucketsSum : FlowCharacteristicsContainer → ℚ → Except Fault ℚ
  | [], sum => .ok sum
  | v :: rest, sum =>
    if v < 0 then .error Fault.runtimeError else normalizeBucketsSum rest (sum + v)

/-- The function `Flow::normalizeBuckets`. -/
def normalizeBuckets (flowCharacteristics : FlowCharacteristicsContainer) :
    Except Fault FlowCharacteristicsContainer :=
  match normalizeBucketsSum flowCharacteristics 0 with
  | .error e => .error e
  | .ok sum =>
    if sum = 0 then .error Fault.runtimeError
    else
      let multiplier : ℚ := (AVERAGE_BUCKET_VALUE : ℚ) * (flowCharacteristics.length : ℚ) / sum
      .ok (flowCharacteristics.map (fun c => c * multiplier))

/-- The class `Flow`: its only field is the normalized bucket array. -/
structure Flow where
  buckets : FlowCharacteristicsContainer

/-- The constructor `Flow::Flow(characteristics)`. -/
def Flow.create (characteristics : FlowCharacteristicsContainer) : Except Fault Flow :=
  match normalizeBuckets characteristics with
  | .error e => .error e
  | .ok b => .ok ⟨b⟩

/-- The accessor `Flow::getFlowCharacteristics`. -/
def Flow.getFlowCharacteristics (flow : Flow) : FlowCharacteristicsContainer := flow.buckets

/-- The loop of `Flow::getBucketsContents`, entered with loop variable `i` and running `sum`. -/
def getBucketsContentsLoop (buckets : FlowCharacteristicsContainer) (bucketFrom bucketUntil : ℚ)
    (i : ℤ) (sum : ℚ) : Except Fault ℚ :=
  if (i : ℚ) < bucketUntil then
    match subscript buckets i with
    | .error e => .error e
    | .ok value =>
      let endMultiplier : ℚ :=
        if bucketUntil < ((i + 1 : ℤ) : ℚ) then bucketUntil - (truncate bucketUntil : ℚ) else 1
      let startMultiplier : ℚ :=
        if truncate bucketFrom = i then bucketFrom - (truncate bucketFrom : ℚ) else 0
      getBucketsContentsLoop buckets bucketFrom bucketUntil (i + 1)
        (sum + value * (endMultiplier - startMultiplier))
  else .ok sum
termination_by (⌈bucketUntil⌉ - i).toNat
decreasing_by
  rename_i h
  have h1 : i < ⌈bucketUntil⌉ := Int.lt_ceil.mpr h
  omega

/-- The function `Flow::getBucketsContents`. -/
def Flow.getBucketsContents (flow : Flow) (bucketFrom bucketUntil : ℚ) : Except Fault ℚ :=
  getBucketsContentsLoop flow.buckets bucketFrom bucketUntil (truncate bucketFrom) 0

/-- The function `Flow::getStepSize`. -/
def Flow.getStepSize (flow : Flow) (distance : ℚ) (steps : ℤ) (completion : ℚ) :
    Except Fault ℚ :=
  match fdiv 1 (steps : ℚ) with
  | .error e => .error e
  | .ok completionStep =>
    let bucketFrom : ℚ := completion * (flow.buckets.length : ℚ)
    let bucketUntil : ℚ := (completion + completionStep) * (flow.buckets.length : ℚ)
    match flow.getBucketsContents bucketFrom bucketUntil with
    | .error e => .error e
    | .ok bucketContents =>
      match fdiv distance ((flow.buckets.length : ℚ) * (AVERAGE_BUCKET_VALUE : ℚ)) with
      | .error e => .error e
      | .ok distancePerBucketContent => .ok (bucketContents * distancePerBucketContent)

/-! ## FlowUtils.h -/

/-- The loop of `FlowUtils::reduceFlow`; the first argument is the part of `flow` from
index `i` on. -/
def reduceFlowLoop (multiplier : ℚ) :
    FlowCharacteristicsContainer → ℕ → FlowCharacteristicsContainer →
      Except Fault FlowCharacteristicsContainer
  | [], _, result => .ok result
  | v :: rest, i, result =>
    let index : ℚ := (i : ℚ) * multiplier
    let untilIndex : ℚ := ((i + 1 : ℕ) : ℚ) * multiplier
    let indexInt : ℤ := truncate index
    let untilIndexInt : ℤ := truncate untilIndex
    if indexInt ≠ untilIndexInt then
      let resultIndexPortion : ℚ := 1 - (index - (indexInt : ℚ))
      let nextResultIndexPortion : ℚ := untilIndex - (untilIndexInt : ℚ)
      match addAt result indexInt (v * resultIndexPortion) with
      | .error e => .error e
      | .ok result1 =>
        if belowSize untilIndexInt result1.length then
          match addAt result1 untilIndexInt (v * nextResultIndexPortion) with
          | .error e => .error e
          | .ok result2 => reduceFlowLoop multiplier rest (i + 1) result2
        else reduceFlowLoop multiplier rest (i + 1) result1
    else
      match addAt result indexInt (v * (untilIndex - index)) with
      | .error e => .error e
      | .ok result1 => reduceFlowLoop multiplier rest (i + 1) result1

/-- The function `FlowUtils::reduceFlow`. -/
def reduceFlow (flow : FlowCharacteristicsContainer) (targetLength : ℕ) :
    Except Fault FlowCharacteristicsContainer :=
  if flow.length ≤ targetLength then .error Fault.runtimeError
  else
    let multiplier : ℚ := (targetLength : ℚ) / (flow.length : ℚ)
    reduceFlowLoop multiplier flow 0 (List.replicate targetLength 0)

/-- The loop of `FlowUtils::stretchFlow`, entered with loop variable `i` and the current
`countToNextStep`, `fillValueIndex` and `result`. -/
def stretchFlowLoop (flow : FlowCharacteristicsContainer) (tempLength stepLength : ℤ)
    (i countToNextStep fillValueIndex : ℤ) (result : FlowCharacteristicsContainer) :
    Except Fault FlowCharacteristicsContainer :=
  if i < tempLength then
    match subscript flow fillValueIndex with
    | .error e => .error e
    | .ok fillValueBottom =>
      match (if belowSize (fillValueIndex + 1) flow.length
              then subscript flow (fillValueIndex + 1) else subscript flow fillValueIndex) with
      | .error e => .error e
      | .ok fillValueTop =>
        match fdiv ((stepLength - countToNextStep : ℤ) : ℚ) (stepLength : ℚ) with
        | .error e => .error e
        | .ok completion =>
          match assignAt result i (fillValueBottom * (1 - completion) + fillValueTop * completion) with
          | .error e => .error e
          | .ok result1 =>
            if countToNextStep - 1 = 0 then
              stretchFlowLoop flow tempLength stepLength (i + 1) stepLength (fillValueIndex + 1) result1
            else
              stretchFlowLoop flow tempLength stepLength (i + 1) (countToNextStep - 1) fillValueIndex
                result1
  else .ok result
termination_by (tempLength - i).toNat
decreasing_by all_goals omega

/-- The function `FlowUtils::stretchFlow`; `modifier = none` is the default `nullptr`.
The operands of `%` are `size_t` values. The expression assigned to `tempLength` is computed
in `size_t` and narrowed to `int`, which stores the integer value of the expression whenever
that value fits an `int` (for the empty flow it is `1 - targetLength`). For a flow of one
element the divisor `insider + 1` of the quotient behind `stepLength` is zero: the quotient
is a NaN or an infinity and its conversion to `int` is `INT_INDEFINITE`. -/
def stretchFlow (flow : FlowCharacteristicsContainer) (targetLength : ℕ)
    (modifier : Option (ℚ → ℚ)) : Except Fault FlowCharacteristicsContainer :=
  if targetLength < flow.length then .error Fault.runtimeError
  else
    let tempLength0 : ℤ := (targetLength : ℤ)
    let tempLength : ℤ :=
      if flow.length ≠ 1 ∧
          toSizeT (tempLength0 - (flow.length : ℤ)) % toSizeT ((flow.length : ℤ) - 1) ≠ 0 then
        ((flow.length : ℤ) - 1) * (tempLength0 - (flow.length : ℤ)) + 1
      else tempLength0
    match allocate tempLength with
    | .error e => .error e
    | .ok result0 =>
      let insider : ℤ := (flow.length : ℤ) - 2
      let stepLength : ℤ :=
        (if ((insider + 1 : ℤ) : ℚ) = 0 then INT_INDEFINITE
          else truncate (((tempLength - 2 : ℤ) : ℚ) / ((insider + 1 : ℤ) : ℚ))) + 1
      match stretchFlowLoop flow tempLength stepLength 0 stepLength 0 result0 with
      | .error e => .error e
      | .ok result1 =>
        match (if toSizeT tempLength ≠ (targetLength : ℤ) then reduceFlow result1 targetLength
                else .ok result1) with
        | .error e => .error e
        | .ok result2 =>
          match modifier with
          | some m => .ok (result2.map m)
          | none => .ok result2

/-! ## Reference quantities used in the statements -/

/-- Length of the intersection of the unit interval `[i, i + 1]` with the interval `[a, b]`;
zero when the two do not meet. -/
def overlap (a b : ℚ) (i : ℕ) : ℚ := max 0 (min ((i : ℚ) + 1) b - max (i : ℚ) a)

/-- Value at position `i` of the piecewise-linear interpolation of `flow` in which consecutive
source values lie `k` positions apart: with `j = i / k` and `r = i % k` it is
`flow[j] + (flow[j+1] - flow[j]) * r / k`. -/
def interpolate (flow : FlowCharacteristicsContainer) (k i : ℕ) : ℚ :=
  flow.getD (i / k) 0
    + (flow.getD (i / k + 1) 0 - flow.getD (i / k) 0) * ((i % k : ℕ) : ℚ) / (k : ℚ)

/-- The piecewise-linear interpolation of `flow` with step `k`: `(n - 1) * k + 1` values, the
source values sitting at positions `0, k, 2k, ...`. -/
def interpolation (flow : FlowCharacteristicsContainer) (k : ℕ) : FlowCharacteristicsContainer :=
  (List.range ((flow.length - 1) * k + 1)).map (interpolate flow k)

/-- The sequence with every element repeated twice in a row. -/
def doubled : FlowCharacteristicsContainer → FlowCharacteristicsContainer
  | [] => []
  | v :: rest => v :: v :: doubled rest

/-! ## MotionNature.h

The policy objects of a nature are closures and virtual objects with hidden state (a random
generator, the cursor, a queue of test values). Their state is one world value of type `σ`
that every call receives and returns. `std::hypot` is a parameter `hypot` of the functions
that use it; logging is left out, the printers only receive formatted text. -/

/-- The type `Dimension`. -/
structure Dimension where
  Width : ℤ
  Height : ℤ

/-- The type `Point<T>`. -/
structure Point (α : Type) where
  x : α
  y : α

/-- The type `time_type` (milliseconds). -/
abbrev time_type := ℤ

/-- The interface `OvershootManager`. -/
structure OvershootManager (σ : Type) where
  getOvershoots : Option Flow → time_type → ℚ → σ → ℕ × σ
  getOvershootAmount : ℚ → ℚ → time_type → ℕ → σ → Point ℤ × σ
  deriveNextMouseMovementTimeMs : time_type → ℕ → σ → time_type × σ

/-- The interface `SystemCalls`. -/
structure SystemCalls (σ : Type) where
  currentTimeMillis : σ → time_type × σ
  sleep : time_type → σ → σ
  getScreenSize : σ → Dimension × σ
  setMousePosition : ℤ → ℤ → σ → σ
  getMousePosition : σ → Point ℤ × σ

/-- The type `MotionNature`; a `Flow` pointer is `none` when it is null, and the noise
provider draws its randomness from the world it is handed. -/
structure MotionNature (σ : Type) where
  observer : Option (ℤ → ℤ → σ → σ)
  random : σ → ℚ × σ
  timeToStepsDivider : ℚ
  minSteps : ℤ
  effectFadeSteps : ℤ
  reactionTimeBaseMs : ℤ
  reactionTimeVariationMs : ℤ
  getDeviation : ℚ → ℚ → σ → Point ℚ × σ
  getNoise : ℚ → ℚ → σ → Point ℚ × σ
  overshootManager : OvershootManager σ
  systemCalls : SystemCalls σ
  getFlowWithTime : ℚ → σ → (Option Flow × time_type) × σ

/-! ## MovementFactory.h -/

/-- The type `Movement`. -/
structure Movement where
  destX : ℤ
  destY : ℤ
  distance : ℚ
  xDistance : ℤ
  yDistance : ℤ
  time : time_type
  flow : Option Flow

/-- The class `MovementFactory`. -/
structure MovementFactory (σ : Type) where
  xDest : ℤ
  yDest : ℤ
  nature : MotionNature σ
  screenSize : Dimension

/-- The constructor `MovementFactory(nature, xDest, yDest)`: it asks for the screen size. -/
def MovementFactory.create {σ : Type} (nature : MotionNature σ) (xDest yDest : ℤ) (s : σ) :
    MovementFactory σ × σ :=
  let size := nature.systemCalls.getScreenSize s
  (⟨xDest, yDest, nature, size.1⟩, size.2)

/-- The function `MovementFactory::limitByScreenWidth`. -/
def MovementFactory.limitByScreenWidth {σ : Type} (factory : MovementFactory σ) (value : ℤ) :
    ℤ :=
  max 0 (min (factory.screenSize.Width - 1) value)

/-- The function `MovementFactory::limitByScreenHeight`. -/
def MovementFactory.limitByScreenHeight {σ : Type} (factory : MovementFactory σ) (value : ℤ) :
    ℤ :=
  max 0 (min (factory.screenSize.Height - 1) value)

/-- The local variables of `createMovements` that its overshoot loop updates. -/
structure PlanState (σ : Type) where
  movements : List Movement
  lastMousePositionX : ℤ
  lastMousePositionY : ℤ
  mouseMovementMs : time_type
  world : σ

/-- The loop `for (auto i = overshoots; i > 0; i--)` of `createMovements`, entered with loop
variable `i`. -/
def MovementFactory.overshootLoop {σ : Type} (factory : MovementFactory σ)
    (hypot : ℚ → ℚ → ℚ) : ℕ → PlanState σ → PlanState σ
  | 0, st => st
  | i + 1, st =>
    let overshoot := factory.nature.overshootManager.getOvershootAmount
      ((factory.xDest - st.lastMousePositionX : ℤ) : ℚ)
      ((factory.yDest - st.lastMousePositionY : ℤ) : ℚ) st.mouseMovementMs (i + 1) st.world
    let currentDestinationX := factory.limitByScreenWidth (factory.xDest + overshoot.1.x)
    let currentDestinationY := factory.limitByScreenHeight (factory.yDest + overshoot.1.y)
    let xDistance := currentDestinationX - st.lastMousePositionX
    let yDistance := currentDestinationY - st.lastMousePositionY
    let distance := hypot (xDistance : ℚ) (yDistance : ℚ)
    if distance > 0 then
      let flowTime := factory.nature.getFlowWithTime distance overshoot.2
      let next := factory.nature.overshootManager.deriveNextMouseMovementTimeMs
        st.mouseMovementMs i flowTime.2
      MovementFactory.overshootLoop factory hypot i
        ⟨st.movements ++ [⟨currentDestinationX, currentDestinationY, distance, xDistance,
            yDistance, st.mouseMovementMs, flowTime.1.1⟩],
          currentDestinationX, currentDestinationY, next.1, next.2⟩
    else
      MovementFactory.overshootLoop factory hypot i
        ⟨st.movements, st.lastMousePositionX, st.lastMousePositionY, st.mouseMovementMs,
          overshoot.2⟩

/-- The pruning loop of `createMovements` over the reverse iterator: the list argument is
the movement list read from its end, the pair is `lastMousePosition`. -/
def pruneLoop (xDest yDest : ℤ) : List Movement → ℤ × ℤ → List Movement × (ℤ × ℤ)
  | [], last => ([], last)
  | rit :: rest, last =>
    if rit.destX = xDest ∧ rit.destY = yDest then
      pruneLoop xDest yDest rest (rit.destX - rit.xDistance, rit.destY - rit.yDistance)
    else (rit :: rest, last)

/-- The function `MovementFactory::createMovements`. -/
def MovementFactory.createMovements {σ : Type} (factory : MovementFactory σ)
    (hypot : ℚ → ℚ → ℚ) (currentMousePosition : Point ℤ) (s : σ) : List Movement × σ :=
  let xDistance := factory.xDest - currentMousePosition.x
  let yDistance := factory.yDest - currentMousePosition.y
  let initialDistance := hypot (xDistance : ℚ) (yDistance : ℚ)
  let flowTime := factory.nature.getFlowWithTime initialDistance s
  let overshoots := factory.nature.overshootManager.getOvershoots flowTime.1.1 flowTime.1.2
    initialDistance flowTime.2
  if overshoots.1 = 0 then
    ([⟨factory.xDest, factory.yDest, initialDistance, xDistance, yDistance, flowTime.1.2,
        flowTime.1.1⟩], overshoots.2)
  else
    let st := factory.overshootLoop hypot overshoots.1
      ⟨[], currentMousePosition.x, currentMousePosition.y, flowTime.1.2, overshoots.2⟩
    let pruned := pruneLoop factory.xDest factory.yDest st.movements.reverse
      (st.lastMousePositionX, st.lastMousePositionY)
    let xDistance := factory.xDest - pruned.2.1
    let yDistance := factory.yDest - pruned.2.2
    let distance := hypot (xDistance : ℚ) (yDistance : ℚ)
    let movementToTargetFlowTime := factory.nature.getFlowWithTime distance st.world
    let finalMovementTime := factory.nature.overshootManager.deriveNextMouseMovementTimeMs
      movementToTargetFlowTime.1.2 0 movementToTargetFlowTime.2
    (pruned.1.reverse ++ [⟨factory.xDest, factory.yDest, distance, xDistance, yDistance,
        finalMovementTime.1, movementToTargetFlowTime.1.1⟩], finalMovementTime.2)

/-- What the embedding asks of the library function `std::hypot`: its value lies between
the larger of `|x|`, `|y|` and their sum (so it is `0` exactly at `(0, 0)`). -/
structure IsHypot (hypot : ℚ → ℚ → ℚ) : Prop where
  lower : ∀ x y : ℚ, max |x| |y| ≤ hypot x y
  upper : ∀ x y : ℚ, hypot x y ≤ |x| + |y|


/-! ## DefaultProvider.h -/

/-- The constant `DefaultProvider::TIME_TO_STEPS_DIVIDER`. -/
def TIME_TO_STEPS_DIVIDER : ℤ := 8

/-- The constant `DefaultProvider::MIN_STEPS`. -/
def MIN_STEPS : ℤ := 10

/-- The constant `DefaultProvider::EFFECT_FADE_STEPS`. -/
def EFFECT_FADE_STEPS : ℤ := 15

/-- The constant `DefaultProvider::REACTION_TIME_BASE_MS`. -/
def REACTION_TIME_BASE_MS : ℤ := 20

/-- The constant `DefaultProvider::REACTION_TIME_VARIATION_MS`. -/
def REACTION_TIME_VARIATION_MS : ℤ := 120

/-- The fields of `DefaultProvider::DefaultOvershootManager`; `random` is the generator the
manager keeps a copy of. -/
structure DefaultOvershootManager (σ : Type) where
  minOvershootMovementMs : time_type
  minDistanceForOvershoots : time_type
  overshootRandomModifierDivider : ℚ
  overshootSpeedupDivider : ℚ
  overshoots : ℕ
  random : σ → ℚ × σ

/-- The constructor `DefaultOvershootManager(random)` with the default member values. -/
def DefaultOvershootManager.create {σ : Type} (random : σ → ℚ × σ) :
    DefaultOvershootManager σ :=
  ⟨40, 10, 20, 9 / 5, 3, random⟩

/-- The function `DefaultOvershootManager::getOvershoots`. -/
def DefaultOvershootManager.getOvershoots {σ : Type} (manager : DefaultOvershootManager σ)
    (_flow : Option Flow) (_mouseMovementMs : time_type) (distance : ℚ) (s : σ) : ℕ × σ :=
  if distance < (manager.minDistanceForOvershoots : ℚ) then (0, s)
  else (manager.overshoots, s)

/-- The function `DefaultOvershootManager::getOvershootAmount`. The product of the `int` with
the `size_t` count is taken in `size_t`, to which the `int` is converted, and narrowed to
`int`. -/
def DefaultOvershootManager.getOvershootAmount {σ : Type}
    (manager : DefaultOvershootManager σ) (hypot : ℚ → ℚ → ℚ)
    (distanceToRealTargetX distanceToRealTargetY : ℚ) (_mouseMovementMs : time_type)
    (overshootsRemaining : ℕ) (s : σ) : Except Fault (Point ℤ × σ) :=
  let distanceToRealTarget := hypot distanceToRealTargetX distanceToRealTargetY
  match fdiv distanceToRealTarget manager.overshootRandomModifierDivider with
  | .error e => .error e
  | .ok randomModifier =>
    let r1 := manager.random s
    let x := narrowToInt (toSizeT (truncate (r1.1 * randomModifier - randomModifier / 2))
      * (overshootsRemaining : ℤ) % 2 ^ 64)
    let r2 := manager.random r1.2
    let y := narrowToInt (toSizeT (truncate (r2.1 * randomModifier - randomModifier / 2))
      * (overshootsRemaining : ℤ) % 2 ^ 64)
    .ok (⟨x, y⟩, r2.2)

/-- The function `DefaultOvershootManager::deriveNextMouseMovementTimeMs`. -/
def DefaultOvershootManager.deriveNextMouseMovementTimeMs {σ : Type}
    (manager : DefaultOvershootManager σ) (mouseMovementMs : time_type)
    (_overshootsRemaining : ℕ) (s : σ) : Except Fault (time_type × σ) :=
  match fdiv (mouseMovementMs : ℚ) manager.overshootSpeedupDivider with
  | .error e => .error e
  | .ok quotient => .ok (max (truncate quotient) manager.minOvershootMovementMs, s)

/-- A `DefaultOvershootManager` with non-zero dividers seen through the interface
`OvershootManager`: with such dividers its three functions return. -/
def DefaultOvershootManager.toOvershootManager {σ : Type}
    (manager : DefaultOvershootManager σ) (hypot : ℚ → ℚ → ℚ)
    (hRandom : manager.overshootRandomModifierDivider ≠ 0)
    (hSpeedup : manager.overshootSpeedupDivider ≠ 0) : OvershootManager σ where
  getOvershoots := manager.getOvershoots
  getOvershootAmount := fun dx dy mouseMovementMs overshootsRemaining s =>
    match h : manager.getOvershootAmount hypot dx dy mouseMovementMs overshootsRemaining s with
    | .ok r => r
    | .error e => absurd h (by
        unfold DefaultOvershootManager.getOvershootAmount
        simp [fdiv, hRandom])
  deriveNextMouseMovementTimeMs := fun mouseMovementMs overshootsRemaining s =>
    match h : manager.deriveNextMouseMovementTimeMs mouseMovementMs overshootsRemaining s with
    | .ok r => r
    | .error e => absurd h (by
        unfold DefaultOvershootManager.deriveNextMouseMovementTimeMs
        simp [fdiv, hSpeedup])

/-- The constant `DefaultSpeedManager::SMALL_DELTA`. -/
def DefaultSpeedManager.SMALL_DELTA : ℚ := 1 / 100000

/-- The fields of `DefaultProvider::DefaultSpeedManager`; `random` is the generator the
manager keeps a copy of. -/
structure DefaultSpeedManager (σ : Type) where
  flows : List Flow
  mouseMovementTimeMs : time_type
  random : σ → ℚ × σ

/-- The loop `for (auto bucket : flow.getFlowCharacteristics())` of the call operator of
`DefaultSpeedManager`: the local `time` after the loop. -/
def DefaultSpeedManager.bucketLoop (timePerBucket : ℚ) :
    FlowCharacteristicsContainer → time_type → time_type
  | [], time => time
  | bucket :: rest, time =>
    if |bucket - 0| < DefaultSpeedManager.SMALL_DELTA then
      DefaultSpeedManager.bucketLoop timePerBucket rest (time + truncate timePerBucket)
    else DefaultSpeedManager.bucketLoop timePerBucket rest time

/-- What the embedding asks of the rounding `fl` of a real result to a double: it keeps the
order, leaves the integers up to `2^53` alone, and moves a value between `1/2` and `2^1000`
in absolute value by at most the fraction `2^(-53)` of it. -/
structure IsRounding (fl : ℚ → ℚ) : Prop where
  mono : ∀ x y : ℚ, x ≤ y → fl x ≤ fl y
  int : ∀ n : ℤ, |n| ≤ 2 ^ 53 → fl (n : ℚ) = (n : ℚ)
  error : ∀ x : ℚ, 1 / 2 ≤ |x| → |x| ≤ 2 ^ 1000 → |fl x - x| ≤ |x| / 2 ^ 53

/-- The call operator `DefaultSpeedManager::operator()`; `fl` is the rounding of a real
number to a double, so that `fl n` is the conversion of the integer `n` to `double`, and
`fl (a * b)` and `fl (a / b)` are the product and the quotient of two doubles as the code
computes them before it converts them to integers. The double `random() * flows.size()` is
converted to `size_t`, which a value of `-1` or less does not survive. The quotient
`timePerBucket` is used only when the flow has a bucket, so that its divisor is not zero. -/
def DefaultSpeedManager.call {σ : Type} (manager : DefaultSpeedManager σ) (fl : ℚ → ℚ)
    (_distance : ℚ) (s : σ) : Except Fault ((Option Flow × time_type) × σ) :=
  if manager.flows.isEmpty then .ok ((none, 0), s)
  else
    let r1 := manager.random s
    let time : time_type := manager.mouseMovementTimeMs
      + truncate (fl (r1.1 * fl (manager.mouseMovementTimeMs : ℚ)))
    let r2 := manager.random r1.2
    let index := truncate (fl (r2.1 * fl (manager.flows.length : ℚ)))
    if index < 0 then .error Fault.conversion
    else
      match manager.flows[index.toNat % manager.flows.length]? with
      | none => .error Fault.outOfBounds
      | some flow =>
        let timePerBucket : ℚ :=
          fl (fl (time : ℚ) / fl (flow.getFlowCharacteristics.length : ℚ))
        .ok ((some flow,
          DefaultSpeedManager.bucketLoop timePerBucket flow.getFlowCharacteristics time), r2.2)

/-! ## Move.h

The quotient `mouseMovementMs / timeToStepsDivider` by a zero divider is an infinity or a
NaN that `std::max` and `std::min` absorb as their comparisons dictate; the quotient by
`effectFadeSteps = 0` is a NaN or an infinity, and so is every sum it enters: the conversion
to `int` in `roundTowards` then gives `INT_INDEFINITE`, which the clamp to the screen turns
into the coordinate `0`. The result of `Move` records, next to the world, the positions
handed to `setMousePosition`, sub-movement by sub-movement. -/

/-- The constant `MoveImp::SLEEP_AFTER_ADJUSTMENT_MS`. -/
def MoveImp.SLEEP_AFTER_ADJUSTMENT_MS : ℤ := 2

/-- The function `MoveImp::roundTowards`. -/
def MoveImp.roundTowards (value : ℚ) (target : ℤ) : ℤ :=
  if (target : ℚ) > value then ⌈value⌉ else ⌊value⌋

/-- The local `steps` of `Move`, for a movement of length `distance` planned to take
`mouseMovementMs`. -/
def MoveImp.steps {σ : Type} (nature : MotionNature σ) (distance : ℚ)
    (mouseMovementMs : time_type) : ℤ :=
  if nature.timeToStepsDivider = 0 then
    if mouseMovementMs < 0 then ⌈min distance (nature.minSteps : ℚ)⌉ else ⌈distance⌉
  else
    ⌈min distance
      (max ((mouseMovementMs : ℚ) / nature.timeToStepsDivider) (nature.minSteps : ℚ))⌉

/-- The local `effectFadeMultiplier` of the step loop at step `i`; `none` when
`effectFadeSteps` is zero, where the quotient is a NaN or an infinity. -/
def MoveImp.effectFadeMultiplier {σ : Type} (nature : MotionNature σ) (steps i : ℤ) :
    Option ℚ :=
  let effectFadeStep : ℤ := max (i - (steps - nature.effectFadeSteps) + 1) 0
  if nature.effectFadeSteps = 0 then none
  else some (((nature.effectFadeSteps : ℚ) - (effectFadeStep : ℚ))
    / (nature.effectFadeSteps : ℚ))

/-- The value that `roundTowards` returns for the position `base + deviation * fade
+ noise * fade` of one axis: with a multiplier that is a NaN or an infinity the sum is one
too, and its conversion to `int` is `INT_INDEFINITE`. -/
def MoveImp.roundedPosition (fade : Option ℚ) (base deviation noise : ℚ) (target : ℤ) : ℤ :=
  match fade with
  | some f => MoveImp.roundTowards (base + deviation * f + noise * f) target
  | none => INT_INDEFINITE

/-- The locals of `Move` that the step loop updates. -/
structure StepState (σ : Type) where
  completedXDistance : ℚ
  completedYDistance : ℚ
  noiseX : ℚ
  noiseY : ℚ
  simulatedMouseX : ℚ
  simulatedMouseY : ℚ
  world : σ

/-- One pass through the body of the step loop of `Move`, with loop variable `i`: the
position handed to `setMousePosition`, and the locals and the world after the pass. Inside
the loop `steps` and `movement.distance` are positive, so the two plain quotients have
non-zero divisors. -/
def MoveImp.step {σ : Type} (nature : MotionNature σ) (hypot : ℚ → ℚ → ℚ)
    (screenSize : Dimension) (movement : Movement) (steps : ℤ)
    (startTime stepTime : time_type) (deviationMultiplierX deviationMultiplierY : ℚ)
    (i : ℤ) (st : StepState σ) : Except Fault (Point ℤ × StepState σ) :=
  let timeCompletion : ℚ := (i : ℚ) / (steps : ℚ)
  let effectFadeMultiplier := MoveImp.effectFadeMultiplier nature steps i
  match movement.flow with
  | none => .error Fault.nullPointer
  | some flow =>
    match flow.getStepSize (movement.xDistance : ℚ) steps timeCompletion with
    | .error e => .error e
    | .ok xStepSize =>
      match flow.getStepSize (movement.yDistance : ℚ) steps timeCompletion with
      | .error e => .error e
      | .ok yStepSize =>
          let completedXDistance := st.completedXDistance + xStepSize
          let completedYDistance := st.completedYDistance + yStepSize
          let completedDistance := hypot completedXDistance completedYDistance
          let completion := min 1 (completedDistance / movement.distance)
          let noise := nature.getNoise xStepSize yStepSize st.world
          let deviation := nature.getDeviation movement.distance completion noise.2
          let noiseX := st.noiseX + noise.1.y
          let noiseY := st.noiseY + noise.1.y
          let simulatedMouseX := st.simulatedMouseX + xStepSize
          let simulatedMouseY := st.simulatedMouseY + yStepSize
          let endTime := startTime + stepTime * (i + 1)
          let mousePosX := max 0 (min (screenSize.Width - 1)
            (MoveImp.roundedPosition effectFadeMultiplier simulatedMouseX
              (deviation.1.x * deviationMultiplierX) noiseX movement.destX))
          let mousePosY := max 0 (min (screenSize.Height - 1)
            (MoveImp.roundedPosition effectFadeMultiplier simulatedMouseY
              (deviation.1.y * deviationMultiplierY) noiseY movement.destY))
          let set := nature.systemCalls.setMousePosition mousePosX mousePosY deviation.2
          let observed := match nature.observer with
            | some observer => observer mousePosX mousePosY set
            | none => set
          let now := nature.systemCalls.currentTimeMillis observed
          let timeLeft := endTime - now.1
          .ok (⟨mousePosX, mousePosY⟩,
            ⟨completedXDistance, completedYDistance, noiseX, noiseY, simulatedMouseX,
              simulatedMouseY, nature.systemCalls.sleep (max timeLeft 0) now.2⟩)

/-- The step loop `for (i = 0; i < steps; i++)` of `Move` with `remaining` passes left,
entered with loop variable `i`: the positions handed to `setMousePosition`, in order, and
the locals after the last pass or the fault that ended the loop. -/
def MoveImp.stepLoop {σ : Type} (nature : MotionNature σ) (hypot : ℚ → ℚ → ℚ)
    (screenSize : Dimension) (movement : Movement) (steps : ℤ)
    (startTime stepTime : time_type) (deviationMultiplierX deviationMultiplierY : ℚ) :
    ℕ → ℤ → StepState σ → List (Point ℤ) × Except Fault (StepState σ)
  | 0, _, st => ([], .ok st)
  | remaining + 1, i, st =>
    match MoveImp.step nature hypot screenSize movement steps startTime stepTime
        deviationMultiplierX deviationMultiplierY i st with
    | .error e => ([], .error e)
    | .ok (position, next) =>
      let rest := MoveImp.stepLoop nature hypot screenSize movement steps startTime stepTime
        deviationMultiplierX deviationMultiplierY remaining (i + 1) next
      (position :: rest.1, rest.2)

/-- What one sub-movement handed to `setMousePosition`: the positions of its step loop and
the adjustment after the loop, if one was made. -/
structure MovementTrace where
  movement : Movement
  positions : List (Point ℤ)
  adjustment : Option (Point ℤ)

/-- The sleep at the end of the body of the outer loop of `Move`, taken when the cursor is
not on the destination. -/
def MoveImp.reactionSleep {σ : Type} (nature : MotionNature σ) (xDest yDest : ℤ)
    (mousePosition : Point ℤ) (s : σ) : σ :=
  if mousePosition.x ≠ xDest ∨ mousePosition.y ≠ yDest then
    let r := nature.random s
    nature.systemCalls.sleep
      (nature.reactionTimeBaseMs + truncate (r.1 * (nature.reactionTimeVariationMs : ℚ))) r.2
  else s

/-- The body of the outer loop of `Move` from the point where `movement` has been taken off
the list: what it handed to `setMousePosition`, and the new `mousePosition` and world, or
the fault that ended it. -/
def MoveImp.runMovement {σ : Type} (nature : MotionNature σ) (hypot : ℚ → ℚ → ℚ)
    (screenSize : Dimension) (xDest yDest : ℤ) (movement : Movement) (s : σ) :
    MovementTrace × Except Fault (Point ℤ × σ) :=
  let steps := MoveImp.steps nature movement.distance movement.time
  let startTime := nature.systemCalls.currentTimeMillis s
  if steps = 0 then (⟨movement, [], none⟩, .error Fault.divisionByZero)
  else
    let stepTime := Int.tdiv movement.time steps
    let mousePosition := nature.systemCalls.getMousePosition startTime.2
    let r1 := nature.random mousePosition.2
    let deviationMultiplierX := (r1.1 - 1 / 2) * 2
    let r2 := nature.random r1.2
    let deviationMultiplierY := (r2.1 - 1 / 2) * 2
    let loop := MoveImp.stepLoop nature hypot screenSize movement steps startTime.1 stepTime
      deviationMultiplierX deviationMultiplierY steps.toNat 0
      ⟨0, 0, 0, 0, (mousePosition.1.x : ℚ), (mousePosition.1.y : ℚ), r2.2⟩
    match loop.2 with
    | .error e => (⟨movement, loop.1, none⟩, .error e)
    | .ok st =>
      let mousePosition := nature.systemCalls.getMousePosition st.world
      if mousePosition.1.x ≠ movement.destX ∨ mousePosition.1.y ≠ movement.destY then
        let set := nature.systemCalls.setMousePosition movement.destX movement.destY
          mousePosition.2
        let mousePosition := nature.systemCalls.getMousePosition
          (nature.systemCalls.sleep MoveImp.SLEEP_AFTER_ADJUSTMENT_MS set)
        (⟨movement, loop.1, some ⟨movement.destX, movement.destY⟩⟩,
          .ok (mousePosition.1,
            MoveImp.reactionSleep nature xDest yDest mousePosition.1 mousePosition.2))
      else
        (⟨movement, loop.1, none⟩,
          .ok (mousePosition.1,
            MoveImp.reactionSleep nature xDest yDest mousePosition.1 mousePosition.2))

/-- How a run of `Move` ended: it returned, it hit a fault, or its outer loop was still
running when the allowed number of passes was used up. -/
inductive MoveOutcome (σ : Type) where
  | returned (world : σ)
  | faulted (fault : Fault)
  | unfinished

/-- What a run of `Move` did: the sub-movements it executed, how often it planned again,
and how it ended. -/
structure MoveResult (σ : Type) where
  trace : List MovementTrace
  replans : ℕ
  outcome : MoveOutcome σ

/-- The block `if (movements.empty())` at the head of the body of the outer loop of `Move`:
the movement list and the world after it, and whether it planned again (1) or not (0). -/
def MoveImp.repopulate {σ : Type} (nature : MotionNature σ) (hypot : ℚ → ℚ → ℚ)
    (movementFactory : MovementFactory σ) (movements : List Movement) (s : σ) :
    (List Movement × σ) × ℕ :=
  if movements.isEmpty then
    let mousePosition := nature.systemCalls.getMousePosition s
    (movementFactory.createMovements hypot mousePosition.1 mousePosition.2, 1)
  else ((movements, s), 0)

/-- The outer loop `while (mousePosition.x != xDest || mousePosition.y != yDest)` of `Move`,
allowed `fuel` passes. -/
def MoveImp.moveLoop {σ : Type} (nature : MotionNature σ) (hypot : ℚ → ℚ → ℚ)
    (screenSize : Dimension) (movementFactory : MovementFactory σ) (xDest yDest : ℤ) :
    ℕ → List Movement → Point ℤ → σ → MoveResult σ
  | 0, _, mousePosition, s =>
    if mousePosition.x ≠ xDest ∨ mousePosition.y ≠ yDest then ⟨[], 0, .unfinished⟩
    else ⟨[], 0, .returned s⟩
  | fuel + 1, movements, mousePosition, s =>
    if mousePosition.x ≠ xDest ∨ mousePosition.y ≠ yDest then
      let planned := MoveImp.repopulate nature hypot movementFactory movements s
      match planned.1.1 with
      | [] => ⟨[], planned.2, .faulted Fault.outOfBounds⟩
      | movement :: rest =>
        let run := MoveImp.runMovement nature hypot screenSize xDest yDest movement
          planned.1.2
        match run.2 with
        | .error e => ⟨[run.1], planned.2, .faulted e⟩
        | .ok next =>
          let later := MoveImp.moveLoop nature hypot screenSize movementFactory xDest yDest
            fuel rest next.1 next.2
          ⟨run.1 :: later.trace, planned.2 + later.replans, later.outcome⟩
    else ⟨[], 0, .returned s⟩

/-- The function `MoveImp::Move`, its outer loop allowed `fuel` passes. -/
def MoveImp.Move {σ : Type} (nature : MotionNature σ) (hypot : ℚ → ℚ → ℚ) (fuel : ℕ)
    (x y : ℤ) (s : σ) : MoveResult σ :=
  let screenSize := nature.systemCalls.getScreenSize s
  let mousePosition := nature.systemCalls.getMousePosition screenSize.2
  let xDest := max 0 (min (screenSize.1.Width - 1) x)
  let yDest := max 0 (min (screenSize.1.Height - 1) y)
  let movementFactory := MovementFactory.create nature xDest yDest mousePosition.2
  let movements := movementFactory.1.createMovements hypot mousePosition.1 movementFactory.2
  MoveImp.moveLoop nature hypot screenSize.1 movementFactory.1 xDest yDest fuel movements.1
    mousePosition.1 movements.2

/-! ## Test doubles (MockStructs.h, MovementFactoryTest.cpp, Mock.cpp) -/

/-- State of the test doubles: the queue of `MultiOvershootManager`, the counters of the
`MockRandomProvider` of the nature and of the copy the overshoot manager holds, and the
position list of `MockSystemCalls`. -/
structure MockWorld where
  points : List (Point ℤ)
  randomIndex : ℕ
  overshootRandomIndex : ℕ
  mousePos : List (Point ℤ)

/-- The call operator of the test double `MockRandomProvider(rands)` with counter `i`: the
value returned and the new counter. -/
def MockRandomProvider (rands : List ℚ) (i : ℕ) : ℚ × ℕ :=
  (rands.getD (i % rands.length) 0, i + 1)

/-- The test double `MockSystemCalls(screenWidth, screenHeight)`. -/
def MockSystemCalls (screenWidth screenHeight : ℤ) : SystemCalls MockWorld where
  currentTimeMillis := fun s => (0, s)
  sleep := fun _ s => s
  getScreenSize := fun s => (⟨screenWidth, screenHeight⟩, s)
  setMousePosition := fun x y s => { s with mousePos := s.mousePos ++ [⟨x, y⟩] }
  getMousePosition := fun s => (s.mousePos.getLastD ⟨0, 0⟩, s)

/-- The test double `MultiOvershootManager(points)`. -/
def MultiOvershootManager : OvershootManager MockWorld where
  getOvershoots := fun _ _ _ s => (s.points.length, s)
  getOvershootAmount := fun _ _ _ _ s =>
    match s.points with
    | [] => (⟨0, 0⟩, s)
    | pt :: rest => (pt, { s with points := rest })
  deriveNextMouseMovementTimeMs := fun mouseMovementMs _ s => (Int.tdiv mouseMovementMs 2, s)

/-- The test double `NoOvershootManager`. -/
def NoOvershootManager : OvershootManager MockWorld where
  getOvershoots := fun _ _ _ s => (0, s)
  getOvershootAmount := fun _ _ _ _ s => (⟨0, 0⟩, s)
  deriveNextMouseMovementTimeMs := fun _ _ s => (0, s)

/-- The test double `ConstantSpeedManager(time)`, whose flow is `Flow({100})`. -/
def ConstantSpeedManager (time : time_type) :
    ℚ → MockWorld → (Option Flow × time_type) × MockWorld :=
  fun _ s => ((some ⟨[100]⟩, time), s)

/-- The nature the tests of `MovementFactoryTest.cpp` build: a speed manager, an overshoot
manager and mock system calls on a 500 x 500 screen; the fields the tests leave unset are
those of `unset`. -/
def movementFactoryTestNature (unset : MotionNature MockWorld) (time : time_type)
    (manager : OvershootManager MockWorld) : MotionNature MockWorld :=
  { unset with
    getFlowWithTime := ConstantSpeedManager time
    overshootManager := manager
    systemCalls := MockSystemCalls 500 500 }

/-- The overshoot manager of `NewMockNature`, with the member `overshoots` set as the tests
of `Mock.cpp` do; it draws from its own copy of the random provider. -/
def MockOvershootManager (overshoots : ℕ) : DefaultOvershootManager MockWorld :=
  { DefaultOvershootManager.create (fun s : MockWorld =>
      let r := MockRandomProvider [0, 1 / 10, 1 / 5, 3 / 10, 2 / 5, 1 / 2, 3 / 5, 7 / 10,
        4 / 5, 9 / 10, 1] s.overshootRandomIndex
      (r.1, { s with overshootRandomIndex := r.2 })) with
    overshoots := overshoots }

/-- The function `NewMockNature` of `Mock.cpp`, with the member `overshoots` of its
overshoot manager set to the given value. -/
def NewMockNature (hypot : ℚ → ℚ → ℚ) (overshoots : ℕ) : MotionNature MockWorld where
  observer := none
  timeToStepsDivider := (TIME_TO_STEPS_DIVIDER : ℚ)
  minSteps := MIN_STEPS
  effectFadeSteps := EFFECT_FADE_STEPS
  reactionTimeBaseMs := REACTION_TIME_BASE_MS
  reactionTimeVariationMs := REACTION_TIME_VARIATION_MS
  getDeviation := fun _ _ s => (⟨0, 0⟩, s)
  getNoise := fun _ _ s => (⟨0, 0⟩, s)
  random := fun s =>
    let r := MockRandomProvider [0, 1 / 10, 1 / 5, 3 / 10, 2 / 5, 1 / 2, 3 / 5, 7 / 10,
      4 / 5, 9 / 10, 1] s.randomIndex
    (r.1, { s with randomIndex := r.2 })
  systemCalls := MockSystemCalls 800 500
  overshootManager := (MockOvershootManager overshoots).toOvershootManager hypot
    (by norm_num [MockOvershootManager, DefaultOvershootManager.create])
    (by norm_num [MockOvershootManager, DefaultOvershootManager.create])
  getFlowWithTime := fun _ s => ((some ⟨[100]⟩, 10), s)

/-- The world of a freshly built mock nature: the cursor list holds `(0, 0)`. -/
def MockWorld.initial (points : List (Point ℤ)) : MockWorld :=
  ⟨points, 0, 0, [⟨0, 0⟩]⟩

/-! ## Assumptions on the environment used in the statements -/

/-- The cursor reports exactly the last position set: `cursor` reads the cursor off the
world, `getMousePosition` returns it, `setMousePosition` sets it, and no other call of the
nature moves it. -/
structure ReportsLastPositionSet {σ : Type} (nature : MotionNature σ)
    (cursor : σ → Point ℤ) : Prop where
  getMousePosition_fst : ∀ s, (nature.systemCalls.getMousePosition s).1 = cursor s
  getMousePosition_snd : ∀ s, cursor (nature.systemCalls.getMousePosition s).2 = cursor s
  setMousePosition : ∀ x y s, cursor (nature.systemCalls.setMousePosition x y s) = ⟨x, y⟩
  currentTimeMillis : ∀ s, cursor (nature.systemCalls.currentTimeMillis s).2 = cursor s
  sleep : ∀ t s, cursor (nature.systemCalls.sleep t s) = cursor s
  getScreenSize : ∀ s, cursor (nature.systemCalls.getScreenSize s).2 = cursor s
  random : ∀ s, cursor (nature.random s).2 = cursor s
  getNoise : ∀ a b s, cursor (nature.getNoise a b s).2 = cursor s
  getDeviation : ∀ a b s, cursor (nature.getDeviation a b s).2 = cursor s
  getFlowWithTime : ∀ d s, cursor (nature.getFlowWithTime d s).2 = cursor s
  getOvershoots : ∀ f t d s, cursor (nature.overshootManager.getOvershoots f t d s).2 = cursor s
  getOvershootAmount : ∀ a b t k s,
    cursor (nature.overshootManager.getOvershootAmount a b t k s).2 = cursor s
  deriveNextMouseMovementTimeMs : ∀ t k s,
    cursor (nature.overshootManager.deriveNextMouseMovementTimeMs t k s).2 = cursor s
  observer : ∀ f, nature.observer = some f → ∀ x y s, cursor (f x y s) = cursor s

/-- The screen has width `W` and height `H` whenever it is asked for. -/
def ScreenIs {σ : Type} (nature : MotionNature σ) (W H : ℤ) : Prop :=
  ∀ s, (nature.systemCalls.getScreenSize s).1 = ⟨W, H⟩

/-- The speed provider returns valid flows: objects the constructor of `Flow` built. -/
def ReturnsValidFlows {σ : Type} (nature : MotionNature σ) : Prop :=
  ∀ d s, ∃ c flow, Flow.create c = .ok flow ∧ (nature.getFlowWithTime d s).1.1 = some flow

/-- The noise provider always returns `(0, 0)`. -/
def NoNoise {σ : Type} (nature : MotionNature σ) : Prop :=
  ∀ a b s, (nature.getNoise a b s).1 = ⟨0, 0⟩

/-- The deviation provider always returns `(0, 0)`. -/
def NoDeviation {σ : Type} (nature : MotionNature σ) : Prop :=
  ∀ a b s, (nature.getDeviation a b s).1 = ⟨0, 0⟩

/-- The Chebyshev length `max |x| |y|`: a rational-valued function within the bounds
`IsHypot` asks of `std::hypot`, used to run the planner and `Move` on concrete inputs. -/
def chebyshev (x y : ℚ) : ℚ := max |x| |y|

/-- The test of the pruning loop of `createMovements`: the movement ends on the real
destination. -/
def hitsDestination (xDest yDest : ℤ) (m : Movement) : Bool :=
  decide (m.destX = xDest ∧ m.destY = yDest)

/-- An overshoot policy for concrete runs: `overshoots` overshoots, every offset `(0, 0)`,
every derived time half the previous one. -/
def zeroOffsetManager (overshoots : ℕ) : OvershootManager MockWorld where
  getOvershoots := fun _ _ _ s => (overshoots, s)
  getOvershootAmount := fun _ _ _ _ s => (⟨0, 0⟩, s)
  deriveNextMouseMovementTimeMs := fun mouseMovementMs _ s => (Int.tdiv mouseMovementMs 2, s)

/-- The position lies on a screen of width `W` and height `H`. -/
def OnScreen (W H : ℤ) (p : Point ℤ) : Prop :=
  0 ≤ p.x ∧ p.x ≤ W - 1 ∧ 0 ≤ p.y ∧ p.y ≤ H - 1

/-- Every position a sub-movement handed to `setMousePosition`, from its step loop or as the
adjustment after it, lies on the screen. -/
def MovementTrace.OnScreen (W H : ℤ) (t : MovementTrace) : Prop :=
  (∀ p ∈ t.positions, NaturalMouseMotion.OnScreen W H p) ∧
  (∀ p, t.adjustment = some p → NaturalMouseMotion.OnScreen W H p)

/-- The share of a sub-movement's distance that step `i` of `steps` covers under `flow`:
the content of the step's window of buckets over the content of all buckets. -/
def stepShare (flow : Flow) (steps i : ℤ) : ℚ :=
  1 / ((flow.buckets.length : ℚ) * 100)
    * ∑ k in Finset.range flow.buckets.length,
        flow.buckets.getD k 0
          * overlap ((i : ℚ) / (steps : ℚ) * (flow.buckets.length : ℚ))
              (((i : ℚ) / (steps : ℚ) + 1 / (steps : ℚ)) * (flow.buckets.length : ℚ)) k

/-- The share of a sub-movement's distance that its first `k` steps cover. -/
def progress (flow : Flow) (steps : ℤ) (k : ℕ) : ℚ :=
  ∑ j in Finset.range k, stepShare flow steps (j : ℤ)

/-- The plan is linked: every movement starts where the one before it ends, the first one
at `start`. -/
def Linked : Point ℤ → List Movement → Prop
  | _, [] => True
  | start, m :: rest =>
    m.destX - m.xDistance = start.x ∧ m.destY - m.yDistance = start.y ∧
      Linked ⟨m.destX, m.destY⟩ rest

/-- The point on which a plan that starts at `start` ends. -/
def planEnd (start : Point ℤ) (plan : List Movement) : Point ℤ :=
  match plan.getLast? with
  | some m => ⟨m.destX, m.destY⟩
  | none => start

/-- The position after `k` steps of a sub-movement that starts at `start` and meets neither
noise nor deviation: the point of the straight line at the progress of the flow, rounded
towards the destination and clamped to the screen. -/
def straightPosition (screenSize : Dimension) (movement : Movement) (flow : Flow)
    (steps : ℤ) (start : Point ℤ) (k : ℕ) : Point ℤ :=
  ⟨max 0 (min (screenSize.Width - 1)
      (MoveImp.roundTowards
        ((start.x : ℚ) + (movement.xDistance : ℚ) * progress flow steps k) movement.destX)),
    max 0 (min (screenSize.Height - 1)
      (MoveImp.roundTowards
        ((start.y : ℚ) + (movement.yDistance : ℚ) * progress flow steps k) movement.destY))⟩

/-- The coordinates move monotonically in the direction of `distance` and never pass
`destination`: non-decreasing and at most the destination when the distance is `≥ 0`,
non-increasing and at least the destination when it is `≤ 0`. -/
def MonotoneTowards (distance destination : ℤ) (coordinates : List ℤ) : Prop :=
  (0 ≤ distance →
    coordinates.Pairwise (fun a b => a ≤ b) ∧ ∀ v ∈ coordinates, v ≤ destination) ∧
  (distance ≤ 0 →
    coordinates.Pairwise (fun a b => b ≤ a) ∧ ∀ v ∈ coordinates, destination ≤ v)

/-- The positions of the step loop of the sub-movement move monotonically towards its
destination and never pass it, on each axis. -/
def MovementTrace.MonotoneTowards (t : MovementTrace) : Prop :=
  NaturalMouseMotion.MonotoneTowards t.movement.xDistance t.movement.destX
    (t.positions.map (fun p => p.x)) ∧
  NaturalMouseMotion.MonotoneTowards t.movement.yDistance t.movement.destY
    (t.positions.map (fun p => p.y))

/-- The cursor of the mock world: the last entry of the position list of
`MockSystemCalls`. -/
def MockWorld.cursor (s : MockWorld) : Point ℤ := s.mousePos.getLastD ⟨0, 0⟩

/-- The mock nature with `effectFadeSteps` set to 0. -/
def mockNatureWithoutFade : MotionNature MockWorld :=
  { NewMockNature chebyshev 0 with effectFadeSteps := 0 }

/-- The mock nature with `minSteps` set to 0 and a speed provider that plans 0 ms. -/
def mockNatureWithoutSteps : MotionNature MockWorld :=
  { NewMockNature chebyshev 0 with
    minSteps := 0
    getFlowWithTime := fun _ s => ((some ⟨[100]⟩, 0), s) }

/-- A generator over the mock world that draws from `MockRandomProvider(rands)` with the
counter of the nature. -/
def MockWorld.random (rands : List ℚ) (s : MockWorld) : ℚ × MockWorld :=
  ((MockRandomProvider rands s.randomIndex).1,
    { s with randomIndex := (MockRandomProvider rands s.randomIndex).2 })

/-- The number of buckets of a flow that the loop of `DefaultSpeedManager` takes for zero. -/
def zeroBuckets (flow : Flow) : ℕ :=
  (flow.buckets.filter
    (fun bucket => decide (|bucket - 0| < DefaultSpeedManager.SMALL_DELTA))).length

/-- The movements of a plan up to and including the first one that ends on the real
destination. -/
def throughFirstHit (xDest yDest : ℤ) : List Movement → List Movement
  | [] => []
  | m :: rest =>
    if m.destX = xDest ∧ m.destY = yDest then [m] else m :: throughFirstHit xDest yDest rest

/-- The mock nature with a noise provider that returns `(7, 0)` at every step. -/
def mockNatureWithXNoise : MotionNature MockWorld :=
  { NewMockNature chebyshev 0 with getNoise := fun _ _ s => (⟨7, 0⟩, s) }

/-- The local `movements` of `Move` when its outer loop is entered: the plan made for the
position of the cursor and the clamped destination. -/
def MoveImp.movements {σ : Type} (nature : MotionNature σ) (hypot : ℚ → ℚ → ℚ)
    (x y : ℤ) (s : σ) : List Movement :=
  let screenSize := nature.systemCalls.getScreenSize s
  let mousePosition := nature.systemCalls.getMousePosition screenSize.2
  let xDest := max 0 (min (screenSize.1.Width - 1) x)
  let yDest := max 0 (min (screenSize.1.Height - 1) y)
  let movementFactory := MovementFactory.create nature xDest yDest mousePosition.2
  (movementFactory.1.createMovements hypot mousePosition.1 movementFactory.2).1

/-- The durations of a run of overshoot movements emitted with loop counters at most `n`
follow the derivation from `t`: the first movement carries `t` and was emitted with a loop
counter `c ≤ n`, and the movements after it follow the derivation from
`deriveNextMouseMovementTimeMs(t, c - 1)` with loop counters at most `c - 1`. -/
def TimesDerived {σ : Type} (manager : OvershootManager σ) :
    time_type → ℕ → List Movement → Prop
  | _, _, [] => True
  | t, n, m :: rest =>
    m.time = t ∧ ∃ (c : ℕ) (w : σ), 1 ≤ c ∧ c ≤ n ∧
      TimesDerived manager (manager.deriveNextMouseMovementTimeMs t (c - 1) w).1 (c - 1) rest

/-! ## Flow construction -/

theorem normalizeBucketsSum_eq (c : FlowCharacteristicsContainer) (acc : ℚ) :
    normalizeBucketsSum c acc =
      if ∃ v ∈ c, v < 0 then .error Fault.runtimeError else .ok (acc + c.sum) := by
  induction c generalizing acc with
  | nil => simp [normalizeBucketsSum]
  | cons v rest ih =>
    by_cases hv : v < 0
    · simp [normalizeBucketsSum, hv]
    · by_cases hr : ∃ w ∈ rest, w < 0
      · simp [normalizeBucketsSum, hv, ih, hr]
      · simp [normalizeBucketsSum, hv, ih, hr, add_assoc]

theorem normalizeBuckets_eq (c : FlowCharacteristicsContainer) :
    normalizeBuckets c =
      if (∃ v ∈ c, v < 0) ∨ c.sum = 0 then .error Fault.runtimeError
      else .ok (c.map (fun x => x * ((100 : ℚ) * (c.length : ℚ) / c.sum))) := by
  unfold normalizeBuckets
  rw [normalizeBucketsSum_eq]
  by_cases hneg : ∃ v ∈ c, v < 0
  · simp [hneg]
  · by_cases hs : c.sum = 0
    · simp [hneg, hs]
    · simp [hneg, hs, AVERAGE_BUCKET_VALUE]

theorem Flow_create_eq (c : FlowCharacteristicsContainer) :
    Flow.create c =
      if (∃ v ∈ c, v < 0) ∨ c.sum = 0 then .error Fault.runtimeError
      else .ok ⟨c.map (fun x => x * ((100 : ℚ) * (c.length : ℚ) / c.sum))⟩ := by
  unfold Flow.create
  rw [normalizeBuckets_eq]
  split_ifs <;> rfl

/-- C2: constructing a Flow throws exactly when some characteristic is negative or the
characteristics sum to zero (so for the empty and the all-zero sequences), and it returns a
Flow exactly for every other input. -/
theorem Flow_create_fails_iff (c : FlowCharacteristicsContainer) :
    (Flow.create c = .error Fault.runtimeError ↔ ((∃ v ∈ c, v < 0) ∨ c.sum = 0)) ∧
    ((∃ flow, Flow.create c = .ok flow) ↔ ¬ ((∃ v ∈ c, v < 0) ∨ c.sum = 0)) ∧
    Flow.create [] = .error Fault.runtimeError ∧
    (∀ n : ℕ, Flow.create (List.replicate n 0) = .error Fault.runtimeError) := by
  refine ⟨?_, ?_, ?_, ?_⟩
  · rw [Flow_create_eq]
    split_ifs with h <;> simp [h]
  · rw [Flow_create_eq]
    split_ifs with h <;> simp [h]
  · rw [Flow_create_eq]; simp
  · intro n
    rw [Flow_create_eq]
    simp

theorem Flow_create_example :
    Flow.create [1, 2, 3, 4, 5] = .ok ⟨[100 / 3, 200 / 3, 100, 400 / 3, 500 / 3]⟩ := by
  rw [Flow_create_eq]
  norm_num

/-- C3: for characteristics `c` of length `n` accepted by the constructor, the buckets have
length `n`, bucket `i` is `c[i] * 100 * n / sum c`, the buckets sum to `100 * n`, and the
buckets of `[1,2,3,4,5]` are `[100/3, 200/3, 100, 400/3, 500/3]`. -/
theorem Flow_create_normalizes (c : FlowCharacteristicsContainer) (flow : Flow)
    (h : Flow.create c = .ok flow) :
    flow.getFlowCharacteristics.length = c.length ∧
    (∀ i (hi : i < c.length),
      flow.getFlowCharacteristics[i]? = some (c.get ⟨i, hi⟩ * 100 * (c.length : ℚ) / c.sum)) ∧
    flow.getFlowCharacteristics.sum = 100 * (c.length : ℚ) ∧
    Flow.create [1, 2, 3, 4, 5] = .ok ⟨[100 / 3, 200 / 3, 100, 400 / 3, 500 / 3]⟩ := by
  rw [Flow_create_eq] at h
  split_ifs at h with hbad
  have hs : c.sum ≠ 0 := fun h0 => hbad (Or.inr h0)
  injection h with h
  subst h
  refine ⟨by simp [Flow.getFlowCharacteristics], ?_, ?_, Flow_create_example⟩
  · intro i hi
    simp only [Flow.getFlowCharacteristics, List.getElem?_map, List.getElem?_eq_getElem hi,
      Option.map_some', List.get_eq_getElem]
    congr 1
    ring
  · simp only [Flow.getFlowCharacteristics, List.sum_map_mul_right]
    field_simp

theorem Flow_create_normalizes_witness :
    Flow.create [1, 2, 3, 4, 5] = .ok ⟨[100 / 3, 200 / 3, 100, 400 / 3, 500 / 3]⟩ ∧
    (Flow.mk [100 / 3, 200 / 3, 100, 400 / 3, 500 / 3]).getFlowCharacteristics.sum
      = 100 * (([1, 2, 3, 4, 5] : FlowCharacteristicsContainer).length : ℚ) :=
  ⟨Flow_create_example,
    (Flow_create_normalizes [1, 2, 3, 4, 5] _ Flow_create_example).2.2.1⟩

/-! ## Flow: bucket contents and step sizes -/

theorem truncate_of_nonneg {x : ℚ} (hx : 0 ≤ x) : truncate x = ⌊x⌋ := by
  simp [truncate, hx]

theorem elementAt_natCast (v : FlowCharacteristicsContainer) (j : ℕ) (hj : j < v.length) :
    elementAt v (j : ℤ) = some (v.getD j 0) := by
  simp [elementAt, List.getD_eq_getElem?_getD, List.getElem?_eq_getElem hj]

theorem subscript_natCast (v : FlowCharacteristicsContainer) (j : ℕ) (hj : j < v.length) :
    subscript v (j : ℤ) = .ok (v.getD j 0) := by
  simp [subscript, elementAt_natCast v j hj]

/-- The weight the loop body gives bucket `j` is the length of that bucket's part of the
window `[a, b]`. -/
theorem loop_weight_eq_overlap (a b : ℚ) (j : ℕ) (ha : 0 ≤ a) (hab : a ≤ b)
    (hfl : ⌊a⌋ ≤ (j : ℤ)) (hjb : (j : ℚ) < b) :
    (if b < (((j : ℤ) + 1 : ℤ) : ℚ) then b - (truncate b : ℚ) else 1)
      - (if truncate a = (j : ℤ) then a - (truncate a : ℚ) else 0) = overlap a b j := by
  have hb0 : 0 ≤ b := le_trans ha hab
  rw [truncate_of_nonneg ha, truncate_of_nonneg hb0]
  have hfa : ((⌊a⌋ : ℤ) : ℚ) ≤ a := Int.floor_le a
  have hfa1 : a < ((⌊a⌋ : ℤ) : ℚ) + 1 := Int.lt_floor_add_one a
  unfold overlap
  push_cast
  by_cases h1 : b < (j : ℚ) + 1
  · have hfb : ⌊b⌋ = (j : ℤ) := by
      rw [Int.floor_eq_iff]
      exact ⟨by exact_mod_cast hjb.le, by exact_mod_cast h1⟩
    rw [if_pos h1, hfb, min_eq_right h1.le]
    by_cases h2 : ⌊a⌋ = (j : ℤ)
    · have hja : (j : ℚ) ≤ a := by
        have := hfa
        rw [h2] at this
        exact_mod_cast this
      have hnn : (0 : ℚ) ≤ b - a := by linarith
      rw [if_pos h2, h2, max_eq_right hja, max_eq_right hnn]
      push_cast
      ring
    · have hlt : ⌊a⌋ < (j : ℤ) := lt_of_le_of_ne hfl h2
      have hlt2 : ((⌊a⌋ : ℤ) : ℚ) + 1 ≤ (j : ℚ) := by exact_mod_cast hlt
      have haj : a ≤ (j : ℚ) := by linarith
      have hnn : (0 : ℚ) ≤ b - (j : ℚ) := by linarith
      rw [if_neg h2, max_eq_left haj, max_eq_right hnn]
      push_cast
      ring
  · rw [if_neg h1, min_eq_left (not_lt.mp h1)]
    by_cases h2 : ⌊a⌋ = (j : ℤ)
    · have hja : (j : ℚ) ≤ a := by
        have := hfa
        rw [h2] at this
        exact_mod_cast this
      have haj : a < (j : ℚ) + 1 := by
        have := hfa1
        rw [h2] at this
        exact_mod_cast this
      have hnn : (0 : ℚ) ≤ (j : ℚ) + 1 - a := by linarith
      rw [if_pos h2, h2, max_eq_right hja, max_eq_right hnn]
      push_cast
      ring
    · have hlt : ⌊a⌋ < (j : ℤ) := lt_of_le_of_ne hfl h2
      have hlt2 : ((⌊a⌋ : ℤ) : ℚ) + 1 ≤ (j : ℚ) := by exact_mod_cast hlt
      have haj : a ≤ (j : ℚ) := by linarith
      have hnn : (0 : ℚ) ≤ (j : ℚ) + 1 - (j : ℚ) := by linarith
      rw [if_neg h2, max_eq_left haj, max_eq_right hnn]
      ring

theorem overlap_eq_zero_of_le (a b : ℚ) (k : ℕ) (h : b ≤ (k : ℚ)) :
    overlap a b k = 0 := by
  unfold overlap
  apply max_eq_left
  have h1 : min ((k : ℚ) + 1) b ≤ b := min_le_right _ _
  have h2 : (k : ℚ) ≤ max (k : ℚ) a := le_max_left _ _
  linarith

theorem overlap_eq_zero_of_lt_floor (a b : ℚ) (k : ℕ) (h : (k : ℤ) < ⌊a⌋) :
    overlap a b k = 0 := by
  unfold overlap
  apply max_eq_left
  have h0 : ((k : ℤ) : ℚ) + 1 ≤ ((⌊a⌋ : ℤ) : ℚ) := by exact_mod_cast h
  have hfa : ((⌊a⌋ : ℤ) : ℚ) ≤ a := Int.floor_le a
  have h1 : min ((k : ℚ) + 1) b ≤ (k : ℚ) + 1 := min_le_left _ _
  have h2 : a ≤ max (k : ℚ) a := le_max_right _ _
  push_cast at h0
  linarith

theorem getBucketsContentsLoop_eq (B : FlowCharacteristicsContainer) (a b : ℚ)
    (ha : 0 ≤ a) (hab : a ≤ b) (hb : b ≤ (B.length : ℚ)) :
    ∀ (m j : ℕ) (acc : ℚ), j + m = B.length → ⌊a⌋ ≤ (j : ℤ) →
      getBucketsContentsLoop B a b (j : ℤ) acc
        = .ok (acc + ∑ k in Finset.Ico j B.length, B.getD k 0 * overlap a b k) := by
  intro m
  induction m with
  | zero =>
    intro j acc hj _
    have hjn : j = B.length := by omega
    have hnot : ¬ (((j : ℤ) : ℚ) < b) := by
      push_cast
      rw [hjn]
      exact not_lt.mpr hb
    rw [getBucketsContentsLoop, if_neg hnot, hjn]
    simp
  | succ m ih =>
    intro j acc hj hfl
    have hjn : j < B.length := by omega
    by_cases hjb : (j : ℚ) < b
    · have hcond : (((j : ℤ) : ℚ) < b) := by exact_mod_cast hjb
      rw [getBucketsContentsLoop, if_pos hcond, subscript_natCast B j hjn]
      simp only []
      rw [loop_weight_eq_overlap a b j ha hab hfl hjb]
      have hstep := ih (j + 1) (acc + B.getD j 0 * overlap a b j) (by omega)
        (by push_cast; omega)
      push_cast at hstep
      rw [hstep, Finset.sum_eq_sum_Ico_succ_bot hjn]
      congr 1
      ring
    · have hcond : ¬ (((j : ℤ) : ℚ) < b) := by exact_mod_cast hjb
      rw [getBucketsContentsLoop, if_neg hcond]
      have hz : ∑ k in Finset.Ico j B.length, B.getD k 0 * overlap a b k = 0 := by
        apply Finset.sum_eq_zero
        intro k hk
        have hk1 : j ≤ k := (Finset.mem_Ico.mp hk).1
        have hk2 : (j : ℚ) ≤ (k : ℚ) := by exact_mod_cast hk1
        rw [overlap_eq_zero_of_le a b k (by linarith [not_lt.mp hjb])]
        ring
      rw [hz, add_zero]

/-- Bucket contents of a window `[a, b]` inside the bucket timeline: every bucket counts with
the length of its part of the window. -/
theorem getBucketsContents_eq (flow : Flow) (a b : ℚ)
    (ha : 0 ≤ a) (hab : a ≤ b) (hb : b ≤ (flow.buckets.length : ℚ)) :
    flow.getBucketsContents a b
      = .ok (∑ k in Finset.range flow.buckets.length, flow.buckets.getD k 0 * overlap a b k) := by
  unfold Flow.getBucketsContents
  have hfl0 : 0 ≤ ⌊a⌋ := Int.floor_nonneg.mpr ha
  have hfln : ⌊a⌋ ≤ (flow.buckets.length : ℤ) := by
    have : ((⌊a⌋ : ℤ) : ℚ) ≤ (flow.buckets.length : ℚ) :=
      le_trans (Int.floor_le a) (le_trans hab hb)
    exact_mod_cast this
  obtain ⟨j, hj⟩ := Int.eq_ofNat_of_zero_le hfl0
  have hjn : j ≤ flow.buckets.length := by omega
  rw [truncate_of_nonneg ha, hj,
    getBucketsContentsLoop_eq flow.buckets a b ha hab hb (flow.buckets.length - j) j 0
      (by omega) (by omega), zero_add, Finset.range_eq_Ico,
    ← Finset.sum_Ico_consecutive _ (Nat.zero_le j) hjn]
  have hz : ∑ k in Finset.Ico 0 j, flow.buckets.getD k 0 * overlap a b k = 0 := by
    apply Finset.sum_eq_zero
    intro k hk
    have hk1 : k < j := (Finset.mem_Ico.mp hk).2
    rw [overlap_eq_zero_of_lt_floor a b k (by omega)]
    ring
  rw [hz, zero_add]

theorem sum_range_getD (B : FlowCharacteristicsContainer) :
    ∑ k in Finset.range B.length, B.getD k 0 = B.sum := by
  induction B with
  | nil => simp
  | cons v rest ih =>
    rw [List.length_cons, Finset.sum_range_succ', List.sum_cons]
    simp only [List.getD_cons_succ, List.getD_cons_zero]
    rw [ih, add_comm]

/-- What acceptance by the constructor says about the stored buckets. -/
theorem Flow_create_ok (c : FlowCharacteristicsContainer) (flow : Flow)
    (h : Flow.create c = .ok flow) :
    1 ≤ flow.buckets.length ∧ flow.buckets.sum = 100 * (flow.buckets.length : ℚ) := by
  rw [Flow_create_eq] at h
  split_ifs at h with hbad
  have hs : c.sum ≠ 0 := fun h0 => hbad (Or.inr h0)
  injection h with h
  subst h
  constructor
  · rcases c with _ | ⟨v, rest⟩
    · simp at hs
    · simp
  · simp only [List.sum_map_mul_right, List.length_map]
    field_simp

/-- Step size for a window inside the timeline, as a weighted sum over all buckets. -/
theorem getStepSize_eq (flow : Flow) (hn : 1 ≤ flow.buckets.length) (d : ℚ) (s : ℤ)
    (hs : 1 ≤ s) (x : ℚ) (hx0 : 0 ≤ x) (hx1 : x + 1 / (s : ℚ) ≤ 1) :
    flow.getStepSize d s x
      = .ok (d / ((flow.buckets.length : ℚ) * 100)
          * ∑ i in Finset.range flow.buckets.length,
              flow.buckets.getD i 0
                * overlap (x * (flow.buckets.length : ℚ))
                    ((x + 1 / (s : ℚ)) * (flow.buckets.length : ℚ)) i) := by
  have hsq : (0 : ℚ) < (s : ℚ) := by exact_mod_cast (by omega : (0 : ℤ) < s)
  have hnq : (0 : ℚ) < (flow.buckets.length : ℚ) := by exact_mod_cast hn
  have hinv : (0 : ℚ) ≤ 1 / (s : ℚ) := by positivity
  have ha : 0 ≤ x * (flow.buckets.length : ℚ) := by positivity
  have hab : x * (flow.buckets.length : ℚ) ≤ (x + 1 / (s : ℚ)) * (flow.buckets.length : ℚ) := by
    nlinarith
  have hb : (x + 1 / (s : ℚ)) * (flow.buckets.length : ℚ) ≤ (flow.buckets.length : ℚ) := by
    nlinarith
  unfold Flow.getStepSize
  simp only [fdiv, ne_of_gt hsq, if_false]
  rw [getBucketsContents_eq flow _ _ ha hab hb]
  have hden : (flow.buckets.length : ℚ) * ((AVERAGE_BUCKET_VALUE : ℤ) : ℚ) ≠ 0 := by
    simp only [AVERAGE_BUCKET_VALUE]
    positivity
  simp only [hden, if_false]
  simp only [AVERAGE_BUCKET_VALUE]
  congr 1
  push_cast
  ring

theorem getBucketsContents_example (b0 b1 b2 : ℚ) (rest : FlowCharacteristicsContainer) :
    (Flow.mk (b0 :: b1 :: b2 :: rest)).getBucketsContents (6 / 10) (24 / 10)
      = .ok (4 / 10 * b0 + 1 * b1 + 4 / 10 * b2) := by
  rw [getBucketsContents_eq _ _ _ (by norm_num) (by norm_num)
    (by simp only [List.length_cons]; push_cast; linarith [(Nat.cast_nonneg rest.length : (0:ℚ) ≤ _)])]
  simp only [List.length_cons]
  rw [Finset.range_eq_Ico,
    ← Finset.sum_Ico_consecutive _ (Nat.zero_le 3) (by omega : 3 ≤ rest.length + 1 + 1 + 1)]
  have hz : ∑ k in Finset.Ico 3 (rest.length + 1 + 1 + 1),
      (b0 :: b1 :: b2 :: rest).getD k 0 * overlap (6 / 10) (24 / 10) k = 0 := by
    apply Finset.sum_eq_zero
    intro k hk
    have hk1 : 3 ≤ k := (Finset.mem_Ico.mp hk).1
    have hk2 : (3 : ℚ) ≤ (k : ℚ) := by exact_mod_cast hk1
    rw [overlap_eq_zero_of_le _ _ k (by linarith)]
    ring
  rw [hz, add_zero, ← Finset.range_eq_Ico]
  simp only [Finset.sum_range_succ, Finset.sum_range_zero, overlap]
  norm_num
  ring

/-- C4: for a valid Flow with `n` buckets, a step count `s ≥ 1` and a completion `x` with
`0 ≤ x` and `x + 1/s ≤ 1`, `getStepSize d s x` is `d / (n * 100)` times the sum over the
buckets of `bucket[i]` times the length of `[i, i+1] ∩ [x*n, (x + 1/s)*n]`; and the bucket
contents over `(0.6, 2.4)` are `0.4 * bucket[0] + 1 * bucket[1] + 0.4 * bucket[2]`. -/
theorem getStepSize_eq_weighted_overlap (c : FlowCharacteristicsContainer) (flow : Flow)
    (h : Flow.create c = .ok flow) (d : ℚ) (s : ℤ) (hs : 1 ≤ s) (x : ℚ)
    (hx0 : 0 ≤ x) (hx1 : x + 1 / (s : ℚ) ≤ 1) :
    flow.getStepSize d s x
      = .ok (d / ((flow.buckets.length : ℚ) * 100)
          * ∑ i in Finset.range flow.buckets.length,
              flow.buckets.getD i 0
                * overlap (x * (flow.buckets.length : ℚ))
                    ((x + 1 / (s : ℚ)) * (flow.buckets.length : ℚ)) i) ∧
    (∀ (b0 b1 b2 : ℚ) (rest : FlowCharacteristicsContainer),
      (Flow.mk (b0 :: b1 :: b2 :: rest)).getBucketsContents (6 / 10) (24 / 10)
        = .ok (4 / 10 * b0 + 1 * b1 + 4 / 10 * b2)) :=
  ⟨getStepSize_eq flow (Flow_create_ok c flow h).1 d s hs x hx0 hx1,
    getBucketsContents_example⟩

theorem Flow_create_example_123 :
    Flow.create [1, 2, 3] = .ok ⟨[50, 100, 150]⟩ := by
  rw [Flow_create_eq]
  norm_num

theorem getStepSize_eq_weighted_overlap_witness :
    Flow.create [1, 2, 3] = .ok ⟨[50, 100, 150]⟩ ∧
    (Flow.mk [50, 100, 150]).getStepSize 100 5 (1 / 5) = .ok (40 / 3) := by
  refine ⟨Flow_create_example_123, ?_⟩
  rw [(getStepSize_eq_weighted_overlap [1, 2, 3] ⟨[50, 100, 150]⟩ Flow_create_example_123
    100 5 (by norm_num) (1 / 5) (by norm_num) (by norm_num)).1]
  simp only [List.length_cons, List.length_nil, Finset.sum_range_succ, Finset.sum_range_zero,
    overlap]
  norm_num

/-- For `a ≤ b`, the part of `[k, k + 1]` inside `[a, b]` is a difference of clamped ends. -/
theorem overlap_eq_clamp_sub (a b : ℚ) (k : ℕ) (hab : a ≤ b) :
    overlap a b k
      = min (max b (k : ℚ)) ((k : ℚ) + 1) - min (max a (k : ℚ)) ((k : ℚ) + 1) := by
  unfold overlap
  simp only [max_def, min_def]
  split_ifs <;> linarith

/-- The windows of `s` equal steps cover every bucket exactly once. -/
theorem sum_overlap_steps (n s k : ℕ) (hs : 1 ≤ s) (hk : k < n) :
    ∑ i in Finset.range s,
      overlap ((i : ℚ) / (s : ℚ) * (n : ℚ)) (((i : ℚ) / (s : ℚ) + 1 / ((s : ℤ) : ℚ)) * (n : ℚ)) k
      = 1 := by
  have hsq : (0 : ℚ) < (s : ℚ) := by exact_mod_cast hs
  have hnq : (0 : ℚ) ≤ (n : ℚ) := Nat.cast_nonneg n
  have hkn : (k : ℚ) + 1 ≤ (n : ℚ) := by exact_mod_cast hk
  have hk0 : (0 : ℚ) ≤ (k : ℚ) := Nat.cast_nonneg k
  obtain ⟨f, hf⟩ : ∃ f : ℕ → ℚ,
      ∀ j, f j = min (max ((j : ℚ) / (s : ℚ) * (n : ℚ)) (k : ℚ)) ((k : ℚ) + 1) :=
    ⟨_, fun _ => rfl⟩
  have key : ∀ i : ℕ,
      overlap ((i : ℚ) / (s : ℚ) * (n : ℚ))
        (((i : ℚ) / (s : ℚ) + 1 / ((s : ℤ) : ℚ)) * (n : ℚ)) k = f (i + 1) - f i := by
    intro i
    have he : ((i : ℚ) / (s : ℚ) + 1 / ((s : ℤ) : ℚ)) * (n : ℚ)
        = ((i + 1 : ℕ) : ℚ) / (s : ℚ) * (n : ℚ) := by
      push_cast
      ring
    rw [he, hf, hf, overlap_eq_clamp_sub]
    apply mul_le_mul_of_nonneg_right _ hnq
    apply div_le_div_of_nonneg_right _ hsq.le
    push_cast
    linarith
  rw [Finset.sum_congr rfl (fun i _ => key i), Finset.sum_range_sub f s, hf, hf]
  simp only [Nat.cast_zero, zero_div, zero_mul]
  rw [div_self (ne_of_gt hsq), one_mul, max_eq_left (by linarith),
    min_eq_right (by linarith), max_eq_right hk0, min_eq_left (by linarith)]
  ring

/-- C1: for a valid Flow, any step count `s ≥ 1` and any distance `d`, each call
`getStepSize d s (i/s)` for `i = 0 .. s-1` returns a step, and the steps add up to `d`. -/
theorem steps_add_up_to_distance (c : FlowCharacteristicsContainer) (flow : Flow)
    (h : Flow.create c = .ok flow) (d : ℚ) (s : ℕ) (hs : 1 ≤ s) :
    ∃ step : ℕ → ℚ,
      (∀ i : ℕ, i < s → flow.getStepSize d (s : ℤ) ((i : ℚ) / (s : ℚ)) = .ok (step i)) ∧
      ∑ i in Finset.range s, step i = d := by
  obtain ⟨hn, hsum⟩ := Flow_create_ok c flow h
  have hsq : (0 : ℚ) < (s : ℚ) := by exact_mod_cast hs
  have hnq : (0 : ℚ) < (flow.buckets.length : ℚ) := by exact_mod_cast hn
  refine ⟨fun i => d / ((flow.buckets.length : ℚ) * 100)
          * ∑ k in Finset.range flow.buckets.length,
              flow.buckets.getD k 0
                * overlap ((i : ℚ) / (s : ℚ) * (flow.buckets.length : ℚ))
                    (((i : ℚ) / (s : ℚ) + 1 / ((s : ℤ) : ℚ)) * (flow.buckets.length : ℚ)) k,
    ?_, ?_⟩
  · intro i hi
    apply getStepSize_eq flow hn d (s : ℤ) (by exact_mod_cast hs) _ (by positivity)
    have hi1 : (i : ℚ) + 1 ≤ (s : ℚ) := by exact_mod_cast hi
    have : (i : ℚ) / (s : ℚ) + 1 / (((s : ℕ) : ℤ) : ℚ) = ((i : ℚ) + 1) / (s : ℚ) := by
      push_cast
      ring
    rw [this, div_le_one hsq]
    exact hi1
  · simp only []
    rw [← Finset.mul_sum, Finset.sum_comm]
    have hinner : ∀ k ∈ Finset.range flow.buckets.length,
        ∑ i in Finset.range s, flow.buckets.getD k 0
          * overlap ((i : ℚ) / (s : ℚ) * (flow.buckets.length : ℚ))
              (((i : ℚ) / (s : ℚ) + 1 / ((s : ℤ) : ℚ)) * (flow.buckets.length : ℚ)) k
        = flow.buckets.getD k 0 := by
      intro k hk
      rw [← Finset.mul_sum, sum_overlap_steps _ s k hs (Finset.mem_range.mp hk), mul_one]
    rw [Finset.sum_congr rfl hinner, sum_range_getD, hsum]
    field_simp
    left
    ring

theorem steps_add_up_to_distance_witness :
    Flow.create [1, 2, 3] = .ok ⟨[50, 100, 150]⟩ ∧ 1 ≤ 5 ∧
    ∃ step : ℕ → ℚ,
      (∀ i : ℕ, i < 5 →
        (Flow.mk [50, 100, 150]).getStepSize 100 ((5 : ℕ) : ℤ) ((i : ℚ) / ((5 : ℕ) : ℚ))
          = .ok (step i)) ∧
      ∑ i in Finset.range 5, step i = 100 :=
  ⟨Flow_create_example_123, by norm_num,
    steps_add_up_to_distance [1, 2, 3] ⟨[50, 100, 150]⟩ Flow_create_example_123 100 5
      (by norm_num)⟩

/-! ## FlowUtils: reduceFlow -/

theorem getD_set_eq (r : FlowCharacteristicsContainer) (p j : ℕ) (y : ℚ) (hp : p < r.length) :
    (r.set p y).getD j 0 = if j = p then y else r.getD j 0 := by
  simp only [List.getD_eq_getElem?_getD, List.getElem?_set]
  by_cases h : p = j
  · subst h
    simp [hp]
  · have h2 : ¬ j = p := fun e => h e.symm
    simp [h, h2]

theorem sum_set_eq (r : FlowCharacteristicsContainer) (p : ℕ) (y : ℚ) (hp : p < r.length) :
    (r.set p y).sum = r.sum - r.getD p 0 + y := by
  induction r generalizing p with
  | nil => simp at hp
  | cons a rest ih =>
    cases p with
    | zero =>
      simp
      ring
    | succ p =>
      have hp2 : p < rest.length := by simpa using hp
      simp only [List.set_cons_succ, List.sum_cons, List.getD_cons_succ, ih p hp2]
      ring

theorem addAt_natCast (r : FlowCharacteristicsContainer) (p : ℕ) (x : ℚ) (hp : p < r.length) :
    addAt r (p : ℤ) x = .ok (r.set p (r.getD p 0 + x)) := by
  simp [addAt, elementAt_natCast r p hp]

/-- One pass of the loop body of `reduceFlow`: the value `v = flow[i]` is spread over the
result cells in proportion to the part of `[i*m, (i+1)*m]` inside each cell. -/
theorem reduceFlowLoop_cons (t n : ℕ) (ht : 1 ≤ t) (htn : t < n) (v : ℚ)
    (rest : FlowCharacteristicsContainer) (i : ℕ) (hi : i < n)
    (result : FlowCharacteristicsContainer) (hlen : result.length = t) :
    ∃ r1, reduceFlowLoop ((t : ℚ) / (n : ℚ)) (v :: rest) i result
          = reduceFlowLoop ((t : ℚ) / (n : ℚ)) rest (i + 1) r1 ∧
      r1.length = t ∧
      (∀ j, j < t → r1.getD j 0 = result.getD j 0
        + v * overlap ((i : ℚ) * ((t : ℚ) / (n : ℚ))) (((i + 1 : ℕ) : ℚ) * ((t : ℚ) / (n : ℚ))) j) ∧
      r1.sum = result.sum + v * ((t : ℚ) / (n : ℚ)) := by
  have hnq : (0 : ℚ) < (n : ℚ) := by exact_mod_cast (by omega : 0 < n)
  have htq : (0 : ℚ) < (t : ℚ) := by exact_mod_cast (by omega : 0 < t)
  have hm0 : (0 : ℚ) < (t : ℚ) / (n : ℚ) := div_pos htq hnq
  have hm1 : (t : ℚ) / (n : ℚ) < 1 := by
    rw [div_lt_one hnq]
    exact_mod_cast htn
  obtain ⟨m, hm⟩ : ∃ m : ℚ, m = (t : ℚ) / (n : ℚ) := ⟨_, rfl⟩
  rw [← hm] at hm0 hm1 ⊢
  have hmn : m * (n : ℚ) = (t : ℚ) := by rw [hm]; field_simp
  have hidx0 : (0 : ℚ) ≤ (i : ℚ) * m := by positivity
  have hunt0 : (0 : ℚ) ≤ ((i + 1 : ℕ) : ℚ) * m := by positivity
  have hstep : ((i + 1 : ℕ) : ℚ) * m = (i : ℚ) * m + m := by push_cast; ring
  have hidxt : (i : ℚ) * m < (t : ℚ) := by
    have : (i : ℚ) < (n : ℚ) := by exact_mod_cast hi
    nlinarith
  have huntt : ((i + 1 : ℕ) : ℚ) * m ≤ (t : ℚ) := by
    have : ((i + 1 : ℕ) : ℚ) ≤ (n : ℚ) := by exact_mod_cast hi
    nlinarith
  obtain ⟨P, hP⟩ := Int.eq_ofNat_of_zero_le (Int.floor_nonneg.mpr hidx0)
  obtain ⟨Q, hQ⟩ := Int.eq_ofNat_of_zero_le (Int.floor_nonneg.mpr hunt0)
  have hP1 : (P : ℚ) ≤ (i : ℚ) * m := by
    have := Int.floor_le ((i : ℚ) * m)
    rw [hP] at this
    exact_mod_cast this
  have hP2 : (i : ℚ) * m < (P : ℚ) + 1 := by
    have := Int.lt_floor_add_one ((i : ℚ) * m)
    rw [hP] at this
    exact_mod_cast this
  have hQ1 : (Q : ℚ) ≤ ((i + 1 : ℕ) : ℚ) * m := by
    have := Int.floor_le (((i + 1 : ℕ) : ℚ) * m)
    rw [hQ] at this
    exact_mod_cast this
  have hQ2 : ((i + 1 : ℕ) : ℚ) * m < (Q : ℚ) + 1 := by
    have := Int.lt_floor_add_one (((i + 1 : ℕ) : ℚ) * m)
    rw [hQ] at this
    exact_mod_cast this
  have hPt : P < t := by
    have : (P : ℚ) < (t : ℚ) := by linarith
    exact_mod_cast this
  have hPQ : P ≤ Q := by
    have : (P : ℚ) < (Q : ℚ) + 1 := by linarith
    have : P < Q + 1 := by exact_mod_cast this
    omega
  have hQP : Q ≤ P + 1 := by
    have : (Q : ℚ) < (P : ℚ) + 1 + 1 := by linarith
    have : Q < P + 1 + 1 := by exact_mod_cast this
    omega
  have hQt : Q ≤ t := by
    have : (Q : ℚ) ≤ (t : ℚ) := by linarith
    exact_mod_cast this
  have hPlen : P < result.length := by omega
  rw [reduceFlowLoop]
  simp only [truncate_of_nonneg hidx0, truncate_of_nonneg hunt0, hP, hQ]
  by_cases hne : (P : ℤ) = (Q : ℤ)
  · have hPQe : P = Q := by exact_mod_cast hne
    have hQ1q : (P : ℚ) ≤ ((i + 1 : ℕ) : ℚ) * m := by rw [hPQe]; exact hQ1
    have hQ2q : ((i + 1 : ℕ) : ℚ) * m < (P : ℚ) + 1 := by rw [hPQe]; exact hQ2
    simp only [hne, ne_eq, not_true_eq_false, if_false]
    rw [← hne, addAt_natCast result P _ hPlen]
    refine ⟨_, rfl, by simp [hlen], ?_, ?_⟩
    · intro j hj
      rw [getD_set_eq _ _ _ _ hPlen]
      by_cases hjP : j = P
      · subst hjP
        rw [if_pos rfl]
        congr 1
        congr 1
        unfold overlap
        rw [min_eq_right hQ2q.le, max_eq_right hP1, max_eq_right (by linarith)]
      · rw [if_neg hjP]
        have hz : overlap ((i : ℚ) * m) (((i + 1 : ℕ) : ℚ) * m) j = 0 := by
          rcases Nat.lt_or_gt_of_ne hjP with hlt | hgt
          · have : (j : ℚ) + 1 ≤ (P : ℚ) := by exact_mod_cast hlt
            unfold overlap
            apply max_eq_left
            have h1 := min_le_left ((j : ℚ) + 1) (((i + 1 : ℕ) : ℚ) * m)
            have h2 := le_max_right (j : ℚ) ((i : ℚ) * m)
            linarith
          · have : (P : ℚ) + 1 ≤ (j : ℚ) := by exact_mod_cast hgt
            exact overlap_eq_zero_of_le _ _ j (by linarith)
        rw [hz]
        ring
    · rw [sum_set_eq _ _ _ hPlen, hstep]
      ring
  · have hQe : Q = P + 1 := by
      have : P ≠ Q := fun e => hne (by exact_mod_cast e)
      omega
    have hQ1q : (P : ℚ) + 1 ≤ ((i + 1 : ℕ) : ℚ) * m := by
      have := hQ1
      rw [hQe] at this
      exact_mod_cast this
    have hQ2q : ((i + 1 : ℕ) : ℚ) * m < (P : ℚ) + 1 + 1 := by
      have := hQ2
      rw [hQe] at this
      exact_mod_cast this
    simp only [hne, ne_eq, not_false_eq_true, if_true]
    rw [addAt_natCast result P _ hPlen]
    simp only [List.length_set, hlen]
    have hcellP : overlap ((i : ℚ) * m) (((i + 1 : ℕ) : ℚ) * m) P
        = 1 - ((i : ℚ) * m - (P : ℚ)) := by
      unfold overlap
      rw [min_eq_left hQ1q, max_eq_right hP1, max_eq_right (by linarith)]
      ring
    have hcellZero : ∀ j : ℕ, j ≠ P → j ≠ Q → j < t →
        overlap ((i : ℚ) * m) (((i + 1 : ℕ) : ℚ) * m) j = 0 := by
      intro j hjP hjQ _
      rcases Nat.lt_or_gt_of_ne hjP with hlt | hgt
      · have : (j : ℚ) + 1 ≤ (P : ℚ) := by exact_mod_cast hlt
        unfold overlap
        apply max_eq_left
        have h1 := min_le_left ((j : ℚ) + 1) (((i + 1 : ℕ) : ℚ) * m)
        have h2 := le_max_right (j : ℚ) ((i : ℚ) * m)
        linarith
      · have hj2 : P + 1 + 1 ≤ j := by omega
        have : (P : ℚ) + 1 + 1 ≤ (j : ℚ) := by exact_mod_cast hj2
        exact overlap_eq_zero_of_le _ _ j (by linarith)
    by_cases hbelow : belowSize (Q : ℤ) t
    · have hQlt : Q < t := by
        have := hbelow.2
        exact_mod_cast this
      have hQlen : Q < (result.set P (result.getD P 0
          + v * (1 - ((i : ℚ) * m - ((P : ℤ) : ℚ))))).length := by
        simp only [List.length_set, hlen]
        exact hQlt
      rw [if_pos hbelow, addAt_natCast _ Q _ hQlen]
      have hcellQ : overlap ((i : ℚ) * m) (((i + 1 : ℕ) : ℚ) * m) Q
          = ((i + 1 : ℕ) : ℚ) * m - (Q : ℚ) := by
        unfold overlap
        rw [hQe]
        push_cast
        push_cast at hQ2q hQ1q
        have e1 : ((i : ℚ) + 1) * m ≤ (P : ℚ) + 1 + 1 := hQ2q.le
        have e2 : (i : ℚ) * m ≤ (P : ℚ) + 1 := hP2.le
        have e3 : (0 : ℚ) ≤ ((i : ℚ) + 1) * m - ((P : ℚ) + 1) := by linarith
        rw [min_eq_right e1, max_eq_left e2, max_eq_right e3]
      refine ⟨_, rfl, by simp [hlen], ?_, ?_⟩
      · intro j hj
        rw [getD_set_eq _ _ _ _ hQlen, getD_set_eq _ _ _ _ hPlen, getD_set_eq _ _ _ _ hPlen]
        by_cases hjQ : j = Q
        · have hQP2 : ¬ Q = P := by omega
          subst hjQ
          rw [if_pos rfl, if_neg hQP2, hcellQ]
          push_cast
          ring
        · rw [if_neg hjQ]
          by_cases hjP : j = P
          · subst hjP
            rw [if_pos rfl, hcellP]
            push_cast
            ring
          · rw [if_neg hjP, hcellZero j hjP hjQ hj]
            ring
      · have hQP2 : ¬ Q = P := by omega
        rw [sum_set_eq _ _ _ hQlen, getD_set_eq _ _ _ _ hPlen, if_neg hQP2,
          sum_set_eq _ _ _ hPlen, hstep, hQe]
        push_cast
        ring
    · have hQeq : Q = t := by
        have : ¬ ((Q : ℤ) < (t : ℤ)) := fun h => hbelow ⟨by positivity, h⟩
        have : ¬ (Q < t) := fun h => this (by exact_mod_cast h)
        omega
      have huntEq : ((i + 1 : ℕ) : ℚ) * m = (t : ℚ) := by
        have : (t : ℚ) ≤ ((i + 1 : ℕ) : ℚ) * m := by rw [← hQeq]; exact hQ1
        linarith
      have hPt1 : (P : ℚ) + 1 = (t : ℚ) := by
        have : P + 1 = t := by omega
        exact_mod_cast this
      rw [if_neg hbelow]
      refine ⟨_, rfl, by simp [hlen], ?_, ?_⟩
      · intro j hj
        rw [getD_set_eq _ _ _ _ hPlen]
        by_cases hjP : j = P
        · subst hjP
          rw [if_pos rfl, hcellP]
          push_cast
          ring
        · have hjQ : j ≠ Q := by omega
          rw [if_neg hjP, hcellZero j hjP hjQ hj]
          ring
      · rw [sum_set_eq _ _ _ hPlen]
        have hw : 1 - ((i : ℚ) * m - ((P : ℤ) : ℚ)) = m := by
          push_cast
          linarith
        rw [hw]
        ring

theorem reduceFlowLoop_spec (t n : ℕ) (ht : 1 ≤ t) (htn : t < n) :
    ∀ (rest : FlowCharacteristicsContainer) (i : ℕ) (result : FlowCharacteristicsContainer),
      result.length = t → i + rest.length = n →
      ∃ r, reduceFlowLoop ((t : ℚ) / (n : ℚ)) rest i result = .ok r ∧ r.length = t ∧
        (∀ j, j < t → r.getD j 0 = result.getD j 0
          + ∑ k in Finset.range rest.length, rest.getD k 0
              * overlap (((i + k : ℕ) : ℚ) * ((t : ℚ) / (n : ℚ)))
                  (((i + k + 1 : ℕ) : ℚ) * ((t : ℚ) / (n : ℚ))) j) ∧
        r.sum = result.sum + (t : ℚ) / (n : ℚ) * rest.sum := by
  intro rest
  induction rest with
  | nil =>
    intro i result hlen _
    exact ⟨result, by rw [reduceFlowLoop], hlen, by simp, by simp⟩
  | cons v rest ih =>
    intro i result hlen hin
    have hi : i < n := by
      simp only [List.length_cons] at hin
      omega
    obtain ⟨r1, hloop, hlen1, hget1, hsum1⟩ :=
      reduceFlowLoop_cons t n ht htn v rest i hi result hlen
    obtain ⟨r, hr, hlenr, hgetr, hsumr⟩ := ih (i + 1) r1 hlen1
      (by simp only [List.length_cons] at hin; omega)
    refine ⟨r, by rw [hloop, hr], hlenr, ?_, ?_⟩
    · intro j hj
      rw [hgetr j hj, hget1 j hj, List.length_cons, Finset.sum_range_succ']
      simp only [List.getD_cons_succ, List.getD_cons_zero, Nat.add_zero]
      have hc : ∀ k ∈ Finset.range rest.length,
          rest.getD k 0 * overlap (((i + 1 + k : ℕ) : ℚ) * ((t : ℚ) / (n : ℚ)))
              (((i + 1 + k + 1 : ℕ) : ℚ) * ((t : ℚ) / (n : ℚ))) j
          = rest.getD k 0 * overlap (((i + (k + 1) : ℕ) : ℚ) * ((t : ℚ) / (n : ℚ)))
              (((i + (k + 1) + 1 : ℕ) : ℚ) * ((t : ℚ) / (n : ℚ))) j := by
        intro k _
        rw [show i + 1 + k = i + (k + 1) by omega]
      rw [Finset.sum_congr rfl hc]
      ring
    · rw [hsumr, hsum1, List.sum_cons]
      ring

/-- What `reduceFlow` returns for a target length `1 ≤ t < n`: cell `j` collects every input
value weighted by the part of its scaled interval inside `[j, j + 1]`. -/
theorem reduceFlow_spec (flow : FlowCharacteristicsContainer) (t : ℕ) (ht : 1 ≤ t)
    (htn : t < flow.length) :
    ∃ r, reduceFlow flow t = .ok r ∧ r.length = t ∧
      (∀ j, j < t → r.getD j 0
        = ∑ k in Finset.range flow.length, flow.getD k 0
            * overlap ((k : ℚ) * ((t : ℚ) / (flow.length : ℚ)))
                (((k : ℚ) + 1) * ((t : ℚ) / (flow.length : ℚ))) j) ∧
      r.sum = (t : ℚ) / (flow.length : ℚ) * flow.sum := by
  obtain ⟨r, hr, hlen, hget, hsum⟩ :=
    reduceFlowLoop_spec t flow.length ht htn flow 0 (List.replicate t 0) (by simp) (by simp)
  refine ⟨r, ?_, hlen, ?_, ?_⟩
  · unfold reduceFlow
    rw [if_neg (by omega)]
    exact hr
  · intro j hj
    rw [hget j hj]
    have hz : (List.replicate t (0 : ℚ)).getD j 0 = 0 := by
      simp [List.getD_eq_getElem?_getD, List.getElem?_replicate, hj]
    rw [hz, zero_add]
    apply Finset.sum_congr rfl
    intro k _
    simp only [Nat.zero_add]
    push_cast
    rfl
  · rw [hsum]
    simp

theorem reduceFlow_zero_target (v : ℚ) (rest : FlowCharacteristicsContainer) :
    reduceFlow (v :: rest) 0 = .error Fault.outOfBounds := by
  simp [reduceFlow, reduceFlowLoop, truncate, addAt, elementAt]

/-- C5 (the code misses the case `targetLength = 0`): `reduceFlow` throws exactly when
`targetLength ≥ flow.length`, and for `1 ≤ targetLength < flow.length` it returns exactly
`targetLength` elements; but for `targetLength = 0` and a non-empty flow, e.g.
`reduceFlow([1], 0)`, the first pass of the loop executes `result[0] += ...` on the empty
result vector, so no empty array is returned. -/
theorem reduceFlow_zero_target_out_of_bounds :
    reduceFlow [1] 0 = .error Fault.outOfBounds ∧
    (∀ (v : ℚ) (rest : FlowCharacteristicsContainer),
      reduceFlow (v :: rest) 0 = .error Fault.outOfBounds) ∧
    (∀ (flow : FlowCharacteristicsContainer) (t : ℕ),
      reduceFlow flow t = .error Fault.runtimeError ↔ flow.length ≤ t) ∧
    (∀ (flow : FlowCharacteristicsContainer) (t : ℕ), 1 ≤ t → t < flow.length →
      ∃ r, reduceFlow flow t = .ok r ∧ r.length = t) := by
  refine ⟨reduceFlow_zero_target 1 [], reduceFlow_zero_target, ?_, ?_⟩
  · intro flow t
    constructor
    · intro h
      by_contra hlt
      have hlt2 : t < flow.length := by omega
      rcases Nat.eq_zero_or_pos t with h0 | hpos
      · subst h0
        rcases flow with _ | ⟨v, rest⟩
        · simp at hlt2
        · rw [reduceFlow_zero_target] at h
          cases h
      · obtain ⟨r, hr, _⟩ := reduceFlow_spec flow t hpos hlt2
        rw [hr] at h
        cases h
    · intro h
      simp [reduceFlow, h]
  · intro flow t ht htn
    obtain ⟨r, hr, hlen, _⟩ := reduceFlow_spec flow t ht htn
    exact ⟨r, hr, hlen⟩

/-- C6: for `1 ≤ t < n`, `reduceFlow flow t` returns an array whose sum is
`sum flow * t / n`: the average of the array is preserved. -/
theorem reduceFlow_preserves_average (flow : FlowCharacteristicsContainer) (t : ℕ)
    (ht : 1 ≤ t) (htn : t < flow.length) :
    ∃ r, reduceFlow flow t = .ok r ∧ r.sum = flow.sum * (t : ℚ) / (flow.length : ℚ) := by
  obtain ⟨r, hr, _, _, hsum⟩ := reduceFlow_spec flow t ht htn
  exact ⟨r, hr, by rw [hsum]; ring⟩

theorem reduceFlow_preserves_average_witness :
    1 ≤ 3 ∧ 3 < ([5, 5, 4, 4, 3, 3, 2, 2, 1, 1] : FlowCharacteristicsContainer).length ∧
    ∃ r, reduceFlow [5, 5, 4, 4, 3, 3, 2, 2, 1, 1] 3 = .ok r ∧
      r.sum = ([5, 5, 4, 4, 3, 3, 2, 2, 1, 1] : FlowCharacteristicsContainer).sum * ((3 : ℕ) : ℚ)
        / ((([5, 5, 4, 4, 3, 3, 2, 2, 1, 1] : FlowCharacteristicsContainer).length : ℕ) : ℚ) :=
  ⟨by norm_num, by simp,
    reduceFlow_preserves_average [5, 5, 4, 4, 3, 3, 2, 2, 1, 1] 3 (by norm_num) (by simp)⟩

theorem list_eq_of_length_three (r : FlowCharacteristicsContainer) (h : r.length = 3) :
    r = [r.getD 0 0, r.getD 1 0, r.getD 2 0] := by
  match r, h with
  | [a, b, c], _ => rfl

theorem reduceFlow_example_5to3 :
    reduceFlow [1, 3 / 2, 2, 5 / 2, 3] 3 = .ok [6 / 5, 2, 14 / 5] := by
  obtain ⟨r, hr, hlen, hget, _⟩ :=
    reduceFlow_spec [1, 3 / 2, 2, 5 / 2, 3] 3 (by norm_num) (by simp)
  rw [hr, list_eq_of_length_three r hlen, hget 0 (by norm_num), hget 1 (by norm_num),
    hget 2 (by norm_num)]
  simp only [List.length_cons, List.length_nil, Finset.sum_range_succ, Finset.sum_range_zero,
    overlap]
  norm_num

theorem reduceFlow_example_10to3 :
    reduceFlow [5, 5, 4, 4, 3, 3, 2, 2, 1, 1] 3 = .ok [23 / 5, 3, 7 / 5] := by
  obtain ⟨r, hr, hlen, hget, _⟩ :=
    reduceFlow_spec [5, 5, 4, 4, 3, 3, 2, 2, 1, 1] 3 (by norm_num) (by simp)
  rw [hr, list_eq_of_length_three r hlen, hget 0 (by norm_num), hget 1 (by norm_num),
    hget 2 (by norm_num)]
  simp only [List.length_cons, List.length_nil, Finset.sum_range_succ, Finset.sum_range_zero,
    overlap]
  norm_num

/-- C10: for `1 ≤ t < n` and `m = t / n`, element `j` of `reduceFlow flow t` is the sum over
`i` of `flow[i]` times the length of `[i*m, (i+1)*m] ∩ [j, j+1]`; and
`reduceFlow [1,1.5,2,2.5,3] 3 = [1.2, 2, 2.8]`,
`reduceFlow [5,5,4,4,3,3,2,2,1,1] 3 = [4.6, 3, 1.4]`. -/
theorem reduceFlow_weights_by_overlap (flow : FlowCharacteristicsContainer) (t : ℕ)
    (ht : 1 ≤ t) (htn : t < flow.length) :
    (∃ r, reduceFlow flow t = .ok r ∧ r.length = t ∧
      ∀ j, j < t → r.getD j 0
        = ∑ i in Finset.range flow.length, flow.getD i 0
            * overlap ((i : ℚ) * ((t : ℚ) / (flow.length : ℚ)))
                (((i : ℚ) + 1) * ((t : ℚ) / (flow.length : ℚ))) j) ∧
    reduceFlow [1, 3 / 2, 2, 5 / 2, 3] 3 = .ok [6 / 5, 2, 14 / 5] ∧
    reduceFlow [5, 5, 4, 4, 3, 3, 2, 2, 1, 1] 3 = .ok [23 / 5, 3, 7 / 5] := by
  obtain ⟨r, hr, hlen, hget, _⟩ := reduceFlow_spec flow t ht htn
  exact ⟨⟨r, hr, hlen, hget⟩, reduceFlow_example_5to3, reduceFlow_example_10to3⟩

theorem reduceFlow_weights_by_overlap_witness :
    1 ≤ 3 ∧ 3 < ([1, 3 / 2, 2, 5 / 2, 3] : FlowCharacteristicsContainer).length ∧
    ∃ r, reduceFlow [1, 3 / 2, 2, 5 / 2, 3] 3 = .ok r ∧ r.length = 3 :=
  ⟨by norm_num, by simp,
    (reduceFlow_weights_by_overlap [1, 3 / 2, 2, 5 / 2, 3] 3 (by norm_num) (by simp)).1.imp
      (fun _ h => ⟨h.1, h.2.1⟩)⟩

/-! ## FlowUtils: stretchFlow -/

theorem succ_div_mod_wrap (i k : ℕ) (hk : 0 < k) (h : i % k + 1 = k) :
    (i + 1) / k = i / k + 1 ∧ (i + 1) % k = 0 := by
  rw [Nat.div_mod_unique hk]
  refine ⟨?_, hk⟩
  have := Nat.div_add_mod i k
  rw [Nat.mul_add, Nat.mul_one]
  omega

theorem succ_div_mod_step (i k : ℕ) (hk : 0 < k) (h : i % k + 1 ≠ k) :
    (i + 1) / k = i / k ∧ (i + 1) % k = i % k + 1 := by
  rw [Nat.div_mod_unique hk]
  have := Nat.div_add_mod i k
  have := Nat.mod_lt i hk
  refine ⟨by omega, by omega⟩

theorem list_eq_map_range (r : FlowCharacteristicsContainer) (L : ℕ) (g : ℕ → ℚ)
    (hlen : r.length = L) (h : ∀ j, j < L → r.getD j 0 = g j) : r = (List.range L).map g := by
  apply List.ext_getElem (by simp [hlen])
  intro i h1 h2
  have := h i (by omega)
  simp only [List.getD_eq_getElem?_getD, List.getElem?_eq_getElem h1, Option.getD_some] at this
  simp [this]

theorem sum_map_range (L : ℕ) (g : ℕ → ℚ) :
    ((List.range L).map g).sum = ∑ i in Finset.range L, g i := by
  induction L with
  | zero => simp
  | succ L ih =>
    rw [List.range_succ, List.map_append, List.sum_append, ih, Finset.sum_range_succ]
    simp

theorem sum_range_cast_id (k : ℕ) :
    ∑ r in Finset.range k, (r : ℚ) = (k : ℚ) * ((k : ℚ) - 1) / 2 := by
  induction k with
  | zero => simp
  | succ k ih =>
    rw [Finset.sum_range_succ, ih]
    push_cast
    ring

theorem assignAt_natCast (r : FlowCharacteristicsContainer) (p : ℕ) (x : ℚ)
    (hp : p < r.length) : assignAt r (p : ℤ) x = .ok (r.set p x) := by
  simp [assignAt, elementAt_natCast r p hp]

/-- The loop of `stretchFlow`, entered at position `i` with the counters the loop has there,
fills the positions from `i` on with the interpolation values and leaves the others. -/
theorem stretchFlowLoop_spec (flow : FlowCharacteristicsContainer) (n' k : ℕ)
    (hlen : flow.length = n' + 2) (hk : 1 ≤ k) :
    ∀ (rem i : ℕ) (result : FlowCharacteristicsContainer),
      i + rem = (n' + 1) * k + 1 → result.length = (n' + 1) * k + 1 →
      ∃ r, stretchFlowLoop flow (((n' + 1) * k + 1 : ℕ) : ℤ) (k : ℤ) (i : ℤ)
              ((k : ℤ) - ((i % k : ℕ) : ℤ)) ((i / k : ℕ) : ℤ) result = .ok r ∧
        r.length = (n' + 1) * k + 1 ∧
        (∀ j, j < i → r.getD j 0 = result.getD j 0) ∧
        (∀ j, i ≤ j → j < (n' + 1) * k + 1 → r.getD j 0 = interpolate flow k j) := by
  intro rem
  induction rem with
  | zero =>
    intro i result hi hres
    have hnot : ¬ ((i : ℤ) < (((n' + 1) * k + 1 : ℕ) : ℤ)) := by
      have : ¬ (i < (n' + 1) * k + 1) := by omega
      exact_mod_cast this
    rw [stretchFlowLoop, if_neg hnot]
    exact ⟨result, rfl, hres, fun _ _ => rfl, fun j h1 h2 => by omega⟩
  | succ rem ih =>
    intro i result hi hres
    have hiL : i < (n' + 1) * k + 1 := by omega
    have hcond : (i : ℤ) < (((n' + 1) * k + 1 : ℕ) : ℤ) := by exact_mod_cast hiL
    have hk0 : 0 < k := hk
    have hq : i / k ≤ n' + 1 := by
      apply Nat.div_le_of_le_mul
      rw [Nat.mul_comm]
      omega
    have hqn : i / k < flow.length := by omega
    have hmod := Nat.mod_lt i hk0
    have hdm := Nat.div_add_mod i k
    have hkq : (k : ℚ) ≠ 0 := by exact_mod_cast (by omega : k ≠ 0)
    have hcompl : fdiv (((k : ℤ) - ((k : ℤ) - ((i % k : ℕ) : ℤ)) : ℤ) : ℚ) (((k : ℤ)) : ℚ)
        = .ok (((i % k : ℕ) : ℚ) / (k : ℚ)) := by
      have e : (k : ℤ) - ((k : ℤ) - ((i % k : ℕ) : ℤ)) = ((i % k : ℕ) : ℤ) := by ring
      rw [e, Int.cast_natCast, Int.cast_natCast]
      simp [fdiv, hkq]
    have hires : i < result.length := by omega
    -- the value written at position `i`
    have hval : ∀ top : ℚ,
        (i / k + 1 < flow.length → top = flow.getD (i / k + 1) 0) →
        (¬ i / k + 1 < flow.length → top = flow.getD (i / k) 0) →
        flow.getD (i / k) 0 * (1 - ((i % k : ℕ) : ℚ) / (k : ℚ))
          + top * (((i % k : ℕ) : ℚ) / (k : ℚ)) = interpolate flow k i := by
      intro top h1 h2
      unfold interpolate
      by_cases hb : i / k + 1 < flow.length
      · rw [h1 hb]
        ring
      · have hqe : i / k = n' + 1 := by omega
        have hmod0 : i % k = 0 := by
          rw [hqe] at hdm
          have : k * (n' + 1) = (n' + 1) * k := Nat.mul_comm _ _
          omega
        rw [h2 hb, hmod0]
        simp
    -- the next state of the loop
    have hnext : ∀ result1 : FlowCharacteristicsContainer, result1.length = (n' + 1) * k + 1 →
        ∃ r, (if (k : ℤ) - ((i % k : ℕ) : ℤ) - 1 = 0 then
              stretchFlowLoop flow (((n' + 1) * k + 1 : ℕ) : ℤ) (k : ℤ) ((i : ℤ) + 1) (k : ℤ)
                (((i / k : ℕ) : ℤ) + 1) result1
            else
              stretchFlowLoop flow (((n' + 1) * k + 1 : ℕ) : ℤ) (k : ℤ) ((i : ℤ) + 1)
                ((k : ℤ) - ((i % k : ℕ) : ℤ) - 1) ((i / k : ℕ) : ℤ) result1) = .ok r ∧
          r.length = (n' + 1) * k + 1 ∧
          (∀ j, j < i + 1 → r.getD j 0 = result1.getD j 0) ∧
          (∀ j, i + 1 ≤ j → j < (n' + 1) * k + 1 → r.getD j 0 = interpolate flow k j) := by
      intro result1 hres1
      have h := ih (i + 1) result1 (by omega) hres1
      by_cases hw : i % k + 1 = k
      · obtain ⟨hd, hm⟩ := succ_div_mod_wrap i k hk0 hw
        have hc : (k : ℤ) - ((i % k : ℕ) : ℤ) - 1 = 0 := by omega
        rw [if_pos hc]
        rw [hd, hm] at h
        simpa using h
      · obtain ⟨hd, hm⟩ := succ_div_mod_step i k hk0 hw
        have hc : ¬ ((k : ℤ) - ((i % k : ℕ) : ℤ) - 1 = 0) := by omega
        rw [if_neg hc]
        rw [hd, hm] at h
        have e : (k : ℤ) - ((i % k + 1 : ℕ) : ℤ) = (k : ℤ) - ((i % k : ℕ) : ℤ) - 1 := by
          push_cast
          ring
        rw [e] at h
        simpa using h
    rw [stretchFlowLoop, if_pos hcond, subscript_natCast flow (i / k) hqn]
    simp only []
    by_cases hb : i / k + 1 < flow.length
    · have hbs : belowSize (((i / k : ℕ) : ℤ) + 1) flow.length := by
        constructor
        · positivity
        · exact_mod_cast hb
      have hsub : subscript flow (((i / k : ℕ) : ℤ) + 1) = .ok (flow.getD (i / k + 1) 0) := by
        have := subscript_natCast flow (i / k + 1) hb
        push_cast at this
        exact this
      rw [if_pos hbs, hsub]
      simp only []
      rw [hcompl]
      simp only []
      rw [assignAt_natCast result i _ hires]
      simp only []
      obtain ⟨r, hr, hrlen, hrlow, hrhigh⟩ := hnext (result.set i
        (flow.getD (i / k) 0 * (1 - ((i % k : ℕ) : ℚ) / (k : ℚ))
          + flow.getD (i / k + 1) 0 * (((i % k : ℕ) : ℚ) / (k : ℚ)))) (by simp [hres])
      refine ⟨r, hr, hrlen, ?_, ?_⟩
      · intro j hj
        rw [hrlow j (by omega), getD_set_eq _ _ _ _ hires, if_neg (by omega)]
      · intro j hj1 hj2
        rcases Nat.eq_or_lt_of_le hj1 with he | hlt
        · subst he
          rw [hrlow i (by omega), getD_set_eq _ _ _ _ hires, if_pos rfl]
          exact hval _ (fun _ => rfl) (fun h => absurd hb h)
        · exact hrhigh j hlt hj2
    · have hbs : ¬ belowSize (((i / k : ℕ) : ℤ) + 1) flow.length := by
        intro h
        have := h.2
        exact hb (by exact_mod_cast this)
      rw [if_neg hbs]
      simp only []
      rw [hcompl]
      simp only []
      rw [assignAt_natCast result i _ hires]
      simp only []
      obtain ⟨r, hr, hrlen, hrlow, hrhigh⟩ := hnext (result.set i
        (flow.getD (i / k) 0 * (1 - ((i % k : ℕ) : ℚ) / (k : ℚ))
          + flow.getD (i / k) 0 * (((i % k : ℕ) : ℚ) / (k : ℚ)))) (by simp [hres])
      refine ⟨r, hr, hrlen, ?_, ?_⟩
      · intro j hj
        rw [hrlow j (by omega), getD_set_eq _ _ _ _ hires, if_neg (by omega)]
      · intro j hj1 hj2
        rcases Nat.eq_or_lt_of_le hj1 with he | hlt
        · subst he
          rw [hrlow i (by omega), getD_set_eq _ _ _ _ hires, if_pos rfl]
          exact hval _ (fun h => absurd h hb) (fun _ => rfl)
        · exact hrhigh j hlt hj2

theorem toSizeT_natCast (a : ℕ) : toSizeT (a : ℤ) = (a : ℤ) := by
  simp [toSizeT]

theorem truncate_stepLength (n' k : ℕ) (hk : 1 ≤ k) :
    truncate ((((n' : ℚ) + 1) * (k : ℚ) - 1) / ((n' : ℚ) + 1)) + 1 = (k : ℤ) := by
  have hn : (0 : ℚ) < (n' : ℚ) + 1 := by positivity
  have hkq : (1 : ℚ) ≤ (k : ℚ) := by exact_mod_cast hk
  have hnum : (0 : ℚ) ≤ ((n' : ℚ) + 1) * (k : ℚ) - 1 := by
    have : (0 : ℚ) ≤ (n' : ℚ) := Nat.cast_nonneg n'
    nlinarith
  have hx0 : (0 : ℚ) ≤ (((n' : ℚ) + 1) * (k : ℚ) - 1) / ((n' : ℚ) + 1) := div_nonneg hnum hn.le
  rw [truncate_of_nonneg hx0]
  have hfl : ⌊(((n' : ℚ) + 1) * (k : ℚ) - 1) / ((n' : ℚ) + 1)⌋ = (k : ℤ) - 1 := by
    rw [Int.floor_eq_iff]
    push_cast
    constructor
    · rw [le_div_iff₀ hn]
      have : (0 : ℚ) ≤ (n' : ℚ) := Nat.cast_nonneg n'
      nlinarith
    · rw [div_lt_iff₀ hn]
      nlinarith
  rw [hfl]
  ring

/-- The body of `stretchFlow` once the working length is known to be `(n - 1) * k + 1`: the
loop produces the interpolation with step `k`, which is reduced when the working length
differs from the target. -/
theorem stretchFlow_of_tempLength (flow : FlowCharacteristicsContainer) (n' k t : ℕ)
    (modifier : Option (ℚ → ℚ)) (hlen : flow.length = n' + 2) (hk : 1 ≤ k)
    (htn : flow.length ≤ t)
    (htemp : (if flow.length ≠ 1 ∧
          toSizeT ((t : ℤ) - (flow.length : ℤ)) % toSizeT ((flow.length : ℤ) - 1) ≠ 0 then
        ((flow.length : ℤ) - 1) * ((t : ℤ) - (flow.length : ℤ)) + 1
      else (t : ℤ)) = (((n' + 1) * k + 1 : ℕ) : ℤ)) :
    stretchFlow flow t modifier =
      match (if (n' + 1) * k + 1 ≠ t then reduceFlow (interpolation flow k) t
              else .ok (interpolation flow k)) with
      | .error e => .error e
      | .ok result2 =>
        match modifier with
        | some m => .ok (result2.map m)
        | none => .ok result2 := by
  have halloc : allocate (((n' + 1) * k + 1 : ℕ) : ℤ)
      = .ok (List.replicate ((n' + 1) * k + 1) 0) := by
    have h0 : (0 : ℤ) ≤ (((n' + 1) * k + 1 : ℕ) : ℤ) := by positivity
    simp only [allocate, h0, if_true, Int.toNat_ofNat]
  have hdiv : (if ((((flow.length : ℤ) - 2 + 1 : ℤ)) : ℚ) = 0 then INT_INDEFINITE
      else truncate ((((((n' + 1) * k + 1 : ℕ) : ℤ) - 2 : ℤ) : ℚ)
        / ((((flow.length : ℤ) - 2 + 1 : ℤ)) : ℚ)))
      = truncate ((((n' : ℚ) + 1) * (k : ℚ) - 1) / ((n' : ℚ) + 1)) := by
    have hne : ((((flow.length : ℤ) - 2 + 1 : ℤ)) : ℚ) ≠ 0 := by
      rw [hlen]
      push_cast
      have : (0 : ℚ) ≤ (n' : ℚ) := Nat.cast_nonneg n'
      linarith
    rw [if_neg hne]
    congr 1
    rw [hlen]
    push_cast
    ring
  obtain ⟨r, hr, hrlen, _, hrget⟩ := stretchFlowLoop_spec flow n' k hlen hk ((n' + 1) * k + 1) 0
    (List.replicate ((n' + 1) * k + 1) 0) (by simp) (by simp)
  simp only [Nat.zero_mod, Nat.zero_div, Nat.cast_zero, sub_zero] at hr
  have hreq : r = interpolation flow k := by
    unfold interpolation
    rw [hlen]
    exact list_eq_map_range r _ _ hrlen (fun j hj => hrget j (Nat.zero_le j) hj)
  have hsize : (toSizeT (((n' + 1) * k + 1 : ℕ) : ℤ) ≠ (t : ℤ)) ↔ ((n' + 1) * k + 1 ≠ t) := by
    rw [toSizeT_natCast]
    exact_mod_cast Iff.rfl
  unfold stretchFlow
  rw [if_neg (not_lt.mpr htn)]
  simp only []
  rw [htemp, halloc]
  simp only []
  rw [hdiv, truncate_stepLength n' k hk, hr]
  simp only [hsize, hreq]

theorem interpolate_block (flow : FlowCharacteristicsContainer) (k j r : ℕ) (hr : r < k) :
    interpolate flow k (j * k + r)
      = flow.getD j 0 + (flow.getD (j + 1) 0 - flow.getD j 0) * (r : ℚ) / (k : ℚ) := by
  have hk : 0 < k := by omega
  have hd : (j * k + r) / k = j := by
    rw [Nat.mul_comm, Nat.mul_add_div hk, Nat.div_eq_of_lt hr, Nat.add_zero]
  have hm : (j * k + r) % k = r := by
    rw [Nat.mul_comm, Nat.mul_add_mod, Nat.mod_eq_of_lt hr]
  unfold interpolate
  rw [hd, hm]

theorem sum_range_blocks (g : ℕ → ℚ) (k : ℕ) :
    ∀ J : ℕ, ∑ i in Finset.range (J * k), g i
      = ∑ j in Finset.range J, ∑ r in Finset.range k, g (j * k + r) := by
  intro J
  induction J with
  | zero => simp
  | succ J ih =>
    rw [Nat.succ_mul, Finset.sum_range_add, ih, Finset.sum_range_succ]

/-- Sum of the interpolation with step `k`: `k` times the sum of the source values, less
`(k - 1) / 2` times the two end values. -/
theorem interpolation_sum (flow : FlowCharacteristicsContainer) (n' k : ℕ)
    (hlen : flow.length = n' + 2) (hk : 1 ≤ k) :
    (interpolation flow k).sum
      = (k : ℚ) * flow.sum - ((k : ℚ) - 1) / 2 * (flow.getD 0 0 + flow.getD (n' + 1) 0) := by
  have hkq : (k : ℚ) ≠ 0 := by exact_mod_cast (by omega : k ≠ 0)
  have hS : ∑ j in Finset.range (n' + 1), flow.getD j 0 = flow.sum - flow.getD (n' + 1) 0 := by
    have := sum_range_getD flow
    rw [hlen, Finset.sum_range_succ] at this
    linarith
  have hblock : ∀ j, ∑ r in Finset.range k, interpolate flow k (j * k + r)
      = (k : ℚ) * flow.getD j 0
        + ((fun i => flow.getD i 0) (j + 1) - (fun i => flow.getD i 0) j) * (((k : ℚ) - 1) / 2) := by
    intro j
    rw [Finset.sum_congr rfl (fun r hr => interpolate_block flow k j r (Finset.mem_range.mp hr)),
      Finset.sum_add_distrib, Finset.sum_const, Finset.card_range, nsmul_eq_mul]
    have : ∀ r ∈ Finset.range k,
        (flow.getD (j + 1) 0 - flow.getD j 0) * (r : ℚ) / (k : ℚ)
          = (flow.getD (j + 1) 0 - flow.getD j 0) / (k : ℚ) * (r : ℚ) := by
      intro r _
      ring
    rw [Finset.sum_congr rfl this, ← Finset.mul_sum, sum_range_cast_id]
    field_simp
    ring
  have hlast : interpolate flow k ((n' + 1) * k) = flow.getD (n' + 1) 0 := by
    have := interpolate_block flow k (n' + 1) 0 (by omega)
    rw [Nat.add_zero] at this
    rw [this]
    simp
  have e : n' + 2 - 1 = n' + 1 := by omega
  unfold interpolation
  rw [hlen, e, sum_map_range, Finset.sum_range_succ, sum_range_blocks,
    Finset.sum_congr rfl (fun j _ => hblock j), Finset.sum_add_distrib, ← Finset.mul_sum,
    ← Finset.sum_mul, Finset.sum_range_sub (fun i => flow.getD i 0), hS, hlast]
  ring

theorem interpolation_length (flow : FlowCharacteristicsContainer) (k : ℕ) :
    (interpolation flow k).length = (flow.length - 1) * k + 1 := by
  simp [interpolation]

/-- When `(n - 1)` divides `targetLength - 1` the working length is the target length and
the result is the interpolation itself. -/
theorem stretchFlow_divisible (flow : FlowCharacteristicsContainer) (n' e : ℕ)
    (modifier : Option (ℚ → ℚ)) (hlen : flow.length = n' + 2) :
    stretchFlow flow ((n' + 1) * (e + 1) + 1) modifier =
      match modifier with
      | some m => .ok ((interpolation flow (e + 1)).map m)
      | none => .ok (interpolation flow (e + 1)) := by
  have htn : flow.length ≤ (n' + 1) * (e + 1) + 1 := by
    rw [hlen, Nat.mul_add, Nat.mul_one]
    omega
  have h1 : (((n' + 1) * (e + 1) + 1 : ℕ) : ℤ) - (flow.length : ℤ) = (((n' + 1) * e : ℕ) : ℤ) := by
    rw [hlen]
    push_cast
    ring
  have h2 : (flow.length : ℤ) - 1 = ((n' + 1 : ℕ) : ℤ) := by
    rw [hlen]
    push_cast
    ring
  have hmod : toSizeT ((((n' + 1) * (e + 1) + 1 : ℕ) : ℤ) - (flow.length : ℤ))
      % toSizeT ((flow.length : ℤ) - 1) = 0 := by
    rw [h1, h2, toSizeT_natCast, toSizeT_natCast, ← Int.natCast_mod, Nat.mul_mod_right]
    rfl
  rw [stretchFlow_of_tempLength flow n' (e + 1) _ modifier hlen (by omega) htn
    (by rw [if_neg (fun h => h.2 hmod)])]
  simp

/-- When `(n - 1)` does not divide `targetLength - n` the working length is
`(n - 1) * (targetLength - n) + 1` and the interpolation is reduced to the target length. -/
theorem stretchFlow_nondivisible (flow : FlowCharacteristicsContainer) (n' d : ℕ)
    (modifier : Option (ℚ → ℚ)) (hlen : flow.length = n' + 2) (hd : d % (n' + 1) ≠ 0) :
    stretchFlow flow (n' + 2 + d) modifier =
      match reduceFlow (interpolation flow d) (n' + 2 + d) with
      | .error e => .error e
      | .ok result2 =>
        match modifier with
        | some m => .ok (result2.map m)
        | none => .ok result2 := by
  have hd1 : 1 ≤ d := by
    rcases Nat.eq_zero_or_pos d with h | h
    · subst h
      simp at hd
    · exact h
  have hn1 : 1 ≤ n' := by
    rcases Nat.eq_zero_or_pos n' with h | h
    · subst h
      simp [Nat.mod_one] at hd
    · exact h
  have h1 : ((n' + 2 + d : ℕ) : ℤ) - (flow.length : ℤ) = ((d : ℕ) : ℤ) := by
    rw [hlen]
    push_cast
    ring
  have h2 : (flow.length : ℤ) - 1 = ((n' + 1 : ℕ) : ℤ) := by
    rw [hlen]
    push_cast
    ring
  have hmod : toSizeT (((n' + 2 + d : ℕ) : ℤ) - (flow.length : ℤ))
      % toSizeT ((flow.length : ℤ) - 1) ≠ 0 := by
    rw [h1, h2, toSizeT_natCast, toSizeT_natCast, ← Int.natCast_mod]
    exact_mod_cast hd
  have hne1 : flow.length ≠ 1 := by omega
  have hLt : (n' + 1) * d + 1 ≠ n' + 2 + d := by
    intro h
    have h3 : n' * d = n' + 1 := by
      have : (n' + 1) * d = n' * d + d := by ring
      omega
    have hdvd : n' ∣ 1 := by
      have : n' ∣ n' + 1 := ⟨d, h3.symm⟩
      exact (Nat.dvd_add_right (dvd_refl n')).mp this
    have hn' : n' = 1 := Nat.dvd_one.mp hdvd
    subst hn'
    have : d = 2 := by omega
    subst this
    simp at hd
  rw [stretchFlow_of_tempLength flow n' d _ modifier hlen hd1 (by omega)
    (by rw [if_pos ⟨hne1, hmod⟩, h1, h2]; push_cast; ring)]
  rw [if_pos hLt]

/-- Stretching a flow of `n ≥ 3` elements by one element: the working length is `n`, and
`reduceFlow` is asked to reduce `n` elements to `n + 1`. -/
theorem stretchFlow_by_one (flow : FlowCharacteristicsContainer) (modifier : Option (ℚ → ℚ))
    (hn : 3 ≤ flow.length) :
    stretchFlow flow (flow.length + 1) modifier = .error Fault.runtimeError := by
  obtain ⟨n', hn'⟩ := Nat.exists_eq_add_of_le hn
  have hlen : flow.length = (n' + 1) + 2 := by omega
  have hd : 1 % (n' + 1 + 1) ≠ 0 := by
    rw [Nat.mod_eq_of_lt (by omega)]
    omega
  have := stretchFlow_nondivisible flow (n' + 1) 1 modifier hlen hd
  rw [hlen, this]
  have hred : reduceFlow (interpolation flow 1) (n' + 1 + 2 + 1) = .error Fault.runtimeError := by
    unfold reduceFlow
    rw [if_pos (by rw [interpolation_length, hlen]; omega)]
  rw [hred]

theorem getD_map_range (L : ℕ) (g : ℕ → ℚ) (i : ℕ) (hi : i < L) :
    ((List.range L).map g).getD i 0 = g i := by
  simp [List.getD_eq_getElem?_getD, List.getElem?_map, List.getElem?_range hi]

theorem stretchFlow_example_3to9 :
    stretchFlow [1, 2, 3] 9 none = .ok [1, 5 / 4, 3 / 2, 7 / 4, 2, 9 / 4, 5 / 2, 11 / 4, 3] := by
  have h := stretchFlow_divisible [1, 2, 3] 1 3 none rfl
  simp only [] at h
  rw [show (1 + 1) * (3 + 1) + 1 = 9 from rfl] at h
  rw [h]
  simp only [interpolation, List.range_succ, List.range_zero, List.length_cons,
    List.length_nil]
  norm_num [interpolate]

theorem stretchFlow_example_123_to_4 :
    stretchFlow [1, 2, 3] 4 none = .error Fault.runtimeError :=
  stretchFlow_by_one [1, 2, 3] none (by simp)

/-- What `stretchFlow` returns whenever it returns: with working length `L = (n - 1) * k + 1`,
an array of `targetLength` elements whose sum is `targetLength / L` times the sum of
the interpolation with step `k`. -/
theorem stretchFlow_returns (flow : FlowCharacteristicsContainer) (n' t : ℕ)
    (hlen : flow.length = n' + 2) (htn : flow.length ≤ t)
    (hret : ¬ (3 ≤ flow.length ∧ t = flow.length + 1)) :
    ∃ (k : ℕ) (r : FlowCharacteristicsContainer), 1 ≤ k ∧ (k = 1 ↔ t = flow.length) ∧
      stretchFlow flow t none = .ok r ∧ r.length = t ∧
      r.sum = (t : ℚ) / (((n' : ℚ) + 1) * (k : ℚ) + 1)
        * ((k : ℚ) * flow.sum - ((k : ℚ) - 1) / 2 * (flow.getD 0 0 + flow.getD (n' + 1) 0)) := by
  obtain ⟨d, hd⟩ := Nat.exists_eq_add_of_le htn
  by_cases hdiv : d % (n' + 1) = 0
  · obtain ⟨e, he⟩ := Nat.dvd_of_mod_eq_zero hdiv
    have ht : t = (n' + 1) * (e + 1) + 1 := by
      rw [hd, hlen, he]
      ring
    refine ⟨e + 1, interpolation flow (e + 1), by omega, ?_, ?_, ?_, ?_⟩
    · constructor
      · intro h
        have h0 : e = 0 := by omega
        rw [ht, h0, hlen]
        omega
      · intro h
        rw [ht, hlen] at h
        have h1 : (n' + 1) * (e + 1) = (n' + 1) * e + (n' + 1) := by ring
        have h2 : (n' + 1) * e = 0 := by omega
        rcases Nat.mul_eq_zero.mp h2 with h3 | h3
        · omega
        · omega
    · rw [ht]
      exact stretchFlow_divisible flow n' e none hlen
    · rw [interpolation_length, hlen, ht]
      rfl
    · rw [interpolation_sum flow n' (e + 1) hlen (by omega), ht]
      have hpos : (0 : ℚ) < ((n' : ℚ) + 1) * ((e + 1 : ℕ) : ℚ) + 1 := by positivity
      push_cast
      push_cast at hpos
      field_simp
  · have hd1 : 1 ≤ d := by
      rcases Nat.eq_zero_or_pos d with h | h
      · subst h
        simp at hdiv
      · exact h
    have hn1 : 1 ≤ n' := by
      rcases Nat.eq_zero_or_pos n' with h | h
      · subst h
        simp [Nat.mod_one] at hdiv
      · exact h
    have hd2 : 2 ≤ d := by
      rcases Nat.lt_or_ge d 2 with h | h
      · exfalso
        apply hret
        constructor <;> omega
      · exact h
    have ht : t = n' + 2 + d := by rw [hd, hlen]
    have hL : t < (interpolation flow d).length := by
      rw [interpolation_length, hlen, ht]
      have h1 : (n' + 2 - 1) * d = n' * d + d := by
        rw [show n' + 2 - 1 = n' + 1 by omega]
        ring
      have h2 : 2 * n' ≤ n' * d := by
        rw [Nat.mul_comm 2 n']
        exact Nat.mul_le_mul_left n' hd2
      rcases Nat.eq_or_lt_of_le hn1 with h3 | h3
      · rw [← h3] at hdiv h1 ⊢
        have h4 : d ≠ 2 := by
          intro h5
          rw [h5] at hdiv
          exact hdiv rfl
        omega
      · omega
    obtain ⟨r, hr, hrlen, _, hrsum⟩ := reduceFlow_spec (interpolation flow d) t (by omega) hL
    refine ⟨d, r, hd1, ?_, ?_, hrlen, ?_⟩
    · constructor
      · intro h
        omega
      · intro h
        omega
    · rw [ht, stretchFlow_nondivisible flow n' d none hlen hdiv, ← ht, hr]
    · rw [hrsum, interpolation_sum flow n' d hlen hd1, interpolation_length, hlen]
      congr 2
      rw [show n' + 2 - 1 = n' + 1 by omega]
      push_cast
      ring

/-- C7 (the code throws when asked to stretch a flow of three or more elements by one):
`stretchFlow` throws whenever `targetLength < flow.length`, and for a flow of at least two
elements it returns exactly `targetLength` elements for every `targetLength ≥ flow.length`
except `targetLength = flow.length + 1` with `flow.length ≥ 3`; there, as for
`stretchFlow([1,2,3], 4)`, the working length is `flow.length`, smaller than the target,
and the closing `reduceFlow` throws. -/
theorem stretchFlow_throws_for_next_length :
    stretchFlow [1, 2, 3] 4 none = .error Fault.runtimeError ∧
    (∀ (flow : FlowCharacteristicsContainer) (modifier : Option (ℚ → ℚ)), 3 ≤ flow.length →
      stretchFlow flow (flow.length + 1) modifier = .error Fault.runtimeError) ∧
    (∀ (flow : FlowCharacteristicsContainer) (t : ℕ) (modifier : Option (ℚ → ℚ)),
      t < flow.length → stretchFlow flow t modifier = .error Fault.runtimeError) ∧
    (∀ (flow : FlowCharacteristicsContainer) (t : ℕ), 2 ≤ flow.length → flow.length ≤ t →
      ¬ (3 ≤ flow.length ∧ t = flow.length + 1) →
      ∃ r, stretchFlow flow t none = .ok r ∧ r.length = t) := by
  refine ⟨stretchFlow_example_123_to_4, stretchFlow_by_one, ?_, ?_⟩
  · intro flow t modifier h
    unfold stretchFlow
    rw [if_pos h]
  · intro flow t hn htn hret
    obtain ⟨n', hn'⟩ := Nat.exists_eq_add_of_le hn
    obtain ⟨k, r, _, _, hr, hrlen, _⟩ :=
      stretchFlow_returns flow n' t (by omega) htn hret
    exact ⟨r, hr, hrlen⟩

theorem take_set_succ (l : List ℚ) (i : ℕ) (v : ℚ) (hi : i < l.length) :
    (l.set i v).take (i + 1) = l.take i ++ [v] := by
  induction l generalizing i with
  | nil => simp at hi
  | cons a l ih =>
    cases i with
    | zero => simp
    | succ i =>
      simp only [List.length_cons] at hi
      simp only [List.set_cons_succ, List.take_succ_cons, List.cons_append]
      rw [ih i (by omega)]

/-- The loop of `stretchFlow` over a one-element flow with a negative `stepLength`: the
counter `countToNextStep` starts at `stepLength` and only decreases, so it never reaches
zero, and every position is filled with the only value of the flow. -/
theorem stretchFlowLoop_single (v : ℚ) (t : ℕ) (stepLength : ℤ) (hL : stepLength < 0) :
    ∀ (rem i : ℕ) (countToNextStep : ℤ) (result : FlowCharacteristicsContainer),
      i + rem = t → result.length = t → countToNextStep ≤ 0 →
      stretchFlowLoop [v] (t : ℤ) stepLength (i : ℤ) countToNextStep 0 result
        = .ok (result.take i ++ List.replicate rem v) := by
  intro rem
  induction rem with
  | zero =>
    intro i c result hi hres _
    have hnot : ¬ ((i : ℤ) < (t : ℤ)) := by
      have : ¬ (i < t) := by omega
      exact_mod_cast this
    rw [stretchFlowLoop, if_neg hnot, List.take_of_length_le (by omega)]
    simp
  | succ rem ih =>
    intro i c result hi hres hc
    have hcond : (i : ℤ) < (t : ℤ) := by exact_mod_cast (by omega : i < t)
    have hLq : (stepLength : ℚ) ≠ 0 := by exact_mod_cast hL.ne
    have hsub : subscript [v] 0 = .ok v := rfl
    have hnb : ¬ belowSize ((0 : ℤ) + 1) ([v] : FlowCharacteristicsContainer).length := by
      unfold belowSize
      simp
    have hassign : ∀ x : ℚ, assignAt result (i : ℤ) x = .ok (result.set i x) := by
      intro x
      unfold assignAt elementAt
      rw [if_pos (Int.natCast_nonneg i), Int.toNat_ofNat,
        List.getElem?_eq_getElem (by omega)]
    rw [stretchFlowLoop, if_pos hcond, hsub]
    simp only [hnb, if_false, hsub, fdiv, hLq, hassign]
    rw [if_neg (by omega)]
    have hcast : ((i : ℤ) + 1) = ((i + 1 : ℕ) : ℤ) := by push_cast; ring
    rw [hcast, ih (i + 1) (c - 1) _ (by omega) (by rw [List.length_set]; exact hres)
      (by omega)]
    have hv : v * (1 - ((stepLength - c : ℤ) : ℚ) / (stepLength : ℚ))
        + v * (((stepLength - c : ℤ) : ℚ) / (stepLength : ℚ)) = v := by ring
    rw [hv, take_set_succ result i v (by omega), List.append_assoc, List.replicate_succ]
    rfl

/-- For a one-element flow `[v]` and a target length `t ≥ 1`, `stretchFlow` returns `t`
copies of `v`: the divisor `insider + 1` of the quotient behind `stepLength` is zero, the
conversion of the quotient to `int` makes `stepLength` negative, and every position gets
`v * (1 - completion) + v * completion`. -/
theorem stretchFlow_singleton (v : ℚ) (t : ℕ) (ht : 1 ≤ t) :
    stretchFlow [v] t none = .ok (List.replicate t v) := by
  have hall : allocate (t : ℤ) = .ok (List.replicate t 0) := by
    unfold allocate
    rw [if_pos (Int.natCast_nonneg t), Int.toNat_ofNat]
  have hloop := stretchFlowLoop_single v t (INT_INDEFINITE + 1)
    (by unfold INT_INDEFINITE; norm_num) t 0 (INT_INDEFINITE + 1) (List.replicate t 0)
    (by omega) (by simp) (by unfold INT_INDEFINITE; norm_num)
  rw [Nat.cast_zero, List.take_zero, List.nil_append] at hloop
  unfold stretchFlow
  simp only [List.length_singleton]
  rw [if_neg (by omega)]
  simp only [ne_eq, not_true_eq_false, false_and, if_false, hall]
  have h0 : ((((1 : ℕ) : ℤ) - 2 + 1 : ℤ) : ℚ) = 0 := by norm_num
  rw [if_pos h0, hloop]
  simp [toSizeT]

/-- C9: for a flow of `n ≥ 2` elements and a target length `t ≥ n` with `t - 1` divisible by
`n - 1`, and `k = (t - 1) / (n - 1)`, `stretchFlow flow t` is the piecewise-linear
interpolation: `result[j*k + r] = flow[j] + (flow[j+1] - flow[j]) * r / k` for `j < n - 1`,
`r < k`, and `result[t-1] = flow[n-1]`; so `result[j*k] = flow[j]` for every `j < n`; and
`stretchFlow [1,2,3] 9 = [1,1.25,1.5,1.75,2,2.25,2.5,2.75,3]`. -/
theorem stretchFlow_interpolates (flow : FlowCharacteristicsContainer) (t : ℕ)
    (hn : 2 ≤ flow.length) (htn : flow.length ≤ t)
    (hdvd : (t - 1) % (flow.length - 1) = 0) :
    (∃ result, stretchFlow flow t none = .ok result ∧ result.length = t ∧
      (∀ j r, j < flow.length - 1 → r < (t - 1) / (flow.length - 1) →
        result.getD (j * ((t - 1) / (flow.length - 1)) + r) 0
          = flow.getD j 0 + (flow.getD (j + 1) 0 - flow.getD j 0) * (r : ℚ)
              / (((t - 1) / (flow.length - 1) : ℕ) : ℚ)) ∧
      result.getD (t - 1) 0 = flow.getD (flow.length - 1) 0 ∧
      (∀ j, j < flow.length →
        result.getD (j * ((t - 1) / (flow.length - 1))) 0 = flow.getD j 0)) ∧
    stretchFlow [1, 2, 3] 9 none = .ok [1, 5 / 4, 3 / 2, 7 / 4, 2, 9 / 4, 5 / 2, 11 / 4, 3] := by
  refine ⟨?_, stretchFlow_example_3to9⟩
  obtain ⟨n', hn'⟩ := Nat.exists_eq_add_of_le hn
  have hlen : flow.length = n' + 2 := by omega
  have hlast : flow.length - 1 = n' + 1 := by omega
  rw [hlast] at hdvd ⊢
  obtain ⟨k, hk⟩ := Nat.dvd_of_mod_eq_zero hdvd
  have hkpos : 1 ≤ k := by
    rcases Nat.eq_zero_or_pos k with h | h
    · rw [h] at hk
      omega
    · exact h
  obtain ⟨e, he⟩ := Nat.exists_eq_add_of_le hkpos
  have hke : k = e + 1 := by omega
  have hq : (t - 1) / (n' + 1) = k := by
    rw [hk]
    exact Nat.mul_div_cancel_left k (by omega)
  have ht : t = (n' + 1) * (e + 1) + 1 := by
    rw [← hke]
    omega
  rw [hq]
  have hL : (n' + 2 - 1) * k + 1 = t := by
    rw [show n' + 2 - 1 = n' + 1 by omega, ht, hke]
  have hget : ∀ i, i < t → (interpolation flow k).getD i 0 = interpolate flow k i := by
    intro i hi
    unfold interpolation
    rw [hlen, hL]
    exact getD_map_range t _ i hi
  have hmul : ∀ j, j < n' + 1 → ∀ r, r < k → j * k + r < t := by
    intro j hj r hr
    have h1 : j * k + k ≤ (n' + 1) * k := by
      have : (j + 1) * k ≤ (n' + 1) * k := Nat.mul_le_mul_right k (by omega)
      rw [Nat.add_mul, Nat.one_mul] at this
      exact this
    rw [ht, ← hke]
    omega
  refine ⟨interpolation flow k, ?_, ?_, ?_, ?_, ?_⟩
  · rw [ht, hke]
    exact stretchFlow_divisible flow n' e none hlen
  · rw [interpolation_length, hlen, hL]
  · intro j r hj hr
    rw [hget _ (hmul j hj r hr), interpolate_block flow k j r hr]
  · have h1 : t - 1 = (n' + 1) * k + 0 := by
      rw [ht, ← hke]
      omega
    rw [hget _ (by omega), h1, interpolate_block flow k (n' + 1) 0 (by omega)]
    simp
  · intro j hj
    rcases Nat.lt_or_ge j (n' + 1) with h1 | h1
    · have := hmul j h1 0 (by omega)
      rw [Nat.add_zero] at this
      rw [hget _ this]
      have hb := interpolate_block flow k j 0 (by omega)
      rw [Nat.add_zero] at hb
      rw [hb]
      simp
    · have hj' : j = n' + 1 := by omega
      have h2 : j * k < t := by
        rw [hj', ht, ← hke]
        omega
      rw [hget _ h2]
      have hb := interpolate_block flow k j 0 (by omega)
      rw [Nat.add_zero] at hb
      rw [hb]
      simp

theorem stretchFlow_interpolates_witness :
    2 ≤ ([1, 2] : FlowCharacteristicsContainer).length ∧
    ([1, 2] : FlowCharacteristicsContainer).length ≤ 8 ∧
    (8 - 1) % (([1, 2] : FlowCharacteristicsContainer).length - 1) = 0 ∧
    ∃ result, stretchFlow [1, 2] 8 none = .ok result ∧ result.length = 8 ∧
      result.getD (8 - 1) 0
        = ([1, 2] : FlowCharacteristicsContainer).getD
            (([1, 2] : FlowCharacteristicsContainer).length - 1) 0 :=
  ⟨by simp, by simp, by simp,
    (stretchFlow_interpolates [1, 2] 8 (by simp) (by simp) (by simp)).1.imp
      (fun _ h => ⟨h.1, h.2.1, h.2.2.2.1⟩)⟩

/-! ## Flow: scaling and doubling the characteristics -/

theorem Flow_create_scale (c : FlowCharacteristicsContainer) (k : ℚ) (hk : 0 < k) :
    Flow.create (c.map (fun v => k * v)) = Flow.create c := by
  have hneg : (∃ v ∈ c.map (fun v => k * v), v < 0) ↔ (∃ v ∈ c, v < 0) := by
    constructor
    · rintro ⟨v, hv, hlt⟩
      obtain ⟨w, hw, rfl⟩ := List.mem_map.mp hv
      exact ⟨w, hw, by nlinarith⟩
    · rintro ⟨w, hw, hlt⟩
      exact ⟨k * w, List.mem_map.mpr ⟨w, hw, rfl⟩, by nlinarith⟩
  have hsum : (c.map (fun v => k * v)).sum = k * c.sum := by
    have := List.sum_map_mul_left c (fun b => b) k
    simpa using this
  have hzero : (c.map (fun v => k * v)).sum = 0 ↔ c.sum = 0 := by
    rw [hsum]
    constructor
    · intro h
      rcases mul_eq_zero.mp h with h1 | h1
      · exact absurd h1 (ne_of_gt hk)
      · exact h1
    · intro h
      rw [h, mul_zero]
  rw [Flow_create_eq, Flow_create_eq]
  by_cases hbad : (∃ v ∈ c, v < 0) ∨ c.sum = 0
  · rw [if_pos hbad, if_pos (by rw [hneg, hzero]; exact hbad)]
  · rw [if_neg hbad, if_neg (by rw [hneg, hzero]; exact hbad)]
    have hs : c.sum ≠ 0 := fun h0 => hbad (Or.inr h0)
    congr 2
    rw [List.map_map, hsum, List.length_map]
    apply List.map_congr_left
    intro v _
    simp only [Function.comp]
    field_simp
    ring

/-- C18: for characteristics `c` accepted by the constructor and a factor `k > 0`, the Flow
built from `k * c` is the Flow built from `c`, bucket for bucket; `[1,2,3,4]` and
`[10,20,30,40]` give the same Flow. -/
theorem Flow_create_scale_invariant (c : FlowCharacteristicsContainer) (flow : Flow)
    (h : Flow.create c = .ok flow) (k : ℚ) (hk : 0 < k) :
    Flow.create (c.map (fun v => k * v)) = .ok flow ∧
    (∃ f, Flow.create [1, 2, 3, 4] = .ok f ∧ Flow.create [10, 20, 30, 40] = .ok f
      ∧ f.getFlowCharacteristics = [40, 80, 120, 160]) := by
  refine ⟨by rw [Flow_create_scale c k hk, h], ⟨[40, 80, 120, 160]⟩, ?_, ?_, rfl⟩
  · rw [Flow_create_eq]
    norm_num
  · rw [Flow_create_eq]
    norm_num

theorem Flow_create_scale_invariant_witness :
    Flow.create [1, 2, 3] = .ok ⟨[50, 100, 150]⟩ ∧ (0 : ℚ) < 7 ∧
    Flow.create (([1, 2, 3] : FlowCharacteristicsContainer).map (fun v => 7 * v))
      = .ok ⟨[50, 100, 150]⟩ :=
  ⟨Flow_create_example_123, by norm_num,
    (Flow_create_scale_invariant [1, 2, 3] ⟨[50, 100, 150]⟩ Flow_create_example_123 7
      (by norm_num)).1⟩

theorem doubled_length (c : FlowCharacteristicsContainer) :
    (doubled c).length = 2 * c.length := by
  induction c with
  | nil => rfl
  | cons v rest ih =>
    simp only [doubled, List.length_cons, ih]
    ring

theorem doubled_sum (c : FlowCharacteristicsContainer) : (doubled c).sum = 2 * c.sum := by
  induction c with
  | nil => simp [doubled]
  | cons v rest ih =>
    simp only [doubled, List.sum_cons, ih]
    ring

theorem doubled_mem (c : FlowCharacteristicsContainer) (v : ℚ) : v ∈ doubled c ↔ v ∈ c := by
  induction c with
  | nil => simp [doubled]
  | cons w rest ih => simp [doubled, ih]

theorem doubled_map (c : FlowCharacteristicsContainer) (g : ℚ → ℚ) :
    (doubled c).map g = doubled (c.map g) := by
  induction c with
  | nil => rfl
  | cons w rest ih => simp [doubled, ih]

theorem sum_range_doubled (B : FlowCharacteristicsContainer) :
    ∀ f : ℕ → ℚ, ∑ j in Finset.range (2 * B.length), (doubled B).getD j 0 * f j
      = ∑ i in Finset.range B.length, B.getD i 0 * (f (2 * i) + f (2 * i + 1)) := by
  induction B with
  | nil => intro f; simp
  | cons v rest ih =>
    intro f
    have e : 2 * (v :: rest).length = 2 * rest.length + 1 + 1 := by
      simp only [List.length_cons]
      ring
    rw [e, Finset.sum_range_succ', Finset.sum_range_succ', List.length_cons,
      Finset.sum_range_succ']
    simp only [doubled, List.getD_cons_succ, List.getD_cons_zero]
    rw [ih (fun j => f (j + 1 + 1))]
    have hc : ∀ i ∈ Finset.range rest.length,
        rest.getD i 0 * (f (2 * i + 1 + 1) + f (2 * i + 1 + 1 + 1))
          = rest.getD i 0 * (f (2 * (i + 1)) + f (2 * (i + 1) + 1)) := by
      intro i _
      rw [show 2 * (i + 1) = 2 * i + 1 + 1 by ring]
    rw [Finset.sum_congr rfl hc]
    simp only [Nat.mul_zero, Nat.zero_add]
    ring

theorem overlap_doubled (a b : ℚ) (i : ℕ) (hab : a ≤ b) :
    overlap (2 * a) (2 * b) (2 * i) + overlap (2 * a) (2 * b) (2 * i + 1)
      = 2 * overlap a b i := by
  rw [overlap_eq_clamp_sub (2 * a) (2 * b) (2 * i) (by linarith),
    overlap_eq_clamp_sub (2 * a) (2 * b) (2 * i + 1) (by linarith),
    overlap_eq_clamp_sub a b i hab]
  have key : ∀ x : ℚ,
      min (max (2 * x) (((2 * i : ℕ)) : ℚ)) ((((2 * i : ℕ)) : ℚ) + 1)
        + min (max (2 * x) (((2 * i + 1 : ℕ)) : ℚ)) ((((2 * i + 1 : ℕ)) : ℚ) + 1)
      = 2 * min (max x (i : ℚ)) ((i : ℚ) + 1) + (2 * (i : ℚ) + 1) := by
    intro x
    push_cast
    simp only [max_def, min_def]
    split_ifs <;> linarith
  linarith [key a, key b]

theorem Flow_create_doubled (c : FlowCharacteristicsContainer) (flow : Flow)
    (h : Flow.create c = .ok flow) :
    Flow.create (doubled c) = .ok ⟨doubled flow.buckets⟩ := by
  rw [Flow_create_eq] at h ⊢
  split_ifs at h with hbad
  have hs : c.sum ≠ 0 := fun h0 => hbad (Or.inr h0)
  injection h with h
  subst h
  have hbad2 : ¬ ((∃ v ∈ doubled c, v < 0) ∨ (doubled c).sum = 0) := by
    rintro (⟨v, hv, hlt⟩ | h0)
    · exact hbad (Or.inl ⟨v, (doubled_mem c v).mp hv, hlt⟩)
    · rw [doubled_sum] at h0
      exact hs (by linarith)
  rw [if_neg hbad2]
  simp only []
  rw [doubled_map, doubled_length, doubled_sum]
  congr 3
  apply List.map_congr_left
  intro v _
  push_cast
  field_simp
  ring

/-- Step size of the Flow whose buckets are those of `flow`, each repeated twice. -/
theorem getStepSize_doubled_buckets (flow : Flow) (hn : 1 ≤ flow.buckets.length) (d : ℚ)
    (s : ℤ) (hs : 1 ≤ s) (x : ℚ) (hx0 : 0 ≤ x) (hx1 : x + 1 / (s : ℚ) ≤ 1) :
    (Flow.mk (doubled flow.buckets)).getStepSize d s x = flow.getStepSize d s x := by
  have hn2 : 1 ≤ (Flow.mk (doubled flow.buckets)).buckets.length := by
    simp only [doubled_length]
    omega
  rw [getStepSize_eq flow hn d s hs x hx0 hx1, getStepSize_eq _ hn2 d s hs x hx0 hx1]
  simp only [doubled_length]
  rw [sum_range_doubled]
  have hsq : (0 : ℚ) < (s : ℚ) := by exact_mod_cast (by omega : (0 : ℤ) < s)
  have hnq : (0 : ℚ) < (flow.buckets.length : ℚ) := by exact_mod_cast hn
  have hinv : (0 : ℚ) ≤ 1 / (s : ℚ) := by positivity
  have hab : x * (flow.buckets.length : ℚ) ≤ (x + 1 / (s : ℚ)) * (flow.buckets.length : ℚ) := by
    nlinarith
  have hc : ∀ i ∈ Finset.range flow.buckets.length,
      flow.buckets.getD i 0
        * (overlap (x * ((2 * flow.buckets.length : ℕ) : ℚ))
              ((x + 1 / (s : ℚ)) * ((2 * flow.buckets.length : ℕ) : ℚ)) (2 * i)
            + overlap (x * ((2 * flow.buckets.length : ℕ) : ℚ))
              ((x + 1 / (s : ℚ)) * ((2 * flow.buckets.length : ℕ) : ℚ)) (2 * i + 1))
      = 2 * (flow.buckets.getD i 0
          * overlap (x * (flow.buckets.length : ℚ))
              ((x + 1 / (s : ℚ)) * (flow.buckets.length : ℚ)) i) := by
    intro i _
    have e1 : x * ((2 * flow.buckets.length : ℕ) : ℚ) = 2 * (x * (flow.buckets.length : ℚ)) := by
      push_cast
      ring
    have e2 : (x + 1 / (s : ℚ)) * ((2 * flow.buckets.length : ℕ) : ℚ)
        = 2 * ((x + 1 / (s : ℚ)) * (flow.buckets.length : ℚ)) := by
      push_cast
      ring
    rw [e1, e2, overlap_doubled _ _ i hab]
    ring
  rw [Finset.sum_congr rfl hc, ← Finset.mul_sum]
  congr 1
  push_cast
  field_simp
  ring

/-- C19: for characteristics `c` accepted by the constructor, the Flow built from `c` with
every element repeated twice in a row is accepted too and returns the same
`getStepSize d s x` for every distance `d`, step count `s ≥ 1` and completion `x` with
`0 ≤ x` and `x + 1/s ≤ 1`; so does the Flow of `[10,10,20,20,30,30,40,40]` for `[1,2,3,4]`. -/
theorem getStepSize_doubled (c : FlowCharacteristicsContainer) (flow : Flow)
    (h : Flow.create c = .ok flow) (d : ℚ) (s : ℤ) (hs : 1 ≤ s) (x : ℚ)
    (hx0 : 0 ≤ x) (hx1 : x + 1 / (s : ℚ) ≤ 1) :
    (∃ flow2, Flow.create (doubled c) = .ok flow2 ∧
      flow2.getStepSize d s x = flow.getStepSize d s x) ∧
    (∃ f f2, Flow.create [1, 2, 3, 4] = .ok f ∧
      Flow.create [10, 10, 20, 20, 30, 30, 40, 40] = .ok f2 ∧
      f2.getStepSize d s x = f.getStepSize d s x) := by
  have h1234 : Flow.create [1, 2, 3, 4] = .ok ⟨[40, 80, 120, 160]⟩ := by
    rw [Flow_create_eq]
    norm_num
  have hscaled : Flow.create (doubled (([1, 2, 3, 4] : FlowCharacteristicsContainer).map
      (fun v => 10 * v))) = .ok ⟨doubled [40, 80, 120, 160]⟩ :=
    Flow_create_doubled _ _ (by rw [Flow_create_scale _ 10 (by norm_num)]; exact h1234)
  refine ⟨⟨_, Flow_create_doubled c flow h, ?_⟩,
    ⟨⟨[40, 80, 120, 160]⟩, ⟨doubled [40, 80, 120, 160]⟩, h1234, ?_, ?_⟩⟩
  · exact getStepSize_doubled_buckets flow (Flow_create_ok c flow h).1 d s hs x hx0 hx1
  · have e : doubled (([1, 2, 3, 4] : FlowCharacteristicsContainer).map (fun v => 10 * v))
        = [10, 10, 20, 20, 30, 30, 40, 40] := by
      norm_num [doubled]
    rw [← e]
    exact hscaled
  · exact getStepSize_doubled_buckets ⟨[40, 80, 120, 160]⟩ (by simp) d s hs x hx0 hx1

theorem getStepSize_doubled_witness :
    Flow.create [1, 2, 3] = .ok ⟨[50, 100, 150]⟩ ∧ (1 : ℤ) ≤ 5 ∧ (0 : ℚ) ≤ 1 / 5 ∧
    (1 / 5 : ℚ) + 1 / ((5 : ℤ) : ℚ) ≤ 1 ∧
    ∃ flow2, Flow.create (doubled [1, 2, 3]) = .ok flow2 ∧
      flow2.getStepSize 100 5 (1 / 5) = (Flow.mk [50, 100, 150]).getStepSize 100 5 (1 / 5) :=
  ⟨Flow_create_example_123, by norm_num, by norm_num, by norm_num,
    (getStepSize_doubled [1, 2, 3] ⟨[50, 100, 150]⟩ Flow_create_example_123 100 5
      (by norm_num) (1 / 5) (by norm_num) (by norm_num)).1⟩

/-! ## FlowUtils: the modifier of stretchFlow -/

/-- The modifier is the last thing `stretchFlow` does: it is mapped over the array that the
call without modifier returns. -/
theorem stretchFlow_some_eq (flow : FlowCharacteristicsContainer) (t : ℕ) (m : ℚ → ℚ) :
    stretchFlow flow t (some m)
      = match stretchFlow flow t none with
        | .error e => .error e
        | .ok r => .ok (r.map m) := by
  unfold stretchFlow
  split_ifs
  · rfl
  · simp only []
    cases allocate _ with
    | error e => rfl
    | ok result0 =>
      simp only []
      cases stretchFlowLoop _ _ _ _ _ _ _ with
      | error e => rfl
      | ok result1 =>
        simp only []
        split <;> rfl

theorem list_eq_of_length_six (r : FlowCharacteristicsContainer) (h : r.length = 6) :
    r = [r.getD 0 0, r.getD 1 0, r.getD 2 0, r.getD 3 0, r.getD 4 0, r.getD 5 0] := by
  match r, h with
  | [a, b, c, d, e, f], _ => rfl

theorem stretchFlow_example_3to6 :
    stretchFlow [1, 2, 3] 6 none = .ok [22 / 21, 10 / 7, 38 / 21, 46 / 21, 18 / 7, 62 / 21] := by
  have h := stretchFlow_nondivisible [1, 2, 3] 1 3 none rfl (by decide)
  simp only [] at h
  rw [show 1 + 2 + 3 = 6 from rfl] at h
  have hi : interpolation [1, 2, 3] 3 = [1, 4 / 3, 5 / 3, 2, 7 / 3, 8 / 3, 3] := by
    simp only [interpolation, List.range_succ, List.range_zero, List.length_cons,
      List.length_nil]
    norm_num [interpolate]
  rw [hi] at h
  obtain ⟨r, hr, hlen, hget, _⟩ :=
    reduceFlow_spec [1, 4 / 3, 5 / 3, 2, 7 / 3, 8 / 3, 3] 6 (by norm_num) (by simp)
  rw [hr] at h
  rw [h, list_eq_of_length_six r hlen, hget 0 (by norm_num), hget 1 (by norm_num),
    hget 2 (by norm_num), hget 3 (by norm_num), hget 4 (by norm_num), hget 5 (by norm_num)]
  simp only [List.length_cons, List.length_nil, Finset.sum_range_succ, Finset.sum_range_zero,
    overlap]
  norm_num

/-- C20: `stretchFlow flow t modifier` is the modifier applied element by element to what
`stretchFlow flow t` returns, so the modifier sees the final values, after any reduce step;
it returns exactly when the call without modifier returns. Doubling `[1,2,3]` to 5 gives
`[2,3,4,5,6]`; flooring `[1,2,3]` to 6 gives `[1,1,1,2,2,2]`. -/
theorem stretchFlow_modifier_applied_last :
    (∀ (flow : FlowCharacteristicsContainer) (t : ℕ) (m : ℚ → ℚ),
      stretchFlow flow t (some m)
        = match stretchFlow flow t none with
          | .error e => .error e
          | .ok r => .ok (r.map m)) ∧
    stretchFlow [1, 2, 3] 5 (some (fun d => d * 2)) = .ok [2, 3, 4, 5, 6] ∧
    stretchFlow [1, 2, 3] 6 (some (fun d => ((⌊d⌋ : ℤ) : ℚ))) = .ok [1, 1, 1, 2, 2, 2] := by
  refine ⟨stretchFlow_some_eq, ?_, ?_⟩
  · have h := stretchFlow_divisible [1, 2, 3] 1 1 none rfl
    simp only [] at h
    rw [show (1 + 1) * (1 + 1) + 1 = 5 from rfl] at h
    rw [stretchFlow_some_eq, h]
    simp only [interpolation, List.range_succ, List.range_zero, List.length_cons,
      List.length_nil]
    norm_num [interpolate]
  · rw [stretchFlow_some_eq, stretchFlow_example_3to6]
    have f1 : ⌊(22 / 21 : ℚ)⌋ = 1 := by rw [Int.floor_eq_iff]; norm_num
    have f2 : ⌊(10 / 7 : ℚ)⌋ = 1 := by rw [Int.floor_eq_iff]; norm_num
    have f3 : ⌊(38 / 21 : ℚ)⌋ = 1 := by rw [Int.floor_eq_iff]; norm_num
    have f4 : ⌊(46 / 21 : ℚ)⌋ = 2 := by rw [Int.floor_eq_iff]; norm_num
    have f5 : ⌊(18 / 7 : ℚ)⌋ = 2 := by rw [Int.floor_eq_iff]; norm_num
    have f6 : ⌊(62 / 21 : ℚ)⌋ = 2 := by rw [Int.floor_eq_iff]; norm_num
    simp only [List.map_cons, List.map_nil, f1, f2, f3, f4, f5, f6]
    norm_num

/-! ## MovementFactory: the plan -/

theorem chebyshev_isHypot : IsHypot chebyshev := by
  constructor
  · intro x y
    exact le_refl _
  · intro x y
    unfold chebyshev
    exact max_le (le_add_of_nonneg_right (abs_nonneg y)) (le_add_of_nonneg_left (abs_nonneg x))

/-- A length within the bounds of `IsHypot` is positive exactly off the origin. -/
theorem IsHypot.pos_iff {hypot : ℚ → ℚ → ℚ} (hh : IsHypot hypot) (x y : ℚ) :
    hypot x y > 0 ↔ x ≠ 0 ∨ y ≠ 0 := by
  constructor
  · intro h
    by_contra hc
    push_neg at hc
    have := hh.upper x y
    rw [hc.1, hc.2] at this h
    simp at this
    linarith
  · intro h
    have hl := hh.lower x y
    rcases h with h | h
    · have : 0 < |x| := abs_pos.mpr h
      have : |x| ≤ max |x| |y| := le_max_left _ _
      linarith
    · have : 0 < |y| := abs_pos.mpr h
      have : |y| ≤ max |x| |y| := le_max_right _ _
      linarith

theorem IsHypot.zero {hypot : ℚ → ℚ → ℚ} (hh : IsHypot hypot) : hypot 0 0 = 0 := by
  have h1 := hh.upper 0 0
  have h2 := hh.lower 0 0
  simp at h1 h2
  linarith

theorem pruneLoop_fst (xDest yDest : ℤ) (l : List Movement) (last : ℤ × ℤ) :
    (pruneLoop xDest yDest l last).1 = l.dropWhile (hitsDestination xDest yDest) := by
  induction l generalizing last with
  | nil => simp [pruneLoop]
  | cons m rest ih =>
    unfold pruneLoop
    by_cases h : m.destX = xDest ∧ m.destY = yDest
    · rw [if_pos h, ih]
      simp [List.dropWhile, hitsDestination, h]
    · rw [if_neg h]
      simp [List.dropWhile, hitsDestination, h]

/-- The plan for a non-zero overshoot count, in terms of the overshoot loop and the pruning
loop. -/
theorem createMovements_of_overshoots {σ : Type} (factory : MovementFactory σ)
    (hypot : ℚ → ℚ → ℚ) (current : Point ℤ) (s : σ)
    (flowTime : (Option Flow × time_type) × σ)
    (hft : flowTime = factory.nature.getFlowWithTime
      (hypot ((factory.xDest - current.x : ℤ) : ℚ) ((factory.yDest - current.y : ℤ) : ℚ)) s)
    (overshoots : ℕ × σ)
    (hov : overshoots = factory.nature.overshootManager.getOvershoots flowTime.1.1
      flowTime.1.2
      (hypot ((factory.xDest - current.x : ℤ) : ℚ) ((factory.yDest - current.y : ℤ) : ℚ))
      flowTime.2)
    (h : overshoots.1 ≠ 0) (st : PlanState σ)
    (hst : st = factory.overshootLoop hypot overshoots.1
      ⟨[], current.x, current.y, flowTime.1.2, overshoots.2⟩)
    (pruned : List Movement × (ℤ × ℤ))
    (hpr : pruned = pruneLoop factory.xDest factory.yDest st.movements.reverse
      (st.lastMousePositionX, st.lastMousePositionY))
    (final : (Option Flow × time_type) × σ)
    (hfin : final = factory.nature.getFlowWithTime
      (hypot ((factory.xDest - pruned.2.1 : ℤ) : ℚ) ((factory.yDest - pruned.2.2 : ℤ) : ℚ))
      st.world) :
    factory.createMovements hypot current s
      = (pruned.1.reverse ++ [⟨factory.xDest, factory.yDest,
          hypot ((factory.xDest - pruned.2.1 : ℤ) : ℚ) ((factory.yDest - pruned.2.2 : ℤ) : ℚ),
          factory.xDest - pruned.2.1, factory.yDest - pruned.2.2,
          (factory.nature.overshootManager.deriveNextMouseMovementTimeMs final.1.2 0
            final.2).1, final.1.1⟩],
        (factory.nature.overshootManager.deriveNextMouseMovementTimeMs final.1.2 0
            final.2).2) := by
  subst hft hov hst hpr hfin
  unfold MovementFactory.createMovements
  simp only []
  rw [if_neg h]

/-- C11: when the overshoot policy returns 0 overshoots, `createMovements` returns exactly
one Movement: it ends on `(xDest, yDest)`, its axis distances are `xDest - current.x` and
`yDest - current.y`, its distance is their hypot, and its time and flow are the ones the
speed provider returned for that distance, with no duration derived. -/
theorem createMovements_zero_overshoots {σ : Type} (factory : MovementFactory σ)
    (hypot : ℚ → ℚ → ℚ) (current : Point ℤ) (s : σ)
    (flowTime : (Option Flow × time_type) × σ)
    (hft : flowTime = factory.nature.getFlowWithTime
      (hypot ((factory.xDest - current.x : ℤ) : ℚ) ((factory.yDest - current.y : ℤ) : ℚ)) s)
    (h : (factory.nature.overshootManager.getOvershoots flowTime.1.1 flowTime.1.2
      (hypot ((factory.xDest - current.x : ℤ) : ℚ) ((factory.yDest - current.y : ℤ) : ℚ))
      flowTime.2).1 = 0) :
    (factory.createMovements hypot current s).1
      = [⟨factory.xDest, factory.yDest,
          hypot ((factory.xDest - current.x : ℤ) : ℚ) ((factory.yDest - current.y : ℤ) : ℚ),
          factory.xDest - current.x, factory.yDest - current.y,
          flowTime.1.2, flowTime.1.1⟩] := by
  subst hft
  unfold MovementFactory.createMovements
  simp only []
  rw [if_pos h]

theorem createMovements_zero_overshoots_witness :
    ((MovementFactory.create (movementFactoryTestNature (NewMockNature chebyshev 0) 100
        NoOvershootManager) 50 51 (MockWorld.initial [])).1.createMovements chebyshev
      ⟨100, 100⟩ (MockWorld.initial [])).1
      = [⟨50, 51, chebyshev ((50 - 100 : ℤ) : ℚ) ((51 - 100 : ℤ) : ℚ), 50 - 100, 51 - 100,
          100, some ⟨[100]⟩⟩] :=
  createMovements_zero_overshoots
    (MovementFactory.create (movementFactoryTestNature (NewMockNature chebyshev 0) 100
        NoOvershootManager) 50 51 (MockWorld.initial [])).1 chebyshev ⟨100, 100⟩
    (MockWorld.initial []) ((some ⟨[100]⟩, 100), MockWorld.initial []) rfl rfl

/-- One pass of the overshoot loop, for a length within the bounds of `IsHypot`: a movement
is emitted exactly when the clamped overshoot target differs from the last planned point. -/
theorem overshootLoop_succ {σ : Type} (factory : MovementFactory σ) {hypot : ℚ → ℚ → ℚ}
    (hh : IsHypot hypot) (i : ℕ) (st : PlanState σ)
    (overshoot : Point ℤ × σ)
    (hov : overshoot = factory.nature.overshootManager.getOvershootAmount
      ((factory.xDest - st.lastMousePositionX : ℤ) : ℚ)
      ((factory.yDest - st.lastMousePositionY : ℤ) : ℚ) st.mouseMovementMs (i + 1) st.world)
    (cx cy : ℤ) (hcx : cx = factory.limitByScreenWidth (factory.xDest + overshoot.1.x))
    (hcy : cy = factory.limitByScreenHeight (factory.yDest + overshoot.1.y)) :
    factory.overshootLoop hypot (i + 1) st
      = if cx = st.lastMousePositionX ∧ cy = st.lastMousePositionY then
          factory.overshootLoop hypot i
            ⟨st.movements, st.lastMousePositionX, st.lastMousePositionY, st.mouseMovementMs,
              overshoot.2⟩
        else
          factory.overshootLoop hypot i
            ⟨st.movements ++ [⟨cx, cy,
                hypot ((cx - st.lastMousePositionX : ℤ) : ℚ)
                  ((cy - st.lastMousePositionY : ℤ) : ℚ),
                cx - st.lastMousePositionX, cy - st.lastMousePositionY, st.mouseMovementMs,
                (factory.nature.getFlowWithTime
                  (hypot ((cx - st.lastMousePositionX : ℤ) : ℚ)
                    ((cy - st.lastMousePositionY : ℤ) : ℚ)) overshoot.2).1.1⟩],
              cx, cy,
              (factory.nature.overshootManager.deriveNextMouseMovementTimeMs
                st.mouseMovementMs i
                (factory.nature.getFlowWithTime
                  (hypot ((cx - st.lastMousePositionX : ℤ) : ℚ)
                    ((cy - st.lastMousePositionY : ℤ) : ℚ)) overshoot.2).2).1,
              (factory.nature.overshootManager.deriveNextMouseMovementTimeMs
                st.mouseMovementMs i
                (factory.nature.getFlowWithTime
                  (hypot ((cx - st.lastMousePositionX : ℤ) : ℚ)
                    ((cy - st.lastMousePositionY : ℤ) : ℚ)) overshoot.2).2).2⟩ := by
  subst hov hcx hcy
  rw [MovementFactory.overshootLoop]
  simp only []
  have hiff := hh.pos_iff
    ((factory.limitByScreenWidth (factory.xDest +
      (factory.nature.overshootManager.getOvershootAmount
        ((factory.xDest - st.lastMousePositionX : ℤ) : ℚ)
        ((factory.yDest - st.lastMousePositionY : ℤ) : ℚ) st.mouseMovementMs (i + 1)
        st.world).1.x) - st.lastMousePositionX : ℤ) : ℚ)
    ((factory.limitByScreenHeight (factory.yDest +
      (factory.nature.overshootManager.getOvershootAmount
        ((factory.xDest - st.lastMousePositionX : ℤ) : ℚ)
        ((factory.yDest - st.lastMousePositionY : ℤ) : ℚ) st.mouseMovementMs (i + 1)
        st.world).1.y) - st.lastMousePositionY : ℤ) : ℚ)
  by_cases hc : factory.limitByScreenWidth (factory.xDest +
      (factory.nature.overshootManager.getOvershootAmount
        ((factory.xDest - st.lastMousePositionX : ℤ) : ℚ)
        ((factory.yDest - st.lastMousePositionY : ℤ) : ℚ) st.mouseMovementMs (i + 1)
        st.world).1.x) = st.lastMousePositionX ∧
      factory.limitByScreenHeight (factory.yDest +
      (factory.nature.overshootManager.getOvershootAmount
        ((factory.xDest - st.lastMousePositionX : ℤ) : ℚ)
        ((factory.yDest - st.lastMousePositionY : ℤ) : ℚ) st.mouseMovementMs (i + 1)
        st.world).1.y) = st.lastMousePositionY
  · rw [if_pos hc, if_neg]
    rw [hiff]
    push_neg
    constructor
    · exact_mod_cast sub_eq_zero.mpr hc.1
    · exact_mod_cast sub_eq_zero.mpr hc.2
  · rw [if_neg hc, if_pos]
    rw [hiff]
    by_contra hcon
    push_neg at hcon
    apply hc
    constructor
    · exact sub_eq_zero.mp (by exact_mod_cast hcon.1)
    · exact sub_eq_zero.mp (by exact_mod_cast hcon.2)

theorem overshootLoop_zero {σ : Type} (factory : MovementFactory σ) (hypot : ℚ → ℚ → ℚ)
    (st : PlanState σ) : factory.overshootLoop hypot 0 st = st := by
  rw [MovementFactory.overshootLoop]

/-- The plan of the test `testZeroOffsetOvershootsRemovedFromEnd`. -/
theorem createMovements_example_pruning {hypot : ℚ → ℚ → ℚ} (hh : IsHypot hypot)
    (unset : MotionNature MockWorld) :
    ((MovementFactory.create (movementFactoryTestNature unset 64 MultiOvershootManager) 50 150
        (MockWorld.initial [⟨5, 5⟩, ⟨0, 0⟩, ⟨1, 1⟩, ⟨0, 0⟩, ⟨0, 0⟩])).1.createMovements hypot
      ⟨100, 100⟩ (MockWorld.initial [⟨5, 5⟩, ⟨0, 0⟩, ⟨1, 1⟩, ⟨0, 0⟩, ⟨0, 0⟩])).1
      = [⟨55, 155, hypot (-45) 55, -45, 55, 64, some ⟨[100]⟩⟩,
         ⟨50, 150, hypot (-5) (-5), -5, -5, 32, some ⟨[100]⟩⟩,
         ⟨51, 151, hypot 1 1, 1, 1, 16, some ⟨[100]⟩⟩,
         ⟨50, 150, hypot (-1) (-1), -1, -1, 32, some ⟨[100]⟩⟩] := by
  rw [createMovements_of_overshoots _ hypot _ _ _ rfl _ rfl (by
    simp [MovementFactory.create, movementFactoryTestNature, MultiOvershootManager,
      ConstantSpeedManager, MockWorld.initial]) _ rfl _ rfl _ rfl]
  simp only [MovementFactory.create, movementFactoryTestNature, MultiOvershootManager,
    ConstantSpeedManager, MockWorld.initial, MockSystemCalls, List.length_cons,
    List.length_nil]
  iterate 5
    rw [overshootLoop_succ _ hh _ _ _ rfl _ _ rfl rfl]
    norm_num [MovementFactory.limitByScreenWidth, MovementFactory.limitByScreenHeight,
      ConstantSpeedManager]
  rw [overshootLoop_zero]
  have e1 : Int.tdiv 64 2 = 32 := by decide
  have e2 : Int.tdiv 32 2 = 16 := by decide
  simp [pruneLoop, e1, e2]
  norm_num

/-- C12: when the overshoot count is `n ≥ 1`, the plan is the movements the overshoot loop
emitted, in order, without the longest trailing run of movements that end on the real
destination (an earlier one that ends there stays), followed by exactly one final movement
that ends on the real destination; for the offsets `(5,5), (0,0), (1,1), (0,0), (0,0)` from
`(100,100)` to `(50,150)` it is the 4 movements to `(55,155)`, `(50,150)`, `(51,151)`,
`(50,150)`. -/
theorem createMovements_prunes_trailing_hits {σ : Type} (factory : MovementFactory σ)
    (hypot : ℚ → ℚ → ℚ) (current : Point ℤ) (s : σ)
    (flowTime : (Option Flow × time_type) × σ)
    (hft : flowTime = factory.nature.getFlowWithTime
      (hypot ((factory.xDest - current.x : ℤ) : ℚ) ((factory.yDest - current.y : ℤ) : ℚ)) s)
    (overshoots : ℕ × σ)
    (hov : overshoots = factory.nature.overshootManager.getOvershoots flowTime.1.1
      flowTime.1.2
      (hypot ((factory.xDest - current.x : ℤ) : ℚ) ((factory.yDest - current.y : ℤ) : ℚ))
      flowTime.2)
    (h : 1 ≤ overshoots.1) (emitted : List Movement)
    (hem : emitted = (factory.overshootLoop hypot overshoots.1
      ⟨[], current.x, current.y, flowTime.1.2, overshoots.2⟩).movements) :
    (∃ final : Movement, final.destX = factory.xDest ∧ final.destY = factory.yDest ∧
      (factory.createMovements hypot current s).1
        = emitted.rdropWhile (hitsDestination factory.xDest factory.yDest) ++ [final]) ∧
    (∀ (hypot2 : ℚ → ℚ → ℚ) (unset : MotionNature MockWorld), IsHypot hypot2 →
      (((MovementFactory.create (movementFactoryTestNature unset 64 MultiOvershootManager)
          50 150 (MockWorld.initial [⟨5, 5⟩, ⟨0, 0⟩, ⟨1, 1⟩, ⟨0, 0⟩, ⟨0, 0⟩])).1.createMovements
        hypot2 ⟨100, 100⟩
        (MockWorld.initial [⟨5, 5⟩, ⟨0, 0⟩, ⟨1, 1⟩, ⟨0, 0⟩, ⟨0, 0⟩])).1.map
          (fun m => (m.destX, m.destY))
        = [(55, 155), (50, 150), (51, 151), (50, 150)])) := by
  constructor
  · rw [createMovements_of_overshoots factory hypot current s flowTime hft overshoots hov
      (by omega) _ rfl _ rfl _ rfl]
    simp only []
    rw [pruneLoop_fst, hem, List.rdropWhile]
    exact ⟨_, rfl, rfl, rfl⟩
  · intro hypot2 unset hh
    rw [createMovements_example_pruning hh unset]
    rfl

theorem createMovements_prunes_trailing_hits_witness :
    (∃ final : Movement, final.destX = 50 ∧ final.destY = 150 ∧
      ((MovementFactory.create (movementFactoryTestNature (NewMockNature chebyshev 0) 64
          MultiOvershootManager) 50 150
          (MockWorld.initial [⟨5, 5⟩, ⟨0, 0⟩])).1.createMovements chebyshev ⟨100, 100⟩
        (MockWorld.initial [⟨5, 5⟩, ⟨0, 0⟩])).1
        = ((MovementFactory.create (movementFactoryTestNature (NewMockNature chebyshev 0) 64
            MultiOvershootManager) 50 150
            (MockWorld.initial [⟨5, 5⟩, ⟨0, 0⟩])).1.overshootLoop chebyshev 2
            ⟨[], 100, 100, 64, MockWorld.initial [⟨5, 5⟩, ⟨0, 0⟩]⟩).movements.rdropWhile
              (hitsDestination 50 150) ++ [final]) :=
  (createMovements_prunes_trailing_hits
    (MovementFactory.create (movementFactoryTestNature (NewMockNature chebyshev 0) 64
      MultiOvershootManager) 50 150 (MockWorld.initial [⟨5, 5⟩, ⟨0, 0⟩])).1 chebyshev
    ⟨100, 100⟩ (MockWorld.initial [⟨5, 5⟩, ⟨0, 0⟩])
    ((some ⟨[100]⟩, 64), MockWorld.initial [⟨5, 5⟩, ⟨0, 0⟩]) rfl
    (2, MockWorld.initial [⟨5, 5⟩, ⟨0, 0⟩]) rfl (by decide) _ rfl).1

/-- With zero offsets and the destination on the screen, the overshoot loop emits nothing
once the last planned point is the destination. -/
theorem overshootLoop_stay {σ : Type} (factory : MovementFactory σ) {hypot : ℚ → ℚ → ℚ}
    (hh : IsHypot hypot)
    (hzero : ∀ a b t k w, (factory.nature.overshootManager.getOvershootAmount a b t k w).1
      = ⟨0, 0⟩)
    (hx : factory.limitByScreenWidth factory.xDest = factory.xDest)
    (hy : factory.limitByScreenHeight factory.yDest = factory.yDest)
    (i : ℕ) (st : PlanState σ) (hlx : st.lastMousePositionX = factory.xDest)
    (hly : st.lastMousePositionY = factory.yDest) :
    (factory.overshootLoop hypot i st).movements = st.movements ∧
    (factory.overshootLoop hypot i st).lastMousePositionX = factory.xDest ∧
    (factory.overshootLoop hypot i st).lastMousePositionY = factory.yDest := by
  induction i generalizing st with
  | zero => rw [overshootLoop_zero]; exact ⟨rfl, hlx, hly⟩
  | succ i ih =>
    rw [overshootLoop_succ factory hh i st _ rfl _ _ rfl rfl, hzero]
    simp only [add_zero, hx, hy]
    rw [if_pos ⟨hlx.symm, hly.symm⟩]
    exact ih _ hlx hly

/-- With zero offsets and the destination on the screen, the overshoot loop started away
from the destination emits exactly one movement, straight to the destination. -/
theorem overshootLoop_zero_offsets {σ : Type} (factory : MovementFactory σ)
    {hypot : ℚ → ℚ → ℚ} (hh : IsHypot hypot)
    (hzero : ∀ a b t k w, (factory.nature.overshootManager.getOvershootAmount a b t k w).1
      = ⟨0, 0⟩)
    (hx : factory.limitByScreenWidth factory.xDest = factory.xDest)
    (hy : factory.limitByScreenHeight factory.yDest = factory.yDest)
    (i : ℕ) (st : PlanState σ)
    (hne : st.lastMousePositionX ≠ factory.xDest ∨ st.lastMousePositionY ≠ factory.yDest) :
    (factory.overshootLoop hypot (i + 1) st).movements
      = st.movements ++ [⟨factory.xDest, factory.yDest,
          hypot ((factory.xDest - st.lastMousePositionX : ℤ) : ℚ)
            ((factory.yDest - st.lastMousePositionY : ℤ) : ℚ),
          factory.xDest - st.lastMousePositionX, factory.yDest - st.lastMousePositionY,
          st.mouseMovementMs,
          (factory.nature.getFlowWithTime
            (hypot ((factory.xDest - st.lastMousePositionX : ℤ) : ℚ)
              ((factory.yDest - st.lastMousePositionY : ℤ) : ℚ))
            (factory.nature.overshootManager.getOvershootAmount
              ((factory.xDest - st.lastMousePositionX : ℤ) : ℚ)
              ((factory.yDest - st.lastMousePositionY : ℤ) : ℚ) st.mouseMovementMs (i + 1)
              st.world).2).1.1⟩] := by
  rw [overshootLoop_succ factory hh i st _ rfl _ _ rfl rfl, hzero]
  simp only [add_zero, hx, hy]
  rw [if_neg]
  · exact (overshootLoop_stay factory hh hzero hx hy i _ rfl rfl).1
  · intro hc
    rcases hne with h | h
    · exact h hc.1.symm
    · exact h hc.2.symm

theorem limitByScreenWidth_of_mem {σ : Type} (factory : MovementFactory σ) (v : ℤ)
    (h0 : 0 ≤ v) (h1 : v ≤ factory.screenSize.Width - 1) :
    factory.limitByScreenWidth v = v := by
  unfold MovementFactory.limitByScreenWidth
  rw [min_eq_right h1, max_eq_right h0]

theorem limitByScreenHeight_of_mem {σ : Type} (factory : MovementFactory σ) (v : ℤ)
    (h0 : 0 ≤ v) (h1 : v ≤ factory.screenSize.Height - 1) :
    factory.limitByScreenHeight v = v := by
  unfold MovementFactory.limitByScreenHeight
  rw [min_eq_right h1, max_eq_right h0]

/-- The plan of the test `testZeroOffsetOvershootsRemovedFromEndIfAllZero`. -/
theorem createMovements_example_all_zero {hypot : ℚ → ℚ → ℚ} (hh : IsHypot hypot)
    (unset : MotionNature MockWorld) :
    ((MovementFactory.create (movementFactoryTestNature unset 100 MultiOvershootManager) 50 150
        (MockWorld.initial [⟨0, 0⟩, ⟨0, 0⟩, ⟨0, 0⟩])).1.createMovements hypot
      ⟨100, 100⟩ (MockWorld.initial [⟨0, 0⟩, ⟨0, 0⟩, ⟨0, 0⟩])).1
      = [⟨50, 150, hypot (-50) 50, -50, 50, 50, some ⟨[100]⟩⟩] := by
  rw [createMovements_of_overshoots _ hypot _ _ _ rfl _ rfl (by
    simp [MovementFactory.create, movementFactoryTestNature, MultiOvershootManager,
      ConstantSpeedManager, MockWorld.initial]) _ rfl _ rfl _ rfl]
  simp only [MovementFactory.create, movementFactoryTestNature, MultiOvershootManager,
    ConstantSpeedManager, MockWorld.initial, MockSystemCalls, List.length_cons,
    List.length_nil]
  iterate 3
    rw [overshootLoop_succ _ hh _ _ _ rfl _ _ rfl rfl]
    norm_num [MovementFactory.limitByScreenWidth, MovementFactory.limitByScreenHeight,
      ConstantSpeedManager]
  rw [overshootLoop_zero]
  have e1 : Int.tdiv 100 2 = 50 := by decide
  simp [pruneLoop, e1]
  norm_num

/-- The plan for an off-screen destination with all offsets zero: the clamped target is
reached first and kept, the final leg follows. -/
theorem createMovements_example_off_screen {hypot : ℚ → ℚ → ℚ} (hh : IsHypot hypot)
    (unset : MotionNature MockWorld) :
    ((MovementFactory.create (movementFactoryTestNature unset 100 MultiOvershootManager) 600 150
        (MockWorld.initial [⟨0, 0⟩, ⟨0, 0⟩, ⟨0, 0⟩])).1.createMovements hypot
      ⟨100, 100⟩ (MockWorld.initial [⟨0, 0⟩, ⟨0, 0⟩, ⟨0, 0⟩])).1
      = [⟨499, 150, hypot 399 50, 399, 50, 100, some ⟨[100]⟩⟩,
         ⟨600, 150, hypot 101 0, 101, 0, 50, some ⟨[100]⟩⟩] := by
  rw [createMovements_of_overshoots _ hypot _ _ _ rfl _ rfl (by
    simp [MovementFactory.create, movementFactoryTestNature, MultiOvershootManager,
      ConstantSpeedManager, MockWorld.initial]) _ rfl _ rfl _ rfl]
  simp only [MovementFactory.create, movementFactoryTestNature, MultiOvershootManager,
    ConstantSpeedManager, MockWorld.initial, MockSystemCalls, List.length_cons,
    List.length_nil]
  iterate 3
    rw [overshootLoop_succ _ hh _ _ _ rfl _ _ rfl rfl]
    norm_num [MovementFactory.limitByScreenWidth, MovementFactory.limitByScreenHeight,
      ConstantSpeedManager]
  rw [overshootLoop_zero]
  have e1 : Int.tdiv 100 2 = 50 := by decide
  simp [pruneLoop, e1]
  norm_num

/-- C13, as stated, fails for a destination off the screen: on the 500 x 500 test screen,
with three offsets `(0,0)`, from `(100,100)` to `(600,150)` the overshoot count is 3, the
current position differs from the destination, and the plan has two movements, to
`(499,150)` and to `(600,150)`. -/
theorem createMovements_all_zero_offsets_counterexample :
    IsHypot chebyshev ∧
    (MultiOvershootManager.getOvershoots (some ⟨[100]⟩) 100
      (chebyshev ((600 - 100 : ℤ) : ℚ) ((150 - 100 : ℤ) : ℚ))
      (MockWorld.initial [⟨0, 0⟩, ⟨0, 0⟩, ⟨0, 0⟩])).1 = 3 ∧
    (((MovementFactory.create (movementFactoryTestNature (NewMockNature chebyshev 0) 100
          MultiOvershootManager) 600 150
          (MockWorld.initial [⟨0, 0⟩, ⟨0, 0⟩, ⟨0, 0⟩])).1.createMovements chebyshev
        ⟨100, 100⟩ (MockWorld.initial [⟨0, 0⟩, ⟨0, 0⟩, ⟨0, 0⟩])).1.map
          (fun m => (m.destX, m.destY))
      = [(499, 150), (600, 150)]) := by
  refine ⟨chebyshev_isHypot, rfl, ?_⟩
  rw [createMovements_example_off_screen chebyshev_isHypot]
  rfl

/-- C13, amended: when the overshoot count is `n ≥ 1`, every overshoot offset is `(0,0)`,
the destination lies on the screen and the current position differs from the destination,
`createMovements` returns exactly one Movement, from the current position to the real
destination, whose time is `deriveNextMouseMovementTimeMs(T, 0)` for the time `T` the speed
provider returns for that distance after the loop (50 for `T = 100` with a halving
policy). -/
theorem createMovements_all_zero_offsets {σ : Type} (factory : MovementFactory σ)
    {hypot : ℚ → ℚ → ℚ} (hh : IsHypot hypot) (current : Point ℤ) (s : σ)
    (flowTime : (Option Flow × time_type) × σ)
    (hft : flowTime = factory.nature.getFlowWithTime
      (hypot ((factory.xDest - current.x : ℤ) : ℚ) ((factory.yDest - current.y : ℤ) : ℚ)) s)
    (overshoots : ℕ × σ)
    (hov : overshoots = factory.nature.overshootManager.getOvershoots flowTime.1.1
      flowTime.1.2
      (hypot ((factory.xDest - current.x : ℤ) : ℚ) ((factory.yDest - current.y : ℤ) : ℚ))
      flowTime.2)
    (h : 1 ≤ overshoots.1)
    (hzero : ∀ a b t k w, (factory.nature.overshootManager.getOvershootAmount a b t k w).1
      = ⟨0, 0⟩)
    (hx : 0 ≤ factory.xDest ∧ factory.xDest ≤ factory.screenSize.Width - 1)
    (hy : 0 ≤ factory.yDest ∧ factory.yDest ≤ factory.screenSize.Height - 1)
    (hne : current.x ≠ factory.xDest ∨ current.y ≠ factory.yDest)
    (final : (Option Flow × time_type) × σ)
    (hfin : final = factory.nature.getFlowWithTime
      (hypot ((factory.xDest - current.x : ℤ) : ℚ) ((factory.yDest - current.y : ℤ) : ℚ))
      (factory.overshootLoop hypot overshoots.1
        ⟨[], current.x, current.y, flowTime.1.2, overshoots.2⟩).world) :
    (factory.createMovements hypot current s).1
      = [⟨factory.xDest, factory.yDest,
          hypot ((factory.xDest - current.x : ℤ) : ℚ) ((factory.yDest - current.y : ℤ) : ℚ),
          factory.xDest - current.x, factory.yDest - current.y,
          (factory.nature.overshootManager.deriveNextMouseMovementTimeMs final.1.2 0
            final.2).1, final.1.1⟩] ∧
    (∀ (hypot2 : ℚ → ℚ → ℚ) (unset : MotionNature MockWorld), IsHypot hypot2 →
      ((MovementFactory.create (movementFactoryTestNature unset 100 MultiOvershootManager)
          50 150 (MockWorld.initial [⟨0, 0⟩, ⟨0, 0⟩, ⟨0, 0⟩])).1.createMovements hypot2
        ⟨100, 100⟩ (MockWorld.initial [⟨0, 0⟩, ⟨0, 0⟩, ⟨0, 0⟩])).1
        = [⟨50, 150, hypot2 (-50) 50, -50, 50, 50, some ⟨[100]⟩⟩]) := by
  refine ⟨?_, fun hypot2 unset hh2 => createMovements_example_all_zero hh2 unset⟩
  have hlx := limitByScreenWidth_of_mem factory _ hx.1 hx.2
  have hly := limitByScreenHeight_of_mem factory _ hy.1 hy.2
  obtain ⟨n, hn⟩ : ∃ n, overshoots.1 = n + 1 := ⟨overshoots.1 - 1, by omega⟩
  have hmov := overshootLoop_zero_offsets factory hh hzero hlx hly n
    ⟨[], current.x, current.y, flowTime.1.2, overshoots.2⟩ hne
  rw [← hn] at hmov
  rw [createMovements_of_overshoots factory hypot current s flowTime hft overshoots hov
    (by omega) _ rfl _ rfl _ rfl]
  simp only [hmov, List.nil_append, List.reverse_singleton, pruneLoop, and_self, if_true,
    List.reverse_nil, sub_sub_cancel]
  rw [hfin]

theorem createMovements_all_zero_offsets_witness :
    ((MovementFactory.create (movementFactoryTestNature (NewMockNature chebyshev 0) 100
        (zeroOffsetManager 3)) 50 150 (MockWorld.initial [])).1.createMovements chebyshev
      ⟨100, 100⟩ (MockWorld.initial [])).1
      = [⟨50, 150, chebyshev ((50 - 100 : ℤ) : ℚ) ((150 - 100 : ℤ) : ℚ), 50 - 100, 150 - 100,
          Int.tdiv 100 2, some ⟨[100]⟩⟩] :=
  (createMovements_all_zero_offsets
    (MovementFactory.create (movementFactoryTestNature (NewMockNature chebyshev 0) 100
      (zeroOffsetManager 3)) 50 150 (MockWorld.initial [])).1 chebyshev_isHypot ⟨100, 100⟩
    (MockWorld.initial []) ((some ⟨[100]⟩, 100), MockWorld.initial []) rfl
    (3, MockWorld.initial []) rfl (by decide) (fun _ _ _ _ _ => rfl)
    ⟨by decide, by decide⟩ ⟨by decide, by decide⟩ (Or.inl (by decide))
    ((some ⟨[100]⟩, 100), _) rfl).1

/-! ## Move: every position set lies on the screen -/

theorem clamp_onScreen (W : ℤ) (hW : 1 ≤ W) (v : ℤ) :
    0 ≤ max 0 (min (W - 1) v) ∧ max 0 (min (W - 1) v) ≤ W - 1 := by
  constructor
  · exact le_max_left _ _
  · exact max_le (by omega) (min_le_left _ _)

/-- The position a pass of the step loop sets is clamped to the screen on both axes. -/
theorem step_position {σ : Type} (nature : MotionNature σ) (hypot : ℚ → ℚ → ℚ)
    (screenSize : Dimension) (movement : Movement) (steps : ℤ)
    (startTime stepTime : time_type) (mx my : ℚ) (i : ℤ) (st : StepState σ)
    (p : Point ℤ) (next : StepState σ)
    (h : MoveImp.step nature hypot screenSize movement steps startTime stepTime mx my i st
      = .ok (p, next)) :
    ∃ rx ry : ℤ, p = ⟨max 0 (min (screenSize.Width - 1) rx),
      max 0 (min (screenSize.Height - 1) ry)⟩ := by
  unfold MoveImp.step at h
  simp only [] at h
  split at h
  · exact absurd h (by simp)
  · split at h
    · exact absurd h (by simp)
    · split at h
      · exact absurd h (by simp)
      · simp only [Except.ok.injEq, Prod.mk.injEq] at h
        exact ⟨_, _, h.1.symm⟩

theorem stepLoop_onScreen {σ : Type} (nature : MotionNature σ) (hypot : ℚ → ℚ → ℚ)
    (W H : ℤ) (hW : 1 ≤ W) (hH : 1 ≤ H) (movement : Movement) (steps : ℤ)
    (startTime stepTime : time_type) (mx my : ℚ) (n : ℕ) (i : ℤ) (st : StepState σ) :
    ∀ p ∈ (MoveImp.stepLoop nature hypot ⟨W, H⟩ movement steps startTime stepTime mx my n i
      st).1, OnScreen W H p := by
  induction n generalizing i st with
  | zero => simp [MoveImp.stepLoop]
  | succ n ih =>
    rw [MoveImp.stepLoop]
    split
    · simp
    · rename_i position next heq
      obtain ⟨rx, ry, hp⟩ := step_position nature hypot ⟨W, H⟩ movement steps startTime
        stepTime mx my i st position next heq
      intro p hp2
      simp only [List.mem_cons] at hp2
      rcases hp2 with rfl | hp2
      · rw [hp]
        exact ⟨(clamp_onScreen W hW rx).1, (clamp_onScreen W hW rx).2,
          (clamp_onScreen H hH ry).1, (clamp_onScreen H hH ry).2⟩
      · exact ih _ _ p hp2

/-- What a sub-movement hands to `setMousePosition` lies on the screen when its destination
does. -/
theorem runMovement_onScreen {σ : Type} (nature : MotionNature σ) (hypot : ℚ → ℚ → ℚ)
    (W H : ℤ) (hW : 1 ≤ W) (hH : 1 ≤ H) (xDest yDest : ℤ) (movement : Movement) (s : σ)
    (hm : OnScreen W H ⟨movement.destX, movement.destY⟩) :
    (MoveImp.runMovement nature hypot ⟨W, H⟩ xDest yDest movement s).1.OnScreen W H := by
  unfold MoveImp.runMovement
  simp only []
  split_ifs with h0
  · exact ⟨by simp, by simp⟩
  · split
    · refine ⟨?_, by simp⟩
      exact stepLoop_onScreen nature hypot W H hW hH movement _ _ _ _ _ _ _ _
    · split_ifs
      · refine ⟨stepLoop_onScreen nature hypot W H hW hH movement _ _ _ _ _ _ _ _, ?_⟩
        intro p hp
        simp only [Option.some.injEq] at hp
        rw [← hp]
        exact hm
      · exact ⟨stepLoop_onScreen nature hypot W H hW hH movement _ _ _ _ _ _ _ _, by simp⟩

/-- A property of movements that holds of every movement the overshoot loop can emit holds
of every movement in its list. -/
theorem overshootLoop_forall {σ : Type} (factory : MovementFactory σ) (hypot : ℚ → ℚ → ℚ)
    (P : Movement → Prop)
    (hP : ∀ (vx vy lx ly : ℤ) (t : time_type) (d : ℚ) (w : σ),
      hypot ((factory.limitByScreenWidth vx - lx : ℤ) : ℚ)
        ((factory.limitByScreenHeight vy - ly : ℤ) : ℚ) > 0 →
      P ⟨factory.limitByScreenWidth vx, factory.limitByScreenHeight vy,
        hypot ((factory.limitByScreenWidth vx - lx : ℤ) : ℚ)
          ((factory.limitByScreenHeight vy - ly : ℤ) : ℚ),
        factory.limitByScreenWidth vx - lx, factory.limitByScreenHeight vy - ly, t,
        (factory.nature.getFlowWithTime d w).1.1⟩)
    (i : ℕ) (st : PlanState σ) (h : ∀ m ∈ st.movements, P m) :
    ∀ m ∈ (factory.overshootLoop hypot i st).movements, P m := by
  induction i generalizing st with
  | zero => rw [MovementFactory.overshootLoop]; exact h
  | succ i ih =>
    rw [MovementFactory.overshootLoop]
    simp only []
    split_ifs with hd
    · apply ih
      intro m hm
      simp only [List.mem_append, List.mem_singleton] at hm
      rcases hm with hm | rfl
      · exact h m hm
      · exact hP _ _ _ _ _ _ _ hd
    · exact ih _ h

/-- A property of movements that holds of every overshoot movement and of every movement
straight to the destination holds of every movement of a plan. -/
theorem createMovements_forall {σ : Type} (factory : MovementFactory σ) (hypot : ℚ → ℚ → ℚ)
    (P : Movement → Prop)
    (hP : ∀ (vx vy lx ly : ℤ) (t : time_type) (d : ℚ) (w : σ),
      hypot ((factory.limitByScreenWidth vx - lx : ℤ) : ℚ)
        ((factory.limitByScreenHeight vy - ly : ℤ) : ℚ) > 0 →
      P ⟨factory.limitByScreenWidth vx, factory.limitByScreenHeight vy,
        hypot ((factory.limitByScreenWidth vx - lx : ℤ) : ℚ)
          ((factory.limitByScreenHeight vy - ly : ℤ) : ℚ),
        factory.limitByScreenWidth vx - lx, factory.limitByScreenHeight vy - ly, t,
        (factory.nature.getFlowWithTime d w).1.1⟩)
    (hfinal : ∀ (lx ly : ℤ) (t : time_type) (d : ℚ) (w : σ),
      P ⟨factory.xDest, factory.yDest,
        hypot ((factory.xDest - lx : ℤ) : ℚ) ((factory.yDest - ly : ℤ) : ℚ),
        factory.xDest - lx, factory.yDest - ly, t, (factory.nature.getFlowWithTime d w).1.1⟩)
    (current : Point ℤ) (s : σ) :
    ∀ m ∈ (factory.createMovements hypot current s).1, P m := by
  unfold MovementFactory.createMovements
  simp only []
  split_ifs with h0
  · intro m hm
    simp only [List.mem_singleton] at hm
    rw [hm]
    exact hfinal _ _ _ _ _
  · intro m hm
    simp only [List.mem_append, List.mem_singleton, List.mem_reverse] at hm
    rcases hm with hm | rfl
    · rw [pruneLoop_fst] at hm
      have hm2 := (List.dropWhile_sublist _).subset hm
      rw [List.mem_reverse] at hm2
      exact overshootLoop_forall factory hypot P hP _ _ (by simp) m hm2
    · exact hfinal _ _ _ _ _

/-- Every movement of a plan ends on the screen when the destination does. -/
theorem createMovements_onScreen {σ : Type} (factory : MovementFactory σ)
    (hypot : ℚ → ℚ → ℚ) (W H : ℤ) (hW : 1 ≤ W) (hH : 1 ≤ H)
    (hscreen : factory.screenSize = ⟨W, H⟩)
    (hdest : OnScreen W H ⟨factory.xDest, factory.yDest⟩) (current : Point ℤ) (s : σ) :
    ∀ m ∈ (factory.createMovements hypot current s).1,
      OnScreen W H ⟨m.destX, m.destY⟩ := by
  apply createMovements_forall factory hypot (fun m => OnScreen W H ⟨m.destX, m.destY⟩)
  · intro vx vy lx ly t d w _
    simp only [MovementFactory.limitByScreenWidth, MovementFactory.limitByScreenHeight,
      hscreen]
    exact ⟨(clamp_onScreen W hW _).1, (clamp_onScreen W hW _).2,
      (clamp_onScreen H hH _).1, (clamp_onScreen H hH _).2⟩
  · intro lx ly t d w
    exact hdest

theorem moveLoop_onScreen {σ : Type} (nature : MotionNature σ) (hypot : ℚ → ℚ → ℚ)
    (W H : ℤ) (hW : 1 ≤ W) (hH : 1 ≤ H) (factory : MovementFactory σ)
    (hscreen : factory.screenSize = ⟨W, H⟩)
    (hdest : OnScreen W H ⟨factory.xDest, factory.yDest⟩) (xDest yDest : ℤ)
    (fuel : ℕ) (movements : List Movement) (mousePosition : Point ℤ) (s : σ)
    (hm : ∀ m ∈ movements, OnScreen W H ⟨m.destX, m.destY⟩) :
    ∀ t ∈ (MoveImp.moveLoop nature hypot ⟨W, H⟩ factory xDest yDest fuel movements
      mousePosition s).trace, t.OnScreen W H := by
  induction fuel generalizing movements mousePosition s with
  | zero =>
    rw [MoveImp.moveLoop]
    split_ifs <;> simp
  | succ fuel ih =>
    rw [MoveImp.moveLoop]
    split_ifs with hc
    · simp only []
      have hplanned : ∀ m ∈ (MoveImp.repopulate nature hypot factory movements s).1.1,
          OnScreen W H ⟨m.destX, m.destY⟩ := by
        unfold MoveImp.repopulate
        split_ifs
        · exact createMovements_onScreen factory hypot W H hW hH hscreen hdest _ _
        · exact hm
      generalize MoveImp.repopulate nature hypot factory movements s = planned at hplanned
      split
      · simp
      · rename_i movement rest heq
        rw [heq] at hplanned
        have hrun := runMovement_onScreen nature hypot W H hW hH xDest yDest movement
          planned.1.2 (hplanned movement (by simp))
        split
        · intro t ht
          simp only [List.mem_singleton] at ht
          rw [ht]
          exact hrun
        · intro t ht
          simp only [List.mem_cons] at ht
          rcases ht with rfl | ht
          · exact hrun
          · exact ih _ _ _ (fun m hm2 => hplanned m (by simp [hm2])) t ht
    · simp

/-- C15: for a screen of width `W ≥ 1` and height `H ≥ 1`, every position `Move` hands to
`setMousePosition`, in a step loop or as an adjustment after one, satisfies
`0 ≤ x ≤ W-1` and `0 ≤ y ≤ H-1`, for every requested destination, every noise, deviation
and overshoot policy, and however long the outer loop runs. -/
theorem Move_positions_on_screen {σ : Type} (nature : MotionNature σ) (hypot : ℚ → ℚ → ℚ)
    (W H : ℤ) (hW : 1 ≤ W) (hH : 1 ≤ H) (hscreen : ScreenIs nature W H)
    (fuel : ℕ) (x y : ℤ) (s : σ) :
    ∀ t ∈ (MoveImp.Move nature hypot fuel x y s).trace,
      (∀ p ∈ t.positions, 0 ≤ p.x ∧ p.x ≤ W - 1 ∧ 0 ≤ p.y ∧ p.y ≤ H - 1) ∧
      (∀ p, t.adjustment = some p → 0 ≤ p.x ∧ p.x ≤ W - 1 ∧ 0 ≤ p.y ∧ p.y ≤ H - 1) := by
  unfold MoveImp.Move
  simp only [MovementFactory.create, hscreen _]
  have hdest : OnScreen W H ⟨max 0 (min (W - 1) x), max 0 (min (H - 1) y)⟩ :=
    ⟨(clamp_onScreen W hW _).1, (clamp_onScreen W hW _).2,
      (clamp_onScreen H hH _).1, (clamp_onScreen H hH _).2⟩
  apply moveLoop_onScreen nature hypot W H hW hH _ rfl hdest
  exact createMovements_onScreen _ hypot W H hW hH rfl hdest _ _

/-! ## Flow: the share of the distance a step covers -/

theorem Flow_create_nonneg (c : FlowCharacteristicsContainer) (flow : Flow)
    (h : Flow.create c = .ok flow) : ∀ v ∈ flow.buckets, 0 ≤ v := by
  rw [Flow_create_eq] at h
  split_ifs at h with hbad
  push_neg at hbad
  injection h with h
  subst h
  intro v hv
  simp only [List.mem_map] at hv
  obtain ⟨a, ha, rfl⟩ := hv
  have hsum : 0 ≤ c.sum := List.sum_nonneg (fun x hx => hbad.1 x hx)
  have hlen : (0 : ℚ) ≤ (c.length : ℚ) := Nat.cast_nonneg _
  exact mul_nonneg (hbad.1 a ha) (div_nonneg (by positivity) hsum)

theorem getD_nonneg (B : FlowCharacteristicsContainer) (hB : ∀ v ∈ B, 0 ≤ v) (k : ℕ) :
    0 ≤ B.getD k 0 := by
  by_cases hk : k < B.length
  · rw [List.getD_eq_getElem B 0 hk]
    exact hB _ (List.getElem_mem hk)
  · rw [List.getD_eq_default B 0 (by omega)]

theorem overlap_nonneg (a b : ℚ) (k : ℕ) : 0 ≤ overlap a b k := le_max_left _ _

/-- The step size is the distance times the share of the step. -/
theorem getStepSize_share (flow : Flow) (hn : 1 ≤ flow.buckets.length) (d : ℚ) (steps : ℤ)
    (i : ℕ) (hi : (i : ℤ) < steps) :
    flow.getStepSize d steps (((i : ℤ) : ℚ) / (steps : ℚ))
      = .ok (d * stepShare flow steps (i : ℤ)) := by
  have hs : 1 ≤ steps := by omega
  have hsq : (0 : ℚ) < (steps : ℚ) := by exact_mod_cast (by omega : (0 : ℤ) < steps)
  have hiq : ((i : ℤ) : ℚ) + 1 ≤ (steps : ℚ) := by exact_mod_cast hi
  rw [getStepSize_eq flow hn d steps hs _ (by positivity) (by
    rw [← add_div, div_le_one hsq]
    exact hiq)]
  unfold stepShare
  congr 1
  ring

theorem stepShare_nonneg (flow : Flow) (hB : ∀ v ∈ flow.buckets, 0 ≤ v) (steps i : ℤ) :
    0 ≤ stepShare flow steps i := by
  unfold stepShare
  apply mul_nonneg
  · positivity
  · exact Finset.sum_nonneg (fun k _ => mul_nonneg (getD_nonneg _ hB k) (overlap_nonneg _ _ _))

/-- The shares of all the steps of a valid flow add up to 1. -/
theorem progress_total (c : FlowCharacteristicsContainer) (flow : Flow)
    (h : Flow.create c = .ok flow) (S : ℕ) (hS : 1 ≤ S) : progress flow (S : ℤ) S = 1 := by
  obtain ⟨hn, hsum⟩ := Flow_create_ok c flow h
  have hnq : (0 : ℚ) < (flow.buckets.length : ℚ) := by exact_mod_cast hn
  unfold progress stepShare
  rw [← Finset.mul_sum, Finset.sum_comm]
  have hinner : ∀ k ∈ Finset.range flow.buckets.length,
      ∑ i in Finset.range S, flow.buckets.getD k 0
        * overlap ((((i : ℕ) : ℤ) : ℚ) / (((S : ℕ) : ℤ) : ℚ) * (flow.buckets.length : ℚ))
            (((((i : ℕ) : ℤ) : ℚ) / (((S : ℕ) : ℤ) : ℚ) + 1 / (((S : ℕ) : ℤ) : ℚ))
              * (flow.buckets.length : ℚ)) k
      = flow.buckets.getD k 0 := by
    intro k hk
    rw [← Finset.mul_sum]
    have := sum_overlap_steps flow.buckets.length S k hS (Finset.mem_range.mp hk)
    simp only [Int.cast_natCast] at this ⊢
    rw [this, mul_one]
  rw [Finset.sum_congr rfl hinner, sum_range_getD, hsum]
  field_simp
  ring

theorem progress_succ (flow : Flow) (steps : ℤ) (k : ℕ) :
    progress flow steps (k + 1) = progress flow steps k + stepShare flow steps (k : ℤ) := by
  unfold progress
  rw [Finset.sum_range_succ]

theorem progress_mono (flow : Flow) (hB : ∀ v ∈ flow.buckets, 0 ≤ v) (steps : ℤ)
    {j k : ℕ} (hjk : j ≤ k) : progress flow steps j ≤ progress flow steps k := by
  induction k with
  | zero =>
    have : j = 0 := by omega
    rw [this]
  | succ k ih =>
    rcases Nat.lt_or_ge j (k + 1) with hlt | hge
    · rw [progress_succ]
      have := ih (by omega)
      have := stepShare_nonneg flow hB steps (k : ℤ)
      linarith
    · have : j = k + 1 := by omega
      rw [this]

theorem progress_nonneg (flow : Flow) (hB : ∀ v ∈ flow.buckets, 0 ≤ v) (steps : ℤ) (k : ℕ) :
    0 ≤ progress flow steps k := by
  have := progress_mono flow hB steps (Nat.zero_le k)
  simpa [progress] using this

theorem progress_le_one (c : FlowCharacteristicsContainer) (flow : Flow)
    (h : Flow.create c = .ok flow) (S : ℕ) (hS : 1 ≤ S) (k : ℕ) (hk : k ≤ S) :
    progress flow (S : ℤ) k ≤ 1 := by
  rw [← progress_total c flow h S hS]
  exact progress_mono flow (Flow_create_nonneg c flow h) _ hk

/-! ## Move: the step loop without noise and deviation -/

theorem effectFadeMultiplier_ok {σ : Type} (nature : MotionNature σ)
    (hefs : nature.effectFadeSteps ≠ 0) (steps i : ℤ) :
    ∃ f, MoveImp.effectFadeMultiplier nature steps i = some f := by
  unfold MoveImp.effectFadeMultiplier
  simp only []
  rw [if_neg hefs]
  exact ⟨_, rfl⟩

theorem effectFadeMultiplier_none {σ : Type} (nature : MotionNature σ)
    (hefs : nature.effectFadeSteps = 0) (steps i : ℤ) :
    MoveImp.effectFadeMultiplier nature steps i = none := by
  unfold MoveImp.effectFadeMultiplier
  simp only []
  rw [if_pos hefs]

/-- One pass of the step loop without noise and deviation: the simulated position advances
by the step sizes of the flow, and the position set is its rounding towards the
destination, clamped to the screen. -/
theorem step_straight {σ : Type} (nature : MotionNature σ) (hypot : ℚ → ℚ → ℚ)
    (screenSize : Dimension) (movement : Movement) (steps : ℤ)
    (startTime stepTime : time_type) (mx my : ℚ)
    (hnoise : NoNoise nature) (hdev : NoDeviation nature)
    (hefs : nature.effectFadeSteps ≠ 0) (flow : Flow) (hflow : movement.flow = some flow)
    (hn : 1 ≤ flow.buckets.length) (i : ℕ) (hi : (i : ℤ) < steps) (st : StepState σ)
    (hnx : st.noiseX = 0) (hny : st.noiseY = 0) :
    ∃ next : StepState σ,
      MoveImp.step nature hypot screenSize movement steps startTime stepTime mx my (i : ℤ) st
        = .ok (⟨max 0 (min (screenSize.Width - 1) (MoveImp.roundTowards
            (st.simulatedMouseX + (movement.xDistance : ℚ) * stepShare flow steps (i : ℤ))
            movement.destX)),
          max 0 (min (screenSize.Height - 1) (MoveImp.roundTowards
            (st.simulatedMouseY + (movement.yDistance : ℚ) * stepShare flow steps (i : ℤ))
            movement.destY))⟩, next) ∧
      next.noiseX = 0 ∧ next.noiseY = 0 ∧
      next.simulatedMouseX
        = st.simulatedMouseX + (movement.xDistance : ℚ) * stepShare flow steps (i : ℤ) ∧
      next.simulatedMouseY
        = st.simulatedMouseY + (movement.yDistance : ℚ) * stepShare flow steps (i : ℤ) := by
  obtain ⟨f, hf⟩ := effectFadeMultiplier_ok nature hefs steps (i : ℤ)
  unfold MoveImp.step
  simp only [hf, hflow, getStepSize_share flow hn _ steps i hi, hnoise _ _ _, hdev _ _ _,
    hnx, hny, add_zero, zero_mul, MoveImp.roundedPosition]
  exact ⟨_, rfl, rfl, rfl, rfl, rfl⟩

/-- The step loop without noise and deviation returns, and sets the positions of the
straight line one after the other. -/
theorem stepLoop_straight {σ : Type} (nature : MotionNature σ) (hypot : ℚ → ℚ → ℚ)
    (screenSize : Dimension) (movement : Movement) (steps : ℤ)
    (startTime stepTime : time_type) (mx my : ℚ)
    (hnoise : NoNoise nature) (hdev : NoDeviation nature)
    (hefs : nature.effectFadeSteps ≠ 0) (flow : Flow) (hflow : movement.flow = some flow)
    (hn : 1 ≤ flow.buckets.length) (start : Point ℤ) (n i : ℕ)
    (hi : ((i + n : ℕ) : ℤ) ≤ steps) (st : StepState σ)
    (hnx : st.noiseX = 0) (hny : st.noiseY = 0)
    (hsx : st.simulatedMouseX
      = (start.x : ℚ) + (movement.xDistance : ℚ) * progress flow steps i)
    (hsy : st.simulatedMouseY
      = (start.y : ℚ) + (movement.yDistance : ℚ) * progress flow steps i) :
    (MoveImp.stepLoop nature hypot screenSize movement steps startTime stepTime mx my n
        (i : ℤ) st).1
      = (List.range n).map
          (fun j => straightPosition screenSize movement flow steps start (i + j + 1)) ∧
    ∃ last, (MoveImp.stepLoop nature hypot screenSize movement steps startTime stepTime mx my
      n (i : ℤ) st).2 = .ok last := by
  induction n generalizing i st with
  | zero =>
    rw [MoveImp.stepLoop]
    exact ⟨rfl, _, rfl⟩
  | succ n ih =>
    obtain ⟨next, hstep, h1, h2, h3, h4⟩ := step_straight nature hypot screenSize movement
      steps startTime stepTime mx my hnoise hdev hefs flow hflow hn i
      (by push_cast at hi ⊢; omega) st hnx hny
    rw [MoveImp.stepLoop, hstep]
    simp only []
    have hcast : ((i : ℤ) + 1) = ((i + 1 : ℕ) : ℤ) := by push_cast; ring
    rw [hcast]
    obtain ⟨ihpos, last, ihlast⟩ := ih (i + 1) (by push_cast at hi ⊢; omega) next h1 h2
      (by rw [h3, hsx, progress_succ]; ring) (by rw [h4, hsy, progress_succ]; ring)
    refine ⟨?_, last, ihlast⟩
    rw [ihpos, List.range_succ_eq_map, List.map_cons, List.map_map]
    congr 1
    · simp only [straightPosition, add_zero, progress_succ, hsx, hsy, add_assoc, mul_add]
    · apply List.map_congr_left
      intro j _
      simp only [Function.comp]
      congr 1
      omega

/-! ## Move: monotone positions -/

theorem roundTowards_of_le (v : ℚ) (t : ℤ) (h : v ≤ (t : ℚ)) :
    MoveImp.roundTowards v t = ⌈v⌉ := by
  unfold MoveImp.roundTowards
  split_ifs with h1
  · rfl
  · have hv : v = (t : ℚ) := le_antisymm h (not_lt.mp h1)
    rw [hv, Int.floor_intCast, Int.ceil_intCast]

theorem roundTowards_of_ge (v : ℚ) (t : ℤ) (h : (t : ℚ) ≤ v) :
    MoveImp.roundTowards v t = ⌊v⌋ := by
  unfold MoveImp.roundTowards
  rw [if_neg (not_lt.mpr h)]

theorem clamp_mono (W : ℤ) {a b : ℤ} (h : a ≤ b) :
    max 0 (min (W - 1) a) ≤ max 0 (min (W - 1) b) :=
  max_le_max le_rfl (min_le_min le_rfl h)

/-- Along one axis, the rounded and clamped points of a line from `sx` to `dest`, taken at
non-decreasing fractions in `[0, 1]`, move monotonically towards `dest` and never pass
it. -/
theorem axis_monotoneTowards (W sx dx dest : ℤ) (hlink : dest - dx = sx)
    (hfix : max 0 (min (W - 1) dest) = dest) (P : ℕ → ℚ) (S n : ℕ) (hn : n ≤ S)
    (hmono : ∀ j k, j ≤ k → P j ≤ P k) (hone : ∀ k, k ≤ S → P k ≤ 1) :
    MonotoneTowards dx dest ((List.range n).map (fun j =>
      max 0 (min (W - 1) (MoveImp.roundTowards ((sx : ℚ) + (dx : ℚ) * P (j + 1)) dest)))) := by
  have hdest : (dest : ℚ) = (sx : ℚ) + (dx : ℚ) := by
    rw [← hlink]
    push_cast
    ring
  constructor
  · intro hdx
    have hdxq : (0 : ℚ) ≤ (dx : ℚ) := by exact_mod_cast hdx
    have hle : ∀ k, k ≤ S → (sx : ℚ) + (dx : ℚ) * P k ≤ (dest : ℚ) := by
      intro k hk
      rw [hdest]
      have := mul_le_mul_of_nonneg_left (hone k hk) hdxq
      linarith
    constructor
    · rw [List.pairwise_map]
      apply List.Pairwise.imp_of_mem _ (List.pairwise_lt_range n)
      intro j k hj hk hjk
      rw [List.mem_range] at hj hk
      rw [roundTowards_of_le _ _ (hle _ (by omega)), roundTowards_of_le _ _ (hle _ (by omega))]
      apply clamp_mono
      apply Int.ceil_mono
      have := mul_le_mul_of_nonneg_left (hmono (j + 1) (k + 1) (by omega)) hdxq
      linarith
    · intro v hv
      rw [List.mem_map] at hv
      obtain ⟨j, hj, rfl⟩ := hv
      rw [List.mem_range] at hj
      rw [roundTowards_of_le _ _ (hle _ (by omega))]
      rw [← hfix]
      apply clamp_mono
      exact Int.ceil_le.mpr (hle _ (by omega))
  · intro hdx
    have hdxq : (dx : ℚ) ≤ 0 := by exact_mod_cast hdx
    have hle : ∀ k, k ≤ S → (dest : ℚ) ≤ (sx : ℚ) + (dx : ℚ) * P k := by
      intro k hk
      rw [hdest]
      have := mul_le_mul_of_nonpos_left (hone k hk) hdxq
      linarith
    constructor
    · rw [List.pairwise_map]
      apply List.Pairwise.imp_of_mem _ (List.pairwise_lt_range n)
      intro j k hj hk hjk
      rw [List.mem_range] at hj hk
      rw [roundTowards_of_ge _ _ (hle _ (by omega)), roundTowards_of_ge _ _ (hle _ (by omega))]
      apply clamp_mono
      apply Int.floor_mono
      have := mul_le_mul_of_nonpos_left (hmono (j + 1) (k + 1) (by omega)) hdxq
      linarith
    · intro v hv
      rw [List.mem_map] at hv
      obtain ⟨j, hj, rfl⟩ := hv
      rw [List.mem_range] at hj
      rw [roundTowards_of_ge _ _ (hle _ (by omega))]
      rw [← hfix]
      apply clamp_mono
      exact Int.le_floor.mpr (hle _ (by omega))

/-! ## MovementFactory: the plan is linked and leaves the cursor alone -/

theorem planEnd_append_singleton (start : Point ℤ) (l : List Movement) (m : Movement) :
    planEnd start (l ++ [m]) = ⟨m.destX, m.destY⟩ := by
  simp [planEnd]

theorem planEnd_nil (start : Point ℤ) : planEnd start [] = start := by
  simp [planEnd]

theorem linked_cons (start : Point ℤ) (m : Movement) (rest : List Movement) :
    Linked start (m :: rest) ↔
      m.destX - m.xDistance = start.x ∧ m.destY - m.yDistance = start.y ∧
        Linked ⟨m.destX, m.destY⟩ rest := Iff.rfl

theorem linked_append_singleton (start : Point ℤ) (l : List Movement) (m : Movement) :
    Linked start (l ++ [m]) ↔
      Linked start l ∧ m.destX - m.xDistance = (planEnd start l).x ∧
        m.destY - m.yDistance = (planEnd start l).y := by
  induction l generalizing start with
  | nil => simp [Linked, planEnd]
  | cons a rest ih =>
    have hend : planEnd start (a :: rest) = planEnd ⟨a.destX, a.destY⟩ rest := by
      rcases List.eq_nil_or_concat rest with h | ⟨l2, b, h⟩
      · subst h
        simp [planEnd]
      · subst h
        rw [List.concat_eq_append, ← List.cons_append, planEnd_append_singleton,
          planEnd_append_singleton]
    rw [List.cons_append, linked_cons, linked_cons, ih, hend]
    tauto

/-- The overshoot loop keeps the plan linked, ending on the last planned point. -/
theorem overshootLoop_linked {σ : Type} (factory : MovementFactory σ) (hypot : ℚ → ℚ → ℚ)
    (start : Point ℤ) (i : ℕ) (st : PlanState σ) (hl : Linked start st.movements)
    (hend : planEnd start st.movements = ⟨st.lastMousePositionX, st.lastMousePositionY⟩) :
    Linked start (factory.overshootLoop hypot i st).movements ∧
    planEnd start (factory.overshootLoop hypot i st).movements
      = ⟨(factory.overshootLoop hypot i st).lastMousePositionX,
          (factory.overshootLoop hypot i st).lastMousePositionY⟩ := by
  induction i generalizing st with
  | zero => rw [MovementFactory.overshootLoop]; exact ⟨hl, hend⟩
  | succ i ih =>
    rw [MovementFactory.overshootLoop]
    simp only []
    split_ifs with hd
    · apply ih
      · rw [linked_append_singleton, hend]
        exact ⟨hl, by simp, by simp⟩
      · rw [planEnd_append_singleton]
    · exact ih _ hl hend

/-- The pruning loop keeps the plan linked, and leaves in `lastMousePosition` the point on
which the pruned plan ends. -/
theorem pruneLoop_linked (xDest yDest : ℤ) (start : Point ℤ) (l : List Movement)
    (last : ℤ × ℤ) (hl : Linked start l) (hend : planEnd start l = ⟨last.1, last.2⟩) :
    Linked start (pruneLoop xDest yDest l.reverse last).1.reverse ∧
    planEnd start (pruneLoop xDest yDest l.reverse last).1.reverse
      = ⟨(pruneLoop xDest yDest l.reverse last).2.1,
          (pruneLoop xDest yDest l.reverse last).2.2⟩ := by
  induction l using List.reverseRecOn generalizing last with
  | nil => exact ⟨trivial, by simpa [pruneLoop] using hend⟩
  | append_singleton l m ih =>
    rw [List.reverse_append, List.reverse_singleton, List.singleton_append, pruneLoop]
    rw [linked_append_singleton] at hl
    split_ifs with hhit
    · apply ih _ hl.1
      rw [hl.2.1, hl.2.2]
    · simp only [List.reverse_cons, List.reverse_reverse]
      rw [linked_append_singleton]
      exact ⟨hl, hend⟩

/-- The pruned plan with the final leg appended is linked. -/
theorem plan_tail_linked (xDest yDest : ℤ) (start : Point ℤ) (l : List Movement)
    (last : ℤ × ℤ) (hl : Linked start l) (hend : planEnd start l = ⟨last.1, last.2⟩)
    (d : ℚ) (t : time_type) (f : Option Flow) :
    Linked start ((pruneLoop xDest yDest l.reverse last).1.reverse
      ++ [⟨xDest, yDest, d, xDest - (pruneLoop xDest yDest l.reverse last).2.1,
        yDest - (pruneLoop xDest yDest l.reverse last).2.2, t, f⟩]) := by
  have hprune := pruneLoop_linked xDest yDest start l last hl hend
  rw [linked_append_singleton, hprune.2]
  exact ⟨hprune.1, by simp, by simp⟩

/-- Every plan is linked, starting at the position it was made for. -/
theorem createMovements_linked {σ : Type} (factory : MovementFactory σ) (hypot : ℚ → ℚ → ℚ)
    (current : Point ℤ) (s : σ) :
    Linked current (factory.createMovements hypot current s).1 := by
  unfold MovementFactory.createMovements
  simp only []
  split_ifs with h0
  · simp [Linked]
  · apply plan_tail_linked
    · exact (overshootLoop_linked factory hypot current _ _ (by simp [Linked])
        (by simp [planEnd])).1
    · exact (overshootLoop_linked factory hypot current _ _ (by simp [Linked])
        (by simp [planEnd])).2

theorem overshootLoop_cursor {σ : Type} (factory : MovementFactory σ) (hypot : ℚ → ℚ → ℚ)
    (cursor : σ → Point ℤ) (hc : ReportsLastPositionSet factory.nature cursor) (i : ℕ)
    (st : PlanState σ) : cursor (factory.overshootLoop hypot i st).world = cursor st.world := by
  induction i generalizing st with
  | zero => rw [MovementFactory.overshootLoop]
  | succ i ih =>
    rw [MovementFactory.overshootLoop]
    simp only []
    split_ifs with hd
    · rw [ih]
      simp only [hc.deriveNextMouseMovementTimeMs, hc.getFlowWithTime, hc.getOvershootAmount]
    · rw [ih]
      simp only [hc.getOvershootAmount]

/-- Planning does not move a cursor that reports the last position set. -/
theorem createMovements_cursor {σ : Type} (factory : MovementFactory σ) (hypot : ℚ → ℚ → ℚ)
    (cursor : σ → Point ℤ) (hc : ReportsLastPositionSet factory.nature cursor)
    (current : Point ℤ) (s : σ) :
    cursor (factory.createMovements hypot current s).2 = cursor s := by
  unfold MovementFactory.createMovements
  simp only []
  split_ifs with h0
  · simp only [hc.getOvershoots, hc.getFlowWithTime]
  · simp only [hc.deriveNextMouseMovementTimeMs, hc.getFlowWithTime,
      overshootLoop_cursor factory hypot cursor hc, hc.getOvershoots]

/-! ## Move: one sub-movement -/

theorem clamp_indefinite (W : ℤ) : max 0 (min (W - 1) INT_INDEFINITE) = 0 := by
  have h : min (W - 1) INT_INDEFINITE ≤ 0 :=
    le_trans (min_le_right _ _) (by unfold INT_INDEFINITE; norm_num)
  exact max_eq_left h

/-- With `effectFadeSteps = 0` a pass of the step loop sets the position `(0, 0)`: the fade
multiplier is not a number, and the conversion of the position to `int` is clamped to the
first pixel of each axis. -/
theorem step_without_fade {σ : Type} (nature : MotionNature σ) (hypot : ℚ → ℚ → ℚ)
    (screenSize : Dimension) (movement : Movement) (steps : ℤ)
    (startTime stepTime : time_type) (mx my : ℚ)
    (hefs : nature.effectFadeSteps = 0) (flow : Flow) (hflow : movement.flow = some flow)
    (hn : 1 ≤ flow.buckets.length) (i : ℕ) (hi : (i : ℤ) < steps) (st : StepState σ) :
    ∃ next : StepState σ,
      MoveImp.step nature hypot screenSize movement steps startTime stepTime mx my (i : ℤ) st
        = .ok (⟨0, 0⟩, next) := by
  unfold MoveImp.step
  simp only [effectFadeMultiplier_none nature hefs, hflow,
    getStepSize_share flow hn _ steps i hi, MoveImp.roundedPosition, clamp_indefinite]
  exact ⟨_, rfl⟩

/-- With `effectFadeSteps = 0` every position the step loop sets is `(0, 0)`. -/
theorem stepLoop_without_fade {σ : Type} (nature : MotionNature σ) (hypot : ℚ → ℚ → ℚ)
    (screenSize : Dimension) (movement : Movement) (steps : ℤ)
    (startTime stepTime : time_type) (mx my : ℚ)
    (hefs : nature.effectFadeSteps = 0) (flow : Flow) (hflow : movement.flow = some flow)
    (hn : 1 ≤ flow.buckets.length) (n i : ℕ) (hi : ((i + n : ℕ) : ℤ) ≤ steps)
    (st : StepState σ) :
    (MoveImp.stepLoop nature hypot screenSize movement steps startTime stepTime mx my n
      (i : ℤ) st).1 = List.replicate n ⟨0, 0⟩ := by
  induction n generalizing i st with
  | zero =>
    rw [MoveImp.stepLoop]
    rfl
  | succ n ih =>
    obtain ⟨next, hstep⟩ := step_without_fade nature hypot screenSize movement steps startTime
      stepTime mx my hefs flow hflow hn i (by push_cast at hi ⊢; omega) st
    rw [MoveImp.stepLoop, hstep]
    simp only []
    have hcast : ((i : ℤ) + 1) = ((i + 1 : ℕ) : ℤ) := by push_cast; ring
    rw [hcast, ih (i + 1) (by push_cast at hi ⊢; omega) next, List.replicate_succ]

theorem monotoneTowards_nil (d t : ℤ) : MonotoneTowards d t [] := by
  constructor <;> intro _ <;> simp

/-- Without noise and deviation and with `effectFadeSteps ≠ 0`, the positions the step loop
of a sub-movement sets move monotonically towards the destination of the sub-movement and
never pass it, when the loop starts where the sub-movement was planned to start. -/
theorem stepLoop_monotone {σ : Type} (nature : MotionNature σ) (hypot : ℚ → ℚ → ℚ)
    (screenSize : Dimension) (movement : Movement)
    (hnoise : NoNoise nature) (hdev : NoDeviation nature)
    (c : FlowCharacteristicsContainer) (flow : Flow) (hcreate : Flow.create c = .ok flow)
    (hflow : movement.flow = some flow) (start : Point ℤ)
    (hsx : movement.destX - movement.xDistance = start.x)
    (hsy : movement.destY - movement.yDistance = start.y)
    (hfx : max 0 (min (screenSize.Width - 1) movement.destX) = movement.destX)
    (hfy : max 0 (min (screenSize.Height - 1) movement.destY) = movement.destY)
    (hefs : nature.effectFadeSteps ≠ 0)
    (steps : ℤ) (startTime stepTime : time_type) (mx my : ℚ) (w : σ) :
    MonotoneTowards movement.xDistance movement.destX
      ((MoveImp.stepLoop nature hypot screenSize movement steps startTime stepTime mx my
        steps.toNat 0 ⟨0, 0, 0, 0, (start.x : ℚ), (start.y : ℚ), w⟩).1.map (fun p => p.x)) ∧
    MonotoneTowards movement.yDistance movement.destY
      ((MoveImp.stepLoop nature hypot screenSize movement steps startTime stepTime mx my
        steps.toNat 0 ⟨0, 0, 0, 0, (start.x : ℚ), (start.y : ℚ), w⟩).1.map (fun p => p.y)) := by
  obtain ⟨hn, _⟩ := Flow_create_ok c flow hcreate
  have hB := Flow_create_nonneg c flow hcreate
  rcases le_or_lt steps 0 with hs | hs
  · rw [Int.toNat_of_nonpos hs, MoveImp.stepLoop]
    exact ⟨monotoneTowards_nil _ _, monotoneTowards_nil _ _⟩
  · obtain ⟨S, hS⟩ : ∃ S : ℕ, steps = (S : ℤ) := ⟨steps.toNat, (Int.toNat_of_nonneg hs.le).symm⟩
    subst hS
    have hS1 : 1 ≤ S := by omega
    have hstr := (stepLoop_straight nature hypot screenSize movement (S : ℤ) startTime
      stepTime mx my hnoise hdev hefs flow hflow hn start S 0 (by simp)
      ⟨0, 0, 0, 0, (start.x : ℚ), (start.y : ℚ), w⟩ rfl rfl
      (by simp [progress]) (by simp [progress])).1
    rw [Int.toNat_ofNat]
    rw [Nat.cast_zero] at hstr
    rw [hstr, List.map_map, List.map_map]
    constructor
    · have := axis_monotoneTowards screenSize.Width start.x movement.xDistance
        movement.destX hsx hfx (progress flow (S : ℤ)) S S le_rfl
        (fun j k hjk => progress_mono flow hB _ hjk)
        (fun k hk => progress_le_one c flow hcreate S hS1 k hk)
      simpa [Function.comp, straightPosition] using this
    · have := axis_monotoneTowards screenSize.Height start.y movement.yDistance
        movement.destY hsy hfy (progress flow (S : ℤ)) S S le_rfl
        (fun j k hjk => progress_mono flow hB _ hjk)
        (fun k hk => progress_le_one c flow hcreate S hS1 k hk)
      simpa [Function.comp, straightPosition] using this

/-- The trace of a sub-movement run from its planned start, without noise and deviation and
with `effectFadeSteps ≠ 0`, moves monotonically towards its destination. -/
theorem runMovement_monotone {σ : Type} (nature : MotionNature σ) (hypot : ℚ → ℚ → ℚ)
    (screenSize : Dimension) (xDest yDest : ℤ) (movement : Movement)
    (cursor : σ → Point ℤ) (hc : ReportsLastPositionSet nature cursor)
    (hnoise : NoNoise nature) (hdev : NoDeviation nature)
    (c : FlowCharacteristicsContainer) (flow : Flow) (hcreate : Flow.create c = .ok flow)
    (hflow : movement.flow = some flow) (s : σ)
    (hsx : movement.destX - movement.xDistance = (cursor s).x)
    (hsy : movement.destY - movement.yDistance = (cursor s).y)
    (hfx : max 0 (min (screenSize.Width - 1) movement.destX) = movement.destX)
    (hfy : max 0 (min (screenSize.Height - 1) movement.destY) = movement.destY)
    (hefs : nature.effectFadeSteps ≠ 0) :
    (MoveImp.runMovement nature hypot screenSize xDest yDest movement s).1.MonotoneTowards := by
  have hloop := stepLoop_monotone nature hypot screenSize movement hnoise hdev c flow hcreate
    hflow (cursor s) hsx hsy hfx hfy hefs
  unfold MoveImp.runMovement
  simp only [hc.getMousePosition_fst, hc.currentTimeMillis]
  split_ifs with h0
  · exact ⟨monotoneTowards_nil _ _, monotoneTowards_nil _ _⟩
  · split
    · exact hloop _ _ _ _ _ _
    · split_ifs
      · exact hloop _ _ _ _ _ _
      · exact hloop _ _ _ _ _ _

/-- After a sub-movement that returned, `mousePosition` and the cursor are on its
destination. -/
theorem runMovement_end {σ : Type} (nature : MotionNature σ) (hypot : ℚ → ℚ → ℚ)
    (screenSize : Dimension) (xDest yDest : ℤ) (movement : Movement)
    (cursor : σ → Point ℤ) (hc : ReportsLastPositionSet nature cursor) (s : σ)
    (p : Point ℤ) (w : σ)
    (h : (MoveImp.runMovement nature hypot screenSize xDest yDest movement s).2 = .ok (p, w)) :
    p = ⟨movement.destX, movement.destY⟩ ∧ cursor w = ⟨movement.destX, movement.destY⟩ := by
  have hreact : ∀ q v, cursor (MoveImp.reactionSleep nature xDest yDest q v) = cursor v := by
    intro q v
    unfold MoveImp.reactionSleep
    split_ifs
    · simp only [hc.sleep, hc.random]
    · rfl
  unfold MoveImp.runMovement at h
  simp only [] at h
  split_ifs at h with h0
  split at h
  · exact absurd h (by simp)
  · split_ifs at h with hne
    · simp only [Except.ok.injEq, Prod.mk.injEq] at h
      rw [← h.1, ← h.2, hreact]
      simp only [hc.getMousePosition_fst, hc.getMousePosition_snd, hc.sleep,
        hc.setMousePosition, and_self]
    · simp only [Except.ok.injEq, Prod.mk.injEq] at h
      rw [← h.1, ← h.2, hreact]
      push_neg at hne
      simp only [hc.getMousePosition_fst] at hne
      simp only [hc.getMousePosition_fst, hc.getMousePosition_snd]
      constructor <;> rw [← hne.1, ← hne.2]

/-! ## Move: monotone sub-movements -/

theorem clamp_idem (W v : ℤ) :
    max 0 (min (W - 1) (max 0 (min (W - 1) v))) = max 0 (min (W - 1) v) := by
  simp only [max_def, min_def]
  split_ifs <;> omega

/-- Every movement of a plan ends on a point the clamp to the screen leaves alone and
carries a valid flow, when the destination is such a point and the speed provider returns
valid flows. -/
theorem createMovements_sound {σ : Type} (nature : MotionNature σ) (hypot : ℚ → ℚ → ℚ)
    (W H xDest yDest : ℤ) (hflows : ReturnsValidFlows nature)
    (hdx : max 0 (min (W - 1) xDest) = xDest) (hdy : max 0 (min (H - 1) yDest) = yDest)
    (current : Point ℤ) (s : σ) :
    ∀ m ∈ ((⟨xDest, yDest, nature, ⟨W, H⟩⟩ : MovementFactory σ).createMovements hypot current
        s).1,
      (max 0 (min (W - 1) m.destX) = m.destX ∧ max 0 (min (H - 1) m.destY) = m.destY) ∧
      ∃ c flow, Flow.create c = .ok flow ∧ m.flow = some flow := by
  apply createMovements_forall (⟨xDest, yDest, nature, ⟨W, H⟩⟩ : MovementFactory σ) hypot
    (fun m => (max 0 (min (W - 1) m.destX) = m.destX ∧
      max 0 (min (H - 1) m.destY) = m.destY) ∧
      ∃ c flow, Flow.create c = .ok flow ∧ m.flow = some flow)
  · intro vx vy lx ly t d w _
    exact ⟨⟨clamp_idem W vx, clamp_idem H vy⟩, hflows d w⟩
  · intro lx ly t d w
    exact ⟨⟨hdx, hdy⟩, hflows d w⟩

theorem moveLoop_monotone {σ : Type} (nature : MotionNature σ) (hypot : ℚ → ℚ → ℚ)
    (W H xd yd : ℤ) (cursor : σ → Point ℤ) (hc : ReportsLastPositionSet nature cursor)
    (hnoise : NoNoise nature) (hdev : NoDeviation nature) (hflows : ReturnsValidFlows nature)
    (hefs : nature.effectFadeSteps ≠ 0)
    (hdx : max 0 (min (W - 1) xd) = xd) (hdy : max 0 (min (H - 1) yd) = yd)
    (xDest yDest : ℤ) (fuel : ℕ) (movements : List Movement) (mousePosition : Point ℤ)
    (s : σ) (hcur : cursor s = mousePosition) (hl : Linked mousePosition movements)
    (hm : ∀ m ∈ movements,
      (max 0 (min (W - 1) m.destX) = m.destX ∧ max 0 (min (H - 1) m.destY) = m.destY) ∧
      ∃ c flow, Flow.create c = .ok flow ∧ m.flow = some flow) :
    ∀ t ∈ (MoveImp.moveLoop nature hypot ⟨W, H⟩ ⟨xd, yd, nature, ⟨W, H⟩⟩ xDest yDest fuel
      movements mousePosition s).trace, t.MonotoneTowards := by
  induction fuel generalizing movements mousePosition s with
  | zero =>
    rw [MoveImp.moveLoop]
    split_ifs <;> simp
  | succ fuel ih =>
    rw [MoveImp.moveLoop]
    split_ifs with hne
    · simp only []
      have hplanned :
          cursor (MoveImp.repopulate nature hypot ⟨xd, yd, nature, ⟨W, H⟩⟩ movements s).1.2
            = mousePosition ∧
          Linked mousePosition
            (MoveImp.repopulate nature hypot ⟨xd, yd, nature, ⟨W, H⟩⟩ movements s).1.1 ∧
          ∀ m ∈ (MoveImp.repopulate nature hypot ⟨xd, yd, nature, ⟨W, H⟩⟩ movements s).1.1,
            (max 0 (min (W - 1) m.destX) = m.destX ∧
              max 0 (min (H - 1) m.destY) = m.destY) ∧
            ∃ c flow, Flow.create c = .ok flow ∧ m.flow = some flow := by
        unfold MoveImp.repopulate
        split_ifs
        · simp only []
          refine ⟨?_, ?_, ?_⟩
          · rw [createMovements_cursor _ hypot cursor hc, hc.getMousePosition_snd, hcur]
          · rw [hc.getMousePosition_fst, hcur]
            exact createMovements_linked _ hypot _ _
          · exact createMovements_sound nature hypot W H xd yd hflows hdx hdy _ _
        · exact ⟨hcur, hl, hm⟩
      generalize MoveImp.repopulate nature hypot ⟨xd, yd, nature, ⟨W, H⟩⟩ movements s
        = planned at hplanned
      obtain ⟨hpc, hpl, hpm⟩ := hplanned
      split
      · simp
      · rename_i movement rest heq
        rw [heq] at hpl hpm
        rw [linked_cons] at hpl
        obtain ⟨⟨hfx, hfy⟩, c, flow, hcreate, hflow⟩ := hpm movement (by simp)
        have hrun := runMovement_monotone nature hypot ⟨W, H⟩ xDest yDest movement cursor hc
          hnoise hdev c flow hcreate hflow planned.1.2 (by rw [hpc]; exact hpl.1)
          (by rw [hpc]; exact hpl.2.1) hfx hfy hefs
        split
        · intro t ht
          simp only [List.mem_singleton] at ht
          rw [ht]
          exact hrun
        · rename_i next hnext
          obtain ⟨hp, hw⟩ := runMovement_end nature hypot ⟨W, H⟩ xDest yDest movement cursor
            hc planned.1.2 next.1 next.2 hnext
          intro t ht
          simp only [List.mem_cons] at ht
          rcases ht with rfl | ht
          · exact hrun
          · refine ih rest next.1 next.2 (by rw [hw, hp]) ?_
              (fun m hm2 => hpm m (by simp [hm2])) t ht
            rw [hp]
            exact hpl.2.2
    · simp

/-- C17, amended: with noise and deviation providers that always return `(0,0)`, a speed
provider that returns valid flows, a cursor that reports the last position set and
`effectFadeSteps ≠ 0`, within every sub-movement `Move` executes the positions set by the
step loop are monotone on each axis (non-decreasing when the axis distance is `≥ 0`,
non-increasing when it is `≤ 0`) and never pass the destination of the sub-movement on that
axis, in exact arithmetic. -/
theorem Move_positions_monotone {σ : Type} (nature : MotionNature σ) (hypot : ℚ → ℚ → ℚ)
    (W H : ℤ) (hscreen : ScreenIs nature W H) (cursor : σ → Point ℤ)
    (hc : ReportsLastPositionSet nature cursor) (hnoise : NoNoise nature)
    (hdev : NoDeviation nature) (hflows : ReturnsValidFlows nature)
    (hefs : nature.effectFadeSteps ≠ 0) (fuel : ℕ) (x y : ℤ) (s : σ) :
    ∀ t ∈ (MoveImp.Move nature hypot fuel x y s).trace,
      MonotoneTowards t.movement.xDistance t.movement.destX (t.positions.map (fun p => p.x)) ∧
      MonotoneTowards t.movement.yDistance t.movement.destY (t.positions.map (fun p => p.y)) := by
  unfold MoveImp.Move
  simp only [MovementFactory.create, hscreen _]
  apply moveLoop_monotone nature hypot W H _ _ cursor hc hnoise hdev hflows hefs
    (clamp_idem W x) (clamp_idem H y)
  · rw [createMovements_cursor _ hypot cursor hc, hc.getScreenSize, hc.getMousePosition_snd,
      hc.getMousePosition_fst, hc.getScreenSize]
  · exact createMovements_linked _ hypot _ _
  · exact createMovements_sound nature hypot W H _ _ hflows (clamp_idem W x) (clamp_idem H y)
      _ _

/-! ## Move: termination on the destination -/

/-- With `minSteps ≥ 1`, a movement of positive length takes at least one step. -/
theorem steps_pos {σ : Type} (nature : MotionNature σ) (hmin : 1 ≤ nature.minSteps)
    (distance : ℚ) (hd : 0 < distance) (mouseMovementMs : time_type) :
    1 ≤ MoveImp.steps nature distance mouseMovementMs := by
  have hminq : (1 : ℚ) ≤ (nature.minSteps : ℚ) := by exact_mod_cast hmin
  have hpos : ∀ v : ℚ, 0 < v → 1 ≤ ⌈v⌉ := by
    intro v hv
    have : 0 < ⌈v⌉ := Int.ceil_pos.mpr hv
    omega
  unfold MoveImp.steps
  split_ifs
  · exact hpos _ (lt_min hd (by linarith))
  · exact hpos _ hd
  · exact hpos _ (lt_min hd (lt_of_lt_of_le (by linarith) (le_max_right _ _)))

/-- A pass of the step loop returns when the flow is valid. -/
theorem step_returns {σ : Type} (nature : MotionNature σ) (hypot : ℚ → ℚ → ℚ)
    (screenSize : Dimension) (movement : Movement) (steps : ℤ)
    (startTime stepTime : time_type) (mx my : ℚ)
    (flow : Flow) (hflow : movement.flow = some flow)
    (hn : 1 ≤ flow.buckets.length) (i : ℕ) (hi : (i : ℤ) < steps) (st : StepState σ) :
    ∃ r, MoveImp.step nature hypot screenSize movement steps startTime stepTime mx my (i : ℤ)
      st = .ok r := by
  unfold MoveImp.step
  simp only [hflow, getStepSize_share flow hn _ steps i hi]
  exact ⟨_, rfl⟩

/-- The step loop returns, after one position per pass, when the flow is valid. -/
theorem stepLoop_returns {σ : Type} (nature : MotionNature σ) (hypot : ℚ → ℚ → ℚ)
    (screenSize : Dimension) (movement : Movement) (steps : ℤ)
    (startTime stepTime : time_type) (mx my : ℚ)
    (flow : Flow) (hflow : movement.flow = some flow)
    (hn : 1 ≤ flow.buckets.length) (n i : ℕ) (hi : ((i + n : ℕ) : ℤ) ≤ steps)
    (st : StepState σ) :
    (∃ last, (MoveImp.stepLoop nature hypot screenSize movement steps startTime stepTime mx
      my n (i : ℤ) st).2 = .ok last) ∧
    (MoveImp.stepLoop nature hypot screenSize movement steps startTime stepTime mx my n
      (i : ℤ) st).1.length = n := by
  induction n generalizing i st with
  | zero =>
    rw [MoveImp.stepLoop]
    exact ⟨⟨_, rfl⟩, rfl⟩
  | succ n ih =>
    obtain ⟨r, hr⟩ := step_returns nature hypot screenSize movement steps startTime stepTime
      mx my flow hflow hn i (by push_cast at hi ⊢; omega) st
    rw [MoveImp.stepLoop, hr]
    simp only []
    have hcast : ((i + 1 : ℕ) : ℤ) = (i : ℤ) + 1 := by push_cast; ring
    have hrec := ih (i + 1) (by push_cast at hi ⊢; omega) r.2
    rw [hcast] at hrec
    obtain ⟨⟨last, hlast⟩, hlen⟩ := hrec
    exact ⟨⟨last, hlast⟩, by rw [List.length_cons, hlen]⟩

/-- A sub-movement of at least one step returns when the flow is valid; it sets one position
per step. -/
theorem runMovement_returns {σ : Type} (nature : MotionNature σ) (hypot : ℚ → ℚ → ℚ)
    (screenSize : Dimension) (xDest yDest : ℤ) (movement : Movement)
    (flow : Flow) (hflow : movement.flow = some flow)
    (hn : 1 ≤ flow.buckets.length)
    (hsteps : 1 ≤ MoveImp.steps nature movement.distance movement.time) (s : σ) :
    (∃ r, (MoveImp.runMovement nature hypot screenSize xDest yDest movement s).2 = .ok r) ∧
    (MoveImp.runMovement nature hypot screenSize xDest yDest movement s).1.positions.length
      = (MoveImp.steps nature movement.distance movement.time).toNat := by
  have hloop := fun startTime stepTime mx my st =>
    stepLoop_returns nature hypot screenSize movement
      (MoveImp.steps nature movement.distance movement.time) startTime stepTime mx my
      flow hflow hn (MoveImp.steps nature movement.distance movement.time).toNat 0
      (by rw [zero_add, Int.toNat_of_nonneg (by omega)]) st
  simp only [Nat.cast_zero] at hloop
  unfold MoveImp.runMovement
  simp only []
  rw [if_neg (by omega)]
  split
  · rename_i e he
    obtain ⟨⟨last, hlast⟩, _⟩ := hloop _ _ _ _ _
    rw [hlast] at he
    exact absurd he (by simp)
  · split_ifs
    · exact ⟨⟨_, rfl⟩, (hloop _ _ _ _ _).2⟩
    · exact ⟨⟨_, rfl⟩, (hloop _ _ _ _ _).2⟩

theorem planEnd_cons (start : Point ℤ) (m : Movement) (rest : List Movement) :
    planEnd start (m :: rest) = planEnd ⟨m.destX, m.destY⟩ rest := by
  rcases List.eq_nil_or_concat rest with h | ⟨l2, b, h⟩
  · subst h
    simp [planEnd]
  · subst h
    rw [List.concat_eq_append, ← List.cons_append, planEnd_append_singleton,
      planEnd_append_singleton]

theorem moveLoop_at_destination {σ : Type} (nature : MotionNature σ) (hypot : ℚ → ℚ → ℚ)
    (screenSize : Dimension) (factory : MovementFactory σ) (xDest yDest : ℤ) (fuel : ℕ)
    (movements : List Movement) (s : σ) :
    MoveImp.moveLoop nature hypot screenSize factory xDest yDest fuel movements
      ⟨xDest, yDest⟩ s = ⟨[], 0, .returned s⟩ := by
  cases fuel <;> rw [MoveImp.moveLoop] <;> simp

/-- The outer loop returns with the cursor on the destination once it is allowed as many
passes as the plan has movements: it runs the movements in order, never plans again, and
stops on the first one that ends on the destination. -/
theorem moveLoop_returns {σ : Type} (nature : MotionNature σ) (hypot : ℚ → ℚ → ℚ)
    (screenSize : Dimension) (factory : MovementFactory σ) (xDest yDest : ℤ)
    (cursor : σ → Point ℤ) (hc : ReportsLastPositionSet nature cursor)
    (hmin : 1 ≤ nature.minSteps)
    (movements : List Movement) (fuel : ℕ) (mousePosition : Point ℤ) (s : σ)
    (hcur : cursor s = mousePosition)
    (hend : planEnd mousePosition movements = ⟨xDest, yDest⟩)
    (hm : ∀ m ∈ movements, 0 < m.distance ∧
      ∃ c flow, Flow.create c = .ok flow ∧ m.flow = some flow)
    (hfuel : movements.length ≤ fuel) :
    ∃ w, (MoveImp.moveLoop nature hypot screenSize factory xDest yDest fuel movements
        mousePosition s).outcome = .returned w ∧ cursor w = ⟨xDest, yDest⟩ ∧
      (MoveImp.moveLoop nature hypot screenSize factory xDest yDest fuel movements
        mousePosition s).replans = 0 ∧
      (MoveImp.moveLoop nature hypot screenSize factory xDest yDest fuel movements
        mousePosition s).trace.length ≤ movements.length := by
  induction movements generalizing fuel mousePosition s with
  | nil =>
    rw [planEnd_nil] at hend
    subst hend
    rw [moveLoop_at_destination]
    exact ⟨s, rfl, hcur, rfl, by simp⟩
  | cons m rest ih =>
    by_cases hat : mousePosition = ⟨xDest, yDest⟩
    · subst hat
      rw [moveLoop_at_destination]
      exact ⟨s, rfl, hcur, rfl, by simp⟩
    · obtain ⟨f, rfl⟩ : ∃ f, fuel = f + 1 := ⟨fuel - 1, by simp at hfuel; omega⟩
      have hne : mousePosition.x ≠ xDest ∨ mousePosition.y ≠ yDest := by
        by_contra hcon
        push_neg at hcon
        apply hat
        rcases mousePosition with ⟨px, py⟩
        simp only at hcon
        rw [hcon.1, hcon.2]
      obtain ⟨hd, c, flow, hcreate, hflow⟩ := hm m (by simp)
      obtain ⟨⟨r, hr⟩, _⟩ := runMovement_returns nature hypot screenSize xDest yDest m
        flow hflow (Flow_create_ok c flow hcreate).1 (steps_pos nature hmin _ hd _) s
      obtain ⟨hp, hw⟩ := runMovement_end nature hypot screenSize xDest yDest m cursor hc s
        r.1 r.2 hr
      rw [MoveImp.moveLoop, if_pos hne]
      simp only [MoveImp.repopulate, List.isEmpty_cons, Bool.false_eq_true, if_false, hr]
      rw [planEnd_cons] at hend
      obtain ⟨w, h1, h2, h3, h4⟩ := ih f r.1 r.2 (by rw [hw, hp]) (by rw [hp]; exact hend)
        (fun m2 hm2 => hm m2 (by simp [hm2])) (by simp at hfuel; omega)
      exact ⟨w, h1, h2, by simp [h3], by simp; omega⟩

/-! ## MovementFactory: every leg of a plan has positive length -/

/-- After pruning, `lastMousePosition` is off the destination when the plan started off
it. -/
theorem pruneLoop_end_ne (xDest yDest : ℤ) (start : Point ℤ) (l : List Movement)
    (last : ℤ × ℤ) (hl : Linked start l) (hend : planEnd start l = ⟨last.1, last.2⟩)
    (hne : start.x ≠ xDest ∨ start.y ≠ yDest) :
    (pruneLoop xDest yDest l.reverse last).2.1 ≠ xDest ∨
      (pruneLoop xDest yDest l.reverse last).2.2 ≠ yDest := by
  induction l using List.reverseRecOn generalizing last with
  | nil =>
    rw [planEnd_nil] at hend
    rw [hend] at hne
    simpa [pruneLoop] using hne
  | append_singleton l m ih =>
    rw [List.reverse_append, List.reverse_singleton, List.singleton_append, pruneLoop]
    rw [linked_append_singleton] at hl
    split_ifs with hhit
    · apply ih _ hl.1
      rw [hl.2.1, hl.2.2]
    · rw [planEnd_append_singleton] at hend
      simp only [Point.mk.injEq] at hend
      rw [← hend.1, ← hend.2]
      by_contra hcon
      push_neg at hcon
      exact hhit hcon

/-- For a position off the destination, every movement of the plan has positive length and
the plan ends on the destination. -/
theorem createMovements_distance_pos {σ : Type} (factory : MovementFactory σ)
    {hypot : ℚ → ℚ → ℚ} (hh : IsHypot hypot) (current : Point ℤ) (s : σ)
    (hne : current.x ≠ factory.xDest ∨ current.y ≠ factory.yDest) :
    ∀ m ∈ (factory.createMovements hypot current s).1, 0 < m.distance := by
  have hvec : ∀ a b : ℤ, (a ≠ factory.xDest ∨ b ≠ factory.yDest) →
      0 < hypot ((factory.xDest - a : ℤ) : ℚ) ((factory.yDest - b : ℤ) : ℚ) := by
    intro a b hab
    apply (hh.pos_iff _ _).mpr
    rcases hab with h | h
    · left
      exact_mod_cast sub_ne_zero.mpr (Ne.symm h)
    · right
      exact_mod_cast sub_ne_zero.mpr (Ne.symm h)
  unfold MovementFactory.createMovements
  simp only []
  split_ifs with h0
  · intro m hm
    simp only [List.mem_singleton] at hm
    rw [hm]
    exact hvec _ _ hne
  · intro m hm
    simp only [List.mem_append, List.mem_singleton, List.mem_reverse] at hm
    rcases hm with hm | rfl
    · rw [pruneLoop_fst] at hm
      have hm2 := (List.dropWhile_sublist _).subset hm
      rw [List.mem_reverse] at hm2
      exact overshootLoop_forall factory hypot (fun m => 0 < m.distance)
        (fun _ _ _ _ _ _ _ hd => hd) _ _ (by simp) m hm2
    · apply hvec
      apply pruneLoop_end_ne factory.xDest factory.yDest current
      · exact (overshootLoop_linked factory hypot current _ _ (by simp [Linked])
          (by simp [planEnd])).1
      · exact (overshootLoop_linked factory hypot current _ _ (by simp [Linked])
          (by simp [planEnd])).2
      · exact hne

theorem createMovements_planEnd {σ : Type} (factory : MovementFactory σ)
    (hypot : ℚ → ℚ → ℚ) (current : Point ℤ) (s : σ) :
    planEnd current (factory.createMovements hypot current s).1
      = ⟨factory.xDest, factory.yDest⟩ := by
  unfold MovementFactory.createMovements
  simp only []
  split_ifs with h0
  · simp [planEnd]
  · rw [planEnd_append_singleton]

/-! ## Move: the cursor ends on the clamped destination -/

/-- With a cursor that reports the last position set, a speed provider that returns valid
flows and `minSteps ≥ 1`, `Move` returns with the cursor on the destination clamped to the
screen, as soon as its outer loop is allowed as many passes as the first plan has movements;
it never plans again. -/
theorem Move_returns {σ : Type} (nature : MotionNature σ) {hypot : ℚ → ℚ → ℚ}
    (hh : IsHypot hypot) (W H : ℤ) (hscreen : ScreenIs nature W H)
    (cursor : σ → Point ℤ) (hc : ReportsLastPositionSet nature cursor)
    (hflows : ReturnsValidFlows nature) (hmin : 1 ≤ nature.minSteps)
    (x y : ℤ) (s : σ) :
    ∃ N : ℕ, ∀ fuel, N ≤ fuel →
      ∃ w, (MoveImp.Move nature hypot fuel x y s).outcome = .returned w ∧
        cursor w = ⟨max 0 (min (W - 1) x), max 0 (min (H - 1) y)⟩ ∧
        (MoveImp.Move nature hypot fuel x y s).replans = 0 := by
  by_cases hat : cursor s = ⟨max 0 (min (W - 1) x), max 0 (min (H - 1) y)⟩
  · refine ⟨0, fun fuel _ => ?_⟩
    unfold MoveImp.Move
    simp only [MovementFactory.create, hscreen _, hc.getMousePosition_fst, hc.getScreenSize,
      hat]
    rw [moveLoop_at_destination]
    refine ⟨_, rfl, ?_, rfl⟩
    rw [createMovements_cursor _ hypot cursor hc, hc.getScreenSize, hc.getMousePosition_snd,
      hc.getScreenSize, hat]
  · refine ⟨(((⟨max 0 (min (W - 1) x), max 0 (min (H - 1) y), nature, ⟨W, H⟩⟩ :
        MovementFactory σ).createMovements hypot (cursor s)
        (nature.systemCalls.getScreenSize (nature.systemCalls.getMousePosition
          (nature.systemCalls.getScreenSize s).2).2).2).1).length, fun fuel hfuel => ?_⟩
    have hne : (cursor s).x ≠ max 0 (min (W - 1) x) ∨ (cursor s).y ≠ max 0 (min (H - 1) y) := by
      by_contra hcon
      push_neg at hcon
      apply hat
      rcases hcs : cursor s with ⟨px, py⟩
      rw [hcs] at hcon
      simp only at hcon
      rw [hcon.1, hcon.2]
    unfold MoveImp.Move
    simp only [MovementFactory.create, hscreen _, hc.getMousePosition_fst, hc.getScreenSize]
    obtain ⟨w, h1, h2, h3, _⟩ := moveLoop_returns nature hypot ⟨W, H⟩
      ⟨max 0 (min (W - 1) x), max 0 (min (H - 1) y), nature, ⟨W, H⟩⟩
      (max 0 (min (W - 1) x)) (max 0 (min (H - 1) y)) cursor hc hmin
      ((⟨max 0 (min (W - 1) x), max 0 (min (H - 1) y), nature, ⟨W, H⟩⟩ :
        MovementFactory σ).createMovements hypot (cursor s)
        (nature.systemCalls.getScreenSize (nature.systemCalls.getMousePosition
          (nature.systemCalls.getScreenSize s).2).2).2).1 fuel (cursor s)
      ((⟨max 0 (min (W - 1) x), max 0 (min (H - 1) y), nature, ⟨W, H⟩⟩ :
        MovementFactory σ).createMovements hypot (cursor s)
        (nature.systemCalls.getScreenSize (nature.systemCalls.getMousePosition
          (nature.systemCalls.getScreenSize s).2).2).2).2
      (by rw [createMovements_cursor _ hypot cursor hc, hc.getScreenSize,
        hc.getMousePosition_snd, hc.getScreenSize])
      (createMovements_planEnd _ hypot _ _)
      (fun m hm => ⟨createMovements_distance_pos _ hh _ _ hne m hm,
        (createMovements_sound nature hypot W H _ _ hflows (clamp_idem W x) (clamp_idem H y)
          _ _ m hm).2⟩)
      hfuel
    exact ⟨w, h1, h2, h3⟩

/-! ## The test doubles -/

theorem Flow_create_100 : Flow.create [100] = .ok ⟨[100]⟩ := by
  rw [Flow_create_eq]
  norm_num

theorem toOvershootManager_cursor (manager : DefaultOvershootManager MockWorld)
    (hypot : ℚ → ℚ → ℚ) (h1 : manager.overshootRandomModifierDivider ≠ 0)
    (h2 : manager.overshootSpeedupDivider ≠ 0)
    (hr : ∀ s, (manager.random s).2.cursor = s.cursor) :
    (∀ f t d s, ((manager.toOvershootManager hypot h1 h2).getOvershoots f t d s).2.cursor
      = s.cursor) ∧
    (∀ a b t k s,
      ((manager.toOvershootManager hypot h1 h2).getOvershootAmount a b t k s).2.cursor
        = s.cursor) ∧
    (∀ t k s,
      ((manager.toOvershootManager hypot h1 h2).deriveNextMouseMovementTimeMs t k s).2.cursor
        = s.cursor) := by
  refine ⟨?_, ?_, ?_⟩
  · intro f t d s
    simp only [DefaultOvershootManager.toOvershootManager,
      DefaultOvershootManager.getOvershoots]
    split_ifs <;> rfl
  · intro a b t k s
    simp only [DefaultOvershootManager.toOvershootManager]
    split
    · rename_i r heq
      unfold DefaultOvershootManager.getOvershootAmount at heq
      simp only [fdiv, h1, if_false] at heq
      injection heq with heq
      rw [← heq]
      simp only [hr]
    · rename_i e heq
      exfalso
      unfold DefaultOvershootManager.getOvershootAmount at heq
      simp [fdiv, h1] at heq
  · intro t k s
    simp only [DefaultOvershootManager.toOvershootManager]
    split
    · rename_i r heq
      unfold DefaultOvershootManager.deriveNextMouseMovementTimeMs at heq
      simp only [fdiv, h2, if_false] at heq
      injection heq with heq
      rw [← heq]
    · rename_i e heq
      exfalso
      unfold DefaultOvershootManager.deriveNextMouseMovementTimeMs at heq
      simp [fdiv, h2] at heq

/-- The cursor of the mock nature reports the last position set. -/
theorem NewMockNature_reportsLastPositionSet (hypot : ℚ → ℚ → ℚ) (overshoots : ℕ) :
    ReportsLastPositionSet (NewMockNature hypot overshoots) MockWorld.cursor := by
  obtain ⟨h1, h2, h3⟩ := toOvershootManager_cursor (MockOvershootManager overshoots) hypot
    (by norm_num [MockOvershootManager, DefaultOvershootManager.create])
    (by norm_num [MockOvershootManager, DefaultOvershootManager.create])
    (fun s => rfl)
  constructor
  · intro s; rfl
  · intro s; rfl
  · intro x y s
    simp [NewMockNature, MockSystemCalls, MockWorld.cursor]
  · intro s; rfl
  · intro t s; rfl
  · intro s; rfl
  · intro s; rfl
  · intro a b s; rfl
  · intro a b s; rfl
  · intro d s; rfl
  · exact h1
  · exact h2
  · exact h3
  · intro f hf
    simp [NewMockNature] at hf

theorem NewMockNature_screen (hypot : ℚ → ℚ → ℚ) (overshoots : ℕ) :
    ScreenIs (NewMockNature hypot overshoots) 800 500 := fun _ => rfl

theorem NewMockNature_validFlows (hypot : ℚ → ℚ → ℚ) (overshoots : ℕ) :
    ReturnsValidFlows (NewMockNature hypot overshoots) :=
  fun _ _ => ⟨[100], ⟨[100]⟩, Flow_create_100, rfl⟩

/-! ## Move: the clamped destination -/

/-- C14: with a cursor that reports exactly the last position set, a screen of width
`W ≥ 1` and height `H ≥ 1`, `minSteps ≥ 1` and any overshoot, noise and deviation policies
(and any `effectFadeSteps`, zero included), `Move(nature, x, y)` returns, once its outer
loop is allowed enough passes, with the cursor at `(min(max(x, 0), W-1), min(max(y, 0),
H-1))`: an axis out of range is clamped to the nearest edge of the screen, an axis in range
is left as requested. The speed provider, which the claim does not vary, hands out flows
that the constructor of `Flow` built. -/
theorem Move_ends_on_clamped_destination {σ : Type} (nature : MotionNature σ)
    {hypot : ℚ → ℚ → ℚ} (hh : IsHypot hypot) (W H : ℤ) (hW : 1 ≤ W) (hH : 1 ≤ H)
    (hscreen : ScreenIs nature W H) (cursor : σ → Point ℤ)
    (hc : ReportsLastPositionSet nature cursor) (hflows : ReturnsValidFlows nature)
    (hmin : 1 ≤ nature.minSteps) (x y : ℤ) (s : σ) :
    ∃ N : ℕ, ∀ fuel, N ≤ fuel →
      ∃ w, (MoveImp.Move nature hypot fuel x y s).outcome = .returned w ∧
        cursor w = ⟨min (max x 0) (W - 1), min (max y 0) (H - 1)⟩ := by
  obtain ⟨N, hN⟩ := Move_returns nature hh W H hscreen cursor hc hflows hmin x y s
  refine ⟨N, fun fuel hfuel => ?_⟩
  obtain ⟨w, h1, h2, _⟩ := hN fuel hfuel
  refine ⟨w, h1, ?_⟩
  rw [h2]
  have e1 : max 0 (min (W - 1) x) = min (max x 0) (W - 1) := by
    simp only [max_def, min_def]
    split_ifs <;> omega
  have e2 : max 0 (min (H - 1) y) = min (max y 0) (H - 1) := by
    simp only [max_def, min_def]
    split_ifs <;> omega
  rw [e1, e2]

theorem Move_ends_on_clamped_destination_witness :
    ∃ N : ℕ, ∀ fuel, N ≤ fuel →
      ∃ w, (MoveImp.Move (NewMockNature chebyshev 100) chebyshev fuel 900 400
          (MockWorld.initial [])).outcome = .returned w ∧
        MockWorld.cursor w = ⟨min (max 900 0) (800 - 1), min (max 400 0) (500 - 1)⟩ :=
  Move_ends_on_clamped_destination (NewMockNature chebyshev 100) chebyshev_isHypot 800 500
    (by decide) (by decide) (NewMockNature_screen chebyshev 100) MockWorld.cursor
    (NewMockNature_reportsLastPositionSet chebyshev 100)
    (NewMockNature_validFlows chebyshev 100) (by decide) 900 400
    (MockWorld.initial [])

/-! ## Move: a straight line without overshoots -/

/-- Without noise and deviation, a sub-movement of at least one step with a valid flow sets
the positions of the straight line from the cursor, one per step, and then at most adjusts
to its destination. -/
theorem runMovement_straight {σ : Type} (nature : MotionNature σ) (hypot : ℚ → ℚ → ℚ)
    (screenSize : Dimension) (xDest yDest : ℤ) (movement : Movement)
    (cursor : σ → Point ℤ) (hc : ReportsLastPositionSet nature cursor)
    (hnoise : NoNoise nature) (hdev : NoDeviation nature)
    (hefs : nature.effectFadeSteps ≠ 0) (flow : Flow) (hflow : movement.flow = some flow)
    (hn : 1 ≤ flow.buckets.length)
    (hsteps : 1 ≤ MoveImp.steps nature movement.distance movement.time) (s : σ) :
    (MoveImp.runMovement nature hypot screenSize xDest yDest movement s).1.positions
      = (List.range (MoveImp.steps nature movement.distance movement.time).toNat).map
          (fun j => straightPosition screenSize movement flow
            (MoveImp.steps nature movement.distance movement.time) (cursor s) (j + 1)) ∧
    ((MoveImp.runMovement nature hypot screenSize xDest yDest movement s).1.adjustment = none ∨
      (MoveImp.runMovement nature hypot screenSize xDest yDest movement s).1.adjustment
        = some ⟨movement.destX, movement.destY⟩) := by
  have hloop := fun startTime stepTime mx my w =>
    (stepLoop_straight nature hypot screenSize movement
      (MoveImp.steps nature movement.distance movement.time) startTime stepTime mx my hnoise
      hdev hefs flow hflow hn (cursor s)
      (MoveImp.steps nature movement.distance movement.time).toNat 0
      (by rw [zero_add, Int.toNat_of_nonneg (by omega)])
      ⟨0, 0, 0, 0, ((cursor s).x : ℚ), ((cursor s).y : ℚ), w⟩ rfl rfl
      (by simp [progress]) (by simp [progress])).1
  simp only [Nat.cast_zero, zero_add] at hloop
  unfold MoveImp.runMovement
  simp only [hc.getMousePosition_fst, hc.currentTimeMillis]
  rw [if_neg (by omega)]
  split
  · exact ⟨hloop _ _ _ _ _, Or.inl rfl⟩
  · split_ifs
    · exact ⟨hloop _ _ _ _ _, Or.inr rfl⟩
    · exact ⟨hloop _ _ _ _ _, Or.inl rfl⟩

/-- With `effectFadeSteps = 0`, a sub-movement of at least one step with a valid flow sets
the position `(0, 0)` at every step, and then at most adjusts to its destination. -/
theorem runMovement_without_fade {σ : Type} (nature : MotionNature σ) (hypot : ℚ → ℚ → ℚ)
    (screenSize : Dimension) (xDest yDest : ℤ) (movement : Movement)
    (hefs : nature.effectFadeSteps = 0) (flow : Flow) (hflow : movement.flow = some flow)
    (hn : 1 ≤ flow.buckets.length)
    (hsteps : 1 ≤ MoveImp.steps nature movement.distance movement.time) (s : σ) :
    (MoveImp.runMovement nature hypot screenSize xDest yDest movement s).1.positions
      = List.replicate (MoveImp.steps nature movement.distance movement.time).toNat ⟨0, 0⟩ ∧
    ((MoveImp.runMovement nature hypot screenSize xDest yDest movement s).1.adjustment = none ∨
      (MoveImp.runMovement nature hypot screenSize xDest yDest movement s).1.adjustment
        = some ⟨movement.destX, movement.destY⟩) := by
  have hloop := fun startTime stepTime mx my st =>
    stepLoop_without_fade nature hypot screenSize movement
      (MoveImp.steps nature movement.distance movement.time) startTime stepTime mx my hefs
      flow hflow hn (MoveImp.steps nature movement.distance movement.time).toNat 0
      (by rw [zero_add, Int.toNat_of_nonneg (by omega)]) st
  simp only [Nat.cast_zero] at hloop
  unfold MoveImp.runMovement
  simp only []
  rw [if_neg (by omega)]
  split
  · exact ⟨hloop _ _ _ _ _, Or.inl rfl⟩
  · split_ifs
    · exact ⟨hloop _ _ _ _ _, Or.inr rfl⟩
    · exact ⟨hloop _ _ _ _ _, Or.inl rfl⟩

/-- The rounding towards the destination of a point between start and destination lies
between them. -/
theorem roundTowards_between (sx dx dest : ℤ) (hlink : dest - dx = sx) (P : ℚ)
    (h0 : 0 ≤ P) (h1 : P ≤ 1) :
    min sx dest ≤ MoveImp.roundTowards ((sx : ℚ) + (dx : ℚ) * P) dest ∧
      MoveImp.roundTowards ((sx : ℚ) + (dx : ℚ) * P) dest ≤ max sx dest := by
  have hdest : (dest : ℚ) = (sx : ℚ) + (dx : ℚ) := by
    rw [← hlink]
    push_cast
    ring
  rcases le_total 0 dx with hdx | hdx
  · have hdxq : (0 : ℚ) ≤ (dx : ℚ) := by exact_mod_cast hdx
    have hle : (sx : ℚ) + (dx : ℚ) * P ≤ (dest : ℚ) := by
      rw [hdest]
      have := mul_le_mul_of_nonneg_left h1 hdxq
      linarith
    have hge : (sx : ℚ) ≤ (sx : ℚ) + (dx : ℚ) * P := by
      have := mul_nonneg hdxq h0
      linarith
    rw [roundTowards_of_le _ _ hle]
    constructor
    · apply le_trans (min_le_left _ _)
      have := Int.ceil_mono hge
      rwa [Int.ceil_intCast] at this
    · exact le_trans (Int.ceil_le.mpr hle) (le_max_right _ _)
  · have hdxq : (dx : ℚ) ≤ 0 := by exact_mod_cast hdx
    have hle : (dest : ℚ) ≤ (sx : ℚ) + (dx : ℚ) * P := by
      rw [hdest]
      have := mul_le_mul_of_nonpos_left h1 hdxq
      linarith
    have hge : (sx : ℚ) + (dx : ℚ) * P ≤ (sx : ℚ) := by
      have := mul_nonpos_of_nonpos_of_nonneg hdxq h0
      linarith
    rw [roundTowards_of_ge _ _ hle]
    constructor
    · exact le_trans (min_le_right _ _) (Int.le_floor.mpr hle)
    · apply le_trans _ (le_max_left _ _)
      have := Int.floor_mono hge
      rwa [Int.floor_intCast] at this

/-- On a diagonal sub-movement between two points of the screen, the straight line sets
positions with `x = y`. -/
theorem straightPosition_diagonal (W H a b : ℤ) (ha : 0 ≤ a ∧ a ≤ W - 1 ∧ a ≤ H - 1)
    (hb : 0 ≤ b ∧ b ≤ W - 1 ∧ b ≤ H - 1) (movement : Movement)
    (hx : movement.destX = b) (hy : movement.destY = b) (hdx : movement.xDistance = b - a)
    (hdy : movement.yDistance = b - a) (c : FlowCharacteristicsContainer) (flow : Flow)
    (hcreate : Flow.create c = .ok flow) (S : ℕ) (hS : 1 ≤ S) (k : ℕ) (hk : k ≤ S) :
    (straightPosition ⟨W, H⟩ movement flow (S : ℤ) ⟨a, a⟩ k).x
      = (straightPosition ⟨W, H⟩ movement flow (S : ℤ) ⟨a, a⟩ k).y := by
  have hB := Flow_create_nonneg c flow hcreate
  obtain ⟨h1, h2⟩ := roundTowards_between a (b - a) b (by ring)
    (progress flow (S : ℤ) k) (progress_nonneg flow hB _ k)
    (progress_le_one c flow hcreate S hS k hk)
  unfold straightPosition
  simp only [hx, hy, hdx, hdy]
  generalize MoveImp.roundTowards ((a : ℚ) + ((b - a : ℤ) : ℚ) * progress flow (S : ℤ) k) b
    = r at h1 h2
  simp only [max_def, min_def] at h1 h2 ⊢
  split_ifs at h1 h2 ⊢ <;> omega

/-- The plan for an overshoot count of 0. -/
theorem createMovements_single {σ : Type} (factory : MovementFactory σ)
    (hypot : ℚ → ℚ → ℚ) (current : Point ℤ) (s : σ)
    (hzero : ∀ f t d w, (factory.nature.overshootManager.getOvershoots f t d w).1 = 0) :
    (factory.createMovements hypot current s).1
      = [⟨factory.xDest, factory.yDest,
          hypot ((factory.xDest - current.x : ℤ) : ℚ) ((factory.yDest - current.y : ℤ) : ℚ),
          factory.xDest - current.x, factory.yDest - current.y,
          (factory.nature.getFlowWithTime
            (hypot ((factory.xDest - current.x : ℤ) : ℚ)
              ((factory.yDest - current.y : ℤ) : ℚ)) s).1.2,
          (factory.nature.getFlowWithTime
            (hypot ((factory.xDest - current.x : ℤ) : ℚ)
              ((factory.yDest - current.y : ℤ) : ℚ)) s).1.1⟩] := by
  unfold MovementFactory.createMovements
  simp only []
  rw [if_pos (hzero _ _ _ _)]

/-- With an overshoot count of 0, `Move` from a cursor off the destination executes one
sub-movement, straight to the clamped destination, and returns with the cursor there. -/
theorem Move_single {σ : Type} (nature : MotionNature σ) {hypot : ℚ → ℚ → ℚ}
    (hh : IsHypot hypot) (W H : ℤ) (hscreen : ScreenIs nature W H)
    (cursor : σ → Point ℤ) (hc : ReportsLastPositionSet nature cursor)
    (hzero : ∀ f t d w, (nature.overshootManager.getOvershoots f t d w).1 = 0)
    (hflows : ReturnsValidFlows nature) (hmin : 1 ≤ nature.minSteps)
    (x y : ℤ) (s : σ)
    (hne : (cursor s).x ≠ max 0 (min (W - 1) x) ∨ (cursor s).y ≠ max 0 (min (H - 1) y))
    (fuel : ℕ) :
    ∃ (d : ℚ) (s1 s2 w : σ) (c : FlowCharacteristicsContainer) (flow : Flow),
      Flow.create c = .ok flow ∧ (nature.getFlowWithTime d s1).1.1 = some flow ∧
      cursor s2 = cursor s ∧ cursor w = ⟨max 0 (min (W - 1) x), max 0 (min (H - 1) y)⟩ ∧
      0 < hypot ((max 0 (min (W - 1) x) - (cursor s).x : ℤ) : ℚ)
          ((max 0 (min (H - 1) y) - (cursor s).y : ℤ) : ℚ) ∧
      MoveImp.Move nature hypot (fuel + 1) x y s
        = ⟨[(MoveImp.runMovement nature hypot ⟨W, H⟩ (max 0 (min (W - 1) x))
            (max 0 (min (H - 1) y))
            ⟨max 0 (min (W - 1) x), max 0 (min (H - 1) y),
              hypot ((max 0 (min (W - 1) x) - (cursor s).x : ℤ) : ℚ)
                ((max 0 (min (H - 1) y) - (cursor s).y : ℤ) : ℚ),
              max 0 (min (W - 1) x) - (cursor s).x, max 0 (min (H - 1) y) - (cursor s).y,
              (nature.getFlowWithTime d s1).1.2, some flow⟩ s2).1], 0, .returned w⟩ := by
  have hplan := createMovements_single
    (⟨max 0 (min (W - 1) x), max 0 (min (H - 1) y), nature, ⟨W, H⟩⟩ : MovementFactory σ)
    hypot (cursor s) (nature.systemCalls.getScreenSize (nature.systemCalls.getMousePosition
      (nature.systemCalls.getScreenSize s).2).2).2 hzero
  have hcur := createMovements_cursor
    (⟨max 0 (min (W - 1) x), max 0 (min (H - 1) y), nature, ⟨W, H⟩⟩ : MovementFactory σ)
    hypot cursor hc (cursor s) (nature.systemCalls.getScreenSize
      (nature.systemCalls.getMousePosition (nature.systemCalls.getScreenSize s).2).2).2
  rw [hc.getScreenSize, hc.getMousePosition_snd, hc.getScreenSize] at hcur
  have hpos := createMovements_distance_pos
    (⟨max 0 (min (W - 1) x), max 0 (min (H - 1) y), nature, ⟨W, H⟩⟩ : MovementFactory σ) hh
    (cursor s) (nature.systemCalls.getScreenSize (nature.systemCalls.getMousePosition
      (nature.systemCalls.getScreenSize s).2).2).2 hne
  obtain ⟨c, flow, hcreate, hflow⟩ := hflows
    (hypot ((max 0 (min (W - 1) x) - (cursor s).x : ℤ) : ℚ)
      ((max 0 (min (H - 1) y) - (cursor s).y : ℤ) : ℚ))
    (nature.systemCalls.getScreenSize (nature.systemCalls.getMousePosition
      (nature.systemCalls.getScreenSize s).2).2).2
  simp only [] at hplan hpos
  rw [hflow] at hplan
  rw [hplan] at hpos
  have hd := hpos _ (List.mem_singleton.mpr rfl)
  simp only at hd
  obtain ⟨⟨r, hr⟩, _⟩ := runMovement_returns nature hypot ⟨W, H⟩ (max 0 (min (W - 1) x))
    (max 0 (min (H - 1) y))
    ⟨max 0 (min (W - 1) x), max 0 (min (H - 1) y),
      hypot ((max 0 (min (W - 1) x) - (cursor s).x : ℤ) : ℚ)
        ((max 0 (min (H - 1) y) - (cursor s).y : ℤ) : ℚ),
      max 0 (min (W - 1) x) - (cursor s).x, max 0 (min (H - 1) y) - (cursor s).y,
      (nature.getFlowWithTime
        (hypot ((max 0 (min (W - 1) x) - (cursor s).x : ℤ) : ℚ)
          ((max 0 (min (H - 1) y) - (cursor s).y : ℤ) : ℚ))
        (nature.systemCalls.getScreenSize (nature.systemCalls.getMousePosition
          (nature.systemCalls.getScreenSize s).2).2).2).1.2, some flow⟩ flow rfl
    (Flow_create_ok c flow hcreate).1 (steps_pos nature hmin _ hd _)
    ((⟨max 0 (min (W - 1) x), max 0 (min (H - 1) y), nature, ⟨W, H⟩⟩ :
      MovementFactory σ).createMovements hypot (cursor s)
      (nature.systemCalls.getScreenSize (nature.systemCalls.getMousePosition
        (nature.systemCalls.getScreenSize s).2).2).2).2
  obtain ⟨hp, hw⟩ := runMovement_end nature hypot ⟨W, H⟩ _ _ _ cursor hc _ r.1 r.2 hr
  refine ⟨_, _, _, r.2, c, flow, hcreate, hflow, hcur, hw, hd, ?_⟩
  unfold MoveImp.Move
  simp only [MovementFactory.create, hscreen _, hc.getMousePosition_fst, hc.getScreenSize]
  rw [MoveImp.moveLoop, if_pos hne]
  simp only [MoveImp.repopulate, hplan, List.isEmpty_cons, Bool.false_eq_true, if_false, hr]
  rw [hp, moveLoop_at_destination]
  simp only [zero_add]

/-! ## Move: the diagonal of the test `linearMotionNoOvershoots` -/

theorem stepShare_single (S j : ℕ) (hj : j < S) :
    stepShare ⟨[100]⟩ (S : ℤ) (j : ℤ) = 1 / (S : ℚ) := by
  have hS : (0 : ℚ) < (S : ℚ) := by exact_mod_cast (by omega : 0 < S)
  have hj0 : (0 : ℚ) ≤ (j : ℚ) / (S : ℚ) := by positivity
  have hj1 : ((j : ℚ) + 1) / (S : ℚ) ≤ 1 := by
    rw [div_le_one hS]
    exact_mod_cast hj
  unfold stepShare overlap
  simp only [List.length_singleton, Finset.sum_range_one, List.getD_cons_zero, Nat.cast_one,
    mul_one, Nat.cast_zero, zero_add, Int.cast_natCast, ← add_div]
  rw [min_eq_right hj1, max_eq_right hj0, max_eq_right (by
    rw [← sub_div]
    apply div_nonneg _ hS.le
    linarith)]
  field_simp

theorem progress_single (S k : ℕ) (hk : k ≤ S) :
    progress ⟨[100]⟩ (S : ℤ) k = (k : ℚ) / (S : ℚ) := by
  induction k with
  | zero => simp [progress]
  | succ k ih =>
    rw [progress_succ, ih (by omega), stepShare_single S k (by omega)]
    push_cast
    ring

theorem roundTowards_intCast (n t : ℤ) : MoveImp.roundTowards (n : ℚ) t = n := by
  unfold MoveImp.roundTowards
  split_ifs
  · exact Int.ceil_intCast n
  · exact Int.floor_intCast n

theorem NewMockNature_zero_overshoots (hypot : ℚ → ℚ → ℚ) :
    ∀ f t d w, ((NewMockNature hypot 0).overshootManager.getOvershoots f t d w).1 = 0 := by
  intro f t d w
  simp only [NewMockNature, DefaultOvershootManager.toOvershootManager,
    DefaultOvershootManager.getOvershoots, MockOvershootManager]
  split_ifs <;> rfl

theorem NewMockNature_steps {hypot : ℚ → ℚ → ℚ} (hh : IsHypot hypot) (overshoots : ℕ) :
    MoveImp.steps (NewMockNature hypot overshoots) (hypot 50 50) 10 = 10 := by
  have h50 : (50 : ℚ) ≤ hypot 50 50 := by
    have := hh.lower 50 50
    simpa using this
  unfold MoveImp.steps
  simp only [NewMockNature, TIME_TO_STEPS_DIVIDER, MIN_STEPS]
  norm_num
  rw [min_eq_right (by linarith)]
  exact Int.ceil_eq_iff.mpr (by norm_num)

/-- The run of the test `linearMotionNoOvershoots`: `Move` from `(0,0)` to `(50,50)` with
the mock nature and no overshoots executes one sub-movement, which sets ten positions. -/
theorem Move_example_diagonal {hypot : ℚ → ℚ → ℚ} (hh : IsHypot hypot) (fuel : ℕ) :
    ∃ t, (MoveImp.Move (NewMockNature hypot 0) hypot (fuel + 1) 50 50
        (MockWorld.initial [])).trace = [t] ∧ t.positions.length = 10 := by
  obtain ⟨d, s1, s2, w, c, flow, hcreate, hflow, hcur, hw, hd, hmove⟩ :=
    Move_single (NewMockNature hypot 0) hh 800 500 (NewMockNature_screen hypot 0)
      MockWorld.cursor (NewMockNature_reportsLastPositionSet hypot 0)
      (NewMockNature_zero_overshoots hypot) (NewMockNature_validFlows hypot 0)
      (by norm_num [NewMockNature, MIN_STEPS])
      50 50 (MockWorld.initial []) (Or.inl (by decide)) fuel
  have hflow2 : flow = ⟨[100]⟩ := by
    have : (some (⟨[100]⟩ : Flow)) = some flow := hflow
    injection this with this
    exact this.symm
  subst hflow2
  have e1 : max 0 (min ((800 : ℤ) - 1) 50) = 50 := by decide
  have e2 : max 0 (min ((500 : ℤ) - 1) 50) = 50 := by decide
  have e3 : (MockWorld.cursor (MockWorld.initial [])) = ⟨0, 0⟩ := rfl
  have e4 : ((NewMockNature hypot 0).getFlowWithTime d s1).1.2 = 10 := rfl
  rw [e1, e2, e3, e4] at hmove
  simp only [sub_zero, Int.cast_ofNat] at hmove
  rw [hmove]
  refine ⟨_, rfl, ?_⟩
  have hsteps := NewMockNature_steps hh 0
  rw [(runMovement_returns (NewMockNature hypot 0) hypot ⟨800, 500⟩ 50 50
    ⟨50, 50, hypot 50 50, 50, 50, 10, some ⟨[100]⟩⟩ ⟨[100]⟩ rfl (by simp)
    (by rw [hsteps]; decide) s2).2, hsteps]
  rfl

/-- A sub-movement of zero steps ends in a fault: the step time is a quotient by zero. -/
theorem runMovement_zero_steps {σ : Type} (nature : MotionNature σ) (hypot : ℚ → ℚ → ℚ)
    (screenSize : Dimension) (xDest yDest : ℤ) (movement : Movement)
    (hsteps : MoveImp.steps nature movement.distance movement.time = 0) (s : σ) :
    (MoveImp.runMovement nature hypot screenSize xDest yDest movement s).2
      = .error Fault.divisionByZero := by
  unfold MoveImp.runMovement
  simp only []
  rw [if_pos hsteps]

/-- C16, as stated, fails for `minSteps = 0` and a planned time of 0 ms: the mock nature with
these settings has no overshoots, no noise, no deviation and a cursor that reports the last
position set, `(0,0)` and `(50,50)` lie on its screen, and `Move` from `(0,0)` to `(50,50)`
computes 0 steps and ends in the division `mouseMovementMs / steps`. -/
theorem Move_diagonal_counterexample :
    ReportsLastPositionSet mockNatureWithoutSteps MockWorld.cursor ∧
    (∀ f t d w, (mockNatureWithoutSteps.overshootManager.getOvershoots f t d w).1 = 0) ∧
    NoNoise mockNatureWithoutSteps ∧ NoDeviation mockNatureWithoutSteps ∧
    ScreenIs mockNatureWithoutSteps 800 500 ∧
    MockWorld.cursor (MockWorld.initial []) = ⟨0, 0⟩ ∧
    (MoveImp.Move mockNatureWithoutSteps chebyshev 1 50 50 (MockWorld.initial [])).outcome
      = .faulted Fault.divisionByZero := by
  have h := NewMockNature_reportsLastPositionSet chebyshev 0
  have hc : ReportsLastPositionSet mockNatureWithoutSteps MockWorld.cursor :=
    ⟨h.getMousePosition_fst, h.getMousePosition_snd, h.setMousePosition,
      h.currentTimeMillis, h.sleep, h.getScreenSize, h.random, h.getNoise, h.getDeviation,
      fun _ _ => rfl, h.getOvershoots, h.getOvershootAmount,
      h.deriveNextMouseMovementTimeMs, h.observer⟩
  have hzero : ∀ f t d w,
      (mockNatureWithoutSteps.overshootManager.getOvershoots f t d w).1 = 0 :=
    NewMockNature_zero_overshoots chebyshev
  refine ⟨hc, hzero, fun _ _ _ => rfl, fun _ _ _ => rfl, fun _ => rfl, rfl, ?_⟩
  have hplan := createMovements_single
    (⟨50, 50, mockNatureWithoutSteps, ⟨800, 500⟩⟩ : MovementFactory MockWorld) chebyshev
    ⟨0, 0⟩ (MockWorld.initial []) hzero
  have hsteps : MoveImp.steps mockNatureWithoutSteps
      (chebyshev ((50 - 0 : ℤ) : ℚ) ((50 - 0 : ℤ) : ℚ)) 0 = 0 := by
    unfold MoveImp.steps
    simp only [mockNatureWithoutSteps, NewMockNature, TIME_TO_STEPS_DIVIDER, chebyshev]
    norm_num
  have hrun := runMovement_zero_steps mockNatureWithoutSteps chebyshev ⟨800, 500⟩ 50 50
    ⟨50, 50, chebyshev ((50 - 0 : ℤ) : ℚ) ((50 - 0 : ℤ) : ℚ), 50 - 0, 50 - 0, 0,
      some ⟨[100]⟩⟩ hsteps
  have hmove : MoveImp.Move mockNatureWithoutSteps chebyshev 1 50 50 (MockWorld.initial [])
      = MoveImp.moveLoop mockNatureWithoutSteps chebyshev ⟨800, 500⟩
          ⟨50, 50, mockNatureWithoutSteps, ⟨800, 500⟩⟩ 50 50 1
          ((⟨50, 50, mockNatureWithoutSteps, ⟨800, 500⟩⟩ :
            MovementFactory MockWorld).createMovements chebyshev ⟨0, 0⟩
            (MockWorld.initial [])).1 ⟨0, 0⟩
          ((⟨50, 50, mockNatureWithoutSteps, ⟨800, 500⟩⟩ :
            MovementFactory MockWorld).createMovements chebyshev ⟨0, 0⟩
            (MockWorld.initial [])).2 := rfl
  rw [hmove, hplan, MoveImp.moveLoop, if_pos (Or.inl (by decide))]
  simp only [MoveImp.repopulate, List.isEmpty_cons, Bool.false_eq_true, if_false]
  have hflow : (mockNatureWithoutSteps.getFlowWithTime
      (chebyshev ((50 - 0 : ℤ) : ℚ) ((50 - 0 : ℤ) : ℚ)) (MockWorld.initial [])).1
        = (some ⟨[100]⟩, 0) := rfl
  simp only [hflow]
  rw [hrun]

/-- C16, amended: with zero overshoots, noise and deviation providers that always return
`(0,0)`, a cursor that reports the last position set, a speed provider that returns valid
flows and `minSteps ≥ 1`, a move from `(a,a)` to `(b,b)` with both points inside the screen
sets only positions with `x = y` and returns with the cursor exactly at `(b,b)`; from
`(0,0)` to `(50,50)` with the test configuration it executes one sub-movement, which sets
10 positions, more than 5. -/
theorem Move_diagonal {σ : Type} (nature : MotionNature σ) {hypot : ℚ → ℚ → ℚ}
    (hh : IsHypot hypot) (W H : ℤ) (hscreen : ScreenIs nature W H)
    (cursor : σ → Point ℤ) (hc : ReportsLastPositionSet nature cursor)
    (hzero : ∀ f t d w, (nature.overshootManager.getOvershoots f t d w).1 = 0)
    (hnoise : NoNoise nature) (hdev : NoDeviation nature) (hflows : ReturnsValidFlows nature)
    (hmin : 1 ≤ nature.minSteps)
    (a b : ℤ) (ha : 0 ≤ a ∧ a ≤ W - 1 ∧ a ≤ H - 1) (hb : 0 ≤ b ∧ b ≤ W - 1 ∧ b ≤ H - 1)
    (s : σ) (hs : cursor s = ⟨a, a⟩) (fuel : ℕ) (hfuel : 1 ≤ fuel) :
    (∃ w, (MoveImp.Move nature hypot fuel b b s).outcome = .returned w ∧
      cursor w = ⟨b, b⟩) ∧
    (∀ t ∈ (MoveImp.Move nature hypot fuel b b s).trace,
      (∀ p ∈ t.positions, p.x = p.y) ∧ ∀ p, t.adjustment = some p → p.x = p.y) ∧
    (∀ hypot2 : ℚ → ℚ → ℚ, IsHypot hypot2 →
      ∃ t, (MoveImp.Move (NewMockNature hypot2 0) hypot2 fuel 50 50
          (MockWorld.initial [])).trace = [t] ∧
        t.positions.length = 10 ∧ 5 < t.positions.length) := by
  obtain ⟨f, rfl⟩ : ∃ f, fuel = f + 1 := ⟨fuel - 1, by omega⟩
  have e1 : max 0 (min (W - 1) b) = b := by
    rw [min_eq_right hb.2.1, max_eq_right hb.1]
  have e2 : max 0 (min (H - 1) b) = b := by
    rw [min_eq_right hb.2.2, max_eq_right hb.1]
  refine ⟨?_, ?_, ?_⟩
  rotate_left 2
  · intro hypot2 hh2
    obtain ⟨t, ht, hpos⟩ := Move_example_diagonal hh2 f
    exact ⟨t, ht, hpos, by rw [hpos]; decide⟩
  all_goals
    by_cases hab : a = b
    · subst hab
      have hmove : MoveImp.Move nature hypot (f + 1) a a s = ⟨[], 0, .returned
          ((⟨a, a, nature, ⟨W, H⟩⟩ : MovementFactory σ).createMovements hypot ⟨a, a⟩
            (nature.systemCalls.getScreenSize (nature.systemCalls.getMousePosition
              (nature.systemCalls.getScreenSize s).2).2).2).2⟩ := by
        unfold MoveImp.Move
        simp only [MovementFactory.create, hscreen _, hc.getMousePosition_fst,
          hc.getScreenSize, hs, e1, e2]
        rw [moveLoop_at_destination]
      rw [hmove]
      first
      | exact ⟨_, rfl, by
          rw [createMovements_cursor _ hypot cursor hc, hc.getScreenSize,
            hc.getMousePosition_snd, hc.getScreenSize, hs]⟩
      | simp
    · obtain ⟨d, s1, s2, w, c, flow, hcreate, hflow, hcur, hw, hd, hmove⟩ :=
        Move_single nature hh W H hscreen cursor hc hzero hflows hmin b b s
          (by rw [hs, e1]; exact Or.inl hab) f
      simp only [e1, e2, hs] at hmove hw hd
      rw [hs] at hcur
      rw [hmove]
      first
      | exact ⟨w, rfl, hw⟩
      | intro t ht
        simp only [List.mem_singleton] at ht
        have hsteps := steps_pos nature hmin _ hd (nature.getFlowWithTime d s1).1.2
        have hrun : (∀ p ∈ (MoveImp.runMovement nature hypot ⟨W, H⟩ b b
              ⟨b, b, hypot ((b - a : ℤ) : ℚ) ((b - a : ℤ) : ℚ), b - a, b - a,
                (nature.getFlowWithTime d s1).1.2, some flow⟩ s2).1.positions, p.x = p.y) ∧
            ((MoveImp.runMovement nature hypot ⟨W, H⟩ b b
              ⟨b, b, hypot ((b - a : ℤ) : ℚ) ((b - a : ℤ) : ℚ), b - a, b - a,
                (nature.getFlowWithTime d s1).1.2, some flow⟩ s2).1.adjustment = none ∨
            (MoveImp.runMovement nature hypot ⟨W, H⟩ b b
              ⟨b, b, hypot ((b - a : ℤ) : ℚ) ((b - a : ℤ) : ℚ), b - a, b - a,
                (nature.getFlowWithTime d s1).1.2, some flow⟩ s2).1.adjustment
              = some ⟨b, b⟩) := by
          by_cases hefs : nature.effectFadeSteps = 0
          · obtain ⟨hpos, hadj⟩ := runMovement_without_fade nature hypot ⟨W, H⟩ b b
              ⟨b, b, hypot ((b - a : ℤ) : ℚ) ((b - a : ℤ) : ℚ), b - a, b - a,
                (nature.getFlowWithTime d s1).1.2, some flow⟩ hefs flow rfl
              (Flow_create_ok c flow hcreate).1 hsteps s2
            refine ⟨fun p hp => ?_, hadj⟩
            rw [hpos] at hp
            rw [List.eq_of_mem_replicate hp]
          · obtain ⟨hpos, hadj⟩ := runMovement_straight nature hypot ⟨W, H⟩ b b
              ⟨b, b, hypot ((b - a : ℤ) : ℚ) ((b - a : ℤ) : ℚ), b - a, b - a,
                (nature.getFlowWithTime d s1).1.2, some flow⟩ cursor hc hnoise hdev hefs flow
              rfl (Flow_create_ok c flow hcreate).1 hsteps s2
            refine ⟨fun p hp => ?_, hadj⟩
            rw [hpos, List.mem_map] at hp
            obtain ⟨j, hj, rfl⟩ := hp
            rw [List.mem_range] at hj
            obtain ⟨S, hS⟩ : ∃ S : ℕ, MoveImp.steps nature
                (hypot ((b - a : ℤ) : ℚ) ((b - a : ℤ) : ℚ)) (nature.getFlowWithTime d s1).1.2
                  = (S : ℤ) := ⟨_, (Int.toNat_of_nonneg (by omega)).symm⟩
            rw [hS, Int.toNat_ofNat] at hj
            simp only [hS, hcur]
            exact straightPosition_diagonal W H a b ha hb _ rfl rfl rfl rfl c flow hcreate S
              (by omega) (j + 1) (by omega)
        obtain ⟨hpos, hadj⟩ := hrun
        rw [← ht] at hpos hadj
        refine ⟨hpos, ?_⟩
        intro p hp
        rcases hadj with hadj | hadj
        · rw [hadj] at hp
          exact absurd hp (by simp)
        · rw [hadj] at hp
          injection hp with hp
          rw [← hp]

/-! ## Move: concrete runs of the statements -/

theorem Move_positions_on_screen_witness :
    (1 : ℤ) ≤ 800 ∧ (1 : ℤ) ≤ 500 ∧ ScreenIs (NewMockNature chebyshev 100) 800 500 ∧
    ∀ t ∈ (MoveImp.Move (NewMockNature chebyshev 100) chebyshev 7 (-50) 600
        (MockWorld.initial [])).trace,
      (∀ p ∈ t.positions, 0 ≤ p.x ∧ p.x ≤ 800 - 1 ∧ 0 ≤ p.y ∧ p.y ≤ 500 - 1) ∧
      (∀ p, t.adjustment = some p → 0 ≤ p.x ∧ p.x ≤ 800 - 1 ∧ 0 ≤ p.y ∧ p.y ≤ 500 - 1) :=
  ⟨by decide, by decide, NewMockNature_screen chebyshev 100,
    Move_positions_on_screen (NewMockNature chebyshev 100) chebyshev 800 500 (by decide)
      (by decide) (NewMockNature_screen chebyshev 100) 7 (-50) 600 (MockWorld.initial [])⟩

theorem Move_positions_monotone_witness :
    (ScreenIs (NewMockNature chebyshev 0) 800 500 ∧
      ReportsLastPositionSet (NewMockNature chebyshev 0) MockWorld.cursor ∧
      NoNoise (NewMockNature chebyshev 0) ∧ NoDeviation (NewMockNature chebyshev 0) ∧
      ReturnsValidFlows (NewMockNature chebyshev 0) ∧
      (NewMockNature chebyshev 0).effectFadeSteps ≠ 0) ∧
    ∀ t ∈ (MoveImp.Move (NewMockNature chebyshev 0) chebyshev 1 50 50
        (MockWorld.initial [])).trace,
      MonotoneTowards t.movement.xDistance t.movement.destX (t.positions.map (fun p => p.x)) ∧
      MonotoneTowards t.movement.yDistance t.movement.destY (t.positions.map (fun p => p.y)) :=
  ⟨⟨NewMockNature_screen chebyshev 0, NewMockNature_reportsLastPositionSet chebyshev 0,
      fun _ _ _ => rfl, fun _ _ _ => rfl, NewMockNature_validFlows chebyshev 0, by decide⟩,
    Move_positions_monotone (NewMockNature chebyshev 0) chebyshev 800 500
      (NewMockNature_screen chebyshev 0) MockWorld.cursor
      (NewMockNature_reportsLastPositionSet chebyshev 0) (fun _ _ _ => rfl)
      (fun _ _ _ => rfl) (NewMockNature_validFlows chebyshev 0) (by decide) 1 50 50
      (MockWorld.initial [])⟩

theorem Move_diagonal_witness :
    (∃ w, (MoveImp.Move (NewMockNature chebyshev 0) chebyshev 1 50 50
        (MockWorld.initial [])).outcome = .returned w ∧ MockWorld.cursor w = ⟨50, 50⟩) ∧
    (∀ t ∈ (MoveImp.Move (NewMockNature chebyshev 0) chebyshev 1 50 50
        (MockWorld.initial [])).trace,
      (∀ p ∈ t.positions, p.x = p.y) ∧ ∀ p, t.adjustment = some p → p.x = p.y) :=
  ⟨(Move_diagonal (NewMockNature chebyshev 0) chebyshev_isHypot 800 500
      (NewMockNature_screen chebyshev 0) MockWorld.cursor
      (NewMockNature_reportsLastPositionSet chebyshev 0)
      (NewMockNature_zero_overshoots chebyshev) (fun _ _ _ => rfl) (fun _ _ _ => rfl)
      (NewMockNature_validFlows chebyshev 0) (by decide) 0 50
      ⟨by decide, by decide, by decide⟩ ⟨by decide, by decide, by decide⟩
      (MockWorld.initial []) rfl 1 (by decide)).1,
    (Move_diagonal (NewMockNature chebyshev 0) chebyshev_isHypot 800 500
      (NewMockNature_screen chebyshev 0) MockWorld.cursor
      (NewMockNature_reportsLastPositionSet chebyshev 0)
      (NewMockNature_zero_overshoots chebyshev) (fun _ _ _ => rfl) (fun _ _ _ => rfl)
      (NewMockNature_validFlows chebyshev 0) (by decide) 0 50
      ⟨by decide, by decide, by decide⟩ ⟨by decide, by decide, by decide⟩
      (MockWorld.initial []) rfl 1 (by decide)).2.1⟩

/-! ## FlowUtils: stretchFlow of a one-element flow -/

/-- C21: for every one-element flow `[v]` and every target length `t ≥ 1`,
`stretchFlow([v], t)` returns `t` copies of `v`; `stretchFlow([1], 9)` is nine 1s. The
quotient behind `stepLength` has the divisor `insider + 1 = 0`, and its conversion to `int`
makes `stepLength` negative: `countToNextStep` then never reaches zero, and every position
gets `v * (1 - completion) + v * completion`, which is `v` in exact arithmetic. -/
theorem stretchFlow_single_element (v : ℚ) (t : ℕ) (ht : 1 ≤ t) :
    stretchFlow [v] t none = .ok (List.replicate t v) ∧
    stretchFlow [1] 9 none = .ok [1, 1, 1, 1, 1, 1, 1, 1, 1] :=
  ⟨stretchFlow_singleton v t ht, stretchFlow_singleton 1 9 (by norm_num)⟩

theorem stretchFlow_single_element_witness :
    (1 : ℕ) ≤ 4 ∧ stretchFlow [7 / 2] 4 none = .ok [7 / 2, 7 / 2, 7 / 2, 7 / 2] :=
  ⟨by decide, (stretchFlow_single_element (7 / 2) 4 (by decide)).1⟩

/-! ## DefaultOvershootManager -/

theorem truncate_intCast (n : ℤ) : truncate (n : ℚ) = n := by
  unfold truncate
  split_ifs
  · exact Int.floor_intCast n
  · exact Int.ceil_intCast n

theorem bucketLoop_eq (timePerBucket : ℚ) (buckets : FlowCharacteristicsContainer)
    (time : time_type) :
    DefaultSpeedManager.bucketLoop timePerBucket buckets time
      = time + ((buckets.filter (fun bucket =>
          decide (|bucket - 0| < DefaultSpeedManager.SMALL_DELTA))).length : ℤ)
          * truncate timePerBucket := by
  induction buckets generalizing time with
  | nil => simp [DefaultSpeedManager.bucketLoop]
  | cons bucket rest ih =>
    unfold DefaultSpeedManager.bucketLoop
    by_cases h : |bucket - 0| < DefaultSpeedManager.SMALL_DELTA
    · rw [if_pos h, ih, List.filter_cons_of_pos (by simpa using h), List.length_cons]
      push_cast
      ring
    · rw [if_neg h, ih, List.filter_cons_of_neg (by simpa using h)]

/-- The identity, the rounding of exact arithmetic, is a rounding. -/
theorem isRounding_id : IsRounding id :=
  ⟨fun _ _ h => h, fun _ _ => rfl, fun x _ _ => by
    rw [id, sub_self, abs_zero]
    exact div_nonneg (abs_nonneg x) (pow_nonneg (by norm_num) 53)⟩

theorem isRounding_zero {fl : ℚ → ℚ} (hfl : IsRounding fl) : fl 0 = 0 := by
  have h := hfl.int 0 (by norm_num)
  simpa using h

theorem isRounding_nonneg {fl : ℚ → ℚ} (hfl : IsRounding fl) (x : ℚ) (hx : 0 ≤ x) :
    0 ≤ fl x := by
  have h := hfl.mono 0 x hx
  rwa [isRounding_zero hfl] at h

/-- The rounded product of a double `r` in `[0, 1)`, so at most `1 - 2^(-53)`, with a
duration `b` between 1 and `2^53` truncates to an integer in `[0, b)`. -/
theorem truncate_rounded_mul_lt {fl : ℚ → ℚ} (hfl : IsRounding fl) (r : ℚ) (hr0 : 0 ≤ r)
    (hr1 : r ≤ 1 - 1 / 2 ^ 53) (b : ℤ) (hb : 1 ≤ b) (hb2 : b ≤ 2 ^ 53) :
    0 ≤ truncate (fl (r * fl (b : ℚ))) ∧ truncate (fl (r * fl (b : ℚ))) < b := by
  have hbq : (1 : ℚ) ≤ (b : ℚ) := by exact_mod_cast hb
  have hbq2 : (b : ℚ) ≤ 2 ^ 53 := by exact_mod_cast hb2
  have hflb : fl (b : ℚ) = (b : ℚ) := hfl.int b (by rw [abs_of_nonneg (by omega)]; exact hb2)
  rw [hflb]
  have h0 : 0 ≤ r * (b : ℚ) := mul_nonneg hr0 (by linarith)
  have hfl0 : 0 ≤ fl (r * (b : ℚ)) := isRounding_nonneg hfl _ h0
  rw [truncate_of_nonneg hfl0]
  refine ⟨Int.floor_nonneg.mpr hfl0, ?_⟩
  rw [Int.floor_lt]
  obtain ⟨u, hudef⟩ : ∃ u : ℚ, u = 1 / 2 ^ 53 := ⟨_, rfl⟩
  have hu : (0 : ℚ) < u := by
    rw [hudef]
    exact div_pos one_pos (pow_pos (by norm_num) 53)
  have hu2 : u ≤ 1 / 2 := by
    rw [hudef]
    apply one_div_le_one_div_of_le (by norm_num)
    calc (2 : ℚ) = 2 ^ 1 := by norm_num
      _ ≤ 2 ^ 53 := pow_le_pow_right₀ (by norm_num) (by norm_num)
  rw [← hudef] at hr1
  have hy : r * (b : ℚ) ≤ (1 - u) * (b : ℚ) :=
    mul_le_mul_of_nonneg_right hr1 (by linarith)
  have hy0 : (1 : ℚ) / 2 ≤ (1 - u) * (b : ℚ) := by nlinarith
  have hyb : (1 - u) * (b : ℚ) ≤ (b : ℚ) := by nlinarith
  have hbig : (2 : ℚ) ^ 53 ≤ 2 ^ 1000 := pow_le_pow_right₀ (by norm_num) (by norm_num)
  have habs : |(1 - u) * (b : ℚ)| = (1 - u) * (b : ℚ) := abs_of_nonneg (by linarith)
  have herr := hfl.error ((1 - u) * (b : ℚ)) (by rw [habs]; exact hy0)
    (by rw [habs]; linarith)
  rw [habs, div_eq_mul_one_div, ← hudef] at herr
  have herr2 := (abs_le.mp herr).2
  have hmono := hfl.mono _ _ hy
  have hsq : 0 < u * u * (b : ℚ) := by positivity
  have hkey : (1 - u) * (b : ℚ) + (1 - u) * (b : ℚ) * u = (b : ℚ) - u * u * (b : ℚ) := by ring
  linarith

/-- The call operator with a non-empty list of flows and a second draw that is not
negative. -/
theorem DefaultSpeedManager_call_spec {σ : Type} (manager : DefaultSpeedManager σ)
    {fl : ℚ → ℚ} (hfl : IsRounding fl) (hne : manager.flows ≠ []) (distance : ℚ) (s : σ)
    (h2 : 0 ≤ (manager.random (manager.random s).2).1) :
    ∃ flow ∈ manager.flows,
      manager.call fl distance s
        = .ok ((some flow,
            (manager.mouseMovementTimeMs
              + truncate (fl ((manager.random s).1 * fl (manager.mouseMovementTimeMs : ℚ))))
            + (zeroBuckets flow : ℤ)
              * truncate (fl (fl (((manager.mouseMovementTimeMs
                  + truncate (fl ((manager.random s).1
                    * fl (manager.mouseMovementTimeMs : ℚ))) : ℤ) : ℚ))
                  / fl (flow.buckets.length : ℚ)))),
          (manager.random (manager.random s).2).2) := by
  have hlen : 0 < manager.flows.length := List.length_pos.mpr hne
  have hidx : 0 ≤ truncate (fl ((manager.random (manager.random s).2).1
      * fl (manager.flows.length : ℚ))) := by
    have h0 : 0 ≤ fl ((manager.random (manager.random s).2).1
        * fl (manager.flows.length : ℚ)) :=
      isRounding_nonneg hfl _ (mul_nonneg h2 (isRounding_nonneg hfl _ (Nat.cast_nonneg _)))
    rw [truncate_of_nonneg h0]
    exact Int.floor_nonneg.mpr h0
  have hlt : (truncate (fl ((manager.random (manager.random s).2).1
      * fl (manager.flows.length : ℚ)))).toNat % manager.flows.length
        < manager.flows.length :=
    Nat.mod_lt _ hlen
  refine ⟨manager.flows.get ⟨_, hlt⟩, List.get_mem _ _ _, ?_⟩
  unfold DefaultSpeedManager.call
  rw [if_neg (by simpa using hne)]
  simp only []
  rw [if_neg (by omega), List.getElem?_eq_getElem hlt]
  simp only [bucketLoop_eq, Flow.getFlowCharacteristics, zeroBuckets, List.get_eq_getElem]

theorem Flow_create_example_01 : Flow.create [0, 1] = .ok ⟨[0, 200]⟩ := by
  rw [Flow_create_eq]
  norm_num

/-- C24, as stated, fails for a flow with a zero bucket: `Flow({0, 1})` is valid and its
buckets are `[0, 200]`; with it as the only configured flow, a base duration of 500 and
draws of 0.5, the manager returns the duration 1125, which is `750 + trunc(750 / 2)` and
neither `500 + trunc(0.5 * 500) = 750` nor less than `2 * 500`, whatever the rounding of
doubles makes of the products and quotients. -/
theorem DefaultSpeedManager_zero_bucket_counterexample :
    Flow.create [0, 1] = .ok ⟨[0, 200]⟩ ∧
    (∀ fl : ℚ → ℚ, IsRounding fl →
      (∃ w, (⟨[⟨[0, 200]⟩], 500, MockWorld.random [1 / 2]⟩ :
          DefaultSpeedManager MockWorld).call fl 100 (MockWorld.initial [])
        = .ok ((some ⟨[0, 200]⟩, 1125), w)) ∧
      (500 : ℤ) + truncate (fl ((1 : ℚ) / 2 * fl ((500 : ℤ) : ℚ))) = 750) ∧
    ¬ ((1125 : ℤ) < 2 * 500) := by
  refine ⟨Flow_create_example_01, ?_, by decide⟩
  intro fl hfl
  have e500 : fl ((500 : ℤ) : ℚ) = ((500 : ℤ) : ℚ) := hfl.int 500 (by norm_num)
  have e250 : fl ((1 : ℚ) / 2 * ((500 : ℤ) : ℚ)) = ((250 : ℤ) : ℚ) := by
    have h : (1 : ℚ) / 2 * ((500 : ℤ) : ℚ) = ((250 : ℤ) : ℚ) := by norm_num
    rw [h]
    exact hfl.int 250 (by norm_num)
  have e750 : fl ((750 : ℤ) : ℚ) = ((750 : ℤ) : ℚ) := hfl.int 750 (by norm_num)
  have e2 : fl ((2 : ℕ) : ℚ) = ((2 : ℤ) : ℚ) := by
    have h := hfl.int 2 (by norm_num)
    exact_mod_cast h
  have e375 : fl (((750 : ℤ) : ℚ) / ((2 : ℤ) : ℚ)) = ((375 : ℤ) : ℚ) := by
    have h : ((750 : ℤ) : ℚ) / ((2 : ℤ) : ℚ) = ((375 : ℤ) : ℚ) := by norm_num
    rw [h]
    exact hfl.int 375 (by norm_num)
  have hT : (500 : ℤ) + truncate (fl ((1 : ℚ) / 2 * fl ((500 : ℤ) : ℚ))) = 750 := by
    rw [e500, e250, truncate_intCast]
    decide
  refine ⟨?_, hT⟩
  obtain ⟨flow, hflow, hcall⟩ := DefaultSpeedManager_call_spec
    (⟨[⟨[0, 200]⟩], 500, MockWorld.random [1 / 2]⟩ : DefaultSpeedManager MockWorld) hfl
    (by simp) 100 (MockWorld.initial []) (by
      show (0 : ℚ) ≤ 1 / 2
      norm_num)
  simp only [List.mem_singleton] at hflow
  subst hflow
  refine ⟨(MockWorld.random [1 / 2]
    (MockWorld.random [1 / 2] (MockWorld.initial [])).2).2, ?_⟩
  rw [hcall]
  have hr : (MockWorld.random [1 / 2] (MockWorld.initial [])).1 = 1 / 2 := rfl
  have hz : zeroBuckets ⟨[0, 200]⟩ = 1 := by
    unfold zeroBuckets
    norm_num [DefaultSpeedManager.SMALL_DELTA]
  simp only [hr, hz, hT, List.length_cons, List.length_nil, Nat.reduceAdd, e750, e2, e375,
    truncate_intCast]
  rfl

/-- C24, amended: for every non-empty list of flows, a draw `r1` that is a double in
`[0,1)`, so at most `1 - 2^(-53)`, and a draw `r2` in `[0,1)`, `DefaultSpeedManager` returns
one of the configured flows and the duration `T + z * trunc(T / n)`, where
`T = baseDuration + trunc(r1 * baseDuration)`, `n` is the number of buckets of the returned
flow and `z` the number of its buckets smaller than `SMALL_DELTA` in absolute value, the
product and the quotient being those of doubles, rounded by `fl`; when the flow has no such
bucket the duration is `T`, and `T` lies in `[baseDuration, 2 * baseDuration)` for
`1 ≤ baseDuration ≤ 2^53`. -/
theorem DefaultSpeedManager_call_duration {σ : Type} (manager : DefaultSpeedManager σ)
    {fl : ℚ → ℚ} (hfl : IsRounding fl)
    (hne : manager.flows ≠ []) (distance : ℚ) (s : σ) (r1 r2 : ℚ)
    (hr1 : r1 = (manager.random s).1)
    (hr2 : r2 = (manager.random (manager.random s).2).1)
    (h1 : 0 ≤ r1 ∧ r1 ≤ 1 - 1 / 2 ^ 53) (h2 : 0 ≤ r2 ∧ r2 < 1) (T : time_type)
    (hT : T = manager.mouseMovementTimeMs
      + truncate (fl (r1 * fl (manager.mouseMovementTimeMs : ℚ)))) :
    ∃ flow ∈ manager.flows,
      manager.call fl distance s
        = .ok ((some flow,
            T + (zeroBuckets flow : ℤ)
              * truncate (fl (fl (T : ℚ) / fl (flow.buckets.length : ℚ)))),
          (manager.random (manager.random s).2).2) ∧
      (zeroBuckets flow = 0 →
        manager.call fl distance s
          = .ok ((some flow, T), (manager.random (manager.random s).2).2)) ∧
      (1 ≤ manager.mouseMovementTimeMs → manager.mouseMovementTimeMs ≤ 2 ^ 53 →
        manager.mouseMovementTimeMs ≤ T ∧ T < 2 * manager.mouseMovementTimeMs) := by
  obtain ⟨flow, hflow, hcall⟩ := DefaultSpeedManager_call_spec manager hfl hne distance s
    (by rw [← hr2]; exact h2.1)
  rw [← hr1, ← hT] at hcall
  refine ⟨flow, hflow, hcall, ?_, ?_⟩
  · intro hz
    rw [hcall, hz]
    simp
  · intro hbase hbase2
    obtain ⟨ha, hb⟩ := truncate_rounded_mul_lt hfl r1 h1.1 h1.2 manager.mouseMovementTimeMs
      hbase hbase2
    rw [hT]
    have ha2 : (0 : ℤ) ≤ truncate (fl (r1 * fl (manager.mouseMovementTimeMs : ℚ))) := ha
    have hb2 : truncate (fl (r1 * fl (manager.mouseMovementTimeMs : ℚ)))
        < (manager.mouseMovementTimeMs : ℤ) := hb
    constructor
    · show (manager.mouseMovementTimeMs : ℤ) ≤ _
      linarith
    · show (_ : ℤ) < 2 * manager.mouseMovementTimeMs
      linarith

theorem DefaultSpeedManager_call_duration_witness :
    IsRounding id ∧
    ∃ flow ∈ [(⟨[100]⟩ : Flow), ⟨[50, 150]⟩],
      (⟨[⟨[100]⟩, ⟨[50, 150]⟩], 500, MockWorld.random [1 / 2, 1 / 10]⟩ :
          DefaultSpeedManager MockWorld).call id 100 (MockWorld.initial [])
        = .ok ((some flow,
            750 + (zeroBuckets flow : ℤ)
              * truncate (id (id (((750 : ℤ) : ℚ)) / id (flow.buckets.length : ℚ)))),
          (MockWorld.random [1 / 2, 1 / 10]
            (MockWorld.random [1 / 2, 1 / 10] (MockWorld.initial [])).2).2) ∧
      (zeroBuckets flow = 0 →
        (⟨[⟨[100]⟩, ⟨[50, 150]⟩], 500, MockWorld.random [1 / 2, 1 / 10]⟩ :
            DefaultSpeedManager MockWorld).call id 100 (MockWorld.initial [])
          = .ok ((some flow, 750),
            (MockWorld.random [1 / 2, 1 / 10]
              (MockWorld.random [1 / 2, 1 / 10] (MockWorld.initial [])).2).2)) ∧
      ((1 : ℤ) ≤ 500 → (500 : ℤ) ≤ 2 ^ 53 → (500 : ℤ) ≤ 750 ∧ (750 : ℤ) < 2 * 500) :=
  ⟨isRounding_id, DefaultSpeedManager_call_duration
    (⟨[⟨[100]⟩, ⟨[50, 150]⟩], 500, MockWorld.random [1 / 2, 1 / 10]⟩ :
      DefaultSpeedManager MockWorld) isRounding_id (by simp) 100 (MockWorld.initial [])
    (1 / 2) (1 / 10) rfl rfl ⟨by norm_num, by norm_num⟩ ⟨by norm_num, by norm_num⟩ 750 (by
      have h : (1 : ℚ) / 2 * ((500 : ℤ) : ℚ) = ((250 : ℤ) : ℚ) := by norm_num
      show (750 : ℤ) = 500 + truncate (id (1 / 2 * id ((500 : ℤ) : ℚ)))
      rw [id, id, h, truncate_intCast]
      decide)⟩

/-! ## Move: the effect fade -/

theorem effectFadeMultiplier_eq {σ : Type} (nature : MotionNature σ)
    (hefs : nature.effectFadeSteps ≠ 0) (steps i : ℤ) :
    MoveImp.effectFadeMultiplier nature steps i
      = some (1 - ((max (i - (steps - nature.effectFadeSteps) + 1) 0 : ℤ) : ℚ)
          / (nature.effectFadeSteps : ℚ)) := by
  have hq : (nature.effectFadeSteps : ℚ) ≠ 0 := by exact_mod_cast hefs
  unfold MoveImp.effectFadeMultiplier
  simp only []
  rw [if_neg hefs, sub_div, div_self hq]

/-- C28: for `effectFadeSteps = F ≥ 1` and a step count `S`, the effect-fade multiplier at
every step `i < S` (so in particular for `S ≥ 1` and `0 ≤ i < S`) is
`1 - max(i - (S - F) + 1, 0) / F`: it is 1 for `i < S - F`, it is `1/F` less than the
multiplier of the step before for every `i ≥ S - F`, it is 0 at `i = S - 1`, and it lies in
`[0, 1]`. -/
theorem effectFadeMultiplier_formula {σ : Type} (nature : MotionNature σ)
    (hF : 1 ≤ nature.effectFadeSteps) (S i : ℤ) (hi : i < S) :
    ∃ f : ℚ, MoveImp.effectFadeMultiplier nature S i = some f ∧
      f = 1 - ((max (i - (S - nature.effectFadeSteps) + 1) 0 : ℤ) : ℚ)
        / (nature.effectFadeSteps : ℚ) ∧
      (i < S - nature.effectFadeSteps → f = 1) ∧
      (S - nature.effectFadeSteps ≤ i →
        MoveImp.effectFadeMultiplier nature S (i - 1)
          = some (f + 1 / (nature.effectFadeSteps : ℚ))) ∧
      (i = S - 1 → f = 0) ∧ 0 ≤ f ∧ f ≤ 1 := by
  have hne : nature.effectFadeSteps ≠ 0 := by omega
  have hq : (0 : ℚ) < (nature.effectFadeSteps : ℚ) := by exact_mod_cast (by omega : (0 : ℤ) < _)
  refine ⟨_, effectFadeMultiplier_eq nature hne S i, rfl, ?_, ?_, ?_, ?_, ?_⟩
  · intro hlt
    rw [max_eq_right (by omega)]
    simp
  · intro hge
    rw [effectFadeMultiplier_eq nature hne S (i - 1), max_eq_left (by omega),
      max_eq_left (by omega)]
    congr 1
    push_cast
    field_simp
    ring
  · intro hlast
    rw [max_eq_left (by omega), hlast]
    push_cast
    field_simp
  · have hle : max (i - (S - nature.effectFadeSteps) + 1) 0 ≤ nature.effectFadeSteps :=
      max_le (by omega) (by omega)
    have hleq : ((max (i - (S - nature.effectFadeSteps) + 1) 0 : ℤ) : ℚ)
        ≤ (nature.effectFadeSteps : ℚ) := by exact_mod_cast hle
    rw [sub_nonneg, div_le_one hq]
    exact hleq
  · have hge : (0 : ℤ) ≤ max (i - (S - nature.effectFadeSteps) + 1) 0 := le_max_right _ _
    have hgeq : (0 : ℚ) ≤ ((max (i - (S - nature.effectFadeSteps) + 1) 0 : ℤ) : ℚ) := by
      exact_mod_cast hge
    have := div_nonneg hgeq hq.le
    linarith

theorem effectFadeMultiplier_formula_witness :
    ((1 : ℤ) ≤ (NewMockNature chebyshev 0).effectFadeSteps ∧ (0 : ℤ) < 10) ∧
    ∃ f : ℚ, MoveImp.effectFadeMultiplier (NewMockNature chebyshev 0) 10 0 = some f ∧
      f = 1 - ((max ((0 : ℤ) - (10 - (NewMockNature chebyshev 0).effectFadeSteps) + 1) 0 : ℤ)
          : ℚ) / ((NewMockNature chebyshev 0).effectFadeSteps : ℚ) ∧
      ((0 : ℤ) < 10 - (NewMockNature chebyshev 0).effectFadeSteps → f = 1) ∧
      ((10 : ℤ) - (NewMockNature chebyshev 0).effectFadeSteps ≤ 0 →
        MoveImp.effectFadeMultiplier (NewMockNature chebyshev 0) 10 (0 - 1)
          = some (f + 1 / ((NewMockNature chebyshev 0).effectFadeSteps : ℚ))) ∧
      ((0 : ℤ) = 10 - 1 → f = 0) ∧ 0 ≤ f ∧ f ≤ 1 :=
  ⟨⟨by decide, by decide⟩,
    effectFadeMultiplier_formula (NewMockNature chebyshev 0) (by decide) 10 0 (by decide)⟩

/-! ## Move: the number of steps -/

theorem ceil_min_intCast (a : ℚ) (n : ℤ) : ⌈min a (n : ℚ)⌉ = min ⌈a⌉ n := by
  rcases le_total a (n : ℚ) with h | h
  · rw [min_eq_left h, min_eq_left (Int.ceil_le.mpr h)]
  · rw [min_eq_right h, Int.ceil_intCast, min_eq_right]
    have := Int.ceil_mono h
    rwa [Int.ceil_intCast] at this

/-- C27, amended: for every distance and planned duration, the step count of a sub-movement
is at least `min(minSteps, ceil(distance))` and at most `ceil(distance)`; it is at least
`minSteps` whenever the distance is. -/
theorem steps_bounds {σ : Type} (nature : MotionNature σ) (distance : ℚ)
    (mouseMovementMs : time_type) :
    min nature.minSteps ⌈distance⌉ ≤ MoveImp.steps nature distance mouseMovementMs ∧
    MoveImp.steps nature distance mouseMovementMs ≤ ⌈distance⌉ ∧
    ((nature.minSteps : ℚ) ≤ distance →
      nature.minSteps ≤ MoveImp.steps nature distance mouseMovementMs) := by
  have hlow : min nature.minSteps ⌈distance⌉
      ≤ MoveImp.steps nature distance mouseMovementMs := by
    unfold MoveImp.steps
    split_ifs
    · rw [ceil_min_intCast, min_comm]
    · exact min_le_right _ _
    · rw [min_comm, ← ceil_min_intCast]
      exact Int.ceil_mono (min_le_min le_rfl (le_max_right _ _))
  have hup : MoveImp.steps nature distance mouseMovementMs ≤ ⌈distance⌉ := by
    unfold MoveImp.steps
    split_ifs
    · exact Int.ceil_mono (min_le_left _ _)
    · exact le_rfl
    · exact Int.ceil_mono (min_le_left _ _)
  refine ⟨hlow, hup, fun h => ?_⟩
  have hceil : nature.minSteps ≤ ⌈distance⌉ := by
    have := Int.ceil_mono h
    rwa [Int.ceil_intCast] at this
  rwa [min_eq_left hceil] at hlow

/-! ## MovementFactory: the legs of a plan -/

/-- C30: in every plan of `createMovements`, each movement starts where the one before it
ends, the first one at the current mouse position, and its `distance` is `hypot(xDistance,
yDistance)`; the final leg starts at the destination of the last movement kept before it, or
at the current position when none is kept, and ends on the destination. -/
theorem createMovements_legs {σ : Type} (factory : MovementFactory σ) (hypot : ℚ → ℚ → ℚ)
    (current : Point ℤ) (s : σ) :
    Linked current (factory.createMovements hypot current s).1 ∧
    (∀ m ∈ (factory.createMovements hypot current s).1,
      m.distance = hypot (m.xDistance : ℚ) (m.yDistance : ℚ)) ∧
    ∃ kept final, (factory.createMovements hypot current s).1 = kept ++ [final] ∧
      final.destX - final.xDistance = (planEnd current kept).x ∧
      final.destY - final.yDistance = (planEnd current kept).y ∧
      final.destX = factory.xDest ∧ final.destY = factory.yDest := by
  have hl := createMovements_linked factory hypot current s
  refine ⟨hl, ?_, ?_⟩
  · exact createMovements_forall factory hypot
      (fun m => m.distance = hypot (m.xDistance : ℚ) (m.yDistance : ℚ))
      (fun _ _ _ _ _ _ _ _ => rfl) (fun _ _ _ _ _ => rfl) current s
  · have hend := createMovements_planEnd factory hypot current s
    rcases List.eq_nil_or_concat (factory.createMovements hypot current s).1 with
      h | ⟨kept, final, h⟩
    · exfalso
      revert h
      unfold MovementFactory.createMovements
      simp only []
      split_ifs <;> simp
    · rw [List.concat_eq_append] at h
      rw [h] at hl hend
      rw [linked_append_singleton] at hl
      rw [planEnd_append_singleton] at hend
      simp only [Point.mk.injEq] at hend
      exact ⟨kept, final, h, hl.2.1, hl.2.2, hend.1, hend.2⟩

/-! ## Move: one pass of the step loop, whatever the providers return -/

/-- One pass of the step loop with a valid flow and a defined fade `f`: the simulated
position advances by the step sizes of the flow, both noise accumulators grow by the `y`
component of the noise of the pass, the position set is the simulated position plus the
faded deviation and the faded accumulator, rounded towards the destination and clamped to
the screen, and the cursor is on it after the pass. -/
theorem step_spec {σ : Type} (nature : MotionNature σ) (hypot : ℚ → ℚ → ℚ)
    (screenSize : Dimension) (movement : Movement) (steps : ℤ)
    (startTime stepTime : time_type) (mx my : ℚ)
    (cursor : σ → Point ℤ) (hc : ReportsLastPositionSet nature cursor)
    (flow : Flow) (hflow : movement.flow = some flow) (hn : 1 ≤ flow.buckets.length)
    (i : ℕ) (hi : (i : ℤ) < steps) (f : ℚ)
    (hf : MoveImp.effectFadeMultiplier nature steps (i : ℤ) = some f) (st : StepState σ) :
    ∃ (p : Point ℤ) (next : StepState σ) (dx dy : ℚ),
      MoveImp.step nature hypot screenSize movement steps startTime stepTime mx my (i : ℤ) st
        = .ok (p, next) ∧
      next.simulatedMouseX
        = st.simulatedMouseX + (movement.xDistance : ℚ) * stepShare flow steps (i : ℤ) ∧
      next.simulatedMouseY
        = st.simulatedMouseY + (movement.yDistance : ℚ) * stepShare flow steps (i : ℤ) ∧
      next.noiseX = st.noiseX
        + (nature.getNoise ((movement.xDistance : ℚ) * stepShare flow steps (i : ℤ))
            ((movement.yDistance : ℚ) * stepShare flow steps (i : ℤ)) st.world).1.y ∧
      next.noiseY = st.noiseY
        + (nature.getNoise ((movement.xDistance : ℚ) * stepShare flow steps (i : ℤ))
            ((movement.yDistance : ℚ) * stepShare flow steps (i : ℤ)) st.world).1.y ∧
      p.x = max 0 (min (screenSize.Width - 1) (MoveImp.roundTowards
        (next.simulatedMouseX + dx * mx * f + next.noiseX * f) movement.destX)) ∧
      p.y = max 0 (min (screenSize.Height - 1) (MoveImp.roundTowards
        (next.simulatedMouseY + dy * my * f + next.noiseY * f) movement.destY)) ∧
      cursor next.world = p := by
  unfold MoveImp.step
  simp only [hf, hflow, getStepSize_share flow hn _ steps i hi, MoveImp.roundedPosition]
  refine ⟨_, _, _, _, rfl, rfl, rfl, rfl, rfl, rfl, rfl, ?_⟩
  simp only [hc.sleep, hc.currentTimeMillis]
  cases hobs : nature.observer with
  | none => simp only [hc.setMousePosition]
  | some observer => simp only [hc.observer observer hobs, hc.setMousePosition]

theorem getLast_cons_of_some {α : Type} (a b : α) (l : List α)
    (h : l.getLast? = some b) : (a :: l).getLast? = some b := by
  cases l with
  | nil => simp at h
  | cons c rest => rw [List.getLast?_cons_cons, h]

/-- The step loop run to its last pass with `effectFadeSteps ≥ 1` and a valid flow returns;
the last position it sets is the simulated position after all passes, rounded towards the
destination and clamped to the screen, and the cursor is on it. -/
theorem stepLoop_last {σ : Type} (nature : MotionNature σ) (hypot : ℚ → ℚ → ℚ)
    (screenSize : Dimension) (movement : Movement) (steps : ℤ)
    (startTime stepTime : time_type) (mx my : ℚ)
    (cursor : σ → Point ℤ) (hc : ReportsLastPositionSet nature cursor)
    (hF : 1 ≤ nature.effectFadeSteps) (flow : Flow) (hflow : movement.flow = some flow)
    (hn : 1 ≤ flow.buckets.length) (sx sy : ℚ) (n i : ℕ)
    (hi : ((i + (n + 1) : ℕ) : ℤ) = steps) (st : StepState σ)
    (hsx : st.simulatedMouseX = sx + (movement.xDistance : ℚ) * progress flow steps i)
    (hsy : st.simulatedMouseY = sy + (movement.yDistance : ℚ) * progress flow steps i) :
    ∃ last, (MoveImp.stepLoop nature hypot screenSize movement steps startTime stepTime mx my
        (n + 1) (i : ℤ) st).2 = .ok last ∧
      (MoveImp.stepLoop nature hypot screenSize movement steps startTime stepTime mx my
        (n + 1) (i : ℤ) st).1.getLast?
        = some ⟨max 0 (min (screenSize.Width - 1) (MoveImp.roundTowards
            (sx + (movement.xDistance : ℚ) * progress flow steps (i + (n + 1)))
            movement.destX)),
          max 0 (min (screenSize.Height - 1) (MoveImp.roundTowards
            (sy + (movement.yDistance : ℚ) * progress flow steps (i + (n + 1)))
            movement.destY))⟩ ∧
      cursor last.world
        = ⟨max 0 (min (screenSize.Width - 1) (MoveImp.roundTowards
            (sx + (movement.xDistance : ℚ) * progress flow steps (i + (n + 1)))
            movement.destX)),
          max 0 (min (screenSize.Height - 1) (MoveImp.roundTowards
            (sy + (movement.yDistance : ℚ) * progress flow steps (i + (n + 1)))
            movement.destY))⟩ := by
  have hne : nature.effectFadeSteps ≠ 0 := by omega
  induction n generalizing i st with
  | zero =>
    have hlast : (i : ℤ) = steps - 1 := by push_cast at hi; omega
    have hf : MoveImp.effectFadeMultiplier nature steps (i : ℤ) = some 0 := by
      rw [effectFadeMultiplier_eq nature hne, max_eq_left (by omega), hlast]
      have hq : (nature.effectFadeSteps : ℚ) ≠ 0 := by exact_mod_cast hne
      congr 1
      push_cast
      field_simp
    obtain ⟨p, next, dx, dy, hstep, h1, h2, _, _, h5, h6, h7⟩ := step_spec nature hypot
      screenSize movement steps startTime stepTime mx my cursor hc flow hflow hn i
      (by omega) 0 hf st
    rw [MoveImp.stepLoop, hstep]
    simp only [MoveImp.stepLoop, List.getLast?_singleton]
    simp only [mul_zero, add_zero] at h5 h6
    rw [h1, hsx] at h5
    rw [h2, hsy] at h6
    have hp : p = ⟨max 0 (min (screenSize.Width - 1) (MoveImp.roundTowards
            (sx + (movement.xDistance : ℚ) * progress flow steps (i + (0 + 1)))
            movement.destX)),
          max 0 (min (screenSize.Height - 1) (MoveImp.roundTowards
            (sy + (movement.yDistance : ℚ) * progress flow steps (i + (0 + 1)))
            movement.destY))⟩ := by
      rcases p with ⟨px, py⟩
      simp only at h5 h6
      rw [h5, h6, zero_add, progress_succ]
      simp only [mul_add, add_assoc]
    exact ⟨next, rfl, by rw [hp], by rw [h7, hp]⟩
  | succ n ih =>
    obtain ⟨f, hf⟩ := effectFadeMultiplier_ok nature hne steps (i : ℤ)
    obtain ⟨p, next, dx, dy, hstep, h1, h2, _, _, _, _, _⟩ := step_spec nature hypot
      screenSize movement steps startTime stepTime mx my cursor hc flow hflow hn i
      (by push_cast at hi; omega) f hf st
    have hcast : ((i : ℤ) + 1) = ((i + 1 : ℕ) : ℤ) := by push_cast; ring
    obtain ⟨last, hl1, hl2, hl3⟩ := ih (i + 1) (by push_cast at hi ⊢; omega) next
      (by rw [h1, hsx, progress_succ]; ring) (by rw [h2, hsy, progress_succ]; ring)
    have hidx : i + 1 + (n + 1) = i + (n + 1 + 1) := by omega
    rw [hidx] at hl2 hl3
    rw [MoveImp.stepLoop, hstep]
    simp only []
    rw [hcast]
    exact ⟨last, hl1, getLast_cons_of_some _ _ _ hl2, hl3⟩

theorem runMovement_movement {σ : Type} (nature : MotionNature σ) (hypot : ℚ → ℚ → ℚ)
    (screenSize : Dimension) (xDest yDest : ℤ) (movement : Movement) (s : σ) :
    (MoveImp.runMovement nature hypot screenSize xDest yDest movement s).1.movement
      = movement := by
  unfold MoveImp.runMovement
  simp only []
  split_ifs
  · rfl
  · split
    · rfl
    · split_ifs <;> rfl

/-- A sub-movement with a valid flow and `effectFadeSteps ≥ 1` that starts with the cursor
where the movement was planned to start and ends on a point of the screen: when it sets a
position at all, the last one is its destination and no adjustment follows; it sets a
position when it takes at least one step. -/
theorem runMovement_lands {σ : Type} (nature : MotionNature σ) (hypot : ℚ → ℚ → ℚ)
    (W H : ℤ) (xDest yDest : ℤ) (movement : Movement)
    (cursor : σ → Point ℤ) (hc : ReportsLastPositionSet nature cursor)
    (hF : 1 ≤ nature.effectFadeSteps) (c : FlowCharacteristicsContainer) (flow : Flow)
    (hcreate : Flow.create c = .ok flow) (hflow : movement.flow = some flow)
    (hdx : max 0 (min (W - 1) movement.destX) = movement.destX)
    (hdy : max 0 (min (H - 1) movement.destY) = movement.destY) (s : σ)
    (hstart : cursor s = ⟨movement.destX - movement.xDistance,
      movement.destY - movement.yDistance⟩) :
    ((MoveImp.runMovement nature hypot ⟨W, H⟩ xDest yDest movement s).1.positions ≠ [] →
      (MoveImp.runMovement nature hypot ⟨W, H⟩ xDest yDest movement s).1.positions.getLast?
        = some ⟨movement.destX, movement.destY⟩ ∧
      (MoveImp.runMovement nature hypot ⟨W, H⟩ xDest yDest movement s).1.adjustment = none) ∧
    (1 ≤ MoveImp.steps nature movement.distance movement.time →
      (MoveImp.runMovement nature hypot ⟨W, H⟩ xDest yDest movement s).1.positions ≠ []) := by
  have hn := (Flow_create_ok c flow hcreate).1
  have hne : nature.effectFadeSteps ≠ 0 := by omega
  have hpos : 1 ≤ MoveImp.steps nature movement.distance movement.time →
      (MoveImp.runMovement nature hypot ⟨W, H⟩ xDest yDest movement s).1.positions ≠ [] := by
    intro hsteps
    have hlen := (runMovement_returns nature hypot ⟨W, H⟩ xDest yDest movement flow hflow
      hn hsteps s).2
    intro hnil
    rw [hnil, List.length_nil] at hlen
    omega
  refine ⟨?_, hpos⟩
  rcases le_or_lt 1 (MoveImp.steps nature movement.distance movement.time) with
    hsteps | hsteps
  · intro _
    obtain ⟨S, hS⟩ : ∃ S : ℕ, MoveImp.steps nature movement.distance movement.time
        = ((S + 1 : ℕ) : ℤ) :=
      ⟨(MoveImp.steps nature movement.distance movement.time).toNat - 1, by
        push_cast
        omega⟩
    have hprog : progress flow ((S + 1 : ℕ) : ℤ) (S + 1) = 1 :=
      progress_total c flow hcreate (S + 1) (by omega)
    have hloop := fun startTime stepTime mx my w =>
      stepLoop_last nature hypot ⟨W, H⟩ movement ((S + 1 : ℕ) : ℤ) startTime stepTime mx my
        cursor hc hF flow hflow hn ((cursor s).x : ℚ) ((cursor s).y : ℚ) S 0
        (by rw [zero_add])
        ⟨0, 0, 0, 0, ((cursor s).x : ℚ), ((cursor s).y : ℚ), w⟩
        (by simp [progress]) (by simp [progress])
    have hx : ((cursor s).x : ℚ) + (movement.xDistance : ℚ) * 1
        = ((movement.destX : ℤ) : ℚ) := by
      rw [hstart]
      push_cast
      ring
    have hy : ((cursor s).y : ℚ) + (movement.yDistance : ℚ) * 1
        = ((movement.destY : ℤ) : ℚ) := by
      rw [hstart]
      push_cast
      ring
    simp only [zero_add, hprog, hx, hy, roundTowards_intCast, hdx, hdy, Nat.cast_zero]
      at hloop
    unfold MoveImp.runMovement
    simp only [hc.getMousePosition_fst, hc.currentTimeMillis, hS]
    rw [if_neg (by omega)]
    have htoNat : (((S + 1 : ℕ) : ℤ)).toNat = S + 1 := Int.toNat_ofNat _
    rw [htoNat]
    split
    · rename_i e he
      obtain ⟨last, hl1, _, _⟩ := hloop _ _ _ _ _
      rw [hl1] at he
      exact absurd he (by simp)
    · rename_i last he
      obtain ⟨last2, hl1, hl2, hl3⟩ := hloop _ _ _ _ _
      rw [hl1] at he
      injection he with he
      subst he
      rw [if_neg (by
        rw [hl3]
        simp)]
      exact ⟨hl2, rfl⟩
  · intro hnonempty
    exfalso
    apply hnonempty
    unfold MoveImp.runMovement
    simp only []
    have htoNat : (MoveImp.steps nature movement.distance movement.time).toNat = 0 :=
      Int.toNat_eq_zero.mpr (by omega)
    split_ifs
    · rfl
    · rw [htoNat]
      simp only [MoveImp.stepLoop]
      split_ifs <;> rfl

/-! ## Move: every sub-movement lands on its destination -/

/-- A property of sub-movements that holds of every movement run from the point where it
was planned to start holds of every sub-movement the outer loop executes, when the cursor
reports the last position set and the plan is linked and ends on the destination. -/
theorem moveLoop_trace_forall {σ : Type} (nature : MotionNature σ) (hypot : ℚ → ℚ → ℚ)
    (screenSize : Dimension) (factory : MovementFactory σ) (xDest yDest : ℤ)
    (cursor : σ → Point ℤ) (hc : ReportsLastPositionSet nature cursor)
    (G : Movement → Prop) (Q : MovementTrace → Prop)
    (hrun : ∀ m s, G m → cursor s = ⟨m.destX - m.xDistance, m.destY - m.yDistance⟩ →
      Q (MoveImp.runMovement nature hypot screenSize xDest yDest m s).1)
    (movements : List Movement) (fuel : ℕ) (mousePosition : Point ℤ) (s : σ)
    (hcur : cursor s = mousePosition) (hl : Linked mousePosition movements)
    (hend : planEnd mousePosition movements = ⟨xDest, yDest⟩)
    (hG : ∀ m ∈ movements, G m) :
    ∀ t ∈ (MoveImp.moveLoop nature hypot screenSize factory xDest yDest fuel movements
      mousePosition s).trace, Q t := by
  induction movements generalizing fuel mousePosition s with
  | nil =>
    rw [planEnd_nil] at hend
    subst hend
    rw [moveLoop_at_destination]
    simp
  | cons m rest ih =>
    by_cases hat : mousePosition = ⟨xDest, yDest⟩
    · subst hat
      rw [moveLoop_at_destination]
      simp
    · have hne : mousePosition.x ≠ xDest ∨ mousePosition.y ≠ yDest := by
        by_contra hcon
        push_neg at hcon
        apply hat
        rcases mousePosition with ⟨px, py⟩
        simp only at hcon
        rw [hcon.1, hcon.2]
      cases fuel with
      | zero =>
        rw [MoveImp.moveLoop, if_pos hne]
        simp
      | succ f =>
        rw [linked_cons] at hl
        have hQ := hrun m s (hG m (by simp)) (by
          rw [hcur, hl.1, hl.2.1])
        rw [MoveImp.moveLoop, if_pos hne]
        simp only [MoveImp.repopulate, List.isEmpty_cons, Bool.false_eq_true, if_false]
        rcases hr : (MoveImp.runMovement nature hypot screenSize xDest yDest m s).2 with
          e | r
        · simp only [List.mem_singleton]
          intro t ht
          rw [ht]
          exact hQ
        · obtain ⟨hp, hw⟩ := runMovement_end nature hypot screenSize xDest yDest m cursor hc
            s r.1 r.2 hr
          rw [planEnd_cons] at hend
          have hrest := ih f r.1 r.2 (by rw [hw, hp]) (by rw [hp]; exact hl.2.2)
            (by rw [hp]; exact hend) (fun m2 hm2 => hG m2 (by simp [hm2]))
          simp only [List.mem_cons]
          intro t ht
          rcases ht with rfl | ht
          · exact hQ
          · exact hrest t ht

/-- C25: with a screen that stays `W x H`, a cursor that reports the last position set, a
speed provider that returns valid flows and `effectFadeSteps ≥ 1`, whatever the noise,
deviation and overshoot policies return: in every sub-movement `Move` executes that sets a
position, the last position of the step loop is the sub-movement's destination and no
adjustment follows the loop; with `minSteps ≥ 1` every sub-movement sets a position. -/
theorem Move_lands_on_sub_destinations {σ : Type} (nature : MotionNature σ)
    (hypot : ℚ → ℚ → ℚ) (W H : ℤ) (hscreen : ScreenIs nature W H)
    (cursor : σ → Point ℤ) (hc : ReportsLastPositionSet nature cursor)
    (hflows : ReturnsValidFlows nature) (hF : 1 ≤ nature.effectFadeSteps)
    (fuel : ℕ) (x y : ℤ) (s : σ) :
    ∀ t ∈ (MoveImp.Move nature hypot fuel x y s).trace,
      (t.positions ≠ [] →
        t.positions.getLast? = some ⟨t.movement.destX, t.movement.destY⟩ ∧
        t.adjustment = none) ∧
      (1 ≤ nature.minSteps → IsHypot hypot → t.positions ≠ []) := by
  by_cases hat : cursor s = ⟨max 0 (min (W - 1) x), max 0 (min (H - 1) y)⟩
  · unfold MoveImp.Move
    simp only [MovementFactory.create, hscreen _, hc.getMousePosition_fst, hc.getScreenSize,
      hat]
    rw [moveLoop_at_destination]
    simp
  · have hne : (cursor s).x ≠ max 0 (min (W - 1) x) ∨ (cursor s).y ≠ max 0 (min (H - 1) y) := by
      by_contra hcon
      push_neg at hcon
      apply hat
      rcases hcs : cursor s with ⟨px, py⟩
      rw [hcs] at hcon
      simp only at hcon
      rw [hcon.1, hcon.2]
    unfold MoveImp.Move
    simp only [MovementFactory.create, hscreen _, hc.getMousePosition_fst, hc.getScreenSize]
    apply moveLoop_trace_forall nature hypot ⟨W, H⟩ _ _ _ cursor hc
      (fun m => (max 0 (min (W - 1) m.destX) = m.destX ∧
        max 0 (min (H - 1) m.destY) = m.destY) ∧
        (∃ c flow, Flow.create c = .ok flow ∧ m.flow = some flow) ∧
        (IsHypot hypot → 0 < m.distance))
    · intro m w hG hstart
      obtain ⟨⟨hdx, hdy⟩, ⟨c, flow, hcreate, hflow⟩, hdist⟩ := hG
      have hland := runMovement_lands nature hypot W H (max 0 (min (W - 1) x))
        (max 0 (min (H - 1) y)) m cursor hc hF c flow hcreate hflow hdx hdy w hstart
      rw [runMovement_movement]
      exact ⟨hland.1, fun hmin hh => hland.2 (steps_pos nature hmin _ (hdist hh) _)⟩
    · rw [createMovements_cursor _ hypot cursor hc, hc.getScreenSize,
        hc.getMousePosition_snd, hc.getScreenSize]
    · exact createMovements_linked _ hypot _ _
    · exact createMovements_planEnd _ hypot _ _
    · intro m hm
      exact ⟨(createMovements_sound nature hypot W H _ _ hflows (clamp_idem W x)
          (clamp_idem H y) _ _ m hm).1,
        (createMovements_sound nature hypot W H _ _ hflows (clamp_idem W x)
          (clamp_idem H y) _ _ m hm).2,
        fun hh => createMovements_distance_pos _ hh _ _ hne m hm⟩

theorem Move_lands_on_sub_destinations_witness :
    (ScreenIs (NewMockNature chebyshev 2) 800 500 ∧
      ReportsLastPositionSet (NewMockNature chebyshev 2) MockWorld.cursor ∧
      ReturnsValidFlows (NewMockNature chebyshev 2) ∧
      1 ≤ (NewMockNature chebyshev 2).effectFadeSteps) ∧
    ∀ t ∈ (MoveImp.Move (NewMockNature chebyshev 2) chebyshev 3 50 50
        (MockWorld.initial [])).trace,
      (t.positions ≠ [] →
        t.positions.getLast? = some ⟨t.movement.destX, t.movement.destY⟩ ∧
        t.adjustment = none) ∧
      (1 ≤ (NewMockNature chebyshev 2).minSteps → IsHypot chebyshev → t.positions ≠ []) :=
  ⟨⟨NewMockNature_screen chebyshev 2, NewMockNature_reportsLastPositionSet chebyshev 2,
      NewMockNature_validFlows chebyshev 2, by decide⟩,
    Move_lands_on_sub_destinations (NewMockNature chebyshev 2) chebyshev 800 500
      (NewMockNature_screen chebyshev 2) MockWorld.cursor
      (NewMockNature_reportsLastPositionSet chebyshev 2)
      (NewMockNature_validFlows chebyshev 2) (by decide) 3 50 50 (MockWorld.initial [])⟩

/-! ## Move: the noise accumulators -/

/-- C26: the property fails in the code. Every pass of the step loop that returns adds the
`y` component of the point the noise provider returned to the X accumulator as well as to
the Y accumulator (`noiseX += noise.y`), so the X accumulator is the sum of the `y`
components. With a noise provider that returns `(7, 0)`, the first of ten steps of the
movement from `(0,0)` to `(50,50)` leaves the X accumulator at 0, not 7, and sets `(5,5)`,
where the fade `3/5` of an accumulated 7 would have given `x = 10`. -/
theorem step_accumulates_noise_y :
    (∀ (σ : Type) (nature : MotionNature σ) (hypot : ℚ → ℚ → ℚ) (screenSize : Dimension)
      (movement : Movement) (steps : ℤ) (startTime stepTime : time_type) (mx my : ℚ) (i : ℤ)
      (st : StepState σ) (p : Point ℤ) (next : StepState σ),
      MoveImp.step nature hypot screenSize movement steps startTime stepTime mx my i st
        = .ok (p, next) →
      ∃ xStepSize yStepSize : ℚ,
        next.simulatedMouseX = st.simulatedMouseX + xStepSize ∧
        next.simulatedMouseY = st.simulatedMouseY + yStepSize ∧
        next.noiseX = st.noiseX + (nature.getNoise xStepSize yStepSize st.world).1.y ∧
        next.noiseY = st.noiseY + (nature.getNoise xStepSize yStepSize st.world).1.y) ∧
    (∀ a b s, (mockNatureWithXNoise.getNoise a b s).1 = ⟨7, 0⟩) ∧
    MoveImp.effectFadeMultiplier mockNatureWithXNoise 10 0 = some (3 / 5) ∧
    (∃ next, MoveImp.step mockNatureWithXNoise chebyshev ⟨800, 500⟩
        ⟨50, 50, 50, 50, 50, 10, some ⟨[100]⟩⟩ 10 0 1 0 0 0
        ⟨0, 0, 0, 0, 0, 0, MockWorld.initial []⟩ = .ok (⟨5, 5⟩, next) ∧
      next.noiseX = 0 ∧ next.noiseY = 0) ∧
    MoveImp.roundTowards ((5 : ℚ) + 7 * (3 / 5)) 50 = 10 := by
  have hf : MoveImp.effectFadeMultiplier mockNatureWithXNoise 10 ((0 : ℕ) : ℤ)
      = some (3 / 5) := by
    rw [effectFadeMultiplier_eq mockNatureWithXNoise (by decide)]
    have hmax : max (((0 : ℕ) : ℤ) - (10 - mockNatureWithXNoise.effectFadeSteps) + 1) 0
        = 6 := by decide
    have hefs : (mockNatureWithXNoise.effectFadeSteps : ℚ) = 15 := by
      norm_num [mockNatureWithXNoise, NewMockNature, EFFECT_FADE_STEPS]
    rw [hmax, hefs]
    norm_num
  refine ⟨?_, fun _ _ _ => rfl, hf, ?_, ?_⟩
  · intro σ nature hypot screenSize movement steps startTime stepTime mx my i st p next h
    unfold MoveImp.step at h
    simp only [] at h
    split at h
    · exact absurd h (by simp)
    · split at h
      · exact absurd h (by simp)
      · split at h
        · exact absurd h (by simp)
        · simp only [Except.ok.injEq, Prod.mk.injEq] at h
          rw [← h.2]
          exact ⟨_, _, rfl, rfl, rfl, rfl⟩
  · have h := NewMockNature_reportsLastPositionSet chebyshev 0
    have hc : ReportsLastPositionSet mockNatureWithXNoise MockWorld.cursor :=
      ⟨h.getMousePosition_fst, h.getMousePosition_snd, h.setMousePosition,
        h.currentTimeMillis, h.sleep, h.getScreenSize, h.random, fun _ _ _ => rfl,
        h.getDeviation, h.getFlowWithTime, h.getOvershoots, h.getOvershootAmount,
        h.deriveNextMouseMovementTimeMs, h.observer⟩
    obtain ⟨p, next, dx, dy, hstep, h1, h2, h3, h4, h5, h6, _⟩ := step_spec
      mockNatureWithXNoise chebyshev ⟨800, 500⟩ ⟨50, 50, 50, 50, 50, 10, some ⟨[100]⟩⟩ 10 0 1
      0 0 MockWorld.cursor hc ⟨[100]⟩ rfl (by simp) 0 (by decide) (3 / 5) hf
      ⟨0, 0, 0, 0, 0, 0, MockWorld.initial []⟩
    have hshare := stepShare_single 10 0 (by decide)
    have hnoise : ∀ a b s, (mockNatureWithXNoise.getNoise a b s).1.y = 0 := fun _ _ _ => rfl
    simp only [Nat.cast_ofNat, Nat.cast_zero] at hshare hstep h1 h2 h3 h4
    rw [hshare] at h1 h2
    rw [hnoise] at h3 h4
    simp only [zero_add, add_zero] at h1 h2 h3 h4
    have h5q : ((50 : ℤ) : ℚ) * (1 / 10) = ((5 : ℤ) : ℚ) := by norm_num
    rw [h5q] at h1 h2
    rw [h1, h3] at h5
    rw [h2, h4] at h6
    simp only [mul_zero, zero_mul, add_zero, roundTowards_intCast] at h5 h6
    have hp : p = ⟨5, 5⟩ := by
      rcases p with ⟨px, py⟩
      simp only at h5 h6
      rw [h5, h6]
      rfl
    rw [hp] at hstep
    exact ⟨next, hstep, h3, h4⟩
  · unfold MoveImp.roundTowards
    rw [if_pos (by norm_num)]
    exact Int.ceil_eq_iff.mpr (by norm_num)

/-! ## Move: fewer steps than `minSteps` -/

/-- C27, as stated, fails for a movement shorter than `minSteps` pixels: with the mock
nature, whose `minSteps` is 10, `Move` from `(0,0)` to `(3,0)` executes one sub-movement of
length 3 and planned duration 10 ms, which takes 3 steps. -/
theorem Move_steps_below_minSteps_counterexample :
    (NewMockNature chebyshev 0).minSteps = 10 ∧
    ∃ t, (MoveImp.Move (NewMockNature chebyshev 0) chebyshev 1 3 0
        (MockWorld.initial [])).trace = [t] ∧
      0 < t.movement.distance ∧ 0 ≤ t.movement.time ∧
      MoveImp.steps (NewMockNature chebyshev 0) t.movement.distance t.movement.time = 3 ∧
      t.positions.length = 3 := by
  refine ⟨rfl, ?_⟩
  obtain ⟨d, s1, s2, w, c, flow, hcreate, hflow, hcur, hw, hd, hmove⟩ :=
    Move_single (NewMockNature chebyshev 0) chebyshev_isHypot 800 500
      (NewMockNature_screen chebyshev 0) MockWorld.cursor
      (NewMockNature_reportsLastPositionSet chebyshev 0)
      (NewMockNature_zero_overshoots chebyshev) (NewMockNature_validFlows chebyshev 0)
      (by decide) 3 0 (MockWorld.initial []) (Or.inl (by decide)) 0
  have hflow2 : flow = ⟨[100]⟩ := by
    have : (some (⟨[100]⟩ : Flow)) = some flow := hflow
    injection this with this
    exact this.symm
  subst hflow2
  have e1 : max 0 (min ((800 : ℤ) - 1) 3) = 3 := by decide
  have e2 : max 0 (min ((500 : ℤ) - 1) 0) = 0 := by decide
  have e3 : (MockWorld.cursor (MockWorld.initial [])) = ⟨0, 0⟩ := rfl
  have e4 : ((NewMockNature chebyshev 0).getFlowWithTime d s1).1.2 = 10 := rfl
  have e5 : chebyshev (((3 - 0 : ℤ) : ℤ) : ℚ) (((0 - 0 : ℤ) : ℤ) : ℚ) = 3 := by
    norm_num [chebyshev]
  rw [e1, e2, e3, e4] at hmove
  simp only [e5, zero_add] at hmove
  have hsteps : MoveImp.steps (NewMockNature chebyshev 0) 3 10 = 3 := by
    unfold MoveImp.steps
    simp only [NewMockNature, TIME_TO_STEPS_DIVIDER, MIN_STEPS]
    norm_num
  rw [hmove]
  refine ⟨_, rfl, ?_, ?_, ?_, ?_⟩
  · rw [runMovement_movement]
    norm_num
  · rw [runMovement_movement]
    decide
  · rw [runMovement_movement]
    exact hsteps
  · rw [(runMovement_returns (NewMockNature chebyshev 0) chebyshev ⟨800, 500⟩ 3 0
      ⟨3, 0, 3, 3 - 0, 0 - 0, 10, some ⟨[100]⟩⟩ ⟨[100]⟩ rfl (by simp)
      (by rw [hsteps]; decide) s2).2, hsteps]
    rfl

/-! ## Move: the outer loop runs the plan through its first hit -/

/-- The outer loop, entered off the destination and allowed as many passes as the plan has
movements, executes the movements of the plan in order up to and including the first one
that ends on the destination. -/
theorem moveLoop_executes {σ : Type} (nature : MotionNature σ) (hypot : ℚ → ℚ → ℚ)
    (screenSize : Dimension) (factory : MovementFactory σ) (xDest yDest : ℤ)
    (cursor : σ → Point ℤ) (hc : ReportsLastPositionSet nature cursor)
    (hmin : 1 ≤ nature.minSteps)
    (movements : List Movement) (fuel : ℕ) (mousePosition : Point ℤ) (s : σ)
    (hat : mousePosition ≠ ⟨xDest, yDest⟩)
    (hend : planEnd mousePosition movements = ⟨xDest, yDest⟩)
    (hm : ∀ m ∈ movements, 0 < m.distance ∧
      ∃ c flow, Flow.create c = .ok flow ∧ m.flow = some flow)
    (hfuel : movements.length ≤ fuel) :
    (MoveImp.moveLoop nature hypot screenSize factory xDest yDest fuel movements
        mousePosition s).trace.map (fun t => t.movement)
      = throughFirstHit xDest yDest movements := by
  induction movements generalizing fuel mousePosition s with
  | nil =>
    rw [planEnd_nil] at hend
    exact absurd hend hat
  | cons m rest ih =>
    obtain ⟨f, rfl⟩ : ∃ f, fuel = f + 1 := ⟨fuel - 1, by simp at hfuel; omega⟩
    have hne : mousePosition.x ≠ xDest ∨ mousePosition.y ≠ yDest := by
      by_contra hcon
      push_neg at hcon
      apply hat
      rcases mousePosition with ⟨px, py⟩
      simp only at hcon
      rw [hcon.1, hcon.2]
    obtain ⟨hd, c, flow, hcreate, hflow⟩ := hm m (by simp)
    obtain ⟨⟨r, hr⟩, _⟩ := runMovement_returns nature hypot screenSize xDest yDest m
      flow hflow (Flow_create_ok c flow hcreate).1 (steps_pos nature hmin _ hd _) s
    obtain ⟨hp, _⟩ := runMovement_end nature hypot screenSize xDest yDest m cursor hc s
      r.1 r.2 hr
    rw [MoveImp.moveLoop, if_pos hne]
    simp only [MoveImp.repopulate, List.isEmpty_cons, Bool.false_eq_true, if_false, hr,
      List.map_cons, runMovement_movement]
    rw [planEnd_cons] at hend
    unfold throughFirstHit
    by_cases hhit : m.destX = xDest ∧ m.destY = yDest
    · rw [if_pos hhit, hp, hhit.1, hhit.2, moveLoop_at_destination]
      rfl
    · rw [if_neg hhit]
      congr 1
      apply ih f r.1 r.2
      · rw [hp]
        intro hcon
        simp only [Point.mk.injEq] at hcon
        exact hhit hcon
      · rw [hp]
        exact hend
      · exact fun m2 hm2 => hm m2 (by simp [hm2])
      · simp at hfuel
        omega

/-- C29: with a cursor that reports the last position set, a screen that stays `W x H` and
`minSteps ≥ 1` (and any `effectFadeSteps`, zero included), `Move` terminates: it returns
with the cursor on the clamped destination as soon as its outer loop is allowed as many
passes as the plan has movements; the sub-movements it executes are the movements of the
plan, in order, up to and including the first one that ends on the clamped destination
(none when the cursor is there already), so they are at most as many as the plan has
movements, and it never plans again. The speed provider hands out flows that the
constructor of `Flow` built. -/
theorem Move_runs_plan_through_first_hit {σ : Type} (nature : MotionNature σ)
    {hypot : ℚ → ℚ → ℚ} (hh : IsHypot hypot) (W H : ℤ) (hscreen : ScreenIs nature W H)
    (cursor : σ → Point ℤ) (hc : ReportsLastPositionSet nature cursor)
    (hflows : ReturnsValidFlows nature) (hmin : 1 ≤ nature.minSteps)
    (x y : ℤ) (s : σ) (fuel : ℕ)
    (hfuel : (MoveImp.movements nature hypot x y s).length ≤ fuel) :
    (∃ w, (MoveImp.Move nature hypot fuel x y s).outcome = .returned w ∧
      cursor w = ⟨max 0 (min (W - 1) x), max 0 (min (H - 1) y)⟩) ∧
    (MoveImp.Move nature hypot fuel x y s).replans = 0 ∧
    (MoveImp.Move nature hypot fuel x y s).trace.map (fun t => t.movement)
      = (if (cursor s).x = max 0 (min (W - 1) x) ∧ (cursor s).y = max 0 (min (H - 1) y)
        then []
        else throughFirstHit (max 0 (min (W - 1) x)) (max 0 (min (H - 1) y))
          (MoveImp.movements nature hypot x y s)) ∧
    (MoveImp.Move nature hypot fuel x y s).trace.length
      ≤ (MoveImp.movements nature hypot x y s).length := by
  have hcur := createMovements_cursor
    (⟨max 0 (min (W - 1) x), max 0 (min (H - 1) y), nature, ⟨W, H⟩⟩ : MovementFactory σ)
    hypot cursor hc (cursor s) (nature.systemCalls.getScreenSize
      (nature.systemCalls.getMousePosition (nature.systemCalls.getScreenSize s).2).2).2
  rw [hc.getScreenSize, hc.getMousePosition_snd, hc.getScreenSize] at hcur
  have hend := createMovements_planEnd
    (⟨max 0 (min (W - 1) x), max 0 (min (H - 1) y), nature, ⟨W, H⟩⟩ : MovementFactory σ)
    hypot (cursor s) (nature.systemCalls.getScreenSize
      (nature.systemCalls.getMousePosition (nature.systemCalls.getScreenSize s).2).2).2
  have hpos := fun hne => createMovements_distance_pos
    (⟨max 0 (min (W - 1) x), max 0 (min (H - 1) y), nature, ⟨W, H⟩⟩ : MovementFactory σ) hh
    (cursor s) (nature.systemCalls.getScreenSize (nature.systemCalls.getMousePosition
      (nature.systemCalls.getScreenSize s).2).2).2 hne
  have hsound := createMovements_sound nature hypot W H (max 0 (min (W - 1) x))
    (max 0 (min (H - 1) y)) hflows (clamp_idem W x) (clamp_idem H y) (cursor s)
    (nature.systemCalls.getScreenSize (nature.systemCalls.getMousePosition
      (nature.systemCalls.getScreenSize s).2).2).2
  unfold MoveImp.Move
  unfold MoveImp.movements at hfuel ⊢
  simp only [MovementFactory.create, hscreen _, hc.getMousePosition_fst, hc.getScreenSize]
    at hfuel ⊢
  generalize (⟨max 0 (min (W - 1) x), max 0 (min (H - 1) y), nature, ⟨W, H⟩⟩ :
    MovementFactory σ).createMovements hypot (cursor s)
    (nature.systemCalls.getScreenSize (nature.systemCalls.getMousePosition
      (nature.systemCalls.getScreenSize s).2).2).2 = plan at hcur hend hpos hsound hfuel ⊢
  by_cases hat2 : (cursor s).x = max 0 (min (W - 1) x) ∧ (cursor s).y = max 0 (min (H - 1) y)
  · have hat : cursor s = ⟨max 0 (min (W - 1) x), max 0 (min (H - 1) y)⟩ := by
      rcases hcs : cursor s with ⟨px, py⟩
      rw [hcs] at hat2
      simp only at hat2
      rw [hat2.1, hat2.2]
    rw [if_pos hat2, hat, moveLoop_at_destination]
    exact ⟨⟨_, rfl, by rw [hcur, hat]⟩, rfl, rfl, Nat.zero_le _⟩
  · have hne : (cursor s).x ≠ max 0 (min (W - 1) x) ∨ (cursor s).y ≠ max 0 (min (H - 1) y) := by
      by_contra hcon
      push_neg at hcon
      exact hat2 hcon
    have hat : cursor s ≠ ⟨max 0 (min (W - 1) x), max 0 (min (H - 1) y)⟩ := by
      intro hcon
      apply hat2
      rw [hcon]
      exact ⟨rfl, rfl⟩
    have hm : ∀ m ∈ plan.1, 0 < m.distance ∧
        ∃ c flow, Flow.create c = .ok flow ∧ m.flow = some flow :=
      fun m hm => ⟨hpos hne m hm, (hsound m hm).2⟩
    obtain ⟨w, h1, h2, h3, h4⟩ := moveLoop_returns nature hypot ⟨W, H⟩
      ⟨max 0 (min (W - 1) x), max 0 (min (H - 1) y), nature, ⟨W, H⟩⟩
      (max 0 (min (W - 1) x)) (max 0 (min (H - 1) y)) cursor hc hmin plan.1 fuel
      (cursor s) plan.2 hcur hend hm hfuel
    rw [if_neg hat2]
    exact ⟨⟨w, h1, h2⟩, h3, moveLoop_executes nature hypot ⟨W, H⟩ _ _ _ cursor hc hmin
      plan.1 fuel (cursor s) plan.2 hat hend hm hfuel, h4⟩

/-- With an overshoot count of 0 the plan `Move` starts with has one movement. -/
theorem movements_single {σ : Type} (nature : MotionNature σ) (hypot : ℚ → ℚ → ℚ)
    (hzero : ∀ f t d w, (nature.overshootManager.getOvershoots f t d w).1 = 0)
    (x y : ℤ) (s : σ) : (MoveImp.movements nature hypot x y s).length = 1 := by
  unfold MoveImp.movements
  simp only []
  rw [createMovements_single _ hypot _ _ hzero]
  rfl

theorem Move_runs_plan_through_first_hit_witness :
    (IsHypot chebyshev ∧ ScreenIs (NewMockNature chebyshev 0) 800 500 ∧
      ReportsLastPositionSet (NewMockNature chebyshev 0) MockWorld.cursor ∧
      ReturnsValidFlows (NewMockNature chebyshev 0) ∧
      1 ≤ (NewMockNature chebyshev 0).minSteps ∧
      (MoveImp.movements (NewMockNature chebyshev 0) chebyshev 50 50
        (MockWorld.initial [])).length ≤ 1) ∧
    (∃ w, (MoveImp.Move (NewMockNature chebyshev 0) chebyshev 1 50 50
        (MockWorld.initial [])).outcome = .returned w ∧
      MockWorld.cursor w = ⟨max 0 (min (800 - 1) 50), max 0 (min (500 - 1) 50)⟩) ∧
    (MoveImp.Move (NewMockNature chebyshev 0) chebyshev 1 50 50
      (MockWorld.initial [])).replans = 0 ∧
    (MoveImp.Move (NewMockNature chebyshev 0) chebyshev 1 50 50
        (MockWorld.initial [])).trace.map (fun t => t.movement)
      = (if (MockWorld.cursor (MockWorld.initial [])).x = max 0 (min (800 - 1) 50) ∧
          (MockWorld.cursor (MockWorld.initial [])).y = max 0 (min (500 - 1) 50)
        then []
        else throughFirstHit (max 0 (min (800 - 1) 50)) (max 0 (min (500 - 1) 50))
          (MoveImp.movements (NewMockNature chebyshev 0) chebyshev 50 50
            (MockWorld.initial []))) ∧
    (MoveImp.Move (NewMockNature chebyshev 0) chebyshev 1 50 50
        (MockWorld.initial [])).trace.length
      ≤ (MoveImp.movements (NewMockNature chebyshev 0) chebyshev 50 50
          (MockWorld.initial [])).length :=
  ⟨⟨chebyshev_isHypot, NewMockNature_screen chebyshev 0,
      NewMockNature_reportsLastPositionSet chebyshev 0, NewMockNature_validFlows chebyshev 0,
      by decide,
      le_of_eq (movements_single (NewMockNature chebyshev 0) chebyshev
        (NewMockNature_zero_overshoots chebyshev) 50 50 (MockWorld.initial []))⟩,
    Move_runs_plan_through_first_hit (NewMockNature chebyshev 0) chebyshev_isHypot 800 500
      (NewMockNature_screen chebyshev 0) MockWorld.cursor
      (NewMockNature_reportsLastPositionSet chebyshev 0)
      (NewMockNature_validFlows chebyshev 0) (by decide) 50 50
      (MockWorld.initial []) 1
      (le_of_eq (movements_single (NewMockNature chebyshev 0) chebyshev
        (NewMockNature_zero_overshoots chebyshev) 50 50 (MockWorld.initial [])))⟩

/-! ## Move: the positions of the step loop without fade steps -/

/-- C17, as stated, fails for `effectFadeSteps = 0`: the mock nature with that setting has
no noise, no deviation, valid flows and a cursor that reports the last position set; the
fade multiplier of every step is then not a number, every position of the step loop is
converted to the smallest `int` and clamped to `(0, 0)`, and on the way from `(100,100)` to
`(50,50)` the ten positions `(0,0)` have passed the destination 50 on an axis whose distance
`-50` is negative. -/
theorem Move_positions_monotone_counterexample :
    ScreenIs mockNatureWithoutFade 800 500 ∧
    ReportsLastPositionSet mockNatureWithoutFade MockWorld.cursor ∧
    NoNoise mockNatureWithoutFade ∧ NoDeviation mockNatureWithoutFade ∧
    ReturnsValidFlows mockNatureWithoutFade ∧
    ∃ t, (MoveImp.Move mockNatureWithoutFade chebyshev 1 50 50
        ⟨[], 0, 0, [⟨100, 100⟩]⟩).trace = [t] ∧
      t.movement.xDistance = -50 ∧ t.movement.destX = 50 ∧
      t.positions = List.replicate 10 ⟨0, 0⟩ ∧
      ¬ MonotoneTowards t.movement.xDistance t.movement.destX
        (t.positions.map (fun p => p.x)) := by
  have h := NewMockNature_reportsLastPositionSet chebyshev 0
  have hc : ReportsLastPositionSet mockNatureWithoutFade MockWorld.cursor :=
    ⟨h.getMousePosition_fst, h.getMousePosition_snd, h.setMousePosition,
      h.currentTimeMillis, h.sleep, h.getScreenSize, h.random, h.getNoise, h.getDeviation,
      h.getFlowWithTime, h.getOvershoots, h.getOvershootAmount,
      h.deriveNextMouseMovementTimeMs, h.observer⟩
  have hflows : ReturnsValidFlows mockNatureWithoutFade :=
    fun _ _ => ⟨[100], ⟨[100]⟩, Flow_create_100, rfl⟩
  refine ⟨fun _ => rfl, hc, fun _ _ _ => rfl, fun _ _ _ => rfl, hflows, ?_⟩
  obtain ⟨d, s1, s2, w, c, flow, hcreate, hflow, hcur, hw, hd, hmove⟩ :=
    Move_single mockNatureWithoutFade chebyshev_isHypot 800 500 (fun _ => rfl)
      MockWorld.cursor hc (NewMockNature_zero_overshoots chebyshev) hflows (by decide)
      50 50 ⟨[], 0, 0, [⟨100, 100⟩]⟩ (Or.inl (by decide)) 0
  have hflow2 : flow = ⟨[100]⟩ := by
    have : (some (⟨[100]⟩ : Flow)) = some flow := hflow
    injection this with this
    exact this.symm
  subst hflow2
  have e1 : max 0 (min ((800 : ℤ) - 1) 50) = 50 := by decide
  have e2 : max 0 (min ((500 : ℤ) - 1) 50) = 50 := by decide
  have e3 : (MockWorld.cursor ⟨[], 0, 0, [⟨100, 100⟩]⟩) = ⟨100, 100⟩ := rfl
  have e4 : (mockNatureWithoutFade.getFlowWithTime d s1).1.2 = 10 := rfl
  have e5 : chebyshev (((50 - 100 : ℤ) : ℤ) : ℚ) (((50 - 100 : ℤ) : ℤ) : ℚ) = 50 := by
    norm_num [chebyshev]
  rw [e1, e2, e3, e4] at hmove
  simp only [e5, zero_add] at hmove
  have hsteps : MoveImp.steps mockNatureWithoutFade 50 10 = 10 := by
    unfold MoveImp.steps
    simp only [mockNatureWithoutFade, NewMockNature, TIME_TO_STEPS_DIVIDER, MIN_STEPS]
    norm_num
  have hpos := (runMovement_without_fade mockNatureWithoutFade chebyshev ⟨800, 500⟩ 50 50
    ⟨50, 50, 50, 50 - 100, 50 - 100, 10, some ⟨[100]⟩⟩ rfl ⟨[100]⟩ rfl (by simp)
    (by rw [hsteps]; decide) s2).1
  rw [hsteps] at hpos
  rw [hmove]
  refine ⟨_, rfl, ?_, ?_, hpos, ?_⟩
  · rw [runMovement_movement]
    decide
  · rw [runMovement_movement]
  · rw [hpos, runMovement_movement]
    intro hmono
    have hge := (hmono.2 (by decide)).2 0 (by decide)
    exact absurd hge (by decide)

/-! ## MovementFactory: the durations of the legs of a plan -/

theorem timesDerived_mono {σ : Type} (manager : OvershootManager σ) (t : time_type)
    {n k : ℕ} (hnk : n ≤ k) (l : List Movement) (h : TimesDerived manager t n l) :
    TimesDerived manager t k l := by
  cases l with
  | nil => trivial
  | cons m rest =>
    obtain ⟨ht, c, w, hc1, hcn, hrest⟩ := h
    exact ⟨ht, c, w, hc1, le_trans hcn hnk, hrest⟩

theorem timesDerived_prefix {σ : Type} (manager : OvershootManager σ) (t : time_type)
    (n : ℕ) (l1 l2 : List Movement) (h : TimesDerived manager t n (l1 ++ l2)) :
    TimesDerived manager t n l1 := by
  induction l1 generalizing t n with
  | nil => trivial
  | cons m rest ih =>
    obtain ⟨ht, c, w, hc1, hcn, hrest⟩ := h
    exact ⟨ht, c, w, hc1, hcn, ih _ _ hrest⟩

/-- The movements the overshoot loop adds carry durations that follow the derivation from
the duration the loop was entered with. -/
theorem overshootLoop_times {σ : Type} (factory : MovementFactory σ) (hypot : ℚ → ℚ → ℚ)
    (i : ℕ) (st : PlanState σ) :
    ∃ added, (factory.overshootLoop hypot i st).movements = st.movements ++ added ∧
      TimesDerived factory.nature.overshootManager st.mouseMovementMs i added := by
  induction i generalizing st with
  | zero =>
    rw [MovementFactory.overshootLoop]
    exact ⟨[], by simp, trivial⟩
  | succ i ih =>
    have hemit : ∀ (S : PlanState σ) (m : Movement),
        S.movements = st.movements ++ [m] → m.time = st.mouseMovementMs →
        (∃ w, S.mouseMovementMs
          = (factory.nature.overshootManager.deriveNextMouseMovementTimeMs
              st.mouseMovementMs i w).1) →
        ∃ added, (factory.overshootLoop hypot i S).movements = st.movements ++ added ∧
          TimesDerived factory.nature.overshootManager st.mouseMovementMs (i + 1) added := by
      intro S m hS hm hw
      obtain ⟨w, hw⟩ := hw
      obtain ⟨added, hadd, htimes⟩ := ih S
      refine ⟨m :: added, ?_, ?_⟩
      · rw [hadd, hS, List.append_assoc, List.singleton_append]
      · rw [hw] at htimes
        exact ⟨hm, i + 1, w, by omega, le_rfl, htimes⟩
    have hskip : ∀ (S : PlanState σ),
        S.movements = st.movements → S.mouseMovementMs = st.mouseMovementMs →
        ∃ added, (factory.overshootLoop hypot i S).movements = st.movements ++ added ∧
          TimesDerived factory.nature.overshootManager st.mouseMovementMs (i + 1) added := by
      intro S hS hms
      obtain ⟨added, hadd, htimes⟩ := ih S
      rw [hS] at hadd
      rw [hms] at htimes
      exact ⟨added, hadd, timesDerived_mono _ _ (by omega) _ htimes⟩
    rw [MovementFactory.overshootLoop]
    simp only []
    split_ifs with hd
    · exact hemit _ _ rfl rfl ⟨_, rfl⟩
    · exact hskip _ rfl rfl

/-- What pruning keeps is a prefix of the emitted movements. -/
theorem pruneLoop_prefix (xDest yDest : ℤ) (l : List Movement) (last : ℤ × ℤ) :
    ∃ pruned, l = (pruneLoop xDest yDest l.reverse last).1.reverse ++ pruned := by
  rw [pruneLoop_fst]
  refine ⟨(l.reverse.takeWhile (hitsDestination xDest yDest)).reverse, ?_⟩
  rw [← List.reverse_append, List.takeWhile_append_dropWhile, List.reverse_reverse]

/-- The plan for a non-zero overshoot count: the movements kept of the overshoot loop, whose
durations follow the derivation from the planned duration, and the final movement, whose
duration is derived with counter 0 from the duration the speed provider returns for its
length after the loop. -/
theorem createMovements_times {σ : Type} (factory : MovementFactory σ)
    (hypot : ℚ → ℚ → ℚ) (current : Point ℤ) (s : σ)
    (flowTime : (Option Flow × time_type) × σ)
    (hft : flowTime = factory.nature.getFlowWithTime
      (hypot ((factory.xDest - current.x : ℤ) : ℚ) ((factory.yDest - current.y : ℤ) : ℚ)) s)
    (overshoots : ℕ × σ)
    (hov : overshoots = factory.nature.overshootManager.getOvershoots flowTime.1.1
      flowTime.1.2
      (hypot ((factory.xDest - current.x : ℤ) : ℚ) ((factory.yDest - current.y : ℤ) : ℚ))
      flowTime.2)
    (h : 1 ≤ overshoots.1) :
    ∃ (kept : List Movement) (final : Movement) (w : σ),
      (factory.createMovements hypot current s).1 = kept ++ [final] ∧
      TimesDerived factory.nature.overshootManager flowTime.1.2 overshoots.1 kept ∧
      final.distance = hypot (final.xDistance : ℚ) (final.yDistance : ℚ) ∧
      final.time = (factory.nature.overshootManager.deriveNextMouseMovementTimeMs
        (factory.nature.getFlowWithTime final.distance w).1.2 0
        (factory.nature.getFlowWithTime final.distance w).2).1 ∧
      final.flow = (factory.nature.getFlowWithTime final.distance w).1.1 := by
  rw [createMovements_of_overshoots factory hypot current s flowTime hft overshoots hov
    (by omega) _ rfl _ rfl _ rfl]
  obtain ⟨added, hadd, htimes⟩ := overshootLoop_times factory hypot overshoots.1
    ⟨[], current.x, current.y, flowTime.1.2, overshoots.2⟩
  obtain ⟨pruned, hpruned⟩ := pruneLoop_prefix factory.xDest factory.yDest
    (factory.overshootLoop hypot overshoots.1
      ⟨[], current.x, current.y, flowTime.1.2, overshoots.2⟩).movements
    ((factory.overshootLoop hypot overshoots.1
      ⟨[], current.x, current.y, flowTime.1.2, overshoots.2⟩).lastMousePositionX,
     (factory.overshootLoop hypot overshoots.1
      ⟨[], current.x, current.y, flowTime.1.2, overshoots.2⟩).lastMousePositionY)
  refine ⟨_, _, _, rfl, ?_, rfl, rfl, rfl⟩
  simp only [List.nil_append] at hadd
  apply timesDerived_prefix _ _ _ _ pruned
  rw [← hpruned, hadd]
  exact htimes

/-- The plan of the test `testMultipleMovement`. -/
theorem createMovements_example_multiple {hypot : ℚ → ℚ → ℚ} (hh : IsHypot hypot)
    (unset : MotionNature MockWorld) :
    ((MovementFactory.create (movementFactoryTestNature unset 100 MultiOvershootManager) 50 150
        (MockWorld.initial [⟨5, 5⟩, ⟨-5, -5⟩])).1.createMovements hypot
      ⟨100, 100⟩ (MockWorld.initial [⟨5, 5⟩, ⟨-5, -5⟩])).1
      = [⟨55, 155, hypot (-45) 55, -45, 55, 100, some ⟨[100]⟩⟩,
         ⟨45, 145, hypot (-10) (-10), -10, -10, 50, some ⟨[100]⟩⟩,
         ⟨50, 150, hypot 5 5, 5, 5, 50, some ⟨[100]⟩⟩] := by
  rw [createMovements_of_overshoots _ hypot _ _ _ rfl _ rfl (by
    simp [MovementFactory.create, movementFactoryTestNature, MultiOvershootManager,
      ConstantSpeedManager, MockWorld.initial]) _ rfl _ rfl _ rfl]
  simp only [MovementFactory.create, movementFactoryTestNature, MultiOvershootManager,
    ConstantSpeedManager, MockWorld.initial, MockSystemCalls, List.length_cons,
    List.length_nil]
  iterate 2
    rw [overshootLoop_succ _ hh _ _ _ rfl _ _ rfl rfl]
    norm_num [MovementFactory.limitByScreenWidth, MovementFactory.limitByScreenHeight,
      ConstantSpeedManager]
  rw [overshootLoop_zero]
  have e1 : Int.tdiv 100 2 = 50 := by decide
  simp [pruneLoop, e1]
  norm_num

/-- C31: with `n ≥ 1` overshoots the plan ends with a final movement whose time is
`deriveNextMouseMovementTimeMs(T', 0)`, where `T'` is the duration the speed provider
returns for the length of the final leg when asked after the overshoot loop, and whose flow
is the one returned with it; the durations of the overshoot legs do not enter. With a
constant provider time and the halving policy of the tests the legs take 100, 50 and then
50, and 64, 32, 16 and then 32. -/
theorem createMovements_final_time {σ : Type} (factory : MovementFactory σ)
    (hypot : ℚ → ℚ → ℚ) (current : Point ℤ) (s : σ)
    (flowTime : (Option Flow × time_type) × σ)
    (hft : flowTime = factory.nature.getFlowWithTime
      (hypot ((factory.xDest - current.x : ℤ) : ℚ) ((factory.yDest - current.y : ℤ) : ℚ)) s)
    (overshoots : ℕ × σ)
    (hov : overshoots = factory.nature.overshootManager.getOvershoots flowTime.1.1
      flowTime.1.2
      (hypot ((factory.xDest - current.x : ℤ) : ℚ) ((factory.yDest - current.y : ℤ) : ℚ))
      flowTime.2)
    (h : 1 ≤ overshoots.1) :
    (∃ (kept : List Movement) (final : Movement) (w : σ),
      (factory.createMovements hypot current s).1 = kept ++ [final] ∧
      final.distance = hypot (final.xDistance : ℚ) (final.yDistance : ℚ) ∧
      final.time = (factory.nature.overshootManager.deriveNextMouseMovementTimeMs
        (factory.nature.getFlowWithTime final.distance w).1.2 0
        (factory.nature.getFlowWithTime final.distance w).2).1 ∧
      final.flow = (factory.nature.getFlowWithTime final.distance w).1.1) ∧
    (∀ (hypot2 : ℚ → ℚ → ℚ) (unset : MotionNature MockWorld), IsHypot hypot2 →
      ((MovementFactory.create (movementFactoryTestNature unset 100 MultiOvershootManager)
          50 150 (MockWorld.initial [⟨5, 5⟩, ⟨-5, -5⟩])).1.createMovements hypot2 ⟨100, 100⟩
        (MockWorld.initial [⟨5, 5⟩, ⟨-5, -5⟩])).1.map (fun m => m.time) = [100, 50, 50] ∧
      ((MovementFactory.create (movementFactoryTestNature unset 64 MultiOvershootManager)
          50 150 (MockWorld.initial [⟨5, 5⟩, ⟨0, 0⟩, ⟨1, 1⟩, ⟨0, 0⟩, ⟨0, 0⟩])).1.createMovements
        hypot2 ⟨100, 100⟩
        (MockWorld.initial [⟨5, 5⟩, ⟨0, 0⟩, ⟨1, 1⟩, ⟨0, 0⟩, ⟨0, 0⟩])).1.map (fun m => m.time)
        = [64, 32, 16, 32]) := by
  constructor
  · obtain ⟨kept, final, w, hplan, _, hdist, htime, hflow⟩ :=
      createMovements_times factory hypot current s flowTime hft overshoots hov h
    exact ⟨kept, final, w, hplan, hdist, htime, hflow⟩
  · intro hypot2 unset hh
    rw [createMovements_example_multiple hh unset, createMovements_example_pruning hh unset]
    exact ⟨rfl, rfl⟩

theorem createMovements_final_time_witness :
    ∃ (kept : List Movement) (final : Movement) (w : MockWorld),
      ((MovementFactory.create (movementFactoryTestNature (NewMockNature chebyshev 0) 100
          MultiOvershootManager) 50 150
          (MockWorld.initial [⟨5, 5⟩, ⟨-5, -5⟩])).1.createMovements chebyshev ⟨100, 100⟩
        (MockWorld.initial [⟨5, 5⟩, ⟨-5, -5⟩])).1 = kept ++ [final] ∧
      final.distance = chebyshev (final.xDistance : ℚ) (final.yDistance : ℚ) ∧
      final.time = (MultiOvershootManager.deriveNextMouseMovementTimeMs
        (ConstantSpeedManager 100 final.distance w).1.2 0
        (ConstantSpeedManager 100 final.distance w).2).1 ∧
      final.flow = (ConstantSpeedManager 100 final.distance w).1.1 :=
  (createMovements_final_time
    (MovementFactory.create (movementFactoryTestNature (NewMockNature chebyshev 0) 100
      MultiOvershootManager) 50 150 (MockWorld.initial [⟨5, 5⟩, ⟨-5, -5⟩])).1 chebyshev
    ⟨100, 100⟩ (MockWorld.initial [⟨5, 5⟩, ⟨-5, -5⟩])
    ((some ⟨[100]⟩, 100), MockWorld.initial [⟨5, 5⟩, ⟨-5, -5⟩]) rfl
    (2, MockWorld.initial [⟨5, 5⟩, ⟨-5, -5⟩]) rfl (by decide)).1

/-- C32: with `n ≥ 1` overshoots the durations of the movements the overshoot loop emits,
and so of the overshoot movements the plan keeps, follow the derivation from the planned
duration `T`: the first one carries `T`, and each later one carries
`deriveNextMouseMovementTimeMs(d, c - 1)` for the duration `d` and the loop counter `c` of
the one emitted before it. With the halving policy of the tests the overshoot legs take 100
then 50, and 64, 32, 16. -/
theorem createMovements_overshoot_times {σ : Type} (factory : MovementFactory σ)
    (hypot : ℚ → ℚ → ℚ) (current : Point ℤ) (s : σ)
    (flowTime : (Option Flow × time_type) × σ)
    (hft : flowTime = factory.nature.getFlowWithTime
      (hypot ((factory.xDest - current.x : ℤ) : ℚ) ((factory.yDest - current.y : ℤ) : ℚ)) s)
    (overshoots : ℕ × σ)
    (hov : overshoots = factory.nature.overshootManager.getOvershoots flowTime.1.1
      flowTime.1.2
      (hypot ((factory.xDest - current.x : ℤ) : ℚ) ((factory.yDest - current.y : ℤ) : ℚ))
      flowTime.2)
    (h : 1 ≤ overshoots.1) :
    TimesDerived factory.nature.overshootManager flowTime.1.2 overshoots.1
      (factory.overshootLoop hypot overshoots.1
        ⟨[], current.x, current.y, flowTime.1.2, overshoots.2⟩).movements ∧
    (∃ (kept : List Movement) (final : Movement),
      (factory.createMovements hypot current s).1 = kept ++ [final] ∧
      TimesDerived factory.nature.overshootManager flowTime.1.2 overshoots.1 kept) ∧
    (∀ (hypot2 : ℚ → ℚ → ℚ) (unset : MotionNature MockWorld), IsHypot hypot2 →
      (((MovementFactory.create (movementFactoryTestNature unset 100 MultiOvershootManager)
          50 150 (MockWorld.initial [⟨5, 5⟩, ⟨-5, -5⟩])).1.createMovements hypot2 ⟨100, 100⟩
        (MockWorld.initial [⟨5, 5⟩, ⟨-5, -5⟩])).1.dropLast.map (fun m => m.time) = [100, 50]) ∧
      (((MovementFactory.create (movementFactoryTestNature unset 64 MultiOvershootManager)
          50 150 (MockWorld.initial [⟨5, 5⟩, ⟨0, 0⟩, ⟨1, 1⟩, ⟨0, 0⟩, ⟨0, 0⟩])).1.createMovements
        hypot2 ⟨100, 100⟩
        (MockWorld.initial [⟨5, 5⟩, ⟨0, 0⟩, ⟨1, 1⟩, ⟨0, 0⟩, ⟨0, 0⟩])).1.dropLast.map
          (fun m => m.time) = [64, 32, 16])) := by
  refine ⟨?_, ?_, ?_⟩
  · obtain ⟨added, hadd, htimes⟩ := overshootLoop_times factory hypot overshoots.1
      ⟨[], current.x, current.y, flowTime.1.2, overshoots.2⟩
    simp only [List.nil_append] at hadd
    rw [hadd]
    exact htimes
  · obtain ⟨kept, final, w, hplan, htimes, _⟩ :=
      createMovements_times factory hypot current s flowTime hft overshoots hov h
    exact ⟨kept, final, hplan, htimes⟩
  · intro hypot2 unset hh
    rw [createMovements_example_multiple hh unset, createMovements_example_pruning hh unset]
    exact ⟨rfl, rfl⟩

theorem createMovements_overshoot_times_witness :
    ∃ (kept : List Movement) (final : Movement),
      ((MovementFactory.create (movementFactoryTestNature (NewMockNature chebyshev 0) 100
          MultiOvershootManager) 50 150
          (MockWorld.initial [⟨5, 5⟩, ⟨-5, -5⟩])).1.createMovements chebyshev ⟨100, 100⟩
        (MockWorld.initial [⟨5, 5⟩, ⟨-5, -5⟩])).1 = kept ++ [final] ∧
      TimesDerived MultiOvershootManager 100 2 kept :=
  (createMovements_overshoot_times
    (MovementFactory.create (movementFactoryTestNature (NewMockNature chebyshev 0) 100
      MultiOvershootManager) 50 150 (MockWorld.initial [⟨5, 5⟩, ⟨-5, -5⟩])).1 chebyshev
    ⟨100, 100⟩ (MockWorld.initial [⟨5, 5⟩, ⟨-5, -5⟩])
    ((some ⟨[100]⟩, 100), MockWorld.initial [⟨5, 5⟩, ⟨-5, -5⟩]) rfl
    (2, MockWorld.initial [⟨5, 5⟩, ⟨-5, -5⟩]) rfl (by decide)).2.1

/-- C33, as stated, fails whenever the policy derives a different duration: in the plan of
the test `testZeroOffsetOvershootsRemovedFromEnd` (5 overshoots, planned duration 64,
halving policy) the movements before the last take 64, 32 and 16, so the second and the
third do not carry the planned duration. -/
theorem createMovements_original_time_counterexample :
    ((movementFactoryTestNature (NewMockNature chebyshev 0) 64
      MultiOvershootManager).getFlowWithTime (chebyshev (-50) 50)
      (MockWorld.initial [⟨5, 5⟩, ⟨0, 0⟩, ⟨1, 1⟩, ⟨0, 0⟩, ⟨0, 0⟩])).1.2 = 64 ∧
    ((movementFactoryTestNature (NewMockNature chebyshev 0) 64
      MultiOvershootManager).overshootManager.getOvershoots (some ⟨[100]⟩) 64
      (chebyshev (-50) 50) (MockWorld.initial [⟨5, 5⟩, ⟨0, 0⟩, ⟨1, 1⟩, ⟨0, 0⟩, ⟨0, 0⟩])).1 = 5 ∧
    ((MovementFactory.create (movementFactoryTestNature (NewMockNature chebyshev 0) 64
        MultiOvershootManager) 50 150
        (MockWorld.initial [⟨5, 5⟩, ⟨0, 0⟩, ⟨1, 1⟩, ⟨0, 0⟩, ⟨0, 0⟩])).1.createMovements
      chebyshev ⟨100, 100⟩
      (MockWorld.initial [⟨5, 5⟩, ⟨0, 0⟩, ⟨1, 1⟩, ⟨0, 0⟩, ⟨0, 0⟩])).1.dropLast.map
        (fun m => m.time) = [64, 32, 16] := by
  refine ⟨rfl, rfl, ?_⟩
  rw [createMovements_example_pruning chebyshev_isHypot]
  rfl

theorem timesDerived_const {σ : Type} (manager : OvershootManager σ)
    (hid : ∀ t k w, (manager.deriveNextMouseMovementTimeMs t k w).1 = t) (t : time_type)
    (n : ℕ) (l : List Movement) (h : TimesDerived manager t n l) : ∀ m ∈ l, m.time = t := by
  induction l generalizing n with
  | nil => simp
  | cons a rest ih =>
    obtain ⟨ht, c, w, _, _, hrest⟩ := h
    rw [hid] at hrest
    intro m hm
    simp only [List.mem_cons] at hm
    rcases hm with rfl | hm
    · exact ht
    · exact ih _ hrest m hm

/-- C33, amended: in every plan returned by `createMovements` with `n ≥ 1` overshoots, the
first movement, when it is not also the last, has its time equal to the duration `T` the
speed provider returned for the initial distance; the durations of the movements except the
last follow the derivation from `T`, each later one carrying
`deriveNextMouseMovementTimeMs(d, c - 1)` for the duration `d` and the loop counter `c` of
the one before it; so every movement except the last carries `T` if the overshoot policy
derives from every duration that same duration. -/
theorem createMovements_first_time {σ : Type} (factory : MovementFactory σ)
    (hypot : ℚ → ℚ → ℚ) (current : Point ℤ) (s : σ)
    (flowTime : (Option Flow × time_type) × σ)
    (hft : flowTime = factory.nature.getFlowWithTime
      (hypot ((factory.xDest - current.x : ℤ) : ℚ) ((factory.yDest - current.y : ℤ) : ℚ)) s)
    (overshoots : ℕ × σ)
    (hov : overshoots = factory.nature.overshootManager.getOvershoots flowTime.1.1
      flowTime.1.2
      (hypot ((factory.xDest - current.x : ℤ) : ℚ) ((factory.yDest - current.y : ℤ) : ℚ))
      flowTime.2)
    (h : 1 ≤ overshoots.1) :
    (∀ (first : Movement) (rest : List Movement),
      (factory.createMovements hypot current s).1 = first :: rest → rest ≠ [] →
      first.time = flowTime.1.2) ∧
    (∃ (kept : List Movement) (final : Movement),
      (factory.createMovements hypot current s).1 = kept ++ [final] ∧
      TimesDerived factory.nature.overshootManager flowTime.1.2 overshoots.1 kept) ∧
    ((∀ t k w, (factory.nature.overshootManager.deriveNextMouseMovementTimeMs t k w).1 = t) →
      ∀ m ∈ (factory.createMovements hypot current s).1.dropLast, m.time = flowTime.1.2) := by
  obtain ⟨kept, final, w, hplan, htimes, _⟩ :=
    createMovements_times factory hypot current s flowTime hft overshoots hov h
  refine ⟨?_, ⟨kept, final, hplan, htimes⟩, ?_⟩ <;> rw [hplan]
  · intro first rest heq hrest
    cases kept with
    | nil =>
      simp only [List.nil_append, List.cons.injEq] at heq
      exact absurd heq.2.symm hrest
    | cons a kept2 =>
      simp only [List.cons_append, List.cons.injEq] at heq
      rw [← heq.1]
      exact htimes.1
  · intro hid m hm
    rw [List.dropLast_concat] at hm
    exact timesDerived_const _ hid _ _ _ htimes m hm

theorem createMovements_first_time_witness :
    (1 : ℕ) ≤ 2 ∧
    ∀ (first : Movement) (rest : List Movement),
      ((MovementFactory.create (movementFactoryTestNature (NewMockNature chebyshev 0) 100
          MultiOvershootManager) 50 150
          (MockWorld.initial [⟨5, 5⟩, ⟨-5, -5⟩])).1.createMovements chebyshev ⟨100, 100⟩
        (MockWorld.initial [⟨5, 5⟩, ⟨-5, -5⟩])).1 = first :: rest → rest ≠ [] →
      first.time = 100 :=
  ⟨by decide, (createMovements_first_time
    (MovementFactory.create (movementFactoryTestNature (NewMockNature chebyshev 0) 100
      MultiOvershootManager) 50 150 (MockWorld.initial [⟨5, 5⟩, ⟨-5, -5⟩])).1 chebyshev
    ⟨100, 100⟩ (MockWorld.initial [⟨5, 5⟩, ⟨-5, -5⟩])
    ((some ⟨[100]⟩, 100), MockWorld.initial [⟨5, 5⟩, ⟨-5, -5⟩]) rfl
    (2, MockWorld.initial [⟨5, 5⟩, ⟨-5, -5⟩]) rfl (by decide)).1⟩

/-! ## MovementFactory: skipped overshoots, overshoot targets and leg lengths -/

/-- C34: a pass of the overshoot loop whose clamped target is the last planned point has a
leg of length 0; it emits no movement, leaves the last planned point and the running
duration unchanged, and hands on the world as `getOvershootAmount` left it, so that neither
the speed provider nor `deriveNextMouseMovementTimeMs` is called in the pass. -/
theorem overshootLoop_skips_zero_leg {σ : Type} (factory : MovementFactory σ)
    {hypot : ℚ → ℚ → ℚ} (hh : IsHypot hypot) (i : ℕ) (st : PlanState σ)
    (overshoot : Point ℤ × σ)
    (hov : overshoot = factory.nature.overshootManager.getOvershootAmount
      ((factory.xDest - st.lastMousePositionX : ℤ) : ℚ)
      ((factory.yDest - st.lastMousePositionY : ℤ) : ℚ) st.mouseMovementMs (i + 1) st.world)
    (hx : factory.limitByScreenWidth (factory.xDest + overshoot.1.x) = st.lastMousePositionX)
    (hy : factory.limitByScreenHeight (factory.yDest + overshoot.1.y)
      = st.lastMousePositionY) :
    hypot ((factory.limitByScreenWidth (factory.xDest + overshoot.1.x)
        - st.lastMousePositionX : ℤ) : ℚ)
      ((factory.limitByScreenHeight (factory.yDest + overshoot.1.y)
        - st.lastMousePositionY : ℤ) : ℚ) = 0 ∧
    factory.overshootLoop hypot (i + 1) st
      = factory.overshootLoop hypot i
          ⟨st.movements, st.lastMousePositionX, st.lastMousePositionY, st.mouseMovementMs,
            overshoot.2⟩ := by
  constructor
  · rw [hx, hy, sub_self, sub_self, Int.cast_zero]
    exact hh.zero
  · rw [overshootLoop_succ factory hh i st overshoot hov _ _ rfl rfl, if_pos ⟨hx, hy⟩]

theorem overshootLoop_skips_zero_leg_witness :
    (MovementFactory.create (movementFactoryTestNature (NewMockNature chebyshev 0) 100
        MultiOvershootManager) 50 150 (MockWorld.initial [])).1.overshootLoop chebyshev
        (0 + 1) ⟨[], 50, 150, 100, MockWorld.initial [⟨0, 0⟩]⟩
      = (MovementFactory.create (movementFactoryTestNature (NewMockNature chebyshev 0) 100
        MultiOvershootManager) 50 150 (MockWorld.initial [])).1.overshootLoop chebyshev
        0 ⟨[], 50, 150, 100, MockWorld.initial []⟩ ∧
    (MovementFactory.create (movementFactoryTestNature (NewMockNature chebyshev 0) 100
        MultiOvershootManager) 50 150 (MockWorld.initial [])).1.overshootLoop chebyshev
        0 ⟨[], 50, 150, 100, MockWorld.initial []⟩
      = ⟨[], 50, 150, 100, MockWorld.initial []⟩ :=
  ⟨(overshootLoop_skips_zero_leg
      (MovementFactory.create (movementFactoryTestNature (NewMockNature chebyshev 0) 100
        MultiOvershootManager) 50 150 (MockWorld.initial [])).1 chebyshev_isHypot 0
      ⟨[], 50, 150, 100, MockWorld.initial [⟨0, 0⟩]⟩ (⟨0, 0⟩, MockWorld.initial []) rfl
      (by decide) (by decide)).2,
    overshootLoop_zero _ _ _⟩

/-- C35: for a screen of width `W ≥ 1` and height `H ≥ 1`, every movement the overshoot loop
emits, and so every movement of a plan but its last, ends on a point with
`0 ≤ destX ≤ W - 1` and `0 ≤ destY ≤ H - 1`, whatever offsets the overshoot policy
returns. -/
theorem createMovements_overshoots_on_screen {σ : Type} (factory : MovementFactory σ)
    (hypot : ℚ → ℚ → ℚ) (W H : ℤ) (hW : 1 ≤ W) (hH : 1 ≤ H)
    (hscreen : factory.screenSize = ⟨W, H⟩) (current : Point ℤ) (s : σ) :
    (∀ (n : ℕ) (t : time_type) (w : σ),
      ∀ m ∈ (factory.overshootLoop hypot n ⟨[], current.x, current.y, t, w⟩).movements,
        0 ≤ m.destX ∧ m.destX ≤ W - 1 ∧ 0 ≤ m.destY ∧ m.destY ≤ H - 1) ∧
    ∀ m ∈ (factory.createMovements hypot current s).1.dropLast,
      0 ≤ m.destX ∧ m.destX ≤ W - 1 ∧ 0 ≤ m.destY ∧ m.destY ≤ H - 1 := by
  have hloop : ∀ (n : ℕ) (t : time_type) (w : σ),
      ∀ m ∈ (factory.overshootLoop hypot n ⟨[], current.x, current.y, t, w⟩).movements,
        0 ≤ m.destX ∧ m.destX ≤ W - 1 ∧ 0 ≤ m.destY ∧ m.destY ≤ H - 1 := by
    intro n t w
    apply overshootLoop_forall factory hypot
      (fun m => 0 ≤ m.destX ∧ m.destX ≤ W - 1 ∧ 0 ≤ m.destY ∧ m.destY ≤ H - 1)
    · intro vx vy lx ly t d w _
      simp only [MovementFactory.limitByScreenWidth, MovementFactory.limitByScreenHeight,
        hscreen]
      exact ⟨(clamp_onScreen W hW _).1, (clamp_onScreen W hW _).2,
        (clamp_onScreen H hH _).1, (clamp_onScreen H hH _).2⟩
    · simp
  refine ⟨hloop, ?_⟩
  unfold MovementFactory.createMovements
  simp only []
  split_ifs with h0
  · simp
  · rw [List.dropLast_concat]
    intro m hm
    rw [List.mem_reverse, pruneLoop_fst] at hm
    have hm2 := (List.dropWhile_sublist _).subset hm
    rw [List.mem_reverse] at hm2
    exact hloop _ _ _ m hm2

theorem createMovements_overshoots_on_screen_witness :
    ((1 : ℤ) ≤ 500 ∧ (1 : ℤ) ≤ 500) ∧
    ∀ m ∈ ((MovementFactory.create (movementFactoryTestNature (NewMockNature chebyshev 0) 100
        MultiOvershootManager) 50 150
        (MockWorld.initial [⟨900, -900⟩, ⟨-5, -5⟩])).1.createMovements chebyshev ⟨100, 100⟩
      (MockWorld.initial [⟨900, -900⟩, ⟨-5, -5⟩])).1.dropLast,
      0 ≤ m.destX ∧ m.destX ≤ 500 - 1 ∧ 0 ≤ m.destY ∧ m.destY ≤ 500 - 1 :=
  ⟨⟨by decide, by decide⟩,
    (createMovements_overshoots_on_screen
      (MovementFactory.create (movementFactoryTestNature (NewMockNature chebyshev 0) 100
        MultiOvershootManager) 50 150 (MockWorld.initial [⟨900, -900⟩, ⟨-5, -5⟩])).1
      chebyshev 500 500 (by decide) (by decide) rfl ⟨100, 100⟩
      (MockWorld.initial [⟨900, -900⟩, ⟨-5, -5⟩])).2⟩

theorem steps_le_ceil {σ : Type} (nature : MotionNature σ) (distance : ℚ)
    (mouseMovementMs : time_type) :
    MoveImp.steps nature distance mouseMovementMs ≤ ⌈distance⌉ := by
  unfold MoveImp.steps
  split_ifs
  · exact Int.ceil_mono (min_le_left _ _)
  · exact le_rfl
  · exact Int.ceil_mono (min_le_left _ _)

/-- For a position off the destination, every movement of the plan is at least one pixel
long. -/
theorem createMovements_distance_one {σ : Type} (factory : MovementFactory σ)
    {hypot : ℚ → ℚ → ℚ} (hh : IsHypot hypot) (current : Point ℤ) (s : σ)
    (hne : current.x ≠ factory.xDest ∨ current.y ≠ factory.yDest) :
    ∀ m ∈ (factory.createMovements hypot current s).1, 1 ≤ m.distance := by
  intro m hm
  have hpos := createMovements_distance_pos factory hh current s hne m hm
  have hdist := createMovements_forall factory hypot
    (fun m => m.distance = hypot (m.xDistance : ℚ) (m.yDistance : ℚ))
    (fun _ _ _ _ _ _ _ _ => rfl) (fun _ _ _ _ _ => rfl) current s m hm
  simp only at hdist
  rw [hdist] at hpos ⊢
  have hlow := hh.lower (m.xDistance : ℚ) (m.yDistance : ℚ)
  rcases (hh.pos_iff _ _).mp hpos with hx | hy
  · have hx2 : m.xDistance ≠ 0 := by exact_mod_cast hx
    have h1 : (1 : ℤ) ≤ |m.xDistance| := Int.one_le_abs hx2
    have h1q : (1 : ℚ) ≤ |(m.xDistance : ℚ)| := by exact_mod_cast h1
    exact le_trans h1q (le_trans (le_max_left _ _) hlow)
  · have hy2 : m.yDistance ≠ 0 := by exact_mod_cast hy
    have h1 : (1 : ℤ) ≤ |m.yDistance| := Int.one_le_abs hy2
    have h1q : (1 : ℚ) ≤ |(m.yDistance : ℚ)| := by exact_mod_cast h1
    exact le_trans h1q (le_trans (le_max_right _ _) hlow)

/-- C39: when the position passed to `createMovements` differs from the destination, every
movement of the plan has `distance ≥ 1`; hence, for every nature with `minSteps ≥ 1`, the
step count `Move` computes for it is at least 1 and at most `ceil(distance)`, and the
divisor of `stepTime = duration / steps` is not zero. -/
theorem createMovements_steps_defined {σ : Type} (factory : MovementFactory σ)
    {hypot : ℚ → ℚ → ℚ} (hh : IsHypot hypot) (current : Point ℤ) (s : σ)
    (hne : current.x ≠ factory.xDest ∨ current.y ≠ factory.yDest) :
    ∀ m ∈ (factory.createMovements hypot current s).1,
      1 ≤ m.distance ∧
      ∀ nature : MotionNature σ, 1 ≤ nature.minSteps →
        1 ≤ MoveImp.steps nature m.distance m.time ∧
        MoveImp.steps nature m.distance m.time ≤ ⌈m.distance⌉ ∧
        MoveImp.steps nature m.distance m.time ≠ 0 := by
  intro m hm
  have hone := createMovements_distance_one factory hh current s hne m hm
  refine ⟨hone, fun nature hmin => ?_⟩
  have hsteps := steps_pos nature hmin m.distance (by linarith) m.time
  exact ⟨hsteps, steps_le_ceil nature _ _, by omega⟩

theorem createMovements_steps_defined_witness :
    ((100 : ℤ) ≠ 50 ∨ (100 : ℤ) ≠ 150) ∧
    ∀ m ∈ ((MovementFactory.create (movementFactoryTestNature (NewMockNature chebyshev 0) 100
        MultiOvershootManager) 50 150
        (MockWorld.initial [⟨5, 5⟩, ⟨-5, -5⟩])).1.createMovements chebyshev ⟨100, 100⟩
      (MockWorld.initial [⟨5, 5⟩, ⟨-5, -5⟩])).1,
      1 ≤ m.distance ∧
      ∀ nature : MotionNature MockWorld, 1 ≤ nature.minSteps →
        1 ≤ MoveImp.steps nature m.distance m.time ∧
        MoveImp.steps nature m.distance m.time ≤ ⌈m.distance⌉ ∧
        MoveImp.steps nature m.distance m.time ≠ 0 :=
  ⟨Or.inl (by decide),
    createMovements_steps_defined
      (MovementFactory.create (movementFactoryTestNature (NewMockNature chebyshev 0) 100
        MultiOvershootManager) 50 150 (MockWorld.initial [⟨5, 5⟩, ⟨-5, -5⟩])).1
      chebyshev_isHypot ⟨100, 100⟩ (MockWorld.initial [⟨5, 5⟩, ⟨-5, -5⟩])
      (Or.inl (by decide))⟩

/-! ## FlowUtils: stretchFlow through the working length -/

/-- C38: for a valid flow with `n` buckets, a step count `s` and a step index `i` with
`0 ≤ i < s` (so `s ≥ 1`), the loop of `getBucketsContents` that `getStepSize(d, s, i/s)`
runs reads `buckets[j]` for the integers `j` from `trunc(i/s * n)` on that are below
`(i/s + 1/s) * n`; each of them lies in `[0, n - 1]`, every read finds its bucket, and the
call returns. -/
theorem getStepSize_reads_in_range (c : FlowCharacteristicsContainer) (flow : Flow)
    (h : Flow.create c = .ok flow) (d : ℚ) (s i : ℤ) (hi0 : 0 ≤ i) (hi : i < s) :
    (∀ j : ℤ, truncate ((i : ℚ) / (s : ℚ) * (flow.buckets.length : ℚ)) ≤ j →
      (j : ℚ) < ((i : ℚ) / (s : ℚ) + 1 / (s : ℚ)) * (flow.buckets.length : ℚ) →
      0 ≤ j ∧ j ≤ (flow.buckets.length : ℤ) - 1 ∧ ∃ v, subscript flow.buckets j = .ok v) ∧
    ∃ v, flow.getStepSize d s ((i : ℚ) / (s : ℚ)) = .ok v := by
  have hn := (Flow_create_ok c flow h).1
  have hsq : (0 : ℚ) < (s : ℚ) := by exact_mod_cast (by omega : (0 : ℤ) < s)
  have hiq : (0 : ℚ) ≤ (i : ℚ) := by exact_mod_cast hi0
  have hnq : (0 : ℚ) ≤ (flow.buckets.length : ℚ) := Nat.cast_nonneg _
  constructor
  · intro j hfrom huntil
    have hfrom0 : 0 ≤ (i : ℚ) / (s : ℚ) * (flow.buckets.length : ℚ) := by positivity
    rw [truncate_of_nonneg hfrom0] at hfrom
    have hj0 : 0 ≤ j := le_trans (Int.floor_nonneg.mpr hfrom0) hfrom
    have hle : ((i : ℚ) / (s : ℚ) + 1 / (s : ℚ)) * (flow.buckets.length : ℚ)
        ≤ (flow.buckets.length : ℚ) := by
      have h1 : (i : ℚ) / (s : ℚ) + 1 / (s : ℚ) ≤ 1 := by
        rw [← add_div, div_le_one hsq]
        exact_mod_cast (by omega : i + 1 ≤ s)
      calc ((i : ℚ) / (s : ℚ) + 1 / (s : ℚ)) * (flow.buckets.length : ℚ)
          ≤ 1 * (flow.buckets.length : ℚ) := mul_le_mul_of_nonneg_right h1 hnq
        _ = (flow.buckets.length : ℚ) := one_mul _
    have hjn : j < (flow.buckets.length : ℤ) := by
      have : (j : ℚ) < ((flow.buckets.length : ℤ) : ℚ) := by
        push_cast
        exact lt_of_lt_of_le huntil hle
      exact_mod_cast this
    refine ⟨hj0, by omega, ?_⟩
    obtain ⟨k, rfl⟩ : ∃ k : ℕ, j = (k : ℤ) := ⟨j.toNat, (Int.toNat_of_nonneg hj0).symm⟩
    exact ⟨_, subscript_natCast flow.buckets k (by exact_mod_cast hjn)⟩
  · obtain ⟨k, rfl⟩ : ∃ k : ℕ, i = (k : ℤ) := ⟨i.toNat, (Int.toNat_of_nonneg hi0).symm⟩
    exact ⟨_, getStepSize_share flow hn d s k hi⟩

theorem getStepSize_reads_in_range_witness :
    Flow.create [1, 2, 3] = .ok ⟨[50, 100, 150]⟩ ∧
    ∃ v, (Flow.mk [50, 100, 150]).getStepSize 100 5 (((1 : ℤ) : ℚ) / ((5 : ℤ) : ℚ)) = .ok v :=
  ⟨Flow_create_example_123,
    (getStepSize_reads_in_range [1, 2, 3] ⟨[50, 100, 150]⟩ Flow_create_example_123 100 5 1
      (by decide) (by decide)).2⟩

/-! ## FlowUtils: reduceFlow as a weighted average -/

/-- The scaled intervals of the `n` input values cover every cell of the result exactly
once. -/
theorem sum_overlap_cells (t n j : ℕ) (hn : 1 ≤ n) (hj : j < t) :
    ∑ i in Finset.range n,
      overlap ((i : ℚ) * ((t : ℚ) / (n : ℚ))) (((i : ℚ) + 1) * ((t : ℚ) / (n : ℚ))) j = 1 := by
  refine Eq.trans ?_ (sum_overlap_steps t n j hn hj)
  apply Finset.sum_congr rfl
  intro i _
  congr 1
  · ring
  · push_cast
    ring

/-- C40: for a flow of length `n` and a target length `t` with `1 ≤ t < n`, `reduceFlow`
returns `t` elements, each of them a sum of the elements of the flow with non-negative
weights that add up to 1; hence every element lies between any two bounds of the flow (its
minimum and its maximum among them), a non-negative flow reduces to a non-negative flow,
and a constant flow reduces to the constant array of length `t`. -/
theorem reduceFlow_weighted_average (flow : FlowCharacteristicsContainer) (t : ℕ)
    (ht : 1 ≤ t) (htn : t < flow.length) :
    ∃ r, reduceFlow flow t = .ok r ∧ r.length = t ∧
      (∃ weight : ℕ → ℕ → ℚ, (∀ j i, 0 ≤ weight j i) ∧
        (∀ j, j < t → ∑ i in Finset.range flow.length, weight j i = 1) ∧
        (∀ j, j < t →
          r.getD j 0 = ∑ i in Finset.range flow.length, weight j i * flow.getD i 0)) ∧
      (∀ lo hi : ℚ, (∀ v ∈ flow, lo ≤ v ∧ v ≤ hi) → ∀ v ∈ r, lo ≤ v ∧ v ≤ hi) ∧
      ((∀ v ∈ flow, 0 ≤ v) → ∀ v ∈ r, 0 ≤ v) ∧
      (∀ c : ℚ, (∀ v ∈ flow, v = c) → r = List.replicate t c) := by
  obtain ⟨r, hr, hlen, hget, _⟩ := reduceFlow_spec flow t ht htn
  have hsum := fun j hj => sum_overlap_cells t flow.length j (by omega) hj
  have hmem : ∀ i ∈ Finset.range flow.length, flow.getD i 0 ∈ flow := by
    intro i hi
    rw [Finset.mem_range] at hi
    rw [List.getD_eq_getElem flow 0 hi]
    exact List.getElem_mem hi
  have hbounds : ∀ lo hi : ℚ, (∀ v ∈ flow, lo ≤ v ∧ v ≤ hi) → ∀ v ∈ r, lo ≤ v ∧ v ≤ hi := by
    intro lo hi hb v hv
    obtain ⟨j, hj, rfl⟩ := List.getElem_of_mem hv
    rw [hlen] at hj
    have hv2 : r[j] = r.getD j 0 := (List.getD_eq_getElem r 0 (by omega)).symm
    rw [hv2, hget j hj]
    constructor
    · calc lo = ∑ i in Finset.range flow.length,
            lo * overlap ((i : ℚ) * ((t : ℚ) / (flow.length : ℚ)))
              (((i : ℚ) + 1) * ((t : ℚ) / (flow.length : ℚ))) j := by
            rw [← Finset.mul_sum, hsum j hj, mul_one]
        _ ≤ _ := Finset.sum_le_sum (fun i hi =>
            mul_le_mul_of_nonneg_right (hb _ (hmem i hi)).1 (overlap_nonneg _ _ _))
    · calc _ ≤ ∑ i in Finset.range flow.length,
            hi * overlap ((i : ℚ) * ((t : ℚ) / (flow.length : ℚ)))
              (((i : ℚ) + 1) * ((t : ℚ) / (flow.length : ℚ))) j :=
            Finset.sum_le_sum (fun i hi2 =>
              mul_le_mul_of_nonneg_right (hb _ (hmem i hi2)).2 (overlap_nonneg _ _ _))
        _ = hi := by rw [← Finset.mul_sum, hsum j hj, mul_one]
  refine ⟨r, hr, hlen, ?_, hbounds, ?_, ?_⟩
  · refine ⟨fun j i => overlap ((i : ℚ) * ((t : ℚ) / (flow.length : ℚ)))
      (((i : ℚ) + 1) * ((t : ℚ) / (flow.length : ℚ))) j, fun _ _ => overlap_nonneg _ _ _,
      hsum, ?_⟩
    intro j hj
    rw [hget j hj]
    exact Finset.sum_congr rfl (fun i _ => mul_comm _ _)
  · intro hnonneg v hv
    obtain ⟨M, hM⟩ : ∃ M : ℚ, ∀ v ∈ flow, v ≤ M := by
      refine ⟨(flow.map (fun v => |v|)).sum, fun v hv => ?_⟩
      have h1 : |v| ≤ (flow.map (fun v => |v|)).sum :=
        List.single_le_sum (fun x hx => by
          obtain ⟨a, _, rfl⟩ := List.mem_map.mp hx
          exact abs_nonneg a) _ (List.mem_map.mpr ⟨v, hv, rfl⟩)
      exact le_trans (le_abs_self v) h1
    exact (hbounds 0 M (fun v hv => ⟨hnonneg v hv, hM v hv⟩) v hv).1
  · intro c hc
    rw [List.eq_replicate_iff]
    refine ⟨hlen, fun v hv => ?_⟩
    have := hbounds c c (fun v hv => ⟨le_of_eq (hc v hv).symm, le_of_eq (hc v hv)⟩) v hv
    exact le_antisymm this.2 this.1

theorem reduceFlow_weighted_average_witness :
    (1 ≤ 3 ∧ 3 < ([1, 3 / 2, 2, 5 / 2, 3] : FlowCharacteristicsContainer).length) ∧
    ∃ r, reduceFlow [1, 3 / 2, 2, 5 / 2, 3] 3 = .ok r ∧ r.length = 3 ∧
      ∀ v ∈ r, (1 : ℚ) ≤ v ∧ v ≤ 3 :=
  ⟨⟨by norm_num, by simp⟩,
    (reduceFlow_weighted_average [1, 3 / 2, 2, 5 / 2, 3] 3 (by norm_num) (by simp)).imp
      (fun _ h => ⟨h.1, h.2.1, h.2.2.2.1 1 3 (by
        intro v hv
        simp only [List.mem_cons, List.mem_singleton, List.not_mem_nil, or_false] at hv
        rcases hv with rfl | rfl | rfl | rfl | rfl <;> norm_num)⟩)⟩

end NaturalMouseMotion
